import Mathlib

/-! # The lexical engine of the C preprocessor (`usr.bin/pcc/pcc/cc/cpp/token.c`)

A shallow embedding of the tokenizer of the preprocessor: the input frame with
its pushback margin, the translation-phase decoders `inc1` and `inc2`, the
comment, identifier, number and literal scanners, the conditional-compilation
handlers with the dispatcher `ppdir`, the scanner `fastscan` and `pushfile`.

C `int` values are `Int`; a byte read from a buffer is an `Int` in `0..255`
and end of input is `-1`, as in the source.  `error(...)` ends the run and is
the result `Res.fatal`; `warning(...)` is recorded in the state.  Loops whose
number of iterations depends on the input take a `fuel` argument and give
`Res.nofuel` when it is used up.
-/

namespace Cpp

/-! ## Results and the state-passing monad -/

/-- Fatal diagnostics, one constructor for each `error("...")` call of `token.c`
(the message is given with each use), and two for the collaborators and for
accesses that C leaves undefined (an index outside an array, a null pointer). -/
inductive Err where
  | readError
  | pushbackFull
  | fileEndsInComment
  | ucnCannotBeUsed
  | ucnOutOfRange
  | badCharPassed
  | fastscanFlslvl
  | fastscanDebug
  | includeLimit
  | unterminatedConditional
  | constantOutOfRange
  | invalidOperator
  | badCharcon
  | newlineExpected
  | noNewlineAtEof
  | elseNonCond
  | tooManyElse
  | badIfdef
  | badIfndef
  | endifNonCond
  | elifNonCond
  | hashError
  | hashWarning
  | badUndef
  | badIdent
  | invalidDirective
  | collaborator (code : Nat)
  | undefinedAccess
  deriving DecidableEq, Repr

/-- Non-fatal diagnostics, one constructor for each `warning("...")` call. -/
inductive Warn where
  | invalidUcn
  | idExceeds
  | idExceedsTruncating
  | unterminatedLiteral
  | unexpectedEof
  | newlineExpected
  | noNewlineAtEof
  deriving DecidableEq, Repr

/-- Outcome of running a piece of the program from a state: it returns `a` in
state `s`, or it stops in `error(...)`, or the model ran out of fuel. -/
inductive Res (σ α : Type) where
  | ok (a : α) (s : σ)
  | fatal (e : Err) (s : σ)
  | nofuel
  deriving DecidableEq, Repr

/-- Continue from the outcome of a first part: a fatal error or fuel
exhaustion ends the run. -/
def Res.andThen {σ α β : Type} (r : Res σ α) (f : α → σ → Res σ β) : Res σ β :=
  match r with
  | Res.ok a s => f a s
  | Res.fatal e s => Res.fatal e s
  | Res.nofuel => Res.nofuel

/-- A C function with access to the global state `σ`. -/
def M (σ α : Type) : Type := σ → Res σ α

namespace M

variable {σ α β : Type}

/-- Return a value, state unchanged. -/
def ret (a : α) : M σ α := fun s => Res.ok a s

/-- Sequencing of two parts of the program. -/
def andThen (m : M σ α) (f : α → M σ β) : M σ β := fun s => (m s).andThen f

instance : Monad (M σ) where
  pure := ret
  bind := andThen

end M

variable {σ α β : Type}

/-- The call `error(...)`: the run stops with the diagnostic `e`. -/
def error (e : Err) : M σ α := fun s => Res.fatal e s

/-- Read the global state. -/
def getState : M σ σ := fun s => Res.ok s s

/-- Update the global state. -/
def modState (f : σ → σ) : M σ Unit := fun s => Res.ok () (f s)

/-- The model ran out of fuel. -/
def outOfFuel : M σ α := fun _ => Res.nofuel

/-- A string literal of the source as its bytes. -/
def str (s : String) : List Int := s.toList.map (fun c => (c.toNat : Int))

/-! ## The character classification table

Modelled from the spec: the category bits `C_SPEC` ... `C_HEX` are declared in
`cpp.h`, which is not among the source files; the spec describes the table
entries as a bitmask of categories, so each category is a bit of its own. -/

def C_SPEC : Nat := 1
def C_2 : Nat := 2
def C_WSNL : Nat := 4
def C_ID : Nat := 8
def C_ID0 : Nat := 16
def C_EP : Nat := 32
def C_DIGIT : Nat := 64
def C_HEX : Nat := 128

def C_NL : Nat := C_SPEC ||| C_WSNL
def C_DX : Nat := C_SPEC ||| C_ID ||| C_DIGIT ||| C_HEX
def C_I : Nat := C_SPEC ||| C_ID ||| C_ID0
def C_IP : Nat := C_SPEC ||| C_ID ||| C_ID0 ||| C_EP
def C_IX : Nat := C_SPEC ||| C_ID ||| C_ID0 ||| C_HEX
def C_IXE : Nat := C_SPEC ||| C_ID ||| C_ID0 ||| C_HEX ||| C_EP

/-- The table `spechr[256]`, row by row as in the source. -/
def spechrTable : List Nat :=
  [ 0, 0, 0, 0, C_SPEC, C_SPEC, 0, 0,
    0, C_WSNL, C_NL, 0, 0, C_WSNL, 0, 0,
    0, 0, 0, 0, 0, 0, 0, 0,
    0, 0, 0, 0, 0, 0, 0, 0,

    C_WSNL, C_2, C_SPEC, 0, 0, 0, C_2, C_SPEC,
    0, 0, 0, C_2, 0, C_2, 0, C_SPEC,
    C_DX, C_DX, C_DX, C_DX, C_DX, C_DX, C_DX, C_DX,
    C_DX, C_DX, 0, 0, C_2, C_2, C_2, C_SPEC,

    0, C_IX, C_IX, C_IX, C_IX, C_IXE, C_IX, C_I,
    C_I, C_I, C_I, C_I, C_I, C_I, C_I, C_I,
    C_IP, C_I, C_I, C_I, C_I, C_I, C_I, C_I,
    C_I, C_I, C_I, 0, C_SPEC, 0, 0, C_I,

    0, C_IX, C_IX, C_IX, C_IX, C_IXE, C_IX, C_I,
    C_I, C_I, C_I, C_I, C_I, C_I, C_I, C_I,
    C_IP, C_I, C_I, C_I, C_I, C_I, C_I, C_I,
    C_I, C_I, C_I, 0, C_2, 0, 0, 0 ]
  ++ List.replicate 128 C_I

/-- The access `spechr[ch]`; `none` when `ch` is not an index of the table. -/
def spechr (ch : Int) : Option Nat :=
  if 0 ≤ ch ∧ ch < 256 then spechrTable.get? ch.toNat else none

/-- The test `spechr[ch] & bit` as a C function: an index outside the table has
no defined behaviour and ends the run with `Err.undefinedAccess`. -/
def spechrHas (ch : Int) (bit : Nat) : M σ Bool :=
  match spechr ch with
  | some v => pure (v &&& bit != 0)
  | none => error Err.undefinedAccess

/-! ## Conditional-compilation state and its handlers -/

/-- The four global counters `trulvl`, `flslvl`, `elflvl`, `elslvl`. -/
structure Cond where
  trulvl : Int
  flslvl : Int
  elflvl : Int
  elslvl : Int
  deriving DecidableEq, Repr

/-- What the conditional handlers use of the rest of the program: access to
the counters, and the functions they call. -/
structure Ops (σ : Type) where
  cond : σ → Cond
  setCond : Cond → σ → σ
  exprline : M σ Int
  fastspc : M σ Int
  readid : Int → M σ (List Int)
  lookupFind : List Int → M σ Bool
  chknl : Int → M σ Unit

namespace Ops

variable (o : Ops σ)

/-- Read the counters. -/
def get : M σ Cond := fun s => Res.ok (o.cond s) s

/-- Apply an update to the counters. -/
def upd (f : Cond → Cond) : M σ Unit := fun s => Res.ok () (o.setCond (f (o.cond s)) s)

end Ops

def incTru (c : Cond) : Cond := { c with trulvl := c.trulvl + 1 }
def decTru (c : Cond) : Cond := { c with trulvl := c.trulvl - 1 }
def incFls (c : Cond) : Cond := { c with flslvl := c.flslvl + 1 }
def decFls (c : Cond) : Cond := { c with flslvl := c.flslvl - 1 }

/-- The macro `ISID0(ch)` of `cpp.h`: `spechr[ch] & C_ID0`. -/
def ISID0 (ch : Int) : M σ Bool := spechrHas ch C_ID0

/-- The handler `elsestmt` (token.c 1116-1135). -/
def elsestmt (o : Ops σ) : M σ Unit := do
  let c ← o.get
  if c.flslvl ≠ 0 then
    if c.elflvl > c.trulvl then
      pure ()
    else do
      o.upd decFls
      let c1 ← o.get
      if c1.flslvl ≠ 0 then o.upd incFls else o.upd incTru
  else if c.trulvl ≠ 0 then do
    o.upd incFls
    o.upd decTru
  else
    error Err.elseNonCond
  let c2 ← o.get
  if c2.elslvl = c2.trulvl + c2.flslvl then
    error Err.tooManyElse
  o.upd (fun c => { c with elslvl := c.trulvl + c.flslvl })
  o.chknl 1

/-- The handler `ifdefstmt` (token.c 1137-1152). -/
def ifdefstmt (o : Ops σ) : M σ Unit := do
  let ch ← o.fastspc
  if !(← ISID0 ch) then
    error Err.badIfdef
  let bp ← o.readid ch
  if !(← o.lookupFind bp) then o.upd incFls else o.upd incTru
  o.chknl 0

/-- The handler `ifndefstmt` (token.c 1154-1168). -/
def ifndefstmt (o : Ops σ) : M σ Unit := do
  let ch ← o.fastspc
  if !(← ISID0 ch) then
    error Err.badIfndef
  let bp ← o.readid ch
  if (← o.lookupFind bp) then o.upd incFls else o.upd incTru
  o.chknl 0

/-- The handler `endifstmt` (token.c 1170-1183). -/
def endifstmt (o : Ops σ) : M σ Unit := do
  let c ← o.get
  if c.flslvl ≠ 0 then
    o.upd decFls
  else if c.trulvl ≠ 0 then
    o.upd decTru
  else
    error Err.endifNonCond
  let c1 ← o.get
  if c1.flslvl = 0 then
    o.upd (fun c => { c with elflvl := 0 })
  o.upd (fun c => { c with elslvl := 0 })
  o.chknl 1

/-- The handler `ifstmt` (token.c 1185-1189). -/
def ifstmt (o : Ops σ) : M σ Unit := do
  if (← o.exprline) ≠ 0 then o.upd incTru else o.upd incFls

/-- The handler `elifstmt` (token.c 1191-1210). -/
def elifstmt (o : Ops σ) : M σ Unit := do
  let c ← o.get
  if c.flslvl = 0 then
    o.upd (fun c => { c with elflvl := c.trulvl })
  let c0 ← o.get
  if c0.flslvl ≠ 0 then
    if c0.elflvl > c0.trulvl then
      pure ()
    else do
      o.upd decFls
      let c1 ← o.get
      if c1.flslvl ≠ 0 then
        o.upd incFls
      else if (← o.exprline) ≠ 0 then
        o.upd incTru
      else
        o.upd incFls
  else if c0.trulvl ≠ 0 then do
    o.upd incFls
    o.upd decTru
  else
    error Err.elifNonCond

def DIR_FLSLVL : Nat := 1
def DIR_FLSINC : Nat := 2

/-- The functions named in the directive table `ppd`. -/
inductive PpFun where
  | ifndefstmt | ifdefstmt | ifstmt | include | elsestmt | endifstmt
  | cpperror | cppwarning | define | undefstmt | line | pragmastmt
  | elifstmt | identstmt | include_next
  deriving DecidableEq, Repr

/-- An entry of the directive table: name, function, flags. -/
structure PpdEntry where
  name : List Int
  func : PpFun
  flags : Nat
  deriving DecidableEq, Repr

/-- The directive table `ppd[]` (token.c 1309-1331); the last entry is compiled
in under `GCC_COMPAT`. -/
def ppd (gccCompat : Bool) : List PpdEntry :=
  [ ⟨str "ifndef", PpFun.ifndefstmt, DIR_FLSINC⟩,
    ⟨str "ifdef", PpFun.ifdefstmt, DIR_FLSINC⟩,
    ⟨str "if", PpFun.ifstmt, DIR_FLSINC⟩,
    ⟨str "include", PpFun.include, 0⟩,
    ⟨str "else", PpFun.elsestmt, DIR_FLSLVL⟩,
    ⟨str "endif", PpFun.endifstmt, DIR_FLSLVL⟩,
    ⟨str "error", PpFun.cpperror, 0⟩,
    ⟨str "warning", PpFun.cppwarning, 0⟩,
    ⟨str "define", PpFun.define, 0⟩,
    ⟨str "undef", PpFun.undefstmt, 0⟩,
    ⟨str "line", PpFun.line, 0⟩,
    ⟨str "pragma", PpFun.pragmastmt, 0⟩,
    ⟨str "elif", PpFun.elifstmt, DIR_FLSLVL⟩,
    ⟨str "ident", PpFun.identstmt, 0⟩ ]
  ++ (if gccCompat then [⟨str "include_next", PpFun.include_next, 0⟩] else [])

/-- The search of `ppdir` through the table (token.c 1399-1401): the first
entry whose name equals the identifier read. -/
def ppdFind (gccCompat : Bool) (bp : List Int) : Option PpdEntry :=
  (ppd gccCompat).find? (fun e => e.name.head? == bp.head? && e.name == bp)

/-- The body of `ppdir` for a matched table entry (token.c 1402-1413): it runs
the handler `fn` or only counts the nesting, and tells whether `ppdir` returns
(`true`) or goes on to `flscan(); goto redo` (`false`). -/
def ppdirDispatch (o : Ops σ) (fn : M σ Unit) (flags : Nat) : M σ Bool := do
  let c ← o.get
  if c.flslvl = 0 then do
    fn
    let c1 ← o.get
    pure (c1.flslvl = 0)
  else if flags &&& DIR_FLSLVL ≠ 0 then do
    fn
    let c1 ← o.get
    pure (c1.flslvl = 0)
  else if flags &&& DIR_FLSINC ≠ 0 then do
    o.upd incFls
    pure false
  else
    pure false

/-- The conditional handlers among the table functions; the others are given
by `other`. -/
def ppFunCall (o : Ops σ) (other : PpFun → M σ Unit) : PpFun → M σ Unit
  | PpFun.ifndefstmt => ifndefstmt o
  | PpFun.ifdefstmt => ifdefstmt o
  | PpFun.ifstmt => ifstmt o
  | PpFun.elsestmt => elsestmt o
  | PpFun.endifstmt => endifstmt o
  | PpFun.elifstmt => elifstmt o
  | f => other f

/-! ## Directive sequences

The conditional directives of a translation unit, in the order in which
`ppdir` meets them, each with the outcome its condition has if it is
evaluated there.  The functions that read the directive line are replaced by
that outcome and a count of the calls of `exprline`. -/

/-- A conditional directive with the outcome of its condition: for `#ifdef`
and `#ifndef` whether `lookup` finds the symbol, for `#if` and `#elif` whether
`exprline` returns nonzero. -/
inductive Dir where
  | ifndef (found : Bool)
  | ifdef (found : Bool)
  | if_ (value : Bool)
  | else_
  | endif
  | elif (value : Bool)
  deriving DecidableEq, Repr

/-- The directive name as written after `#`. -/
def Dir.name : Dir → List Int
  | Dir.ifndef _ => str "ifndef"
  | Dir.ifdef _ => str "ifdef"
  | Dir.if_ _ => str "if"
  | Dir.else_ => str "else"
  | Dir.endif => str "endif"
  | Dir.elif _ => str "elif"

/-- The outcome of the condition on the directive line. -/
def Dir.outcome : Dir → Bool
  | Dir.ifndef b => b
  | Dir.ifdef b => b
  | Dir.if_ b => b
  | Dir.elif b => b
  | _ => false

/-- The counters together with the number of calls of `exprline` so far. -/
structure CState where
  cond : Cond
  evals : Nat
  deriving DecidableEq, Repr

/-- The handlers' environment for one directive line whose condition has the
outcome `b`: `exprline` returns it and is counted, `lookup` returns it, the
line is otherwise well formed. -/
def dirOps (b : Bool) : Ops CState where
  cond := fun s => s.cond
  setCond := fun c s => { s with cond := c }
  exprline := fun s => Res.ok (if b then 1 else 0) { s with evals := s.evals + 1 }
  fastspc := pure 120
  readid := fun ch => pure [ch]
  lookupFind := fun _ => pure b
  chknl := fun _ => pure ()

/-- One directive through the table search and dispatch of `ppdir`. -/
def dirStep (d : Dir) : M CState Unit :=
  match ppdFind false d.name with
  | some e => do
    let _ ← ppdirDispatch (dirOps d.outcome)
      (ppFunCall (dirOps d.outcome) (fun _ => pure ()) e.func) e.flags
    pure ()
  | none => pure ()

/-- A sequence of directives, stopping at the first fatal error. -/
def dirRun : List Dir → M CState Unit
  | [] => pure ()
  | d :: ds => do
    dirStep d
    dirRun ds

/-- The state at the start of a translation unit: all counters zero. -/
def CState.zero : CState := ⟨⟨0, 0, 0, 0⟩, 0⟩

/-- States the counters can be in: those reached from the all-zero state by
some directive sequence that raises no error. -/
def Reachable (c : Cond) : Prop := ∃ ds : List Dir, ∃ n : Nat,
  dirRun ds CState.zero = Res.ok () ⟨c, n⟩

/-- Checker for well-nested directive sequences: `open_` lists, innermost
first, the conditionals open so far, each with whether its `#else` was met.
Every `#if`/`#ifdef`/`#ifndef` is closed by one `#endif`, a chain has at most
one `#else`, and no `#elif` follows it. -/
def wellNestedFrom : List Bool → List Dir → Bool
  | st, [] => st.isEmpty
  | st, Dir.ifndef _ :: ds => wellNestedFrom (false :: st) ds
  | st, Dir.ifdef _ :: ds => wellNestedFrom (false :: st) ds
  | st, Dir.if_ _ :: ds => wellNestedFrom (false :: st) ds
  | false :: st, Dir.elif _ :: ds => wellNestedFrom (false :: st) ds
  | false :: st, Dir.else_ :: ds => wellNestedFrom (true :: st) ds
  | _ :: st, Dir.endif :: ds => wellNestedFrom st ds
  | _, _ => false

/-- Well-nested directive sequences. -/
def wellNested (ds : List Dir) : Bool := wellNestedFrom [] ds

/-- The activity (`flslvl = 0`) after each directive of a sequence, in order. -/
def dirTrace : List Dir → M CState (List Bool)
  | [] => pure []
  | d :: ds => do
    dirStep d
    let s ← getState
    let r ← dirTrace ds
    pure (decide (s.cond.flslvl = 0) :: r)

/-- The flat chain `#if c1`, `#elif c2`, ..., `#elif cn`. -/
def chain (c1 : Bool) (cs : List Bool) : List Dir := Dir.if_ c1 :: cs.map Dir.elif

/-- Zero-based index of the first true condition; the length when none is. -/
def firstTrue : List Bool → Nat
  | [] => 0
  | true :: _ => 0
  | false :: cs => firstTrue cs + 1

/-- The list of length `len` that is true at index `k` only. -/
def oneHot (k len : Nat) : List Bool := (List.range len).map (fun i => decide (i = k))

/-- Where a chain stands: no branch taken yet, in the taken branch, or past it. -/
inductive Phase where
  | pending | active | done
  deriving DecidableEq, Repr

/-- The counters of a chain opened at true-level `t` in each phase. -/
def Phase.state (t els : Int) (n : Nat) : Phase → CState
  | Phase.pending => ⟨⟨t, 1, 0, els⟩, n⟩
  | Phase.active => ⟨⟨t + 1, 0, 0, els⟩, n⟩
  | Phase.done => ⟨⟨t, 1, t + 1, els⟩, n⟩

/-- The phase after a branch directive whose condition has value `c`. -/
def Phase.next : Phase → Bool → Phase
  | Phase.pending, true => Phase.active
  | Phase.pending, false => Phase.pending
  | _, _ => Phase.done

/-- Activity after each of a run of `#elif` directives. -/
def Phase.flags : Phase → List Bool → List Bool
  | _, [] => []
  | ph, c :: cs => decide (ph.next c = Phase.active) :: (ph.next c).flags cs

/-- Number of conditions evaluated over a run of `#elif` directives. -/
def Phase.evals : Phase → List Bool → Nat
  | _, [] => 0
  | ph, c :: cs => (if ph = Phase.pending then 1 else 0) + (ph.next c).evals cs

/-- What one directive does to the counters and to the evaluation count. -/
def stepSpec : Dir → CState → Res CState Unit
  | Dir.ifndef b, ⟨⟨t, f, elf, els⟩, n⟩ =>
    if f = 0 then
      (if b then Res.ok () ⟨⟨t, f + 1, elf, els⟩, n⟩ else Res.ok () ⟨⟨t + 1, f, elf, els⟩, n⟩)
    else Res.ok () ⟨⟨t, f + 1, elf, els⟩, n⟩
  | Dir.ifdef b, ⟨⟨t, f, elf, els⟩, n⟩ =>
    if f = 0 then
      (if b then Res.ok () ⟨⟨t + 1, f, elf, els⟩, n⟩ else Res.ok () ⟨⟨t, f + 1, elf, els⟩, n⟩)
    else Res.ok () ⟨⟨t, f + 1, elf, els⟩, n⟩
  | Dir.if_ b, ⟨⟨t, f, elf, els⟩, n⟩ =>
    if f = 0 then
      (if b then Res.ok () ⟨⟨t + 1, f, elf, els⟩, n + 1⟩
       else Res.ok () ⟨⟨t, f + 1, elf, els⟩, n + 1⟩)
    else Res.ok () ⟨⟨t, f + 1, elf, els⟩, n⟩
  | Dir.else_, ⟨⟨t, f, elf, els⟩, n⟩ =>
    if f ≠ 0 then
      if elf > t ∨ f ≠ 1 then
        (if els = t + f then Res.fatal Err.tooManyElse ⟨⟨t, f, elf, els⟩, n⟩
         else Res.ok () ⟨⟨t, f, elf, t + f⟩, n⟩)
      else
        (if els = t + 1 then Res.fatal Err.tooManyElse ⟨⟨t + 1, 0, elf, els⟩, n⟩
         else Res.ok () ⟨⟨t + 1, 0, elf, t + 1⟩, n⟩)
    else if t ≠ 0 then
      (if els = t then Res.fatal Err.tooManyElse ⟨⟨t - 1, 1, elf, els⟩, n⟩
       else Res.ok () ⟨⟨t - 1, 1, elf, t⟩, n⟩)
    else Res.fatal Err.elseNonCond ⟨⟨t, f, elf, els⟩, n⟩
  | Dir.endif, ⟨⟨t, f, elf, els⟩, n⟩ =>
    if f ≠ 0 then Res.ok () ⟨⟨t, f - 1, if f = 1 then 0 else elf, 0⟩, n⟩
    else if t ≠ 0 then Res.ok () ⟨⟨t - 1, f, 0, 0⟩, n⟩
    else Res.fatal Err.endifNonCond ⟨⟨t, f, elf, els⟩, n⟩
  | Dir.elif b, ⟨⟨t, f, elf, els⟩, n⟩ =>
    if f ≠ 0 then
      if elf > t ∨ f ≠ 1 then Res.ok () ⟨⟨t, f, elf, els⟩, n⟩
      else if b then Res.ok () ⟨⟨t + 1, 0, elf, els⟩, n + 1⟩
      else Res.ok () ⟨⟨t, 1, elf, els⟩, n + 1⟩
    else if t ≠ 0 then Res.ok () ⟨⟨t - 1, 1, t, els⟩, n⟩
    else Res.fatal Err.elifNonCond ⟨⟨t, f, t, els⟩, n⟩

/-- The invariant of the counters over the reachable states. -/
def CondInv (c : Cond) : Prop :=
  0 ≤ c.trulvl ∧ 0 ≤ c.flslvl ∧
  (c.elflvl = 0 ∨ (c.elflvl = c.trulvl + 1 ∧ 1 ≤ c.flslvl)) ∧
  0 ≤ c.elslvl ∧ c.elslvl ≤ c.trulvl + c.flslvl

/-- Relation between the conditionals still open in a sequence (`st`, as kept
by `wellNestedFrom`) and the counters, for a sequence started with the levels
`t0`, `f0` and the evaluation count `n0`. -/
def Bal (t0 f0 : Int) (n0 : Nat) (st : List Bool) (s : CState) : Prop :=
  s.cond.elslvl ≤ s.cond.trulvl + s.cond.flslvl ∧
  (st.head? = some false → s.cond.elslvl < s.cond.trulvl + s.cond.flslvl) ∧
  ((f0 = 0 ∧ s.cond.trulvl + s.cond.flslvl = t0 + st.length ∧ t0 ≤ s.cond.trulvl ∧
      0 ≤ s.cond.flslvl) ∨
   (1 ≤ f0 ∧ s.cond.trulvl = t0 ∧ s.cond.flslvl = f0 + st.length ∧ s.evals = n0))

/-! ## Input frames and the global state -/

/-- The input frame `struct includ`.  Its raw buffer is the storage `mem`; the
pointers `bbuf`, `buffer`, `curptr` and `maxread` are offsets into it, `bbuf`
being offset 0, so that the pushback margin is `mem[0 .. buffer)`.  `file`
holds the bytes that `read(infil, ...)` has yet to deliver. -/
structure includ where
  fname : List Int
  orgfn : List Int
  lineno : Int
  escln : Int
  infil : Int
  file : List Int
  mem : List Int
  buffer : Int
  curptr : Int
  maxread : Int
  idx : Int
  deriving DecidableEq, Repr

/-- The low end of the pushback margin, `ifiles->bbuf`. -/
def bbuf : Int := 0

/-- An entry of the macro table: name and replacement (`value == NULL` is `none`). -/
structure symtab where
  namep : List Int
  value : Option (List Int)
  deriving DecidableEq, Repr

/-- The buffers `putob` writes to: the output `pb`, the identifier buffer `rb`
of `fastscan`, the expression buffer `rb` of `exprline`, and a temporary. -/
inductive Ob where
  | pb | rbs | erb | tmp
  deriving DecidableEq, Repr

/-- The global state of the tokenizer: the frame stack (`ifiles` is the active
frame, `next` its parents), the counters, the flags, the buffers, the macro
table, the warnings logged (`diag`), what `prtline` writes to file descriptor
1 (`depout`) and what is still to be read from standard input. -/
structure St where
  ifiles : includ
  next : List includ
  cond : Cond
  incmnt : Int
  inclevel : Int
  Cflag : Int
  tflag : Int
  Aflag : Int
  Mflag : Int
  dMflag : Int
  MMDflag : Int
  MPflag : Int
  Pflag : Int
  Mfile : List Int
  MPfile : List Int
  pb : List Int
  rbs : List Int
  erb : List Int
  tmp : List Int
  idbuf : List Int
  yyinp : List Int
  inexpr : Int
  nbufused : Int
  symtab : List symtab
  diag : List Warn
  depout : List Int
  stdin : List Int
  deriving DecidableEq, Repr

/-- What `token.c` takes from the rest of the preprocessor: constants of
`cpp.h` and `config.h`, the file system, and the collaborators `yyparse`,
`kfind`, `include`, `include_next`, `define` and `line`; and how two accesses
outside an array are taken, `idbufOverrun` and `spechrUnder`. -/
structure Env where
  CPPBUF : Nat
  PBMAX : Nat
  MAXIDSZ : Nat
  WARN : Int
  CONC : Int
  DEFLOC : Int
  SYSINC : Int
  GCC_COMPAT : Bool
  PCC_DEBUG : Bool
  openFile : List Int → Option (Int × List Int)
  yyparse : M St Int
  kfind : Nat → M St (Option (List Int))
  include_ : M St Unit
  include_next : M St Unit
  define : M St Unit
  line : M St Unit
  /-- Whether the store `idbuf[p] = 0` of `readid` with `p` above `MAXIDSZ` is
  carried out, landing in the memory behind the array (`true`), or taken to have
  no defined result (`false`). -/
  idbufOverrun : Bool
  /-- The byte before the table `spechr` in memory, which the test
  `spechr[ch] & C_ID0` of `ppdir` reads when `ch` is -1 at the end of the
  input; `none` when that read is taken to have no defined result. -/
  spechrUnder : Option Nat

def MAX_INCLEVEL : Int := 100

/-- The active frame `*ifiles`. -/
def frame : M St includ := fun s => Res.ok s.ifiles s

/-- Update the active frame. -/
def modFrame (g : includ → includ) : M St Unit :=
  fun s => Res.ok () { s with ifiles := g s.ifiles }

/-- The call `warning(...)`: the diagnostic is logged and the run goes on. -/
def warning (w : Warn) : M St Unit :=
  fun s => Res.ok () { s with diag := s.diag ++ [w] }

/-- The byte `*p` of the frame storage. -/
def memGet (mem : List Int) (p : Int) : Int :=
  if 0 ≤ p then mem.getD p.toNat 0 else 0

/-- The store `*p = v` into the frame storage. -/
def memSet (mem : List Int) (p : Int) (v : Int) : List Int :=
  if 0 ≤ p then mem.set p.toNat v else mem

/-- The bytes `bs` stored from offset `p` on. -/
def memCopy (mem : List Int) (p : Int) (bs : List Int) : List Int :=
  if 0 ≤ p then mem.take p.toNat ++ bs ++ mem.drop (p.toNat + bs.length) else mem

/-- Modelled from the spec: `putob(ob, ch)` of `cpp.c` appends a byte (the
`int` converted to `unsigned char`) to a growable buffer. -/
def putob (ob : Ob) (ch : Int) : M St Unit := fun s =>
  match ob with
  | Ob.pb => Res.ok () { s with pb := s.pb ++ [ch % 256] }
  | Ob.rbs => Res.ok () { s with rbs := s.rbs ++ [ch % 256] }
  | Ob.erb => Res.ok () { s with erb := s.erb ++ [ch % 256] }
  | Ob.tmp => Res.ok () { s with tmp := s.tmp ++ [ch % 256] }

/-- Empty a buffer (`rb->cptr = rb->buf`, or a buffer fresh from `getobuf`). -/
def obReset (ob : Ob) : M St Unit := fun s =>
  match ob with
  | Ob.pb => Res.ok () { s with pb := [] }
  | Ob.rbs => Res.ok () { s with rbs := [] }
  | Ob.erb => Res.ok () { s with erb := [] }
  | Ob.tmp => Res.ok () { s with tmp := [] }

/-- The content of a buffer. -/
def obGet (ob : Ob) : M St (List Int) := fun s =>
  match ob with
  | Ob.pb => Res.ok s.pb s
  | Ob.rbs => Res.ok s.rbs s
  | Ob.erb => Res.ok s.erb s
  | Ob.tmp => Res.ok s.tmp s

/-- Modelled from the spec: `putch(ch)` of `cpp.c` appends a byte to the
output sink. -/
def putch (ch : Int) : M St Unit := putob Ob.pb ch

/-- Modelled from the spec: `putstr(s)` of `cpp.c` appends a string to the
output sink. -/
def putstr (bs : List Int) : M St Unit := fun s => Res.ok () { s with pb := s.pb ++ bs }

/-- The macro `PUTCH(ch)`: `if (!flslvl) putch(ch)`. -/
def PUTCH (ch : Int) : M St Unit := do
  let s ← getState
  if s.cond.flslvl = 0 then putch ch else pure ()

/-- Modelled from the spec: `lookup(name, FIND)` of `cpp.c` returns the handle
of the symbol with that name if it is defined, here its index in the table. -/
def lookup (bp : List Int) : M St (Option Nat) := fun s =>
  Res.ok (s.symtab.findIdx? (fun e => e.namep == bp && e.value.isSome)) s

/-- Modelled from the spec: the macros `ISWS`, `ISID` and `ISDIGIT` of `cpp.h`:
blank or tab, and the category tests on `spechr`. -/
def ISWS (ch : Int) : Bool := ch == 9 || ch == 32

def ISID (ch : Int) : M St Bool := spechrHas ch C_ID

def ISDIGIT (ch : Int) : M St Bool := spechrHas ch C_DIGIT

/-! ## Raw input and pushback -/

/-- The function `inpbuf`: fill the input buffer from the file (token.c
153-169).  `read` delivers up to `CPPBUF` bytes and is taken not to fail. -/
def inpbuf (E : Env) : M St Int := do
  let f ← frame
  if f.infil = -1 then
    pure 0
  else do
    let len : Nat := min E.CPPBUF f.file.length
    if len > 0 then
      modFrame fun f => { f with
        mem := memSet (memCopy f.mem f.buffer (f.file.take len)) (f.buffer + len) 0
        curptr := f.buffer
        maxread := f.buffer + len
        file := f.file.drop len }
    pure len

/-- The copy loop of `refill`: `dp[i] = curptr[i]` for `i < sz`. -/
def refillCopy (mem : List Int) (dp cur : Int) (sz : Nat) : List Int :=
  (List.range sz).foldl (fun m i => memSet m (dp + i) (memGet m (cur + i))) mem

/-- The function `refill` (token.c 174-194). -/
def refill (E : Env) (minsz : Int) : M St Int := do
  let f ← frame
  if f.curptr + minsz < f.maxread then
    pure 0
  else do
    let sz := f.maxread - f.curptr
    let dp := f.buffer - sz
    modFrame fun f => { f with mem := refillCopy f.mem dp f.curptr sz.toNat }
    let i ← inpbuf E
    modFrame fun f => { f with curptr := dp }
    if i = 0 then
      modFrame fun f => { f with maxread := f.buffer, mem := memSet f.mem f.buffer 0 }
    pure 0

/-- The macro `REFILL(x)`. -/
def REFILL (E : Env) (x : Int) : M St Unit := do
  let f ← frame
  if f.curptr + x ≥ f.maxread then do
    let _ ← refill E x
    pure ()
  else pure ()

/-- The loop of `inpch`; a successful `inpbuf` leaves `curptr < maxread`, so
two rounds are enough. -/
def inpchLoop (E : Env) : Nat → M St Int
  | 0 => outOfFuel
  | n + 1 => do
    let f ← frame
    if f.curptr < f.maxread then do
      modFrame fun f => { f with curptr := f.curptr + 1 }
      pure (memGet f.mem f.curptr)
    else if (← inpbuf E) > 0 then
      inpchLoop E n
    else
      pure (-1)

/-- The function `inpch`: a raw character from the input (token.c 200-210). -/
def inpch (E : Env) : M St Int := inpchLoop E 2

/-- The function `unch`: push a character back (token.c 215-225). -/
def unch (c : Int) : M St Unit := do
  if c = -1 then
    pure ()
  else do
    modFrame fun f => { f with curptr := f.curptr - 1 }
    let f ← frame
    if f.curptr < bbuf then
      error Err.pushbackFull
    modFrame fun f => { f with mem := memSet f.mem f.curptr (c % 256) }

/-- The function `chktg`: check for trigraphs (token.c 230-255). -/
def chktg (E : Env) : M St Int := do
  let ch ← inpch E
  if ch ≠ 63 then do
    unch ch
    pure 0
  else do
    let ch ← inpch E
    if ch = 61 then pure 35
    else if ch = 40 then pure 91
    else if ch = 41 then pure 93
    else if ch = 60 then pure 123
    else if ch = 62 then pure 125
    else if ch = 47 then pure 92
    else if ch = 39 then pure 94
    else if ch = 33 then pure 124
    else if ch = 45 then pure 126
    else do
      unch ch
      unch 63
      pure 0

/-- The function `dig2num` (token.c 1003-1013). -/
def dig2num (c : Int) : Int :=
  if c ≥ 97 then c - 97 + 10
  else if c ≥ 65 then c - 65 + 10
  else c - 48

/-- The digit loop of `chkucn` (token.c 374-382): up to `n` hex digits are
accumulated into `cp`; a character that is no hex digit is pushed back with a
warning and ends the loop. -/
def ucnDigits (E : Env) : Nat → Nat → M St Nat
  | 0, cp => pure cp
  | n + 1, cp => do
    let ch ← inpch E
    if ch = -1 then do
      warning Warn.invalidUcn
      unch ch
      pure cp
    else if !(← spechrHas ch C_HEX) then do
      warning Warn.invalidUcn
      unch ch
      pure cp
    else
      ucnDigits E n (cp * 16 + (dig2num ch).toNat)

/-- The encoding loop of `chkucn` (token.c 393-397): continuation bytes are
pushed back, last one first; the loop returns the remaining `cp` and mask `m`. -/
def ucnPush : Nat → Nat → Nat → Nat → M St (Nat × Nat)
  | 0, _, _, _ => outOfFuel
  | k + 1, cp, m, n =>
    if cp > m then do
      unch (128 ||| (cp &&& 63) : Nat)
      ucnPush k (cp >>> 6) (m >>> (if n ≠ 0 then 1 else 2)) (n + 1)
    else
      pure (cp, m)

/-- The function `chkucn`: a universal character name is read and pushed back
encoded as UTF-8 (token.c 354-400). -/
def chkucn (E : Env) : M St Int := do
  let s ← getState
  if s.incmnt ≠ 0 then
    pure 0
  else do
    let ch ← inpch E
    if ch = -1 then
      pure 0
    else if ch ≠ 117 ∧ ch ≠ 85 then do
      unch ch
      pure 0
    else do
      let n : Nat := if ch = 117 then 4 else 8
      let cp ← ucnDigits E n 0
      if (cp < 160 ∧ cp ≠ 36 ∧ cp ≠ 64 ∧ cp ≠ 96) ∨ (cp ≥ 55296 ∧ cp ≤ 57343) then
        error Err.ucnCannotBeUsed
      if cp > 2147483647 then
        error Err.ucnOutOfRange
      let (cp1, m) ← ucnPush 8 cp 127 0
      unch ((((m <<< 1) ^^^ 254) ||| cp1 : Nat) : Int)
      pure 1

/-- The loop of `inc1`: skip `\r`, and a backslash that `chkucn` converts. -/
def inc1Loop (E : Env) : Nat → M St Int
  | 0 => outOfFuel
  | fuel + 1 => do
    let ch ← inpch E
    if ch = 13 then
      inc1Loop E fuel
    else if ch = 92 then do
      if (← chkucn E) ≠ 0 then inc1Loop E fuel else pure ch
    else
      pure ch

/-- The function `inc1`: translation phase 1 (token.c 260-271). -/
def inc1 (E : Env) (fuel : Nat) : M St Int := do
  let ch ← inc1Loop E fuel
  if ch = 63 then do
    let c2 ← chktg E
    if c2 ≠ 0 then pure c2 else pure ch
  else
    pure ch

/-- The function `inc2`: translation phase 2, line splicing (token.c 277-290). -/
def inc2 (E : Env) : Nat → M St Int
  | 0 => outOfFuel
  | fuel + 1 => do
    let ch ← inc1 E (fuel + 1)
    if ch ≠ 92 then
      pure ch
    else do
      let c2 ← inc1 E (fuel + 1)
      if c2 = 10 then do
        modFrame fun f => { f with escln := f.escln + 1 }
        inc2 E fuel
      else do
        unch c2
        pure ch

/-! ## Comments and the phase-3 character reader -/

/-- The loop of `fastcmnt` over a `//` comment (token.c 304-305); it returns
the newline that ends it. -/
def lineCmnt (E : Env) : Nat → M St Int
  | 0 => outOfFuel
  | fuel + 1 => do
    let ch ← inc2 E fuel
    if ch ≠ 10 then lineCmnt E fuel else pure ch

/-- The loop of `fastcmnt` over a block comment (token.c 308-320); it returns
the character at which it stopped, `/` after `*` or the end of input. -/
def blockCmnt (E : Env) : Nat → M St Int
  | 0 => outOfFuel
  | fuel + 1 => do
    let ch ← inc2 E fuel
    if ch < 0 then
      pure ch
    else if ch = 42 then do
      let ch2 ← inc2 E fuel
      if ch2 = 47 then
        pure ch2
      else do
        unch ch2
        blockCmnt E fuel
    else if ch = 10 then do
      modFrame fun f => { f with lineno := f.lineno + 1 }
      putch 10
      blockCmnt E fuel
    else
      blockCmnt E fuel

/-- The function `fastcmnt`: comments in the fast scanner (token.c 297-330). -/
def fastcmnt (E : Env) (fuel : Nat) (ps : Int) : M St Int := do
  modState fun s => { s with incmnt := 1 }
  let ch ← inc2 E fuel
  let (ch, rv) ←
    if ch = 47 then do
      let ch ← lineCmnt E fuel
      unch ch
      pure (ch, (1 : Int))
    else if ch = 42 then do
      let ch ← blockCmnt E fuel
      pure (ch, (1 : Int))
    else do
      if ps ≠ 0 then PUTCH 47
      unch ch
      pure (ch, (0 : Int))
  if ch < 0 then
    error Err.fileEndsInComment
  modState fun s => { s with incmnt := 0 }
  pure rv

/-- The function `inch`: next character, partly phase 3 (token.c 335-348). -/
def inch (E : Env) : Nat → M St Int
  | 0 => outOfFuel
  | fuel + 1 => do
    let ch ← inc2 E fuel
    let n := (← frame).lineno
    let s ← getState
    if ch = 47 ∧ s.Cflag = 0 then do
      if (← fastcmnt E fuel 0) ≠ 0 then do
        let s1 ← getState
        if s1.tflag ≠ 0 ∨ n ≠ s1.ifiles.lineno then inch E fuel else pure 32
      else
        pure ch
    else
      pure ch

/-- The first loop of `Ccmnt` (token.c 413-415). -/
def CcmntLine (E : Env) (d : Int → M St Unit) : Nat → Int → M St Int
  | 0, _ => outOfFuel
  | fuel + 1, ch => do
    d ch
    let ch1 ← inch E fuel
    if ch1 ≠ 10 then CcmntLine E d fuel ch1 else pure ch1

/-- The second loop of `Ccmnt` (token.c 421-433). -/
def CcmntBlock (E : Env) (d : Int → M St Unit) : Nat → M St Unit
  | 0 => outOfFuel
  | fuel + 1 => do
    let ch ← inch E fuel
    d ch
    if ch = 42 then do
      let ch2 ← inch E fuel
      if ch2 = 47 then
        d ch2
      else do
        unch ch2
        CcmntBlock E d fuel
    else if ch = 10 then do
      modFrame fun f => { f with lineno := f.lineno + 1 }
      CcmntBlock E d fuel
    else
      CcmntBlock E d fuel

/-- The function `Ccmnt`: comments when `-C` is active (token.c 406-438). -/
def Ccmnt (E : Env) (fuel : Nat) (d : Int → M St Unit) : M St Int := do
  let ch ← inch E fuel
  if ch = 47 then do
    d ch
    let ch1 ← CcmntLine E d fuel ch
    unch ch1
    pure 1
  else if ch = 42 then do
    d 47
    d 42
    CcmntBlock E d fuel
    pure 1
  else do
    d 47
    unch ch
    pure 0

/-- The function `fastspc`: skip blanks and comments (token.c 444-452). -/
def fastspc (E : Env) : Nat → M St Int
  | 0 => outOfFuel
  | fuel + 1 => do
    let ch ← inch E fuel
    if ISWS ch then fastspc E fuel else pure ch

/-- The function `fastspcg`: as `fastspc`, between a newline and `#` (token.c
457-480). -/
def fastspcg (E : Env) : Nat → M St Int
  | 0 => outOfFuel
  | fuel + 1 => do
    let ch ← inch E fuel
    if ch = 47 ∨ ch = 37 ∨ ISWS ch then
      if ch = 37 then do
        let c2 ← inch E fuel
        if c2 = 58 then
          pure 35
        else do
          unch c2
          pure ch
      else if ch = 47 then do
        let s ← getState
        if s.Cflag ≠ 0 then
          pure ch
        else if (← fastcmnt E fuel 0) = 0 then
          pure ch
        else do
          putch 32
          fastspcg E fuel
      else do
        putch ch
        fastspcg E fuel
    else
      pure ch

/-! ## Identifiers, literals and numbers -/

/-- The loop of `bufid` (token.c 490-497); `k` characters are stored so far,
and `p - ob->cptr`, the start minus the write cursor, is `-k`. -/
def bufidLoop (E : Env) (ob : Ob) : Nat → Int → Nat → M St Int
  | 0, _, _ => outOfFuel
  | fuel + 1, ch, k => do
    if (0 - (k : Int)) = E.MAXIDSZ then
      warning Warn.idExceeds
    putob ob ch
    let ch1 ← inch E fuel
    if (← ISID ch1) then bufidLoop E ob fuel ch1 (k + 1) else pure ch1

/-- The function `bufid`: read an identifier into `ob`; it returns the string
stored, which starts where `ob` ended before (token.c 485-501). -/
def bufid (E : Env) (fuel : Nat) (ch : Int) (ob : Ob) : M St (List Int) := do
  let p := (← obGet ob).length
  let ch1 ← bufidLoop E ob fuel ch 0
  unch ch1
  pure ((← obGet ob).drop p)

/-- The store `a[i] = v` into an array kept as a list. -/
def arrSet (a : List Int) (i : Nat) (v : Int) : List Int :=
  if i < a.length then a.set i v else a ++ List.replicate (i - a.length) 0 ++ [v]

/-- The string at the start of a character array, up to its first NUL. -/
def cstr (a : List Int) : List Int := a.takeWhile (fun c => c != 0)

/-- The loop of `readid` (token.c 512-518); it returns the character that ends
the identifier and the final value of `p`. -/
def readidLoop (E : Env) : Nat → Int → Nat → M St (Int × Nat)
  | 0, _, _ => outOfFuel
  | fuel + 1, ch, p => do
    if p = E.MAXIDSZ then
      warning Warn.idExceedsTruncating
    if p < E.MAXIDSZ then
      modState fun s => { s with idbuf := arrSet s.idbuf p (ch % 256) }
    let ch1 ← inch E fuel
    if (← ISID ch1) then readidLoop E fuel ch1 (p + 1) else pure (ch1, p + 1)

/-- The function `readid`: read an identifier into `idbuf[MAXIDSZ+1]` (token.c
507-522).  The store `idbuf[p] = 0` with `p` above `MAXIDSZ` is outside the
array: it has no defined result, unless `E.idbufOverrun` takes it as carried
out; the list `idbuf` then also holds the memory behind the array, up to the
place of the store. -/
def readid (E : Env) (fuel : Nat) (ch : Int) : M St (List Int) := do
  let (ch1, p) ← readidLoop E fuel ch 0
  if p > E.MAXIDSZ ∧ E.idbufOverrun = false then
    error Err.undefinedAccess
  modState fun s => { s with idbuf := arrSet s.idbuf p 0 }
  unch ch1
  pure (cstr (← getState).idbuf)

/-- The loop of `faststr` (token.c 537-555); `true` when the closing quote
was met. -/
def faststrLoop (E : Env) (bc : Int) (ob : Ob) : Nat → M St Bool
  | 0 => outOfFuel
  | fuel + 1 => do
    let ch ← inc2 E fuel
    if ch = bc then
      pure true
    else if ch = 10 then do
      warning Warn.unterminatedLiteral
      modState fun s => { s with incmnt := 0 }
      unch ch
      pure false
    else if ch < 0 then
      pure false
    else if ch = 92 then do
      modState fun s => { s with incmnt := 0 }
      if (← chkucn E) ≠ 0 then
        faststrLoop E bc ob fuel
      else do
        modState fun s => { s with incmnt := 1 }
        putob ob ch
        let ch1 ← inc2 E fuel
        putob ob ch1
        faststrLoop E bc ob fuel
    else do
      putob ob ch
      faststrLoop E bc ob fuel

/-- The function `faststr`: a string or character constant is copied to `ob`
(token.c 527-560); a call with `ob == NULL` is one with the fresh buffer
`Ob.tmp`. -/
def faststr (E : Env) (fuel : Nat) (bc : Int) (ob : Ob) : M St Unit := do
  modState fun s => { s with incmnt := 1 }
  putob ob bc
  if (← faststrLoop E bc ob fuel) then do
    putob ob bc
    modState fun s => { s with incmnt := 0 }

/-- The loop of `fastnum` (token.c 587-603). -/
def fastnumLoop (E : Env) (ob : Ob) : Nat → Int → M St Int
  | 0, _ => outOfFuel
  | fuel + 1, ch => do
    putob ob ch
    let ch1 ← inch E fuel
    if ch1 < 0 then
      pure (-1)
    else if (← spechrHas ch1 C_EP) then do
      let c2 ← inch E fuel
      if c2 ≠ 45 ∧ c2 ≠ 43 then do
        if c2 ≥ 0 then unch c2
        pure ch1
      else do
        putob ob ch1
        fastnumLoop E ob fuel c2
    else if ch1 = 46 then
      fastnumLoop E ob fuel ch1
    else if (← spechrHas ch1 C_ID) then
      fastnumLoop E ob fuel ch1
    else
      pure ch1

/-- The function `fastnum`: a preprocessing number is copied to `ob`; it
returns the first character after it (token.c 577-605). -/
def fastnum (E : Env) (fuel : Nat) (ch : Int) (ob : Ob) : M St Int := do
  if !(← spechrHas ch C_DIGIT) then do
    putob ob ch
    let ch1 ← inch E fuel
    fastnumLoop E ob fuel ch1
  else
    fastnumLoop E ob fuel ch

/-! ## The `#if` line, the directives and the dispatcher -/

/-- The decision of `exprline` for an identifier (token.c 823-840); `nl` is the
result of `lookup`. -/
def exprIdent (E : Env) (nl : Option Nat) (ifdef : Bool) : M St Bool := do
  let s ← getState
  match nl with
  | some i =>
    if ((s.symtab.get? i).bind (fun e => e.value)).bind List.head? = some E.DEFLOC then
      pure true
    else if ifdef then do
      putob Ob.erb 49
      pure false
    else do
      modState fun s => { s with inexpr := 1 }
      match (← E.kfind i) with
      | some ob => modState fun s => { s with erb := s.erb ++ cstr ob }
      | none => putob Ob.erb 48
      modState fun s => { s with inexpr := 0 }
      pure false
  | none =>
    if ifdef then do
      putob Ob.erb 48
      pure false
    else do
      putob Ob.erb 48
      pure false

/-- The loop of `exprline` (token.c 800-843): `c` is `none` at the top of the
loop and the current character at the label `xloop`; `ifdef` is the local flag
set by the operator `defined`. -/
def exprLoop (E : Env) : Nat → Option Int → Bool → M St Unit
  | 0, _, _ => outOfFuel
  | fuel + 1, none, ifdef => do
    let c ← inch E fuel
    exprLoop E fuel (some c) ifdef
  | fuel + 1, some c, ifdef => do
    if c = 10 then
      pure ()
    else do
      let c ←
        if c = 46 then do
          putob Ob.erb 46
          let c1 ← inch E fuel
          if !(← spechrHas c1 C_DIGIT) then pure (c1, true) else pure (c1, false)
        else pure (c, false)
      if c.2 then
        exprLoop E fuel (some c.1) ifdef
      else if (← ISDIGIT c.1) then do
        let c1 ← fastnum E fuel c.1 Ob.erb
        exprLoop E fuel (some c1) ifdef
      else if c.1 = 39 ∨ c.1 = 34 then do
        faststr E fuel c.1 Ob.erb
        exprLoop E fuel none ifdef
      else do
        let wide ←
          if c.1 = 76 ∨ c.1 = 117 ∨ c.1 = 85 then do
            let d ← inch E fuel
            unch d
            pure (decide (d = 39))
          else pure false
        if wide then
          exprLoop E fuel none ifdef
        else if (← ISID0 c.1) then do
          let dp ← readid E fuel c.1
          let nl ← lookup dp
          let ifdef1 ← exprIdent E nl ifdef
          exprLoop E fuel none ifdef1
        else do
          putob Ob.erb c.1
          exprLoop E fuel none ifdef

/-- The function `exprline`: the rest of an `#if` or `#elif` line is expanded
into a buffer, which `yyparse` evaluates (token.c 786-852). -/
def exprline (E : Env) (fuel : Nat) : M St Int := do
  let oCflag := (← getState).Cflag
  obReset Ob.erb
  modState fun s => { s with nbufused := s.nbufused - 1 }
  modState fun s => { s with Cflag := 0 }
  exprLoop E fuel none false
  unch 10
  modState fun s => { s with yyinp := s.erb }
  let c ← E.yyparse
  modState fun s => { s with nbufused := s.nbufused + 1 }
  modState fun s => { s with Cflag := oCflag }
  pure c

/-- The loop of `chknl` that ignores the rest of the line (token.c 1108). -/
def chknlSkip (E : Env) : Nat → M St Int
  | 0 => outOfFuel
  | fuel + 1 => do
    let t ← inch E fuel
    if t ≥ 0 ∧ t ≠ 10 then chknlSkip E fuel else pure t

/-- The function `chknl`: the directive must end at a newline; the complaint
is a warning when `ignore` is set and a fatal error otherwise (token.c
1097-1114). -/
def chknl (E : Env) (fuel : Nat) (ignore : Int) : M St Unit := do
  let t ← fastspc E fuel
  if t ≠ 10 then
    if t ≠ 0 then do
      if ignore ≠ 0 then warning Warn.newlineExpected else error Err.newlineExpected
      let t1 ← chknlSkip E fuel
      unch t1
    else do
      if ignore ≠ 0 then warning Warn.noNewlineAtEof else error Err.noNewlineAtEof
      unch t
  else
    unch t

/-- The conditional handlers on the global state: the counters are the
globals `trulvl`, `flslvl`, `elflvl`, `elslvl`. -/
def stOps (E : Env) (fuel : Nat) : Ops St where
  cond := fun s => s.cond
  setCond := fun c s => { s with cond := c }
  exprline := exprline E fuel
  fastspc := fastspc E fuel
  readid := readid E fuel
  lookupFind := fun bp => do pure (← lookup bp).isSome
  chknl := chknl E fuel

/-- The function `savln`: save the rest of the line (token.c 1213-1228). -/
def savln (E : Env) : Nat → List Int → M St (List Int)
  | 0, _ => outOfFuel
  | fuel + 1, ob => do
    let c ← inch E fuel
    if c = -1 then
      pure ob
    else if c = 10 then do
      unch c
      pure ob
    else
      savln E fuel (ob ++ [c % 256])

/-- The function `cpperror`: `#error` (token.c 1230-1236). -/
def cpperror (E : Env) (fuel : Nat) : M St Unit := do
  let _ ← savln E fuel []
  error Err.hashError

/-- The function `cppwarning`: `#warning`, which reports through `error`
(token.c 1238-1244). -/
def cppwarning (E : Env) (fuel : Nat) : M St Unit := do
  let _ ← savln E fuel []
  error Err.hashWarning

/-- The function `undefstmt` (token.c 1246-1259). -/
def undefstmt (E : Env) (fuel : Nat) : M St Unit := do
  let ch ← fastspc E fuel
  if !(← ISID0 ch) then
    error Err.badUndef
  let bp ← readid E fuel ch
  match (← lookup bp) with
  | some i =>
    modState fun s => { s with symtab := s.symtab.modify (fun e => { e with value := none }) i }
  | none => pure ()
  chknl E fuel 0

/-- The function `identstmt` (token.c 1261-1286); `ob->buf[0]` with `ob` null
has no defined behaviour. -/
def identstmt (E : Env) (fuel : Nat) : M St Unit := do
  let ch ← fastspc E fuel
  if (← ISID0 ch) then do
    let bp ← readid E fuel ch
    let ob ←
      match (← lookup bp) with
      | some i => E.kfind i
      | none => pure none
    match ob with
    | none => error Err.undefinedAccess
    | some b =>
      if b.head? ≠ some 34 then
        error Err.badIdent
    chknl E fuel 1
  else if ch = 34 then do
    obReset Ob.tmp
    faststr E fuel ch Ob.tmp
    chknl E fuel 1
  else
    error Err.badIdent

/-- Decimal digits of a line number, as `%d` prints them. -/
def decimal (n : Int) : List Int :=
  (if n < 0 then [45] else []) ++ (Nat.toDigits 10 n.natAbs).map (fun c => (c.toNat : Int))

/-- The function `prtline`: print the current position (token.c 969-992);
`bsheap` formats like `printf`, and `write(1, ...)` goes to `depout`. -/
def prtline (E : Env) (nl : Int) : M St Unit := do
  let s ← getState
  let f := s.ifiles
  if s.Mflag ≠ 0 then
    if s.dMflag ≠ 0 then
      pure ()
    else if f.lineno = 1 ∧ (s.MMDflag = 0 ∨ f.idx ≠ E.SYSINC) then do
      let ob := s.Mfile ++ str ": " ++ f.fname ++ str "\n"
      let ob1 := if s.MPflag ≠ 0 ∧ f.fname ≠ s.MPfile then ob ++ f.fname ++ str ":\n" else ob
      modState fun s => { s with depout := s.depout ++ ob1 }
    else
      pure ()
  else if s.Pflag = 0 then do
    putstr (str "\n# " ++ decimal f.lineno ++ str " \"" ++ f.fname ++ str "\"")
    if f.idx = E.SYSINC then
      putstr (str " 3")
    if nl ≠ 0 then
      putstr (str "\n")
  else
    pure ()

/-- The loop of `pragmastmt` (token.c 1294-1295). -/
def pragmaLoop (E : Env) : Nat → M St Int
  | 0 => outOfFuel
  | fuel + 1 => do
    let ch ← inch E fuel
    if ch ≠ 10 ∧ ch > 0 then do
      putch ch
      pragmaLoop E fuel
    else
      pure ch

/-- The function `pragmastmt` (token.c 1288-1298). -/
def pragmastmt (E : Env) (fuel : Nat) : M St Unit := do
  putstr (str "\n#pragma")
  let ch ← pragmaLoop E fuel
  unch ch
  prtline E 1

/-- The function `skpln`: ignore the rest of the line (token.c 1334-1346). -/
def skpln (E : Env) : Nat → M St Unit
  | 0 => outOfFuel
  | fuel + 1 => do
    let ch ← inch E fuel
    if ch ≠ -1 then
      if ch = 10 then unch 10 else skpln E fuel
    else
      pure ()

/-- The function `flscan`: skip to the next directive while at `flslvl`
(token.c 1352-1373). -/
def flscan (E : Env) : Nat → M St Unit
  | 0 => outOfFuel
  | fuel + 1 => do
    let ch ← inch E fuel
    if ch = -1 then
      pure ()
    else if ch = 10 then do
      modFrame fun f => { f with lineno := f.lineno + 1 }
      putch 10
      let ch1 ← fastspcg E fuel
      if ch1 = 35 then
        pure ()
      else do
        unch ch1
        flscan E fuel
    else if ch = 47 then do
      let _ ← fastcmnt E fuel 0
      flscan E fuel
    else
      flscan E fuel

/-- The functions of the directive table on the global state. -/
def ppFun (E : Env) (fuel : Nat) : PpFun → M St Unit :=
  ppFunCall (stOps E fuel) (fun f =>
    match f with
    | PpFun.include => E.include_
    | PpFun.cpperror => cpperror E fuel
    | PpFun.cppwarning => cppwarning E fuel
    | PpFun.define => E.define
    | PpFun.undefstmt => undefstmt E fuel
    | PpFun.line => E.line
    | PpFun.pragmastmt => pragmastmt E fuel
    | PpFun.identstmt => identstmt E fuel
    | PpFun.include_next => E.include_next
    | _ => pure ())

/-- The test `spechr[ch] & bit` of `ppdir` (token.c 1394), where `ch` is -1
at the end of the input: the read `spechr[-1]` delivers the byte
`E.spechrUnder`, and has no defined result when there is none. -/
def spechrAt (E : Env) (ch : Int) (bit : Nat) : M St Bool :=
  if ch = -1 then
    match E.spechrUnder with
    | some b => pure (b &&& bit != 0)
    | none => error Err.undefinedAccess
  else
    spechrHas ch bit

/-- The function `ppdir` from the label `redo` on (token.c 1387-1426); `oldC`
is the value of `Cflag` saved on entry. -/
def ppdirRedo (E : Env) (oldC : Int) : Nat → M St Unit
  | 0 => outOfFuel
  | fuel + 1 => do
    modState fun s => { s with Cflag := 0 }
    let ch ← fastspc E fuel
    if ch = 10 then do
      unch ch
      modState fun s => { s with Cflag := oldC }
    else do
      modState fun s => { s with Cflag := oldC }
      if !(← spechrAt E ch C_ID0) then do
        let s ← getState
        if s.cond.flslvl = 0 ∧ s.Aflag = 0 then
          error Err.invalidDirective
        unch ch
        skpln E fuel
      else do
        let bp ← readid E fuel ch
        match ppdFind E.GCC_COMPAT bp with
        | some e =>
          if (← ppdirDispatch (stOps E fuel) (ppFun E fuel e.func) e.flags) then
            pure ()
          else do
            flscan E fuel
            ppdirRedo E oldC fuel
        | none => do
          flscan E fuel
          ppdirRedo E oldC fuel

/-- The function `ppdir`: handle a preprocessor directive, `#` is already
found (token.c 1380-1427). -/
def ppdir (E : Env) (fuel : Nat) : M St Unit := do
  let oldC := (← getState).Cflag
  ppdirRedo E oldC fuel

/-! ## The scanner -/

/-- The identifier case of `fastscan`, from the label `ident` to its `break`
(token.c 740-759). -/
def fastscanIdent (E : Env) (fuel : Nat) (ch : Int) : M St Unit := do
  if (← getState).cond.flslvl ≠ 0 then
    error Err.fastscanFlslvl
  obReset Ob.rbs
  let dp ← bufid E fuel ch Ob.rbs
  match (← lookup dp) with
  | some nl =>
    match (← E.kfind nl) with
    | some ob => do
      if ob.head? = some 45 ∨ ob.head? = some 43 then
        putch 32
      putstr ob
      if ob.getLast? = some 45 ∨ ob.getLast? = some 43 then
        putch 32
    | none => pure ()
  | none => putstr dp

/-- The newline case of `fastscan` up to the label `run` (token.c 673-679):
the spliced lines left over are accounted for together with this one. -/
def fastscanNewline : M St Unit := do
  let i := (← frame).escln + 1
  modFrame fun f => { f with lineno := f.lineno + i }
  modFrame fun f => { f with escln := 0 }
  putstr (List.replicate i.toNat 10)

/-- Where `fastscan` stands: at the top of its tight loop, at the label
`xloop` with the character `ch`, at the label `run`, or at the label `ident`. -/
inductive FsAt where
  | top
  | xloop (ch : Int)
  | run
  | ident (ch : Int)
  deriving DecidableEq, Repr

/-- The function `fastscan` (token.c 617-778), entered at one of its labels.
The head of the tight loop (636-643) is the body of `inpch` written out, with
`return` at the end of the input; here it is the call of `inpch`, whose result
-1 at the end of the input makes `xloop` return. -/
def fastscanAt (E : Env) : Nat → FsAt → M St Unit
  | 0, _ => outOfFuel
  | fuel + 1, FsAt.top => do
    let ch ← inpch E
    fastscanAt E fuel (FsAt.xloop ch)
  | fuel + 1, FsAt.run => do
    let ch ← inch E fuel
    if ch = 9 ∨ ch = 32 then do
      putch ch
      fastscanAt E fuel FsAt.run
    else do
      let ch1 ←
        if ch = 37 then do
          let c2 ← inch E fuel
          if c2 ≠ 58 then do
            unch c2
            pure ch
          else pure 35
        else pure ch
      if ch1 = 35 then do
        ppdir E fuel
        fastscanAt E fuel FsAt.top
      else
        fastscanAt E fuel (FsAt.xloop ch1)
  | fuel + 1, FsAt.ident ch => do
    fastscanIdent E fuel ch
    fastscanAt E fuel FsAt.top
  | fuel + 1, FsAt.xloop ch => do
    if ch < 0 then
      pure ()
    else if !(← spechrHas ch C_SPEC) then do
      putch ch
      fastscanAt E fuel FsAt.top
    else do
      REFILL E 2
      let f ← frame
      let nch := memGet f.mem f.curptr
      if ch = E.WARN ∨ ch = E.CONC then
        error Err.badCharPassed
      else if ch = 47 then
        if nch ≠ 47 ∧ nch ≠ 42 then do
          putch ch
          fastscanAt E fuel FsAt.top
        else if (← getState).Cflag = 0 then do
          if (← fastcmnt E fuel 1) ≠ 0 then
            putch 32
          fastscanAt E fuel FsAt.top
        else do
          let _ ← Ccmnt E fuel putch
          fastscanAt E fuel FsAt.top
      else if ch = 10 then do
        fastscanNewline
        fastscanAt E fuel FsAt.run
      else if ch = 63 then do
        let c ← if nch = 63 then chktg E else pure 0
        if nch = 63 ∧ c ≠ 0 then
          fastscanAt E fuel (FsAt.xloop c)
        else do
          putch 63
          fastscanAt E fuel FsAt.top
      else if ch = 39 then
        if (← getState).tflag ≠ 0 then do
          putch ch
          fastscanAt E fuel FsAt.top
        else do
          faststr E fuel ch Ob.pb
          fastscanAt E fuel FsAt.top
      else if ch = 34 then do
        faststr E fuel ch Ob.pb
        fastscanAt E fuel FsAt.top
      else if ch = 46 then
        if !(← spechrHas nch C_DIGIT) then do
          putch 46
          fastscanAt E fuel FsAt.top
        else do
          let c ← fastnum E fuel ch Ob.pb
          fastscanAt E fuel (FsAt.xloop c)
      else if 48 ≤ ch ∧ ch ≤ 57 then do
        let c ← fastnum E fuel ch Ob.pb
        fastscanAt E fuel (FsAt.xloop c)
      else if ch = 117 ∧ nch = 56 ∧ memGet f.mem (f.curptr + 1) = 34 then do
        putch ch
        fastscanAt E fuel FsAt.top
      else if (ch = 117 ∨ ch = 76 ∨ ch = 85) ∧ (nch = 34 ∨ nch = 39) then do
        putch ch
        fastscanAt E fuel FsAt.top
      else if ch = 92 then
        if nch = 10 then do
          modFrame fun f => { f with escln := f.escln + 1 }
          modFrame fun f => { f with curptr := f.curptr + 1 }
          fastscanAt E fuel FsAt.top
        else if (← chkucn E) ≠ 0 then do
          let c ← inch E fuel
          fastscanAt E fuel (FsAt.ident c)
        else do
          putch 92
          fastscanAt E fuel FsAt.top
      else do
        if E.PCC_DEBUG then
          if !(← ISID ch) then
            error Err.fastscanDebug
        fastscanAt E fuel (FsAt.ident ch)

/-- The function `fastscan`: it starts at the label `run` (token.c 630). -/
def fastscan (E : Env) (fuel : Nat) : M St Unit := fastscanAt E fuel FsAt.run

/-- The first part of `pushfile`, up to the call of `fastscan` (token.c
930-951): the file is opened and its frame becomes the active one.  `file` is
`none` for standard input.  The result is `false` when the file cannot be
opened.  The fresh buffer of `getobuf(BINBUF)` is modelled from the spec: a
margin of `PBMAX` bytes below a buffer of `CPPBUF` bytes, and empty. -/
def pushfileEnter (E : Env) (file : Option (List Int)) (idx : Int) : M St Bool := do
  let s ← getState
  let opened : Option (Int × List Int × List Int) :=
    match file with
    | some name =>
      match E.openFile name with
      | some (fd, content) => if fd < 0 then none else some (fd, content, name)
      | none => none
    | none => some (0, s.stdin, str "<stdin>")
  match opened with
  | none => pure false
  | some (fd, content, name) => do
    if file.isSome then do
      modState fun s => { s with inclevel := s.inclevel + 1 }
      if (← getState).inclevel > MAX_INCLEVEL then
        error Err.includeLimit
    let ic : includ :=
      { fname := name, orgfn := name, lineno := 1, escln := 0, infil := fd, file := content,
        mem := List.replicate (E.PBMAX + E.CPPBUF + 1) 0, buffer := E.PBMAX,
        curptr := E.PBMAX, maxread := E.PBMAX, idx := idx }
    modState fun s => { s with next := s.ifiles :: s.next, ifiles := ic }
    prtline E 1
    pure true

/-- The function `pushfile`: a new file is opened, scanned and closed (token.c
923-964).  It returns 0, or -1 when the file cannot be opened. -/
def pushfile (E : Env) (fuel : Nat) (file : Option (List Int)) (idx : Int) : M St Int := do
  if !(← pushfileEnter E file idx) then
    pure (-1)
  else do
    let otrulvl := (← getState).cond.trulvl
    fastscan E fuel
    let s1 ← getState
    if otrulvl ≠ s1.cond.trulvl ∨ s1.cond.flslvl ≠ 0 then
      error Err.unterminatedConditional
    modState fun s => { s with ifiles := s.next.headD s.ifiles, next := s.next.tail }
    modState fun s => { s with inclevel := s.inclevel - 1 }
    pure 0

/-! ## A concrete configuration for evaluating the program -/

/-- A stand-in for `yyparse` on concrete runs: the value is zero exactly when
the first character of the expression buffer that is no blank is `0`. -/
def sampleYyparse : M St Int := fun s =>
  Res.ok (if (s.yyinp.filter (fun c => c != 32)).head? = some 48 then 0 else 1) s

/-- A small configuration: a buffer of 8 bytes with a margin of 4, identifiers
of at most 8 characters, no files, no macros expanded; an access outside an
array has no defined result. -/
def sampleEnv : Env where
  CPPBUF := 8
  PBMAX := 4
  MAXIDSZ := 8
  WARN := 1
  CONC := 2
  DEFLOC := 3
  SYSINC := 1
  GCC_COMPAT := false
  PCC_DEBUG := false
  openFile := fun _ => none
  yyparse := sampleYyparse
  kfind := fun _ => pure none
  include_ := pure ()
  include_next := pure ()
  define := pure ()
  line := pure ()
  idbufOverrun := false
  spechrUnder := none

/-- The state at the start of a run (line markers off, `-P`): no frame is open
yet and `input` waits on standard input. -/
def startState (input : List Int) : St where
  ifiles := { fname := [], orgfn := [], lineno := 0, escln := 0, infil := -1, file := [],
              mem := [], buffer := 0, curptr := 0, maxread := 0, idx := 0 }
  next := []
  cond := ⟨0, 0, 0, 0⟩
  incmnt := 0
  inclevel := 0
  Cflag := 0
  tflag := 0
  Aflag := 0
  Mflag := 0
  dMflag := 0
  MMDflag := 0
  MPflag := 0
  Pflag := 1
  Mfile := []
  MPfile := []
  pb := []
  rbs := []
  erb := []
  tmp := []
  idbuf := List.replicate 9 0
  yyinp := []
  inexpr := 0
  nbufused := 0
  symtab := []
  diag := []
  depout := []
  stdin := input

/-- A frame reading `input` with the configuration `sampleEnv`, nothing read
yet. -/
def sampleFrame (input : List Int) : includ where
  fname := str "<stdin>"
  orgfn := str "<stdin>"
  lineno := 1
  escln := 0
  infil := 0
  file := input
  mem := List.replicate 13 0
  buffer := 4
  curptr := 4
  maxread := 4
  idx := 0

/-- The state in which the frame of `input` has just been opened. -/
def openState (input : List Int) : St :=
  { startState input with ifiles := sampleFrame input, next := [(startState input).ifiles] }

/-- The value returned, if the run returned. -/
def Res.value? {σ α : Type} : Res σ α → Option α
  | Res.ok a _ => some a
  | _ => none

/-- The fatal error, if the run ended in one. -/
def Res.error? {σ α : Type} : Res σ α → Option Err
  | Res.fatal e _ => some e
  | _ => none

/-- The state in which the run returned or stopped. -/
def Res.state? {σ α : Type} : Res σ α → Option σ
  | Res.ok _ s => some s
  | Res.fatal _ s => some s
  | Res.nofuel => none

/-- The output written by the time the run returned or stopped. -/
def outputOf {α : Type} (r : Res St α) : Option (List Int) := r.state?.map (fun s => s.pb)

/-- Run `m` `n` times and collect the values returned. -/
def repeatM {α : Type} (m : M St α) : Nat → M St (List α)
  | 0 => pure []
  | n + 1 => do
    let a ← m
    let r ← repeatM m n
    pure (a :: r)

/-! ## The input still to be read

The raw input of a frame is what lies between `curptr` and `maxread` in its
buffer, followed by what the file has yet to deliver. -/

/-- The `n` bytes of the storage from offset `p` on. -/
def slice (mem : List Int) (p n : Nat) : List Int := (mem.drop p).take n

/-- The raw characters a frame will deliver, in order. -/
def pending (f : includ) : List Int :=
  slice f.mem f.curptr.toNat (f.maxread - f.curptr).toNat ++ f.file

/-- A frame in good order: its file is open, its pointers lie inside the
storage in the order `bbuf <= curptr <= maxread` with `buffer <= maxread`, a
whole `read` of `CPPBUF` bytes and the NUL after it fit above `buffer`, and
what it holds are bytes. -/
structure FrameOK (E : Env) (f : includ) : Prop where
  opened : f.infil ≠ -1
  size : 0 < E.CPPBUF
  buf : 0 ≤ f.buffer
  cur : 0 ≤ f.curptr
  curmax : f.curptr ≤ f.maxread
  bufmax : f.buffer ≤ f.maxread
  maxlen : f.maxread ≤ f.mem.length
  fits : f.buffer + E.CPPBUF < f.mem.length
  bytes : ∀ b ∈ pending f, 0 ≤ b ∧ b < 256

/-- The state without the raw buffer of its active frame: two states with the
same `strip` differ at most in where the pending input is stored. -/
def St.strip (s : St) : St :=
  { s with ifiles := { s.ifiles with mem := [], curptr := 0, maxread := 0, file := [] } }

/-- The active frame is in good order, will deliver the raw characters `p`, and
has room to take `r` characters back. -/
def Rd (E : Env) (s : St) (p : List Int) (r : Int) : Prop :=
  FrameOK E s.ifiles ∧ pending s.ifiles = p ∧ r ≤ s.ifiles.curptr

/-- The reference table of the nine trigraphs: the third character of `??X`
and the character the sequence stands for. -/
def trigraphTable : List (Int × Int) :=
  [(61, 35), (40, 91), (41, 93), (60, 123), (62, 125), (47, 92), (39, 94), (33, 124), (45, 126)]

/-- The frame with `k` more spliced lines counted in `escln`. -/
def St.spliced (s : St) (k : Int) : St :=
  { s with ifiles := { s.ifiles with escln := s.ifiles.escln + k } }

/-- The input made of `k` backslash-newline pairs followed by `tl`. -/
def splices : Nat → List Int → List Int
  | 0, tl => tl
  | k + 1, tl => 92 :: 10 :: splices k tl

/-! ## Reference notions for universal character names

Modelled from the spec: the hexadecimal value of a digit string, the code
points that may not be named, and the UTF-8 encoding with its decoder.  The
program is compared with them; it does not use them. -/

/-- Modelled from the spec: a hexadecimal digit, `0-9`, `A-F` or `a-f`. -/
def isHexDigit (d : Int) : Bool :=
  (decide (48 ≤ d) && decide (d ≤ 57)) || (decide (65 ≤ d) && decide (d ≤ 70)) ||
    (decide (97 ≤ d) && decide (d ≤ 102))

/-- Modelled from the spec: the value of a hexadecimal digit. -/
def hexDigitValue (d : Int) : Nat :=
  if d ≤ 57 then (d - 48).toNat else if d ≤ 70 then (d - 55).toNat else (d - 87).toNat

/-- Modelled from the spec: the value of a string of hexadecimal digits, most
significant digit first. -/
def hexValue (ds : List Int) : Nat := ds.foldl (fun a d => a * 16 + hexDigitValue d) 0

/-- Modelled from the spec: the code points a universal character name may not
denote: those below `0xA0` other than `$`, `@` and the backquote, the
surrogates `0xD800..0xDFFF`, and those above `0x7FFFFFFF`. -/
def ucnRejected (cp : Nat) : Bool :=
  (decide (cp < 0xA0) && decide (cp ≠ 0x24) && decide (cp ≠ 0x40) && decide (cp ≠ 0x60)) ||
    (decide (0xD800 ≤ cp) && decide (cp ≤ 0xDFFF)) || decide (cp > 0x7FFFFFFF)

/-- Modelled from the spec: the shortest UTF-8 encoding of a code point up to
`0x7FFFFFFF`, one to six bytes: a lead byte `0xxxxxxx`, `110xxxxx`, `1110xxxx`,
`11110xxx`, `111110xx` or `1111110x`, then continuation bytes `10xxxxxx`. -/
def utf8Encode (cp : Nat) : List Nat :=
  if cp < 0x80 then [cp]
  else if cp < 0x800 then [0xC0 + cp / 0x40, 0x80 + cp % 0x40]
  else if cp < 0x10000 then [0xE0 + cp / 0x1000, 0x80 + cp / 0x40 % 0x40, 0x80 + cp % 0x40]
  else if cp < 0x200000 then
    [0xF0 + cp / 0x40000, 0x80 + cp / 0x1000 % 0x40, 0x80 + cp / 0x40 % 0x40, 0x80 + cp % 0x40]
  else if cp < 0x4000000 then
    [0xF8 + cp / 0x1000000, 0x80 + cp / 0x40000 % 0x40, 0x80 + cp / 0x1000 % 0x40,
      0x80 + cp / 0x40 % 0x40, 0x80 + cp % 0x40]
  else
    [0xFC + cp / 0x40000000, 0x80 + cp / 0x1000000 % 0x40, 0x80 + cp / 0x40000 % 0x40,
      0x80 + cp / 0x1000 % 0x40, 0x80 + cp / 0x40 % 0x40, 0x80 + cp % 0x40]

/-- A continuation byte `10xxxxxx`. -/
def isCont (b : Nat) : Bool := decide (0x80 ≤ b) && decide (b < 0xC0)

/-- The payload bits of a run of continuation bytes appended to `acc`; `none`
when a byte is no continuation byte. -/
def utf8Cont : List Nat → Nat → Option Nat
  | [], acc => some acc
  | b :: bs, acc => if isCont b then utf8Cont bs (acc * 0x40 + (b - 0x80)) else none

/-- Modelled from the spec: a reference UTF-8 decoder for one code point: the
lead byte tells the number of continuation bytes, and an encoding longer than
the shortest one is refused. -/
def utf8Decode : List Nat → Option Nat
  | [] => none
  | b :: bs =>
    if b < 0x80 then (if bs = [] then some b else none)
    else if b < 0xC0 then none
    else
      let (n, lo, base) : Nat × Nat × Nat :=
        if b < 0xE0 then (1, 0x80, 0xC0)
        else if b < 0xF0 then (2, 0x800, 0xE0)
        else if b < 0xF8 then (3, 0x10000, 0xF0)
        else if b < 0xFC then (4, 0x200000, 0xF8)
        else (5, 0x4000000, 0xFC)
      if b ≥ 0xFE ∨ bs.length ≠ n then none
      else
        match utf8Cont bs (b - base) with
        | some cp => if cp < lo then none else some cp
        | none => none

/-! ## Reference notions for comments and literals -/

/-- Modelled from the spec: the text of a block comment and what follows it:
the input after the opening `/*` is split at the first `*/`; `none` when there
is no `*/`. -/
def cmntEnd : List Int → Option (List Int × List Int)
  | [] => none
  | c :: tl =>
    if c = 42 ∧ tl.head? = some 47 then some ([], tl.tail)
    else (cmntEnd tl).map (fun p => (c :: p.1, p.2))

/-! ## Auxiliary notions for identifiers -/

/-- The test `spechr[c] & C_ID` as a Boolean; false outside the table. -/
def idClass (c : Int) : Bool :=
  match spechr c with
  | some v => v &&& C_ID != 0
  | none => false

/-- The array after the stores `a[p] = cs[0]`, `a[p+1] = cs[1]`, ..., each
value converted to `unsigned char`. -/
def storeRun (a : List Int) (p : Nat) : List Int → List Int
  | [] => a
  | c :: cs => storeRun (arrSet a p (c % 256)) (p + 1) cs

/-! ## Reference notions for string and character literals -/

/-- Modelled from the spec: the body of a literal and what follows it: the
input after the opening quote `bc` is split at the first `bc` that no
backslash escapes, a backslash taking the following character with it; `none`
when there is no such quote. -/
def litEnd (bc : Int) : List Int → Option (List Int × List Int)
  | [] => none
  | [c] => if c = bc then some ([], []) else none
  | c :: d :: tl =>
    if c = bc then some ([], d :: tl)
    else if c = 92 then (litEnd bc tl).map (fun p => (c :: d :: p.1, p.2))
    else (litEnd bc (d :: tl)).map (fun p => (c :: p.1, p.2))

/-- No backslash of the literal body escapes `u` or `U`; the body is read as
`litEnd` reads it, a backslash taking the following character with it. -/
def litNoUcn : List Int → Bool
  | [] => true
  | [_] => true
  | c :: d :: tl =>
    if c = 92 then decide (d ≠ 117 ∧ d ≠ 85) && litNoUcn tl
    else litNoUcn (d :: tl)

/-- The content of the buffer `ob` in a state. -/
def obOf (ob : Ob) (s : St) : List Int :=
  match ob with
  | Ob.pb => s.pb
  | Ob.rbs => s.rbs
  | Ob.erb => s.erb
  | Ob.tmp => s.tmp

/-- The state after `putob(ob, ch)`. -/
def obPut (ob : Ob) (ch : Int) (s : St) : St :=
  match ob with
  | Ob.pb => { s with pb := s.pb ++ [ch % 256] }
  | Ob.rbs => { s with rbs := s.rbs ++ [ch % 256] }
  | Ob.erb => { s with erb := s.erb ++ [ch % 256] }
  | Ob.tmp => { s with tmp := s.tmp ++ [ch % 256] }

/-! ## Input that the translation phases 1 and 2 leave as it is -/

/-- At the head of the input there is no carriage return, no trigraph and no
backslash-newline: the first character is what `inc2` delivers. -/
def rawAt (l : List Int) : Bool :=
  match l with
  | [] => true
  | c :: tl =>
    decide (c ≠ 13) &&
    !(decide (c = 63) &&
      (match tl with
       | d :: e :: _ => decide (d = 63) && decide (e ∈ trigraphTable.map Prod.fst)
       | _ => false)) &&
    !(decide (c = 92) && decide (tl.head? = some 10))

/-- The condition `rawAt` at each of the first `n` positions of the input. -/
def rawUpTo : Nat → List Int → Bool
  | 0, _ => true
  | _ + 1, [] => true
  | n + 1, c :: tl => rawAt (c :: tl) && rawUpTo n tl

/-! ## A frame with a wider pushback margin -/

/-- A frame reading `input` with a pushback margin of 8 bytes below a buffer
of 8 bytes, nothing read yet. -/
def wideFrame (input : List Int) : includ :=
  { sampleFrame input with mem := List.replicate 17 0, buffer := 8, curptr := 8, maxread := 8 }

/-- The state in which the frame `wideFrame input` has just been opened. -/
def wideState (input : List Int) : St :=
  { openState input with ifiles := wideFrame input }

/-! ## The lexer of the expression buffer

Modelled from the spec: the node `yynode` is declared in `cpp.h` and the token
codes come from the grammar, neither of which is among the source files.
`nd_val` and `nd_uval` are the signed and the unsigned reading of one 64-bit
value, `op` is `NUMBER` or `UNUMBER`, and the token codes are values of their
own, different from every character. -/

/-- The kind of a constant node, `yynode.op`. -/
inductive NodeOp where
  | NUMBER
  | UNUMBER
  deriving DecidableEq, Repr

/-- What `yylex` returns: a token code, or the character itself. -/
inductive Tok where
  | WARN | EQ | NE | OROR | ANDAND | LS | LE | RS | GE | NUMBER
  | char (ch : Int)
  deriving DecidableEq, Repr

/-- The state of the lexer: the NUL-terminated string that `yyinp` points
into (`buf`, without its NUL), the offset of `yyinp` in it, and `yynode`. -/
structure Lex where
  buf : List Int
  yyinp : Nat
  op : NodeOp
  nd_uval : Nat
  deriving DecidableEq, Repr

/-- The byte at an offset of the string; the terminating NUL where the string
has ended. -/
def Lex.byte (s : Lex) (i : Nat) : Int := s.buf.getD i 0

/-- The signed reading `yynode.nd_val` of the 64-bit value. -/
def Lex.nd_val (s : Lex) : Int :=
  if s.nd_uval < 2 ^ 63 then (s.nd_uval : Int) else (s.nd_uval : Int) - 2 ^ 64

/-- The digit loop of `cvtdig` (token.c 1030-1037): `rv` is an `unsigned long
long`, so the sum is taken modulo 2^64. -/
def cvtdigDigits (rad : Nat) : Nat → Nat → Nat → Nat → M Lex (Nat × Nat)
  | 0, _, _, _ => outOfFuel
  | fuel + 1, y, rv, rv2 => do
    let s ← getState
    if (← spechrHas (s.byte y) C_HEX) then do
      let rv1 : Nat := (((rv : Int) * rad + dig2num (s.byte y)) % 2 ^ 64).toNat
      if rv1 / rad < rv2 then
        error Err.constantOutOfRange
      cvtdigDigits rad fuel (y + 1) rv1 rv1
    else
      pure (y, rv)

/-- The suffix loop of `cvtdig` (token.c 1039-1043). -/
def cvtdigSuffix : Nat → Nat → M Lex Nat
  | 0, _ => outOfFuel
  | fuel + 1, y => do
    let c := (← getState).byte y
    if c = 108 ∨ c = 76 ∨ c = 117 ∨ c = 85 then do
      if c = 117 ∨ c = 85 then
        modState fun s => { s with op := NodeOp.UNUMBER }
      cvtdigSuffix fuel (y + 1)
    else
      pure y

/-- The function `cvtdig`: a numeral is converted and checked for overflow
(token.c 1018-1051).  It is called with `yyinp` just after the first digit. -/
def cvtdig (fuel : Nat) : M Lex Unit := do
  let s ← getState
  let y := s.yyinp - 1
  let rad : Nat :=
    if s.byte y ≠ 48 then 10 else if s.byte (y + 1) = 120 ∨ s.byte (y + 1) = 88 then 16 else 8
  let y := if rad = 16 then y + 2 else y
  let (y, rv) ← cvtdigDigits rad fuel y 0 0
  modState fun s => { s with op := NodeOp.NUMBER }
  let y ← cvtdigSuffix fuel y
  modState fun s => { s with nd_uval := rv }
  if (rad = 8 ∨ rad = 16) ∧ (← getState).nd_val < 0 then
    modState fun s => { s with op := NodeOp.UNUMBER }
  let s1 ← getState
  if s1.op = NodeOp.NUMBER ∧ s1.nd_val < 0 then
    error Err.constantOutOfRange
  modState fun s => { s with yyinp := y }

/-- An `int` that has overflowed, as the machine keeps it: 32 bits in two's
complement. -/
def wrapInt (v : Int) : Int := (v + 2 ^ 31) % 2 ^ 32 - 2 ^ 31

/-- The loop of `charcon` over the digits of a hexadecimal escape (token.c
1073-1076). -/
def charconHex : Nat → Nat → Int → M Lex (Nat × Int)
  | 0, _, _ => outOfFuel
  | fuel + 1, p, val => do
    let c := (← getState).byte p
    if (← spechrHas c C_HEX) then
      charconHex fuel (p + 1) (wrapInt (val * 16 + dig2num c))
    else
      pure (p, val)

/-- The loop of `charcon` over the digits of an octal escape (token.c
1081-1084). -/
def charconOct : Nat → Nat → Int → M Lex (Nat × Int)
  | 0, _, _ => outOfFuel
  | fuel + 1, p, val => do
    let c := (← getState).byte p
    if (← spechrHas c C_DIGIT) then
      charconOct fuel (p + 1) (wrapInt (val * 8 + (c - 48)))
    else
      pure (p, val)

/-- The function `charcon`: the value of a character constant (token.c
1053-1095).  It is called with `yyinp` just after the opening quote. -/
def charcon (fuel : Nat) : M Lex Int := do
  let s ← getState
  let p := s.yyinp
  let (p, val) ←
    if s.byte p = 92 then do
      let e := s.byte (p + 1)
      if e = 97 then pure (p + 2, (7 : Int))
      else if e = 98 then pure (p + 2, (8 : Int))
      else if e = 102 then pure (p + 2, (12 : Int))
      else if e = 110 then pure (p + 2, (10 : Int))
      else if e = 114 then pure (p + 2, (13 : Int))
      else if e = 116 then pure (p + 2, (9 : Int))
      else if e = 118 then pure (p + 2, (11 : Int))
      else if e = 34 then pure (p + 2, (34 : Int))
      else if e = 39 then pure (p + 2, (39 : Int))
      else if e = 92 then pure (p + 2, (92 : Int))
      else if e = 120 then charconHex fuel (p + 2) 0
      else if 48 ≤ e ∧ e ≤ 55 then charconOct fuel (p + 1) 0
      else pure (p + 2, e)
    else
      pure (p + 1, s.byte p)
  if (← getState).byte p ≠ 39 then
    error Err.badCharcon
  modState fun s => { s with yyinp := p + 1 }
  pure val

/-- The loop at the head of `yylex` (token.c 859-860): blanks and tabs are
passed over; it returns the first other character, with `yyinp` after it. -/
def yylexSkip : Nat → M Lex Int
  | 0 => outOfFuel
  | fuel + 1 => do
    let s ← getState
    let ch := s.byte s.yyinp
    modState fun s => { s with yyinp := s.yyinp + 1 }
    if ch = 32 ∨ ch = 9 then yylexSkip fuel else pure ch

/-- The loop of `yylex` over an identifier (token.c 906-907). -/
def yylexIdent : Nat → M Lex Unit
  | 0 => outOfFuel
  | fuel + 1 => do
    let s ← getState
    if (← spechrHas (s.byte s.yyinp) C_ID) then do
      modState fun s => { s with yyinp := s.yyinp + 1 }
      yylexIdent fuel
    else
      pure ()

/-- The end of `yylex` after a `break` (token.c 914-915): the second character
is given back and the first is the token. -/
def yylexBack (ch : Int) : M Lex Tok := do
  modState fun s => { s with yyinp := s.yyinp - 1 }
  pure (Tok.char ch)

/-- The function `yylex`: the next token of the expression buffer (token.c
854-916). -/
def yylex (fuel : Nat) : M Lex Tok := do
  let ch ← yylexSkip fuel
  let isdigit ← spechrHas ch C_DIGIT
  let c2 ←
    if ch < 128 ∧ (← spechrHas ch C_2) then do
      let s ← getState
      modState fun s => { s with yyinp := s.yyinp + 1 }
      pure (s.byte s.yyinp)
    else
      pure (0 : Int)
  if isdigit then do
    cvtdig fuel
    pure Tok.NUMBER
  else if ch = 0 then
    pure Tok.WARN
  else if ch = 61 then
    if c2 = 61 then pure Tok.EQ else yylexBack ch
  else if ch = 33 then
    if c2 = 61 then pure Tok.NE else yylexBack ch
  else if ch = 124 then
    if c2 = 124 then pure Tok.OROR else yylexBack ch
  else if ch = 38 then
    if c2 = 38 then pure Tok.ANDAND else yylexBack ch
  else if ch = 60 then
    if c2 = 60 then pure Tok.LS else if c2 = 61 then pure Tok.LE else yylexBack ch
  else if ch = 62 then
    if c2 = 62 then pure Tok.RS else if c2 = 61 then pure Tok.GE else yylexBack ch
  else if ch = 43 ∨ ch = 45 then do
    if ch = c2 then
      error Err.invalidOperator
    yylexBack ch
  else if ch = 39 then do
    modState fun s => { s with op := NodeOp.NUMBER }
    let v ← charcon fuel
    modState fun s => { s with nd_uval := (v % 2 ^ 64).toNat }
    pure Tok.NUMBER
  else if (← spechrHas ch C_ID0) then do
    modState fun s => { s with yyinp := s.yyinp - 1 }
    yylexIdent fuel
    modState fun s => { s with nd_uval := 0 }
    pure Tok.NUMBER
  else
    pure (Tok.char ch)

/-! ## Reference notions for numerals

Modelled from the spec: the forms of a numeral of a controlling expression,
its digits, its mathematical value and its suffix letters.  The program is
compared with them; it does not use them. -/

/-- Modelled from the spec: the three forms of a numeral: decimal, octal with
a leading `0`, and hexadecimal with the prefix `0x` or `0X`. -/
inductive Radix where
  | dec
  | oct
  | hex (upper : Bool)
  deriving DecidableEq, Repr

/-- The base of a radix. -/
def Radix.base : Radix → Nat
  | Radix.dec => 10
  | Radix.oct => 8
  | Radix.hex _ => 16

/-- The characters of a numeral before its digits. -/
def Radix.lead : Radix → List Int
  | Radix.dec => []
  | Radix.oct => [48]
  | Radix.hex u => [48, if u then 88 else 120]

/-- Modelled from the spec: a digit valid for the base `rad`. -/
def digitOK (rad : Nat) (d : Int) : Bool := isHexDigit d && decide (hexDigitValue d < rad)

/-- Modelled from the spec: the mathematical value of a string of digits in
the base `rad`, most significant digit first. -/
def digitsValue (rad : Nat) (ds : List Int) : Nat :=
  ds.foldl (fun a d => a * rad + hexDigitValue d) 0

/-- A suffix letter of a numeral: `l`, `L`, `u` or `U`. -/
def suffixLetter (c : Int) : Bool := c == 108 || c == 76 || c == 117 || c == 85

/-- The suffix letters hold a `u` or a `U`. -/
def hasU (sfx : List Int) : Bool := sfx.any (fun c => c == 117 || c == 85)

/-- What follows a numeral cannot go on with it: the string has ended, or the
next character is a byte that is no hexadecimal digit, no `x` or `X` and no
suffix letter. -/
def endsNumeral (rest : List Int) : Bool :=
  match rest with
  | [] => true
  | c :: _ =>
    decide (0 ≤ c) && decide (c < 256) && !isHexDigit c && decide (c ≠ 120) && decide (c ≠ 88) &&
      !suffixLetter c

/-! ## What reading an identifier leaves alone -/

/-- The state without the raw buffer of its active frame, without the
identifier buffer `idbuf` and without the diagnostics: what `readid` can change
is left out. -/
def St.core (s : St) : St := { s.strip with idbuf := [], diag := [] }

/-- The test `spechr[c] & C_ID0` as a Boolean: `c` can start an identifier;
false outside the table. -/
def id0Class (c : Int) : Bool :=
  match spechr c with
  | some v => v &&& C_ID0 != 0
  | none => false

/-! ## A fixture with a macro table -/

/-- The state in which the frame of `input` has just been opened and the macro
table holds the word `defined`, whose value begins with `DEFLOC`, and the macro
`X` with the value `1`. -/
def definedState (input : List Int) : St :=
  { openState input with
    symtab := [⟨str "defined", some [sampleEnv.DEFLOC]⟩, ⟨[88], some [49]⟩] }

/-- The small configuration with the two accesses outside an array carried
out as on a machine: the store of `readid` lands behind `idbuf`, and `b` is the
byte before the table `spechr`. -/
def machineEnv (b : Nat) : Env :=
  { sampleEnv with idbufOverrun := true, spechrUnder := some b }

/-- The file whose lines are `#if d`, one for each character `d` of `ds`. -/
def ifLines : List Int → List Int
  | [] => []
  | d :: ds => 35 :: 105 :: 102 :: 32 :: d :: 10 :: ifLines ds

/-- The line `#else`. -/
def elseLine : List Int := [35, 101, 108, 115, 101, 10]

/-- The line `#ifdef x` for a name `x` of one character. -/
def ifdefLine (x : Int) : List Int := [35, 105, 102, 100, 101, 102, 32, x, 10]

/-! # Theorems -/

/-! ## Evaluation rules for the monad -/

@[simp] theorem M.bind_eq (m : M σ α) (f : α → M σ β) : m >>= f = M.andThen m f := rfl
@[simp] theorem M.pure_eq (a : α) : (pure a : M σ α) = M.ret a := rfl
@[simp] theorem M.ret_apply (a : α) (s : σ) : M.ret a s = Res.ok a s := rfl
@[simp] theorem error_apply (e : Err) (s : σ) : (error e : M σ α) s = Res.fatal e s := rfl
@[simp] theorem M.andThen_apply (m : M σ α) (f : α → M σ β) (s : σ) :
    M.andThen m f s = (m s).andThen f := rfl
@[simp] theorem Res.andThen_ok (a : α) (s : σ) (f : α → σ → Res σ β) :
    (Res.ok a s).andThen f = f a s := rfl
@[simp] theorem Res.andThen_fatal (e : Err) (s : σ) (f : α → σ → Res σ β) :
    (Res.fatal e s : Res σ α).andThen f = Res.fatal e s := rfl
@[simp] theorem Res.andThen_nofuel (f : α → σ → Res σ β) :
    (Res.nofuel : Res σ α).andThen f = Res.nofuel := rfl
@[simp] theorem getState_apply (s : σ) : (getState : M σ σ) s = Res.ok s s := rfl
@[simp] theorem modState_apply (f : σ → σ) (s : σ) : modState f s = Res.ok () (f s) := rfl
theorem Res.andThen_eq_ok {r : Res σ α} {f : α → σ → Res σ β} {b : β} {s1 : σ}
    (h : r.andThen f = Res.ok b s1) : ∃ a s0, r = Res.ok a s0 ∧ f a s0 = Res.ok b s1 := by
  cases r with
  | ok a s0 => exact ⟨a, s0, rfl, h⟩
  | fatal e s0 => cases h
  | nofuel => cases h
@[simp] theorem M.ite_apply (c : Prop) [Decidable c] (m1 m2 : M σ α) (s : σ) :
    (if c then m1 else m2) s = if c then m1 s else m2 s := by split <;> rfl
@[simp] theorem dirOps_get (b : Bool) (s : CState) : (dirOps b).get s = Res.ok s.cond s := rfl
@[simp] theorem dirOps_upd (b : Bool) (f : Cond → Cond) (s : CState) :
    (dirOps b).upd f s = Res.ok () ⟨f s.cond, s.evals⟩ := rfl
@[simp] theorem dirOps_chknl (b : Bool) (i : Int) (s : CState) :
    (dirOps b).chknl i s = Res.ok () s := rfl
@[simp] theorem dirOps_exprline (b : Bool) (s : CState) :
    (dirOps b).exprline s = Res.ok (if b then 1 else 0) ⟨s.cond, s.evals + 1⟩ := rfl
@[simp] theorem dirOps_fastspc (b : Bool) (s : CState) :
    (dirOps b).fastspc s = Res.ok 120 s := rfl
@[simp] theorem dirOps_readid (b : Bool) (ch : Int) (s : CState) :
    (dirOps b).readid ch s = Res.ok [ch] s := rfl
@[simp] theorem dirOps_lookupFind (b : Bool) (l : List Int) (s : CState) :
    (dirOps b).lookupFind l s = Res.ok b s := rfl
@[simp] theorem ISID0_x (s : CState) : (ISID0 120 : M CState Bool) s = Res.ok true s := rfl

theorem dirStep_unfold (d : Dir) :
    dirStep d = (do
      let _ ← ppdirDispatch (dirOps d.outcome)
        (ppFunCall (dirOps d.outcome) (fun _ => pure ())
          (match d with
            | Dir.ifndef _ => PpFun.ifndefstmt
            | Dir.ifdef _ => PpFun.ifdefstmt
            | Dir.if_ _ => PpFun.ifstmt
            | Dir.else_ => PpFun.elsestmt
            | Dir.endif => PpFun.endifstmt
            | Dir.elif _ => PpFun.elifstmt))
        (match d with
            | Dir.else_ => DIR_FLSLVL
            | Dir.endif => DIR_FLSLVL
            | Dir.elif _ => DIR_FLSLVL
            | _ => DIR_FLSINC)
      pure ()) := by
  cases d <;> rfl

theorem dirStep_eq (d : Dir) (s : CState) : dirStep d s = stepSpec d s := by
  obtain ⟨⟨t, f, elf, els⟩, n⟩ := s
  rw [dirStep_unfold]
  cases d <;>
    simp [stepSpec, ppdirDispatch, ppFunCall, elsestmt, endifstmt, elifstmt, ifstmt, ifdefstmt,
      ifndefstmt, decFls, incFls, incTru, decTru, Dir.outcome, DIR_FLSLVL,
      DIR_FLSINC] <;>
    split_ifs <;> simp_all <;> omega

@[simp] theorem frame_apply (s : St) : frame s = Res.ok s.ifiles s := rfl
@[simp] theorem modFrame_apply (g : includ → includ) (s : St) :
    modFrame g s = Res.ok () { s with ifiles := g s.ifiles } := rfl
@[simp] theorem outOfFuel_apply (s : σ) : (outOfFuel : M σ α) s = Res.nofuel := rfl
@[simp] theorem warning_apply (w : Warn) (s : St) :
    warning w s = Res.ok () { s with diag := s.diag ++ [w] } := rfl

@[simp] theorem putob_pb (ch : Int) (s : St) :
    putob Ob.pb ch s = Res.ok () { s with pb := s.pb ++ [ch % 256] } := rfl
@[simp] theorem putob_erb (ch : Int) (s : St) :
    putob Ob.erb ch s = Res.ok () { s with erb := s.erb ++ [ch % 256] } := rfl
@[simp] theorem putch_apply (ch : Int) (s : St) :
    putch ch s = Res.ok () { s with pb := s.pb ++ [ch % 256] } := rfl
@[simp] theorem putstr_apply (bs : List Int) (s : St) :
    putstr bs s = Res.ok () { s with pb := s.pb ++ bs } := rfl

theorem dirRun_cons (d : Dir) (ds : List Dir) (s : CState) :
    dirRun (d :: ds) s = (dirStep d s).andThen (fun _ => dirRun ds) := by
  rw [dirRun]; rfl

theorem dirRun_nil (s : CState) : dirRun [] s = Res.ok () s := rfl

theorem dirRun_append (ds1 ds2 : List Dir) (s : CState) :
    dirRun (ds1 ++ ds2) s = (dirRun ds1 s).andThen (fun _ => dirRun ds2) := by
  induction ds1 generalizing s with
  | nil => rfl
  | cons d ds ih =>
    simp only [List.cons_append, dirRun_cons]
    cases h : dirStep d s with
    | ok a s1 => simpa using ih s1
    | fatal e s1 => rfl
    | nofuel => rfl

theorem condInv_step (d : Dir) (s s1 : CState) (h : CondInv s.cond)
    (hs : dirStep d s = Res.ok () s1) : CondInv s1.cond := by
  obtain ⟨⟨t, f, elf, els⟩, n⟩ := s
  rw [dirStep_eq] at hs
  unfold CondInv at h ⊢
  simp only at h
  cases d <;> simp only [stepSpec] at hs <;> split_ifs at hs <;>
    simp only [Res.ok.injEq, true_and, reduceCtorEq] at hs <;> subst hs <;> simp only [true_or, true_and] <;> omega

theorem condInv_run (ds : List Dir) (s s1 : CState) (h : CondInv s.cond)
    (hs : dirRun ds s = Res.ok () s1) : CondInv s1.cond := by
  induction ds generalizing s with
  | nil => simp [dirRun_nil] at hs; subst hs; exact h
  | cons d ds ih =>
    rw [dirRun_cons] at hs
    cases hd : dirStep d s with
    | ok a s2 =>
      rw [hd] at hs
      exact ih s2 (condInv_step d s s2 h hd) hs
    | fatal e s2 => rw [hd] at hs; cases hs
    | nofuel => rw [hd] at hs; cases hs

theorem condInv_of_reachable (c : Cond) (h : Reachable c) : CondInv c := by
  obtain ⟨ds, n, hr⟩ := h
  have := condInv_run ds CState.zero ⟨c, n⟩ (by unfold CondInv CState.zero; simp) hr
  exact this

theorem bal_step (t0 f0 : Int) (n0 : Nat) (ht0 : 0 ≤ t0) (d : Dir) (ds : List Dir)
    (st : List Bool) (s : CState) (hw : wellNestedFrom st (d :: ds) = true)
    (hb : Bal t0 f0 n0 st s) :
    ∃ st1 s1, dirStep d s = Res.ok () s1 ∧ wellNestedFrom st1 ds = true ∧
      Bal t0 f0 n0 st1 s1 := by
  obtain ⟨⟨t, f, elf, els⟩, n⟩ := s
  rw [dirStep_eq]
  unfold Bal at hb ⊢
  simp only at hb
  cases d with
  | ifndef b =>
    refine ⟨false :: st, ?_⟩
    simp only [wellNestedFrom] at hw
    simp only [stepSpec, List.head?_cons, List.length_cons, Nat.cast_add, Nat.cast_one,
      forall_true_left]
    split_ifs <;> refine ⟨_, rfl, hw, ?_⟩ <;> simp only <;> omega
  | ifdef b =>
    refine ⟨false :: st, ?_⟩
    simp only [wellNestedFrom] at hw
    simp only [stepSpec, List.head?_cons, List.length_cons, Nat.cast_add, Nat.cast_one,
      forall_true_left]
    split_ifs <;> refine ⟨_, rfl, hw, ?_⟩ <;> simp only <;> omega
  | if_ b =>
    refine ⟨false :: st, ?_⟩
    simp only [wellNestedFrom] at hw
    simp only [stepSpec, List.head?_cons, List.length_cons, Nat.cast_add, Nat.cast_one,
      forall_true_left]
    split_ifs <;> refine ⟨_, rfl, hw, ?_⟩ <;> simp only <;> omega
  | else_ =>
    match st, hw, hb with
    | false :: st, hw, hb =>
      refine ⟨true :: st, ?_⟩
      simp only [wellNestedFrom] at hw
      simp only [List.head?_cons, List.length_cons, Nat.cast_add, Nat.cast_one,
        forall_true_left] at hb
      simp only [stepSpec, List.head?_cons, List.length_cons, Nat.cast_add, Nat.cast_one,
        Option.some.injEq, Bool.true_eq_false, false_implies, true_and]
      split_ifs <;> first
        | omega
        | (refine ⟨_, rfl, hw, ?_⟩; simp only; omega)
    | true :: st, hw, _ => simp [wellNestedFrom] at hw
    | [], hw, _ => simp [wellNestedFrom] at hw
  | elif b =>
    match st, hw, hb with
    | false :: st, hw, hb =>
      refine ⟨false :: st, ?_⟩
      simp only [wellNestedFrom] at hw
      simp only [List.head?_cons, List.length_cons, Nat.cast_add, Nat.cast_one,
        forall_true_left] at hb
      simp only [stepSpec, List.head?_cons, List.length_cons, Nat.cast_add, Nat.cast_one,
        forall_true_left]
      split_ifs <;> first
        | omega
        | (refine ⟨_, rfl, hw, ?_⟩; simp only; omega)
    | true :: st, hw, _ => simp [wellNestedFrom] at hw
    | [], hw, _ => simp [wellNestedFrom] at hw
  | endif =>
    match st, hw, hb with
    | b0 :: st, hw, hb =>
      refine ⟨st, ?_⟩
      simp only [wellNestedFrom] at hw
      simp only [List.length_cons, Nat.cast_add, Nat.cast_one] at hb
      simp only [stepSpec]
      have hh : st.head? = some false → 1 ≤ (st.length : Int) := by
        cases st with
        | nil => simp
        | cons b1 st => intro _; simp only [List.length_cons, Nat.cast_add, Nat.cast_one]; omega
      split_ifs <;> first
        | omega
        | (refine ⟨_, rfl, hw, ?_⟩; simp only
           refine ⟨by omega, fun hhd => ?_, by omega⟩
           have := hh hhd
           omega)
    | [], hw, _ => simp [wellNestedFrom] at hw

theorem bal_run (t0 f0 : Int) (n0 : Nat) (ht0 : 0 ≤ t0) (ds : List Dir) :
    ∀ (st : List Bool) (s : CState), wellNestedFrom st ds = true → Bal t0 f0 n0 st s →
      ∃ s1, dirRun ds s = Res.ok () s1 ∧ s1.cond.trulvl = t0 ∧ s1.cond.flslvl = f0 ∧
        (1 ≤ f0 → s1.evals = n0) := by
  induction ds with
  | nil =>
    intro st s hw hb
    cases st with
    | nil =>
      refine ⟨s, rfl, ?_⟩
      unfold Bal at hb
      simp only [List.length_nil, Nat.cast_zero] at hb
      omega
    | cons b st => simp [wellNestedFrom] at hw
  | cons d ds ih =>
    intro st s hw hb
    obtain ⟨st1, s1, h1, hw1, hb1⟩ := bal_step t0 f0 n0 ht0 d ds st s hw hb
    obtain ⟨s2, h2, h3⟩ := ih st1 s1 hw1 hb1
    exact ⟨s2, by rw [dirRun_cons, h1]; exact h2, h3⟩

theorem bal_init (c : Cond) (n : Nat) (h : CondInv c) :
    Bal c.trulvl c.flslvl n [] ⟨c, n⟩ := by
  unfold CondInv at h
  unfold Bal
  refine ⟨h.2.2.2.2, by simp, ?_⟩
  simp only [List.length_nil, Nat.cast_zero, and_true, add_zero, le_refl, true_and]
  omega

/-- C1. Conditional nesting balance: from every state reachable from the
all-zero state, every well-nested directive sequence goes through the dispatch
of `ppdir` without a fatal error and leaves `trulvl` and `flslvl` at the
values they had before the sequence. -/
theorem nesting_balance (c : Cond) (n : Nat) (hr : Reachable c) (ds : List Dir)
    (hw : wellNested ds = true) :
    ∃ s1, dirRun ds ⟨c, n⟩ = Res.ok () s1 ∧ s1.cond.trulvl = c.trulvl ∧
      s1.cond.flslvl = c.flslvl := by
  have hi := condInv_of_reachable c hr
  obtain ⟨s1, h1, h2, h3, _⟩ :=
    bal_run c.trulvl c.flslvl n hi.1 ds [] ⟨c, n⟩ hw (bal_init c n hi)
  exact ⟨s1, h1, h2, h3⟩

theorem nesting_balance_witness :
    Reachable ⟨0, 0, 0, 0⟩ ∧
    wellNested [Dir.if_ false, Dir.ifdef true, Dir.else_, Dir.endif, Dir.elif true,
      Dir.else_, Dir.endif] = true ∧
    ∃ s1, dirRun [Dir.if_ false, Dir.ifdef true, Dir.else_, Dir.endif, Dir.elif true,
        Dir.else_, Dir.endif] ⟨⟨0, 0, 0, 0⟩, 0⟩ = Res.ok () s1 ∧
      s1.cond.trulvl = 0 ∧ s1.cond.flslvl = 0 :=
  ⟨⟨[], 0, rfl⟩, by decide,
    nesting_balance ⟨0, 0, 0, 0⟩ 0 ⟨[], 0, rfl⟩ _ (by decide)⟩

theorem dirTrace_nil (s : CState) : dirTrace [] s = Res.ok [] s := rfl

theorem dirTrace_cons (d : Dir) (ds : List Dir) (s : CState) :
    dirTrace (d :: ds) s = (dirStep d s).andThen (fun _ s1 =>
      (dirTrace ds s1).andThen (fun r s2 => Res.ok (decide (s1.cond.flslvl = 0) :: r) s2)) := by
  rw [dirTrace]; rfl

theorem dirTrace_append (ds1 ds2 : List Dir) (s : CState) :
    dirTrace (ds1 ++ ds2) s = (dirTrace ds1 s).andThen (fun r1 s1 =>
      (dirTrace ds2 s1).andThen (fun r2 s2 => Res.ok (r1 ++ r2) s2)) := by
  induction ds1 generalizing s with
  | nil =>
    simp only [List.nil_append, dirTrace_nil, Res.andThen_ok]
    cases dirTrace ds2 s <;> rfl
  | cons d ds ih =>
    simp only [List.cons_append, dirTrace_cons]
    cases h : dirStep d s with
    | ok a s1 =>
      simp only [ih s1, Res.andThen_ok]
      cases h1 : dirTrace ds s1 with
      | ok r1 s2 =>
        simp only [Res.andThen_ok]
        cases h2 : dirTrace ds2 s2 <;> simp
      | fatal e s2 => rfl
      | nofuel => rfl
    | fatal e s1 => rfl
    | nofuel => rfl

theorem dirRun_of_trace (ds : List Dir) (s s1 : CState) (r : List Bool)
    (h : dirTrace ds s = Res.ok r s1) : dirRun ds s = Res.ok () s1 := by
  induction ds generalizing s r s1 with
  | nil => simp only [dirTrace_nil, Res.ok.injEq] at h; rw [dirRun_nil, h.2]
  | cons d ds ih =>
    rw [dirTrace_cons] at h
    rw [dirRun_cons]
    obtain ⟨a, s2, hd, h⟩ := Res.andThen_eq_ok h
    obtain ⟨r2, s3, ht, h⟩ := Res.andThen_eq_ok h
    simp only [Res.ok.injEq] at h
    obtain ⟨_, h2⟩ := h
    subst h2
    rw [hd, Res.andThen_ok]
    exact ih s2 s3 r2 ht

theorem phase_elif (t els : Int) (n : Nat) (ht : 0 ≤ t) (ph : Phase) (c : Bool) :
    dirStep (Dir.elif c) (ph.state t els n) =
      Res.ok () ((ph.next c).state t els (n + if ph = Phase.pending then 1 else 0)) := by
  rw [dirStep_eq]
  cases ph <;> cases c <;> simp [Phase.state, Phase.next, stepSpec] <;> omega

theorem phase_if (t els : Int) (n : Nat) (c : Bool) :
    dirStep (Dir.if_ c) ⟨⟨t, 0, 0, els⟩, n⟩ =
      Res.ok () ((Phase.pending.next c).state t els (n + 1)) := by
  rw [dirStep_eq]
  cases c <;> simp [Phase.state, Phase.next, stepSpec]

theorem phase_flslvl (t els : Int) (n : Nat) (ph : Phase) :
    decide ((ph.state t els n).cond.flslvl = 0) = decide (ph = Phase.active) := by
  cases ph <;> simp [Phase.state]

theorem phase_elifs (t els : Int) (ht : 0 ≤ t) (cs : List Bool) :
    ∀ (ph : Phase) (n : Nat), dirTrace (cs.map Dir.elif) (ph.state t els n) =
      Res.ok (ph.flags cs) ((cs.foldl Phase.next ph).state t els (n + ph.evals cs)) := by
  induction cs with
  | nil => intro ph n; rfl
  | cons c cs ih =>
    intro ph n
    simp only [List.map_cons, dirTrace_cons, phase_elif t els n ht, ih, List.foldl_cons,
      Phase.flags, Phase.evals, phase_flslvl, Nat.add_assoc, Res.andThen_ok]

theorem phase_chain (t els : Int) (n : Nat) (ht : 0 ≤ t) (c1 : Bool) (cs : List Bool) :
    dirTrace (chain c1 cs) ⟨⟨t, 0, 0, els⟩, n⟩ =
      Res.ok (Phase.pending.flags (c1 :: cs))
        (((c1 :: cs).foldl Phase.next Phase.pending).state t els
          (n + Phase.pending.evals (c1 :: cs))) := by
  simp only [chain, dirTrace_cons, phase_if, phase_elifs t els ht, List.foldl_cons,
    Phase.flags, Phase.evals, phase_flslvl, Nat.add_assoc, if_true, Res.andThen_ok]

theorem phase_else (t els : Int) (n : Nat) (ht : 0 ≤ t) (he : els ≤ t) (ph : Phase) :
    ∃ s1, dirStep Dir.else_ (ph.state t els n) = Res.ok () s1 ∧ s1.evals = n ∧
      decide (s1.cond.flslvl = 0) = decide (ph = Phase.pending) ∧
      (s1.cond.flslvl ≠ 0 ∨ s1.cond.trulvl ≠ 0) := by
  rw [dirStep_eq]
  cases ph <;> simp only [Phase.state, stepSpec] <;> split_ifs <;>
    first
      | omega
      | (refine ⟨_, rfl, rfl, ?_, ?_⟩
         · simp
         · simp only; omega)

theorem endif_ok (s : CState) (h : s.cond.flslvl ≠ 0 ∨ s.cond.trulvl ≠ 0) :
    ∃ s1, dirStep Dir.endif s = Res.ok () s1 ∧ s1.evals = s.evals := by
  obtain ⟨⟨t, f, elf, els⟩, n⟩ := s
  rw [dirStep_eq]
  simp only at h
  simp only [stepSpec]
  split_ifs <;>
    first
      | omega
      | exact ⟨_, rfl, rfl⟩

theorem phase_evals (t els : Int) (n : Nat) (ph : Phase) : (ph.state t els n).evals = n := by
  cases ph <;> rfl

theorem phase_open (t els : Int) (n : Nat) (ht : 0 ≤ t) (ph : Phase) :
    (ph.state t els n).cond.flslvl ≠ 0 ∨ (ph.state t els n).cond.trulvl ≠ 0 := by
  cases ph <;> simp only [Phase.state] <;> omega

theorem oneHot_succ (k len : Nat) : oneHot (k + 1) (len + 1) = false :: oneHot k len := by
  simp only [oneHot, List.range_succ_eq_map, List.map_cons, List.map_map]
  refine congrArg₂ _ (by simp) (List.map_congr_left ?_)
  intro i _
  simp

theorem oneHot_zero (len : Nat) : oneHot 0 (len + 1) = true :: List.replicate len false := by
  simp only [oneHot, List.range_succ_eq_map, List.map_cons, List.map_map]
  refine congrArg₂ _ (by simp) ?_
  rw [List.eq_replicate_iff]
  simp

theorem flags_done (cs : List Bool) : Phase.done.flags cs = List.replicate cs.length false := by
  induction cs with
  | nil => rfl
  | cons c cs ih => simp [Phase.flags, Phase.next, ih, List.replicate_succ]

theorem foldl_done (cs : List Bool) : cs.foldl Phase.next Phase.done = Phase.done := by
  induction cs with
  | nil => rfl
  | cons c cs ih => simpa [Phase.next] using ih

theorem evals_done (cs : List Bool) : Phase.done.evals cs = 0 := by
  induction cs with
  | nil => rfl
  | cons c cs ih => simp [Phase.evals, Phase.next, ih]

theorem flags_active (cs : List Bool) :
    Phase.active.flags cs = List.replicate cs.length false := by
  cases cs with
  | nil => rfl
  | cons c cs => simp [Phase.flags, Phase.next, flags_done, List.replicate_succ]

theorem evals_active (cs : List Bool) : Phase.active.evals cs = 0 := by
  cases cs with
  | nil => rfl
  | cons c cs => simp [Phase.evals, Phase.next, evals_done]

theorem foldl_active_ne (cs : List Bool) :
    cs.foldl Phase.next Phase.active ≠ Phase.pending := by
  cases cs with
  | nil => simp
  | cons c cs => simp [Phase.next, foldl_done]

/-- With the `#else` branch appended, the activity flags of a chain are true
exactly at the first true condition, or at the `#else` when none is true. -/
theorem flags_pending (cs : List Bool) :
    Phase.pending.flags cs ++ [decide (cs.foldl Phase.next Phase.pending = Phase.pending)] =
      oneHot (firstTrue cs) (cs.length + 1) := by
  induction cs with
  | nil => rfl
  | cons c cs ih =>
    cases c with
    | false =>
      simp only [Phase.flags, Phase.next, List.foldl_cons, firstTrue, List.length_cons,
        oneHot_succ, List.cons_append, ih]
      simp
    | true =>
      simp only [Phase.flags, Phase.next, List.foldl_cons, firstTrue, List.length_cons,
        oneHot_zero, List.cons_append, flags_active, foldl_active_ne]
      simp [List.replicate_succ']

theorem flags_pending_noelse (cs : List Bool) :
    Phase.pending.flags cs = oneHot (firstTrue cs) cs.length := by
  induction cs with
  | nil => rfl
  | cons c cs ih =>
    cases c with
    | false =>
      simp only [Phase.flags, Phase.next, firstTrue, List.length_cons, oneHot_succ, ih]
      simp
    | true =>
      simp only [Phase.flags, Phase.next, firstTrue, List.length_cons, oneHot_zero,
        flags_active]
      simp

theorem evals_pending (cs : List Bool) :
    Phase.pending.evals cs = min (firstTrue cs + 1) cs.length := by
  induction cs with
  | nil => rfl
  | cons c cs ih =>
    cases c with
    | false =>
      simp only [Phase.evals, Phase.next, firstTrue, List.length_cons, ih, if_true]
      omega
    | true =>
      simp only [Phase.evals, Phase.next, firstTrue, List.length_cons, evals_active, if_true]
      omega

/-- C2. Exactly one branch of a flat chain is active: processed from a
reachable state with `flslvl = 0`, the chain `#if c1`, `#elif c2`, ...,
`#elif cn`, `#else` has `flslvl = 0` after exactly one of its `n + 1` branch
directives, the one of the first true condition, or `#else` when no condition
is true; without the `#else` the only active branch is that of the first true
condition, if there is one. -/
theorem one_branch_active (c : Cond) (n : Nat) (hr : Reachable c) (hf : c.flslvl = 0)
    (c1 : Bool) (cs : List Bool) :
    (∃ s1, dirTrace (chain c1 cs ++ [Dir.else_]) ⟨c, n⟩ =
      Res.ok (oneHot (firstTrue (c1 :: cs)) (cs.length + 2)) s1) ∧
    (∃ s1, dirTrace (chain c1 cs) ⟨c, n⟩ =
      Res.ok (oneHot (firstTrue (c1 :: cs)) (cs.length + 1)) s1) := by
  have hi := condInv_of_reachable c hr
  obtain ⟨t, f, elf, els⟩ := c
  unfold CondInv at hi
  simp only at hf hi
  subst hf
  have helf : elf = 0 := by omega
  subst helf
  have hc := phase_chain t els n hi.1 c1 cs
  constructor
  · obtain ⟨s1, h1, _, h3, _⟩ := phase_else t els (n + Phase.pending.evals (c1 :: cs)) hi.1
      (by omega) ((c1 :: cs).foldl Phase.next Phase.pending)
    refine ⟨s1, ?_⟩
    rw [dirTrace_append, hc]
    simp only [dirTrace_cons, dirTrace_nil, h1, Res.andThen_ok, h3]
    rw [flags_pending (c1 :: cs)]
    rfl
  · exact ⟨_, by rw [hc, flags_pending_noelse (c1 :: cs)]; rfl⟩

theorem one_branch_active_witness :
    (∃ s1, dirTrace (chain false [false, true, true] ++ [Dir.else_]) CState.zero =
      Res.ok [false, false, true, false, false] s1) ∧
    (∃ s1, dirTrace (chain false [false, true, true]) CState.zero =
      Res.ok [false, false, true, false] s1) :=
  one_branch_active ⟨0, 0, 0, 0⟩ 0 ⟨[], 0, rfl⟩ rfl false [false, true, true]

/-- C3. Conditions after a taken branch are not evaluated: over the flat chain
`#if c1`, `#elif c2`, ..., `#elif cn` processed from a reachable state with
`flslvl = 0`, closed by `#endif` with or without `#else`, `exprline` is called
as many times as the 1-based index of the first true condition, or `n` times
when none is true; and from a state with `flslvl > 0` no well-nested sequence
calls it at all. -/
theorem elif_evaluation_count (c : Cond) (n : Nat) (hr : Reachable c) (c1 : Bool)
    (cs : List Bool) :
    (c.flslvl = 0 →
      (∃ s1, dirRun (chain c1 cs ++ [Dir.else_, Dir.endif]) ⟨c, n⟩ = Res.ok () s1 ∧
        s1.evals = n + min (firstTrue (c1 :: cs) + 1) (cs.length + 1)) ∧
      (∃ s1, dirRun (chain c1 cs ++ [Dir.endif]) ⟨c, n⟩ = Res.ok () s1 ∧
        s1.evals = n + min (firstTrue (c1 :: cs) + 1) (cs.length + 1))) ∧
    (1 ≤ c.flslvl → ∀ ds : List Dir, wellNested ds = true →
      ∃ s1, dirRun ds ⟨c, n⟩ = Res.ok () s1 ∧ s1.evals = n) := by
  have hi := condInv_of_reachable c hr
  constructor
  · intro hf
    obtain ⟨t, f, elf, els⟩ := c
    unfold CondInv at hi
    simp only at hf hi
    subst hf
    have helf : elf = 0 := by omega
    subst helf
    have hc := dirRun_of_trace _ _ _ _ (phase_chain t els n hi.1 c1 cs)
    have hev := evals_pending (c1 :: cs)
    simp only [List.length_cons] at hev
    constructor
    · obtain ⟨s1, h1, h2, _, h4⟩ := phase_else t els (n + Phase.pending.evals (c1 :: cs)) hi.1
        (by omega) ((c1 :: cs).foldl Phase.next Phase.pending)
      obtain ⟨s2, h5, h6⟩ := endif_ok s1 h4
      refine ⟨s2, ?_, by rw [h6, h2, hev]⟩
      rw [dirRun_append, hc]
      simp only [Res.andThen_ok, dirRun_cons, dirRun_nil, h1, h5]
    · obtain ⟨s1, h1, h2⟩ := endif_ok _ (phase_open t els (n + Phase.pending.evals (c1 :: cs))
        hi.1 ((c1 :: cs).foldl Phase.next Phase.pending))
      refine ⟨s1, ?_, by rw [h2, phase_evals, hev]⟩
      rw [dirRun_append, hc]
      simp only [Res.andThen_ok, dirRun_cons, dirRun_nil, h1]
  · intro hf ds hw
    obtain ⟨s1, h1, _, _, h4⟩ :=
      bal_run c.trulvl c.flslvl n hi.1 ds [] ⟨c, n⟩ hw (bal_init c n hi)
    exact ⟨s1, h1, h4 hf⟩

theorem elif_evaluation_count_witness :
    (((0 : Int) = 0 →
      (∃ s1, dirRun (chain false [false, true, true] ++ [Dir.else_, Dir.endif]) CState.zero =
          Res.ok () s1 ∧ s1.evals = 0 + min (firstTrue [false, false, true, true] + 1) (3 + 1)) ∧
      (∃ s1, dirRun (chain false [false, true, true] ++ [Dir.endif]) CState.zero =
          Res.ok () s1 ∧ s1.evals = 0 + min (firstTrue [false, false, true, true] + 1) (3 + 1))) ∧
    ((1 : Int) ≤ 0 → ∀ ds : List Dir, wellNested ds = true →
      ∃ s1, dirRun ds CState.zero = Res.ok () s1 ∧ s1.evals = 0)) ∧
    (Reachable ⟨0, 1, 0, 0⟩ ∧ ∃ s1,
      dirRun [Dir.if_ true, Dir.elif true, Dir.else_, Dir.endif] ⟨⟨0, 1, 0, 0⟩, 1⟩ =
        Res.ok () s1 ∧ s1.evals = 1) :=
  ⟨elif_evaluation_count ⟨0, 0, 0, 0⟩ 0 ⟨[], 0, rfl⟩ false [false, true, true],
    ⟨[Dir.if_ false], 1, rfl⟩,
    (elif_evaluation_count ⟨0, 1, 0, 0⟩ 1 ⟨[Dir.if_ false], 1, rfl⟩ true []).2 (by decide) _
      (by decide)⟩

/-- C4. The sequence `#if 1`, `#else`, `#if 1`, `#endif`, `#else`, `#endif`
has two `#else` for its outer `#if`, yet it is processed without any fatal
error: the `#endif` of the nested block has reset `elslvl`, so the second
`#else` is not recognised as a duplicate (and is taken as a branch). -/
theorem duplicate_else_after_nested_block_accepted :
    dirRun [Dir.if_ true, Dir.else_, Dir.if_ true, Dir.endif, Dir.else_, Dir.endif]
        CState.zero = Res.ok () ⟨⟨0, 0, 0, 0⟩, 1⟩ ∧
    dirRun [Dir.if_ true, Dir.else_, Dir.if_ true, Dir.endif, Dir.else_] CState.zero =
      Res.ok () ⟨⟨1, 0, 0, 1⟩, 1⟩ ∧
    dirRun [Dir.if_ true, Dir.else_, Dir.else_] CState.zero =
      Res.fatal Err.tooManyElse ⟨⟨1, 0, 0, 1⟩, 1⟩ := by
  decide

/-- C5. With no conditional open (`trulvl = 0` and `flslvl = 0`) each of
`#else`, `#elif` and `#endif` raises its fatal error and leaves both levels at
zero; with `trulvl + flslvl > 0`, `#endif` raises no error and decrements
`flslvl` by one if it is nonzero, and otherwise `trulvl` by one. -/
theorem unmatched_directives_fatal (c : Cond) (n : Nat) (b : Bool) :
    (c.trulvl = 0 → c.flslvl = 0 →
      (∃ s1, dirStep Dir.else_ ⟨c, n⟩ = Res.fatal Err.elseNonCond s1 ∧
        s1.cond.trulvl = 0 ∧ s1.cond.flslvl = 0) ∧
      (∃ s1, dirStep (Dir.elif b) ⟨c, n⟩ = Res.fatal Err.elifNonCond s1 ∧
        s1.cond.trulvl = 0 ∧ s1.cond.flslvl = 0) ∧
      (∃ s1, dirStep Dir.endif ⟨c, n⟩ = Res.fatal Err.endifNonCond s1 ∧
        s1.cond.trulvl = 0 ∧ s1.cond.flslvl = 0)) ∧
    (0 < c.trulvl + c.flslvl →
      ∃ s1, dirStep Dir.endif ⟨c, n⟩ = Res.ok () s1 ∧
        (c.flslvl ≠ 0 → s1.cond.flslvl = c.flslvl - 1 ∧ s1.cond.trulvl = c.trulvl) ∧
        (c.flslvl = 0 → s1.cond.flslvl = 0 ∧ s1.cond.trulvl = c.trulvl - 1)) := by
  obtain ⟨t, f, elf, els⟩ := c
  simp only [dirStep_eq]
  constructor
  · intro ht hf
    subst ht hf
    simp [stepSpec]
  · intro h
    simp only [stepSpec]
    split_ifs <;>
      first
        | omega
        | (refine ⟨_, rfl, ?_, ?_⟩ <;> simp only <;> intro h1 <;> constructor <;>
             trivial)

theorem unmatched_directives_fatal_witness :
    ((∃ s1, dirStep Dir.else_ CState.zero = Res.fatal Err.elseNonCond s1 ∧
        s1.cond.trulvl = 0 ∧ s1.cond.flslvl = 0) ∧
      (∃ s1, dirStep (Dir.elif true) CState.zero = Res.fatal Err.elifNonCond s1 ∧
        s1.cond.trulvl = 0 ∧ s1.cond.flslvl = 0) ∧
      (∃ s1, dirStep Dir.endif CState.zero = Res.fatal Err.endifNonCond s1 ∧
        s1.cond.trulvl = 0 ∧ s1.cond.flslvl = 0)) ∧
    (∃ s1, dirStep Dir.endif ⟨⟨2, 1, 0, 0⟩, 0⟩ = Res.ok () s1 ∧
        ((1 : Int) ≠ 0 → s1.cond.flslvl = 1 - 1 ∧ s1.cond.trulvl = 2) ∧
        ((1 : Int) = 0 → s1.cond.flslvl = 0 ∧ s1.cond.trulvl = 2 - 1)) :=
  ⟨(unmatched_directives_fatal ⟨0, 0, 0, 0⟩ 0 true).1 rfl rfl,
    (unmatched_directives_fatal ⟨2, 1, 0, 0⟩ 0 true).2 (by decide)⟩

/-! ## Raw input and pushback in terms of the pending input -/

theorem slice_cons_of_lt (m : List Int) (p n : Nat) (h : p < m.length) :
    slice m p (n + 1) = m.getD p 0 :: slice m (p + 1) n := by
  unfold slice
  rw [List.drop_eq_getElem_cons h, List.take_succ_cons, List.getD_eq_getElem _ _ h]

theorem slice_zero (m : List Int) (p : Nat) : slice m p 0 = [] := by
  simp [slice]

theorem inpch_of_buffered (E : Env) (s : St) (h : s.ifiles.curptr < s.ifiles.maxread) :
    inpch E s = Res.ok (memGet s.ifiles.mem s.ifiles.curptr)
      { s with ifiles := { s.ifiles with curptr := s.ifiles.curptr + 1 } } := by
  simp [inpch, inpchLoop, h]

theorem pending_of_buffered (f : includ) (h0 : 0 ≤ f.curptr) (h : f.curptr < f.maxread)
    (hm : f.maxread ≤ f.mem.length) :
    pending f = memGet f.mem f.curptr :: pending { f with curptr := f.curptr + 1 } := by
  obtain ⟨cn, hcn⟩ := Int.eq_ofNat_of_zero_le h0
  obtain ⟨k, hk⟩ : ∃ k : Nat, f.maxread - f.curptr = (k + 1 : Nat) :=
    ⟨(f.maxread - f.curptr - 1).toNat, by omega⟩
  have h1 : ((f.maxread - (f.curptr + 1)).toNat) = k := by omega
  have h2 : (f.curptr + 1).toNat = cn + 1 := by omega
  have h3 : f.curptr.toNat = cn := by omega
  have h4 : cn < f.mem.length := by omega
  simp only [pending, hk, Int.toNat_ofNat, h1, h2, h3, memGet, h0, if_true]
  rw [slice_cons_of_lt _ _ _ h4]
  rfl

theorem inpch_at_end (E : Env) (s : St) (h : ¬ s.ifiles.curptr < s.ifiles.maxread)
    (ho : s.ifiles.infil ≠ -1) (hf : s.ifiles.file = []) : inpch E s = Res.ok (-1) s := by
  simp [inpch, inpchLoop, inpbuf, h, ho, hf]

/-- The storage after `inpbuf` has read the bytes `bs` to `buffer`. -/
theorem mem_after_read (m : List Int) (b : Nat) (bs : List Int)
    (h : b + bs.length < m.length) :
    memSet (memCopy m b bs) ((b : Int) + bs.length) 0 =
      m.take b ++ bs ++ 0 :: m.drop (b + bs.length + 1) := by
  have h1 : (0 : Int) ≤ b := Int.ofNat_nonneg b
  have h2 : (0 : Int) ≤ (b : Int) + bs.length := by omega
  have h3 : ((b : Int) + bs.length).toNat = b + bs.length := by omega
  simp only [memSet, memCopy, h1, h2, if_true, Int.toNat_ofNat, h3]
  have h4 : (m.take b ++ bs).length = b + bs.length := by
    simp [List.length_take]; omega
  rw [← h4, List.set_append_right _ _ (Nat.le_refl _), Nat.sub_self]
  rw [h4]
  have h5 : m.drop (b + bs.length) = m.getD (b + bs.length) 0 :: m.drop (b + bs.length + 1) := by
    rw [List.drop_eq_getElem_cons h, List.getD_eq_getElem _ _ h]
  rw [h5]
  rfl

theorem slice_after_read (m : List Int) (b : Nat) (bs tl : List Int) (h : b ≤ m.length) :
    slice (m.take b ++ bs ++ tl) b bs.length = bs := by
  unfold slice
  have h1 : (m.take b).length = b := by simp [List.length_take]; omega
  rw [List.append_assoc, List.drop_append_of_le_length (by omega), List.drop_of_length_le (by omega),
    List.nil_append, List.take_left']
  rfl

theorem inpch_of_read (E : Env) (s : St) (h : ¬ s.ifiles.curptr < s.ifiles.maxread)
    (ho : s.ifiles.infil ≠ -1) (hs : 0 < E.CPPBUF) (hf : s.ifiles.file ≠ []) :
    inpch E s =
      Res.ok (memGet (memSet (memCopy s.ifiles.mem s.ifiles.buffer
            (s.ifiles.file.take (min E.CPPBUF s.ifiles.file.length)))
            (s.ifiles.buffer + (min E.CPPBUF s.ifiles.file.length : Nat)) 0) s.ifiles.buffer)
        { s with ifiles := { s.ifiles with
            mem := memSet (memCopy s.ifiles.mem s.ifiles.buffer
              (s.ifiles.file.take (min E.CPPBUF s.ifiles.file.length)))
              (s.ifiles.buffer + (min E.CPPBUF s.ifiles.file.length : Nat)) 0
            curptr := s.ifiles.buffer + 1
            maxread := s.ifiles.buffer + (min E.CPPBUF s.ifiles.file.length : Nat)
            file := s.ifiles.file.drop (min E.CPPBUF s.ifiles.file.length) } } := by
  have hl : 0 < s.ifiles.file.length := List.length_pos.mpr hf
  have hlen : 0 < min E.CPPBUF s.ifiles.file.length := by omega
  have hlen' : (0 : Int) < (min E.CPPBUF s.ifiles.file.length : Nat) := by omega
  simp only [inpch, inpchLoop, inpbuf, M.bind_eq, M.andThen_apply, frame_apply, Res.andThen_ok,
    M.ite_apply, h, if_false, ho, hlen, if_true, modFrame_apply, M.pure_eq, M.ret_apply, gt_iff_lt,
    hlen', lt_add_iff_pos_right]

theorem length_after_read (m : List Int) (b : Nat) (bs : List Int)
    (h : b + bs.length < m.length) :
    (memSet (memCopy m b bs) ((b : Int) + bs.length) 0).length = m.length := by
  rw [mem_after_read m b bs h]
  simp [List.length_take]
  omega

/-- Reading a raw character: `inpch` returns the first pending character and
leaves the rest pending, with room to push one character back. -/
theorem inpch_cons (E : Env) (s : St) (c : Int) (rest : List Int) (r r1 : Int)
    (h : Rd E s (c :: rest) r) (hr1 : r1 ≤ r + 1) (hr2 : r1 ≤ s.ifiles.buffer + 1) :
    ∃ s1, inpch E s = Res.ok c s1 ∧ s1.strip = s.strip ∧ Rd E s1 rest r1 := by
  obtain ⟨hok, hp, hr⟩ := h
  by_cases hlt : s.ifiles.curptr < s.ifiles.maxread
  · have hpb := pending_of_buffered s.ifiles hok.cur hlt hok.maxlen
    rw [hp] at hpb
    simp only [List.cons.injEq] at hpb
    refine ⟨{ s with ifiles := { s.ifiles with curptr := s.ifiles.curptr + 1 } }, ?_, rfl,
      ⟨?_, hpb.2.symm, ?_⟩⟩
    · rw [inpch_of_buffered E s hlt, hpb.1]
    · exact
        { opened := hok.opened, size := hok.size, buf := hok.buf,
          cur := by show 0 ≤ s.ifiles.curptr + 1; have := hok.cur; omega,
          curmax := by show s.ifiles.curptr + 1 ≤ s.ifiles.maxread; omega,
          bufmax := hok.bufmax, maxlen := hok.maxlen, fits := hok.fits,
          bytes := fun b hb => hok.bytes b (by
            rw [hp]; exact List.mem_cons_of_mem _ (by rw [hpb.2]; exact hb)) }
    · show r1 ≤ s.ifiles.curptr + 1
      omega
  · have hce : s.ifiles.curptr = s.ifiles.maxread := by have := hok.curmax; omega
    have hfile : s.ifiles.file = c :: rest := by
      rw [← hp]
      simp [pending, hce, slice_zero]
    have hne : s.ifiles.file ≠ [] := by rw [hfile]; simp
    obtain ⟨bn, hbn⟩ := Int.eq_ofNat_of_zero_le hok.buf
    have hlen : (s.ifiles.file.take (min E.CPPBUF s.ifiles.file.length)).length =
        min E.CPPBUF s.ifiles.file.length := by simp [List.length_take]
    have hfit : bn + (s.ifiles.file.take (min E.CPPBUF s.ifiles.file.length)).length <
        s.ifiles.mem.length := by
      rw [hlen]; have := hok.fits; omega
    have hpos : 0 < min E.CPPBUF s.ifiles.file.length := by
      have := hok.size
      have : 0 < s.ifiles.file.length := List.length_pos.mpr hne
      omega
    have hmem := mem_after_read s.ifiles.mem bn _ hfit
    have hmlen := length_after_read s.ifiles.mem bn _ hfit
    rw [hlen] at hmem hmlen
    have hpg := pending_of_buffered
      { s.ifiles with
        mem := memSet (memCopy s.ifiles.mem s.ifiles.buffer
          (s.ifiles.file.take (min E.CPPBUF s.ifiles.file.length)))
          (s.ifiles.buffer + (min E.CPPBUF s.ifiles.file.length : Nat)) 0
        curptr := s.ifiles.buffer
        maxread := s.ifiles.buffer + (min E.CPPBUF s.ifiles.file.length : Nat)
        file := s.ifiles.file.drop (min E.CPPBUF s.ifiles.file.length) }
      hok.buf (by show s.ifiles.buffer < s.ifiles.buffer + _; omega)
      (by show s.ifiles.buffer + _ ≤ _; rw [hbn, hmlen]; have := hok.fits; omega)
    have hpg0 : pending
      { s.ifiles with
        mem := memSet (memCopy s.ifiles.mem s.ifiles.buffer
          (s.ifiles.file.take (min E.CPPBUF s.ifiles.file.length)))
          (s.ifiles.buffer + (min E.CPPBUF s.ifiles.file.length : Nat)) 0
        curptr := s.ifiles.buffer
        maxread := s.ifiles.buffer + (min E.CPPBUF s.ifiles.file.length : Nat)
        file := s.ifiles.file.drop (min E.CPPBUF s.ifiles.file.length) } = c :: rest := by
      simp only [pending]
      rw [hbn, hmem]
      have h1 : ((bn : Int) + (min E.CPPBUF s.ifiles.file.length : Nat) - bn).toNat =
          (s.ifiles.file.take (min E.CPPBUF s.ifiles.file.length)).length := by
        rw [hlen]; omega
      rw [Int.toNat_ofNat, h1, slice_after_read _ _ _ _ (by omega), List.take_append_drop, hfile]
    rw [hpg0] at hpg
    simp only [List.cons.injEq] at hpg
    refine ⟨{ s with ifiles := { s.ifiles with
        mem := memSet (memCopy s.ifiles.mem s.ifiles.buffer
          (s.ifiles.file.take (min E.CPPBUF s.ifiles.file.length)))
          (s.ifiles.buffer + (min E.CPPBUF s.ifiles.file.length : Nat)) 0
        curptr := s.ifiles.buffer + 1
        maxread := s.ifiles.buffer + (min E.CPPBUF s.ifiles.file.length : Nat)
        file := s.ifiles.file.drop (min E.CPPBUF s.ifiles.file.length) } }, ?_, rfl,
      ⟨?_, hpg.2.symm, ?_⟩⟩
    · rw [inpch_of_read E s hlt hok.opened hok.size hne, hpg.1]
    · exact
        { opened := hok.opened, size := hok.size, buf := hok.buf,
          cur := by show 0 ≤ s.ifiles.buffer + 1; have := hok.buf; omega,
          curmax := by show s.ifiles.buffer + 1 ≤ s.ifiles.buffer + _; omega,
          bufmax := by show s.ifiles.buffer ≤ s.ifiles.buffer + _; omega,
          maxlen := by
            show s.ifiles.buffer + _ ≤ _
            rw [hbn, hmlen]; have := hok.fits; omega,
          fits := by
            show s.ifiles.buffer + _ < _
            rw [hbn, hmlen]; have := hok.fits; omega,
          bytes := fun b hb => hok.bytes b (by
            rw [hp]; exact List.mem_cons_of_mem _ (by rw [hpg.2]; exact hb)) }
    · show r1 ≤ s.ifiles.buffer + 1
      exact hr2

/-- At the end of the input `inpch` returns -1 and changes nothing. -/
theorem inpch_nil (E : Env) (s : St) (r : Int) (h : Rd E s [] r) :
    inpch E s = Res.ok (-1) s := by
  obtain ⟨hok, hp, _⟩ := h
  have h1 : s.ifiles.file = [] := by
    simp only [pending, List.append_eq_nil] at hp
    exact hp.2
  have h2 : ¬ s.ifiles.curptr < s.ifiles.maxread := by
    intro hlt
    have := pending_of_buffered s.ifiles hok.cur hlt hok.maxlen
    rw [hp] at this
    cases this
  exact inpch_at_end E s h2 hok.opened h1

@[simp] theorem unch_eof (s : St) : unch (-1) s = Res.ok () s := by
  simp [unch]

theorem unch_of_room (s : St) (c : Int) (hc : c ≠ -1) (h : 1 ≤ s.ifiles.curptr) :
    unch c s = Res.ok ()
      { s with ifiles := { s.ifiles with
          curptr := s.ifiles.curptr - 1
          mem := memSet s.ifiles.mem (s.ifiles.curptr - 1) (c % 256) } } := by
  have h1 : ¬ s.ifiles.curptr - 1 < bbuf := by unfold bbuf; omega
  simp [unch, hc, h1]

theorem slice_set_lt (m : List Int) (i p n : Nat) (v : Int) (h : i < p) :
    slice (m.set i v) p n = slice m p n := by
  unfold slice
  rw [List.drop_set_of_lt v m h]

/-- Pushing a byte back: it becomes the first pending character. -/
theorem unch_ok (E : Env) (s : St) (c : Int) (p : List Int) (r : Int) (h : Rd E s p r)
    (hr : 1 ≤ r) (hc0 : 0 ≤ c) (hc1 : c < 256) :
    ∃ s1, unch c s = Res.ok () s1 ∧ s1.strip = s.strip ∧ Rd E s1 (c :: p) (r - 1) := by
  obtain ⟨hok, hp, hrc⟩ := h
  have hcur : 1 ≤ s.ifiles.curptr := by omega
  have hmod : c % 256 = c := Int.emod_eq_of_lt hc0 hc1
  obtain ⟨cn, hcn⟩ : ∃ cn : Nat, s.ifiles.curptr = (cn + 1 : Nat) :=
    ⟨(s.ifiles.curptr - 1).toNat, by omega⟩
  have hlen : cn < s.ifiles.mem.length := by
    have := hok.curmax; have := hok.maxlen; omega
  have hidx : (s.ifiles.curptr - 1).toNat = cn := by omega
  have hnn : (0 : Int) ≤ s.ifiles.curptr - 1 := by omega
  have hpf : pending { s.ifiles with
      curptr := s.ifiles.curptr - 1
      mem := memSet s.ifiles.mem (s.ifiles.curptr - 1) (c % 256) } = c :: p := by
    rw [pending_of_buffered _ hnn (by show s.ifiles.curptr - 1 < s.ifiles.maxread
                                      have := hok.curmax; omega)
      (by show s.ifiles.maxread ≤ (memSet _ _ _).length
          simp only [memSet, hnn, if_true, List.length_set]; exact hok.maxlen)]
    congr 1
    · simp only [memGet, memSet, hnn, if_true, hidx, hmod]
      rw [List.getD_eq_getElem _ _ (by simpa using hlen)]
      simp
    · rw [← hp]
      simp only [pending, memSet, hnn, if_true, hidx, sub_add_cancel]
      rw [slice_set_lt _ _ _ _ _ (by omega)]
  refine ⟨{ s with ifiles := { s.ifiles with
      curptr := s.ifiles.curptr - 1
      mem := memSet s.ifiles.mem (s.ifiles.curptr - 1) (c % 256) } },
    unch_of_room s c (by omega) hcur, rfl, ⟨?_, hpf, ?_⟩⟩
  · exact
      { opened := hok.opened, size := hok.size, buf := hok.buf,
        cur := hnn,
        curmax := by show s.ifiles.curptr - 1 ≤ s.ifiles.maxread; have := hok.curmax; omega,
        bufmax := hok.bufmax,
        maxlen := by
          show s.ifiles.maxread ≤ (memSet _ _ _).length
          simp only [memSet, hnn, if_true, List.length_set]; exact hok.maxlen,
        fits := by
          show s.ifiles.buffer + _ < (memSet _ _ _).length
          simp only [memSet, hnn, if_true, List.length_set]; exact hok.fits,
        bytes := fun b hb => by
          have hb' : b ∈ c :: p := by rw [← hpf]; exact hb
          rcases List.mem_cons.mp hb' with h1 | h1
          · rw [h1]; exact ⟨hc0, hc1⟩
          · exact hok.bytes b (by rw [hp]; exact h1) }
  · show r - 1 ≤ s.ifiles.curptr - 1
    omega

theorem Rd.byte {E : Env} {s : St} {c : Int} {p : List Int} {r : Int} (h : Rd E s (c :: p) r) :
    0 ≤ c ∧ c < 256 :=
  h.1.bytes c (by rw [h.2.1]; exact List.mem_cons_self _ _)

theorem Rd.mono {E : Env} {s : St} {p : List Int} {r r1 : Int} (h : Rd E s p r) (hr : r1 ≤ r) :
    Rd E s p r1 :=
  ⟨h.1, h.2.1, by have := h.2.2; omega⟩

/-! ## The phase 1 and phase 2 decoders in terms of the pending input -/

theorem chktg_other (E : Env) (s : St) (d : Int) (rest : List Int) (r r1 : Int)
    (h : Rd E s (d :: rest) r) (hd : d ≠ 63) (hr0 : 0 ≤ r1) (hr1 : r1 ≤ r)
    (hr2 : r1 ≤ s.ifiles.buffer) :
    ∃ s1, chktg E s = Res.ok 0 s1 ∧ s1.strip = s.strip ∧ Rd E s1 (d :: rest) r1 := by
  have hb := h.byte
  obtain ⟨s1, h1, hs1, hr⟩ := inpch_cons E s d rest r (r1 + 1) h (by omega) (by omega)
  obtain ⟨s2, h2, hs2, hr'⟩ := unch_ok E s1 d rest (r1 + 1) hr (by omega) hb.1 hb.2
  refine ⟨s2, ?_, hs2.trans hs1, by simpa using hr'⟩
  simp [chktg, h1, hd, h2]

theorem chktg_nil (E : Env) (s : St) (r : Int) (h : Rd E s [] r) :
    chktg E s = Res.ok 0 s := by
  simp [chktg, inpch_nil E s r h]

theorem buffer_of_strip {s s1 : St} (h : s1.strip = s.strip) :
    s1.ifiles.buffer = s.ifiles.buffer := by
  have := congrArg (fun t => t.ifiles.buffer) h
  exact this

theorem chktg_trigraph (E : Env) (s : St) (x y : Int) (rest : List Int) (r r1 : Int)
    (h : Rd E s (63 :: x :: rest) r) (hxy : (x, y) ∈ trigraphTable) (hr1 : r1 ≤ r + 2)
    (hr2 : r1 ≤ s.ifiles.buffer + 1) :
    ∃ s1, chktg E s = Res.ok y s1 ∧ s1.strip = s.strip ∧ Rd E s1 rest r1 := by
  obtain ⟨s1, h1, hs1, hr⟩ := inpch_cons E s 63 (x :: rest) r (r1 - 1) h (by omega) (by omega)
  obtain ⟨s2, h2, hs2, hr'⟩ := inpch_cons E s1 x rest (r1 - 1) r1 hr (by omega)
    (by rw [buffer_of_strip hs1]; omega)
  refine ⟨s2, ?_, hs2.trans hs1, hr'⟩
  simp only [trigraphTable, List.mem_cons, Prod.mk.injEq, List.mem_singleton, List.not_mem_nil,
    or_false] at hxy
  rcases hxy with ⟨hx, hy⟩ | ⟨hx, hy⟩ | ⟨hx, hy⟩ | ⟨hx, hy⟩ | ⟨hx, hy⟩ | ⟨hx, hy⟩ | ⟨hx, hy⟩ |
    ⟨hx, hy⟩ | ⟨hx, hy⟩ <;> subst hx hy <;> simp [chktg, h1, h2]

theorem chktg_untrigraph (E : Env) (s : St) (x : Int) (rest : List Int) (r r1 : Int)
    (h : Rd E s (63 :: x :: rest) r) (hx : ∀ y, (x, y) ∉ trigraphTable) (hr0 : 0 ≤ r1)
    (hr1 : r1 ≤ r) (hr2 : r1 + 1 ≤ s.ifiles.buffer) :
    ∃ s1, chktg E s = Res.ok 0 s1 ∧ s1.strip = s.strip ∧ Rd E s1 (63 :: x :: rest) r1 := by
  obtain ⟨s1, h1, hs1, hr⟩ := inpch_cons E s 63 (x :: rest) r (r1 + 1) h (by omega) (by omega)
  have hb := hr.byte
  obtain ⟨s2, h2, hs2, hr'⟩ := inpch_cons E s1 x rest (r1 + 1) (r1 + 2) hr (by omega)
    (by rw [buffer_of_strip hs1]; omega)
  obtain ⟨s3, h3, hs3, hr3⟩ := unch_ok E s2 x rest (r1 + 2) hr' (by omega) hb.1 hb.2
  obtain ⟨s4, h4, hs4, hr4⟩ := unch_ok E s3 63 (x :: rest) (r1 + 2 - 1) hr3 (by omega)
    (by omega) (by omega)
  refine ⟨s4, ?_, ((hs4.trans hs3).trans hs2).trans hs1, by
    have : r1 + 2 - 1 - 1 = r1 := by omega
    rw [this] at hr4; exact hr4⟩
  have e1 : x ≠ 61 := fun e => hx 35 (by subst e; decide)
  have e2 : x ≠ 40 := fun e => hx 91 (by subst e; decide)
  have e3 : x ≠ 41 := fun e => hx 93 (by subst e; decide)
  have e4 : x ≠ 60 := fun e => hx 123 (by subst e; decide)
  have e5 : x ≠ 62 := fun e => hx 125 (by subst e; decide)
  have e6 : x ≠ 47 := fun e => hx 92 (by subst e; decide)
  have e7 : x ≠ 39 := fun e => hx 94 (by subst e; decide)
  have e8 : x ≠ 33 := fun e => hx 124 (by subst e; decide)
  have e9 : x ≠ 45 := fun e => hx 126 (by subst e; decide)
  simp [chktg, h1, h2, h3, h4, e1, e2, e3, e4, e5, e6, e7, e8, e9]

theorem chktg_last (E : Env) (s : St) (r r1 : Int)
    (h : Rd E s [63] r) (hr0 : 0 ≤ r1) (hr1 : r1 ≤ r) (hr2 : r1 ≤ s.ifiles.buffer) :
    ∃ s1, chktg E s = Res.ok 0 s1 ∧ s1.strip = s.strip ∧ Rd E s1 [63] r1 := by
  obtain ⟨s1, h1, hs1, hr⟩ := inpch_cons E s 63 [] r (r1 + 1) h (by omega) (by omega)
  obtain ⟨s2, h2, hs2, hr'⟩ := unch_ok E s1 63 [] (r1 + 1) hr (by omega) (by omega) (by omega)
  refine ⟨s2, ?_, hs2.trans hs1, by simpa using hr'⟩
  simp [chktg, h1, inpch_nil E s1 _ hr, h2]

theorem chkucn_other (E : Env) (s : St) (d : Int) (rest : List Int) (r r1 : Int)
    (h : Rd E s (d :: rest) r) (hu : d ≠ 117) (hU : d ≠ 85) (hr0 : 0 ≤ r1) (hr1 : r1 ≤ r)
    (hr2 : r1 ≤ s.ifiles.buffer) :
    ∃ s1, chkucn E s = Res.ok 0 s1 ∧ s1.strip = s.strip ∧ Rd E s1 (d :: rest) r1 := by
  by_cases hi : s.incmnt = 0
  · have hb := h.byte
    obtain ⟨s1, h1, hs1, hr⟩ := inpch_cons E s d rest r (r1 + 1) h (by omega) (by omega)
    obtain ⟨s2, h2, hs2, hr'⟩ := unch_ok E s1 d rest (r1 + 1) hr (by omega) hb.1 hb.2
    refine ⟨s2, ?_, hs2.trans hs1, by simpa using hr'⟩
    have hd : d ≠ -1 := by omega
    simp [chkucn, hi, h1, hd, hu, hU, h2]
  · exact ⟨s, by simp [chkucn, hi], rfl, h.mono hr1⟩

theorem chkucn_nil (E : Env) (s : St) (r : Int) (h : Rd E s [] r) :
    chkucn E s = Res.ok 0 s := by
  by_cases hi : s.incmnt = 0
  · simp [chkucn, hi, inpch_nil E s r h]
  · simp [chkucn, hi]

theorem inc1_plain (E : Env) (fuel : Nat) (s : St) (c : Int) (rest : List Int) (r r1 : Int)
    (h : Rd E s (c :: rest) r) (h13 : c ≠ 13) (h92 : c ≠ 92) (h63 : c ≠ 63)
    (hr1 : r1 ≤ r + 1) (hr2 : r1 ≤ s.ifiles.buffer + 1) :
    ∃ s1, inc1 E (fuel + 1) s = Res.ok c s1 ∧ s1.strip = s.strip ∧ Rd E s1 rest r1 := by
  obtain ⟨s1, h1, hs1, hr⟩ := inpch_cons E s c rest r r1 h hr1 hr2
  exact ⟨s1, by simp [inc1, inc1Loop, h1, h13, h92, h63], hs1, hr⟩

theorem inc1_nil (E : Env) (fuel : Nat) (s : St) (r : Int) (h : Rd E s [] r) :
    inc1 E (fuel + 1) s = Res.ok (-1) s := by
  simp [inc1, inc1Loop, inpch_nil E s r h]

theorem inc1_cr (E : Env) (fuel : Nat) (s : St) (rest : List Int) (r r1 : Int)
    (h : Rd E s (13 :: rest) r) (hr1 : r1 ≤ r + 1) (hr2 : r1 ≤ s.ifiles.buffer + 1) :
    ∃ s1, s1.strip = s.strip ∧ Rd E s1 rest r1 ∧ inc1 E (fuel + 2) s = inc1 E (fuel + 1) s1 := by
  obtain ⟨s1, h1, hs1, hr⟩ := inpch_cons E s 13 rest r r1 h hr1 hr2
  refine ⟨s1, hs1, hr, ?_⟩
  simp only [inc1, M.bind_eq, M.andThen_apply]
  congr 1
  rw [inc1Loop]
  simp [h1]

theorem inc1_backslash (E : Env) (fuel : Nat) (s : St) (d : Int) (rest : List Int) (r r1 : Int)
    (h : Rd E s (92 :: d :: rest) r) (hu : d ≠ 117) (hU : d ≠ 85) (hr0 : 0 ≤ r1)
    (hr1 : r1 ≤ r + 1) (hr2 : r1 ≤ s.ifiles.buffer) :
    ∃ s1, inc1 E (fuel + 1) s = Res.ok 92 s1 ∧ s1.strip = s.strip ∧ Rd E s1 (d :: rest) r1 := by
  obtain ⟨s1, h1, hs1, hr⟩ := inpch_cons E s 92 (d :: rest) r r1 h hr1 (by omega)
  obtain ⟨s2, h2, hs2, hr'⟩ := chkucn_other E s1 d rest r1 r1 hr hu hU hr0 (le_refl _)
    (by rw [buffer_of_strip hs1]; exact hr2)
  exact ⟨s2, by simp [inc1, inc1Loop, h1, h2], hs2.trans hs1, hr'⟩

theorem inc1_backslash_last (E : Env) (fuel : Nat) (s : St) (r r1 : Int)
    (h : Rd E s [92] r) (hr1 : r1 ≤ r + 1) (hr2 : r1 ≤ s.ifiles.buffer + 1) :
    ∃ s1, inc1 E (fuel + 1) s = Res.ok 92 s1 ∧ s1.strip = s.strip ∧ Rd E s1 [] r1 := by
  obtain ⟨s1, h1, hs1, hr⟩ := inpch_cons E s 92 [] r r1 h hr1 hr2
  exact ⟨s1, by simp [inc1, inc1Loop, h1, chkucn_nil E s1 r1 hr], hs1, hr⟩

theorem inc1_trigraph (E : Env) (fuel : Nat) (s : St) (x y : Int) (rest : List Int) (r r1 : Int)
    (h : Rd E s (63 :: 63 :: x :: rest) r) (hxy : (x, y) ∈ trigraphTable) (hr1 : r1 ≤ r + 3)
    (hr2 : r1 ≤ s.ifiles.buffer + 1) :
    ∃ s1, inc1 E (fuel + 1) s = Res.ok y s1 ∧ s1.strip = s.strip ∧ Rd E s1 rest r1 := by
  obtain ⟨s1, h1, hs1, hr⟩ := inpch_cons E s 63 (63 :: x :: rest) r (r1 - 2) h (by omega)
    (by omega)
  obtain ⟨s2, h2, hs2, hr'⟩ := chktg_trigraph E s1 x y rest (r1 - 2) r1 hr hxy (by omega)
    (by rw [buffer_of_strip hs1]; exact hr2)
  have hy : y ≠ 0 := by
    intro hy0
    subst hy0
    revert hxy
    simp [trigraphTable]
  exact ⟨s2, by simp [inc1, inc1Loop, h1, h2, hy], hs2.trans hs1, hr'⟩

theorem inc1_untrigraph (E : Env) (fuel : Nat) (s : St) (x : Int) (rest : List Int)
    (r r1 : Int) (h : Rd E s (63 :: 63 :: x :: rest) r) (hx : ∀ y, (x, y) ∉ trigraphTable)
    (hr0 : 0 ≤ r1) (hr1 : r1 ≤ r + 1) (hr2 : r1 + 1 ≤ s.ifiles.buffer) :
    ∃ s1, inc1 E (fuel + 1) s = Res.ok 63 s1 ∧ s1.strip = s.strip ∧
      Rd E s1 (63 :: x :: rest) r1 := by
  obtain ⟨s1, h1, hs1, hr⟩ := inpch_cons E s 63 (63 :: x :: rest) r r1 h hr1 (by omega)
  obtain ⟨s2, h2, hs2, hr'⟩ := chktg_untrigraph E s1 x rest r1 r1 hr hx hr0 (le_refl _)
    (by rw [buffer_of_strip hs1]; exact hr2)
  exact ⟨s2, by simp [inc1, inc1Loop, h1, h2], hs2.trans hs1, hr'⟩

theorem inc1_question (E : Env) (fuel : Nat) (s : St) (d : Int) (rest : List Int)
    (r r1 : Int) (h : Rd E s (63 :: d :: rest) r) (hd : d ≠ 63)
    (hr0 : 0 ≤ r1) (hr1 : r1 ≤ r + 1) (hr2 : r1 ≤ s.ifiles.buffer) :
    ∃ s1, inc1 E (fuel + 1) s = Res.ok 63 s1 ∧ s1.strip = s.strip ∧ Rd E s1 (d :: rest) r1 := by
  obtain ⟨s1, h1, hs1, hr⟩ := inpch_cons E s 63 (d :: rest) r r1 h hr1 (by omega)
  obtain ⟨s2, h2, hs2, hr'⟩ := chktg_other E s1 d rest r1 r1 hr hd hr0 (le_refl _)
    (by rw [buffer_of_strip hs1]; exact hr2)
  exact ⟨s2, by simp [inc1, inc1Loop, h1, h2], hs2.trans hs1, hr'⟩

theorem inc1_question_last (E : Env) (fuel : Nat) (s : St) (r r1 : Int)
    (h : Rd E s [63] r) (hr1 : r1 ≤ r + 1) (hr2 : r1 ≤ s.ifiles.buffer + 1) :
    ∃ s1, inc1 E (fuel + 1) s = Res.ok 63 s1 ∧ s1.strip = s.strip ∧ Rd E s1 [] r1 := by
  obtain ⟨s1, h1, hs1, hr⟩ := inpch_cons E s 63 [] r r1 h hr1 hr2
  exact ⟨s1, by simp [inc1, inc1Loop, h1, chktg_nil E s1 r1 hr], hs1, hr⟩

theorem inc1_question2_last (E : Env) (fuel : Nat) (s : St) (r r1 : Int)
    (h : Rd E s [63, 63] r) (hr0 : 0 ≤ r1) (hr1 : r1 ≤ r + 1) (hr2 : r1 ≤ s.ifiles.buffer) :
    ∃ s1, inc1 E (fuel + 1) s = Res.ok 63 s1 ∧ s1.strip = s.strip ∧ Rd E s1 [63] r1 := by
  obtain ⟨s1, h1, hs1, hr⟩ := inpch_cons E s 63 [63] r r1 h hr1 (by omega)
  obtain ⟨s2, h2, hs2, hr'⟩ := chktg_last E s1 r1 r1 hr hr0 (le_refl _)
    (by rw [buffer_of_strip hs1]; exact hr2)
  exact ⟨s2, by simp [inc1, inc1Loop, h1, h2], hs2.trans hs1, hr'⟩

theorem repeatM_zero {α : Type} (m : M St α) (s : St) : repeatM m 0 s = Res.ok [] s := rfl

theorem repeatM_succ {α : Type} (m : M St α) (n : Nat) (s : St) :
    repeatM m (n + 1) s = (m s).andThen (fun a s1 =>
      (repeatM m n s1).andThen (fun r s2 => Res.ok (a :: r) s2)) := rfl

theorem not_trigraph_13 : ∀ y, ((13 : Int), y) ∉ trigraphTable := by
  intro y
  simp [trigraphTable]

theorem not_trigraph_63 : ∀ y, ((63 : Int), y) ∉ trigraphTable := by
  intro y
  simp [trigraphTable]

/-- The input `??X` for an `X` that forms no trigraph and is no carriage
return decodes to `?`, `?`, `X` and then the end of input. -/
theorem inc1_qq_other (E : Env) (fuel : Nat) (s : St) (x : Int) (r : Int)
    (h : Rd E s [63, 63, x] r) (hr : 0 ≤ r) (hm : 1 ≤ s.ifiles.buffer)
    (hx : ∀ y, (x, y) ∉ trigraphTable) (h13 : x ≠ 13) :
    (repeatM (inc1 E (fuel + 1)) 4 s).value? = some [63, 63, x, -1] := by
  obtain ⟨s1, h1, hs1, hr1⟩ := inc1_untrigraph E fuel s x [] r 0 h hx (le_refl _) (by omega)
    (by omega)
  have hb1 := buffer_of_strip hs1
  by_cases h63 : x = 63
  · subst h63
    obtain ⟨s2, h2, hs2, hr2⟩ := inc1_question2_last E fuel s1 0 0 hr1 (le_refl _) (by omega)
      (by omega)
    obtain ⟨s3, h3, hs3, hr3⟩ := inc1_question_last E fuel s2 0 0 hr2 (by omega)
      (by rw [buffer_of_strip hs2]; omega)
    simp [repeatM_succ, repeatM_zero, h1, h2, h3, inc1_nil E fuel s3 0 hr3, Res.value?]
  · obtain ⟨s2, h2, hs2, hr2⟩ := inc1_question E fuel s1 x [] 0 0 hr1 h63 (le_refl _) (by omega)
      (by omega)
    have hb2 := buffer_of_strip hs2
    by_cases h92 : x = 92
    · subst h92
      obtain ⟨s3, h3, hs3, hr3⟩ := inc1_backslash_last E fuel s2 0 0 hr2 (by omega) (by omega)
      simp [repeatM_succ, repeatM_zero, h1, h2, h3, inc1_nil E fuel s3 0 hr3, Res.value?]
    · obtain ⟨s3, h3, hs3, hr3⟩ := inc1_plain E fuel s2 x [] 0 0 hr2 h13 h92 h63 (by omega)
        (by omega)
      simp [repeatM_succ, repeatM_zero, h1, h2, h3, inc1_nil E fuel s3 0 hr3, Res.value?]

/-- The input `??` followed by a carriage return decodes to `?`, `?` and then
the end of input: the carriage return is dropped. -/
theorem inc1_qq_cr (E : Env) (fuel : Nat) (s : St) (r : Int)
    (h : Rd E s [63, 63, 13] r) (hr : 0 ≤ r) (hm : 1 ≤ s.ifiles.buffer) :
    (repeatM (inc1 E (fuel + 2)) 3 s).value? = some [63, 63, -1] := by
  obtain ⟨s1, h1, hs1, hr1⟩ := inc1_untrigraph E (fuel + 1) s 13 [] r 0 h not_trigraph_13
    (le_refl _) (by omega) (by omega)
  have hb1 := buffer_of_strip hs1
  obtain ⟨s2, h2, hs2, hr2⟩ := inc1_question E (fuel + 1) s1 13 [] 0 0 hr1 (by decide)
    (le_refl _) (by omega) (by omega)
  obtain ⟨s3, hs3, hr3, h3⟩ := inc1_cr E fuel s2 [] 0 0 hr2 (by omega)
    (by rw [buffer_of_strip hs2]; omega)
  simp [repeatM_succ, repeatM_zero, h1, h2, h3, inc1_nil E fuel s3 0 hr3, Res.value?]

theorem frameOK_open (input : List Int) (h : ∀ b ∈ input, 0 ≤ b ∧ b < 256) :
    FrameOK sampleEnv (openState input).ifiles where
  opened := by simp [openState, sampleFrame]
  size := by simp [sampleEnv]
  buf := by simp [openState, sampleFrame]
  cur := by simp [openState, sampleFrame]
  curmax := by simp [openState, sampleFrame]
  bufmax := by simp [openState, sampleFrame]
  maxlen := by simp [openState, sampleFrame]
  fits := by simp [openState, sampleFrame, sampleEnv]
  bytes := by
    intro b hb
    have : pending (openState input).ifiles = input := by
      simp [pending, openState, sampleFrame, slice]
    rw [this] at hb
    exact h b hb

theorem pending_open (input : List Int) : pending (openState input).ifiles = input := by
  simp [pending, openState, sampleFrame, slice]

theorem rd_open (input : List Int) (h : ∀ b ∈ input, 0 ≤ b ∧ b < 256) :
    Rd sampleEnv (openState input) input 0 :=
  ⟨frameOK_open input h, pending_open input, by simp [openState, sampleFrame]⟩

/-- The frame conditions name the configuration only through `CPPBUF`. -/
theorem Rd.env {E E1 : Env} {s : St} {p : List Int} {r : Int} (h : Rd E s p r)
    (hc : E1.CPPBUF = E.CPPBUF) : Rd E1 s p r :=
  ⟨{ opened := h.1.opened, size := by rw [hc]; exact h.1.size, buf := h.1.buf, cur := h.1.cur,
     curmax := h.1.curmax, bufmax := h.1.bufmax, maxlen := h.1.maxlen,
     fits := by rw [hc]; exact h.1.fits, bytes := h.1.bytes }, h.2.1, h.2.2⟩

theorem not_trigraph_of (x : Int) (h : x ∉ trigraphTable.map Prod.fst) :
    ∀ y, (x, y) ∉ trigraphTable := by
  intro y hy
  exact h (List.mem_map.mpr ⟨(x, y), hy, rfl⟩)

/-! ## Line splicing -/

theorem spliced_strip {s s1 : St} (k : Int) (h : s1.strip = s.strip) :
    (s1.spliced k).strip = (s.spliced k).strip := by
  have h1 : (s1.spliced k).strip =
      { s1.strip with ifiles := { s1.strip.ifiles with escln := s1.strip.ifiles.escln + k } } := rfl
  have h2 : (s.spliced k).strip =
      { s.strip with ifiles := { s.strip.ifiles with escln := s.strip.ifiles.escln + k } } := rfl
  rw [h1, h2, h]

theorem spliced_spliced (s : St) (j k : Int) : (s.spliced j).spliced k = s.spliced (j + k) := by
  simp only [St.spliced, Int.add_assoc]

theorem spliced_zero (s : St) : s.spliced 0 = s := by
  simp [St.spliced]

theorem rd_spliced {E : Env} {s : St} {p : List Int} {r : Int} (k : Int) (h : Rd E s p r) :
    Rd E (s.spliced k) p r :=
  ⟨{ opened := h.1.opened, size := h.1.size, buf := h.1.buf, cur := h.1.cur,
     curmax := h.1.curmax, bufmax := h.1.bufmax, maxlen := h.1.maxlen, fits := h.1.fits, bytes := h.1.bytes },
   h.2.1, h.2.2⟩

theorem escln_of_strip {s s1 : St} (h : s1.strip = s.strip) :
    s1.ifiles.escln = s.ifiles.escln := by
  have := congrArg (fun t => t.ifiles.escln) h
  exact this

theorem inc2_plain (E : Env) (fuel : Nat) (s : St) (c : Int) (rest : List Int) (r r1 : Int)
    (h : Rd E s (c :: rest) r) (h13 : c ≠ 13) (h92 : c ≠ 92) (h63 : c ≠ 63)
    (hr1 : r1 ≤ r + 1) (hr2 : r1 ≤ s.ifiles.buffer + 1) :
    ∃ s1, inc2 E (fuel + 1) s = Res.ok c s1 ∧ s1.strip = s.strip ∧ Rd E s1 rest r1 := by
  obtain ⟨s1, h1, hs1, hr⟩ := inc1_plain E fuel s c rest r r1 h h13 h92 h63 hr1 hr2
  exact ⟨s1, by simp [inc2, h1, h92], hs1, hr⟩

theorem inc2_nil (E : Env) (fuel : Nat) (s : St) (r : Int) (h : Rd E s [] r) :
    inc2 E (fuel + 1) s = Res.ok (-1) s := by
  simp [inc2, inc1_nil E fuel s r h]

/-- One backslash-newline pair: it is consumed, counted in `escln`, and `inc2`
goes on with what follows. -/
theorem inc2_splice (E : Env) (fuel : Nat) (s : St) (rest : List Int) (r r1 : Int)
    (h : Rd E s (92 :: 10 :: rest) r) (hr0 : 0 ≤ r1) (hr1 : r1 ≤ r + 1)
    (hr2 : r1 ≤ s.ifiles.buffer) :
    ∃ s1, s1.strip = (s.spliced 1).strip ∧ Rd E s1 rest r1 ∧
      inc2 E (fuel + 2) s = inc2 E (fuel + 1) s1 := by
  obtain ⟨sa, ha, hsa, hra⟩ := inc1_backslash E (fuel + 1) s 10 rest r r1 h (by decide)
    (by decide) hr0 hr1 hr2
  obtain ⟨sb, hb, hsb, hrb⟩ := inc1_plain E (fuel + 1) sa 10 rest r1 r1 hra (by decide)
    (by decide) (by decide) (by omega) (by rw [buffer_of_strip hsa]; omega)
  refine ⟨sb.spliced 1, spliced_strip 1 (hsb.trans hsa), rd_spliced 1 hrb, ?_⟩
  rw [inc2]
  simp [ha, hb, St.spliced]

/-- Any number of backslash-newline pairs before an ordinary character. -/
theorem inc2_splices (E : Env) (fuel : Nat) (k : Nat) :
    ∀ (s : St) (c : Int) (rest : List Int) (r : Int),
      Rd E s (splices k (c :: rest)) r → 0 ≤ r → c ≠ 13 → c ≠ 92 → c ≠ 63 →
      ∃ s1, inc2 E (fuel + k + 1) s = Res.ok c s1 ∧ s1.strip = (s.spliced k).strip ∧
        Rd E s1 rest 0 := by
  induction k with
  | zero =>
    intro s c rest r h hr h13 h92 h63
    obtain ⟨s1, h1, hs1, hr1⟩ := inc2_plain E fuel s c rest r 0 h h13 h92 h63 (by omega)
      (by have := h.1.buf; omega)
    exact ⟨s1, h1, by rw [hs1]; simp [spliced_zero], hr1⟩
  | succ k ih =>
    intro s c rest r h hr h13 h92 h63
    obtain ⟨s1, hs1, hr1, h1⟩ := inc2_splice E (fuel + k) s (splices k (c :: rest)) r 0 h
      (le_refl _) (by omega) h.1.buf
    obtain ⟨s2, h2, hs2, hr2⟩ := ih s1 c rest 0 hr1 (le_refl _) h13 h92 h63
    refine ⟨s2, ?_, ?_, hr2⟩
    · have e : fuel + (k + 1) + 1 = fuel + k + 2 := by omega
      rw [e, h1, h2]
    · rw [hs2, spliced_strip _ hs1, spliced_spliced]
      congr 2
      push_cast
      omega

/-- A backslash before an ordinary character other than a newline is
delivered as a backslash, and that character is read next. -/
theorem inc2_backslash (E : Env) (fuel : Nat) (s : St) (d : Int) (rest : List Int) (r : Int)
    (h : Rd E s (92 :: d :: rest) r) (hr : 0 ≤ r) (h10 : d ≠ 10) (h13 : d ≠ 13) (h92 : d ≠ 92)
    (h63 : d ≠ 63) (hu : d ≠ 117) (hU : d ≠ 85) :
    ∃ s1, inc2 E (fuel + 1) s = Res.ok 92 s1 ∧ s1.strip = s.strip ∧ Rd E s1 (d :: rest) 0 := by
  have hbyte : 0 ≤ d ∧ d < 256 :=
    h.1.bytes d (by rw [h.2.1]; exact List.mem_cons_of_mem _ (List.mem_cons_self _ _))
  obtain ⟨sa, ha, hsa, hra⟩ := inc1_backslash E fuel s d rest r 0 h hu hU (le_refl _) (by omega)
    h.1.buf
  obtain ⟨sb, hb, hsb, hrb⟩ := inc1_plain E fuel sa d rest 0 1 hra h13 h92 h63 (by omega)
    (by have := hra.1.buf; omega)
  obtain ⟨sc, hc, hsc, hrc⟩ := unch_ok E sb d rest 1 hrb (le_refl _) hbyte.1 hbyte.2
  refine ⟨sc, ?_, (hsc.trans hsb).trans hsa, by simpa using hrc⟩
  rw [inc2]
  simp [ha, hb, h10, hc]

/-- A backslash, a carriage return and a newline are a line splice: the
carriage return is dropped before the newline is looked at. -/
theorem inc2_backslash_cr_nl (E : Env) (fuel : Nat) (s : St) (c : Int) (rest : List Int)
    (r : Int) (h : Rd E s (92 :: 13 :: 10 :: c :: rest) r) (hr : 0 ≤ r)
    (h13 : c ≠ 13) (h92 : c ≠ 92) (h63 : c ≠ 63) :
    ∃ s1, inc2 E (fuel + 3) s = Res.ok c s1 ∧ s1.ifiles.escln = s.ifiles.escln + 1 := by
  obtain ⟨sa, ha, hsa, hra⟩ := inc1_backslash E (fuel + 2) s 13 (10 :: c :: rest) r 0 h
    (by decide) (by decide) (le_refl _) (by omega) h.1.buf
  obtain ⟨sb, hsb, hrb, hb⟩ := inc1_cr E (fuel + 1) sa (10 :: c :: rest) 0 0 hra (by omega)
    (by have := hra.1.buf; omega)
  obtain ⟨sc, hc, hsc, hrc⟩ := inc1_plain E (fuel + 1) sb 10 (c :: rest) 0 0 hrb (by decide)
    (by decide) (by decide) (by omega) (by have := hrb.1.buf; omega)
  obtain ⟨sd, hd, hsd, hrd⟩ := inc2_plain E (fuel + 1) (sc.spliced 1) c rest 0 0
    (rd_spliced 1 hrc) h13 h92 h63 (by omega) (by have := hrc.1.buf; exact le_trans this (by
      show sc.ifiles.buffer ≤ sc.ifiles.buffer + 1; omega))
  refine ⟨sd, ?_, ?_⟩
  · have hb1 : inc1 E (fuel + 2 + 1) sa = inc1 E (fuel + 1 + 1) sb := hb
    have hd1 : inc2 E (fuel + 2) (sc.spliced 1) = Res.ok c sd := hd
    rw [inc2]
    simpa [ha, hb1, hc, St.spliced] using hd1
  · rw [escln_of_strip hsd]
    show sc.ifiles.escln + 1 = _
    rw [escln_of_strip hsc, escln_of_strip hsb, escln_of_strip hsa]

/-! ## `refill` keeps the pending input -/

theorem memSet_length (m : List Int) (p v : Int) : (memSet m p v).length = m.length := by
  unfold memSet
  split <;> simp

theorem memSet_getD_ne (m : List Int) (p : Nat) (v : Int) (i : Nat) (h : i ≠ p) :
    (memSet m p v).getD i 0 = m.getD i 0 := by
  have h0 : (0 : Int) ≤ p := Int.ofNat_nonneg p
  simp only [memSet, h0, if_true, Int.toNat_ofNat, List.getD_eq_getElem?_getD]
  rw [List.getElem?_set_ne (Ne.symm h)]

theorem memSet_getD_eq (m : List Int) (p : Nat) (v : Int) (h : p < m.length) :
    (memSet m p v).getD p 0 = v := by
  have h0 : (0 : Int) ≤ p := Int.ofNat_nonneg p
  simp only [memSet, h0, if_true, Int.toNat_ofNat, List.getD_eq_getElem?_getD]
  rw [List.getElem?_set_self h]
  rfl

theorem memGet_nat (m : List Int) (p : Nat) : memGet m p = m.getD p 0 := by
  have h0 : (0 : Int) ≤ p := Int.ofNat_nonneg p
  simp [memGet, h0]

theorem refillCopy_succ (m : List Int) (dp cur : Int) (n : Nat) :
    refillCopy m dp cur (n + 1) =
      memSet (refillCopy m dp cur n) (dp + n) (memGet (refillCopy m dp cur n) (cur + n)) := by
  simp [refillCopy, List.range_succ]

theorem refillCopy_length (m : List Int) (dp cur : Int) (n : Nat) :
    (refillCopy m dp cur n).length = m.length := by
  induction n with
  | zero => rfl
  | succ n ih => rw [refillCopy_succ, memSet_length, ih]

theorem refillCopy_above (m : List Int) (dp cur n : Nat) (i : Nat) (h : dp + n ≤ i) :
    (refillCopy m dp cur n).getD i 0 = m.getD i 0 := by
  induction n with
  | zero => rfl
  | succ n ih =>
    rw [refillCopy_succ]
    have e : (dp : Int) + (n : Int) = ((dp + n : Nat) : Int) := by push_cast; rfl
    rw [e, memSet_getD_ne _ _ _ _ (by omega)]
    exact ih (by omega)

theorem refillCopy_copied (m : List Int) (dp cur n : Nat) (hle : dp ≤ cur)
    (hlen : dp + n ≤ m.length) (j : Nat) (hj : j < n) :
    (refillCopy m dp cur n).getD (dp + j) 0 = m.getD (cur + j) 0 := by
  induction n with
  | zero => omega
  | succ n ih =>
    rw [refillCopy_succ]
    have e : (dp : Int) + (n : Int) = ((dp + n : Nat) : Int) := by push_cast; rfl
    have e2 : (cur : Int) + (n : Int) = ((cur + n : Nat) : Int) := by push_cast; rfl
    rw [e, e2]
    by_cases hjn : j = n
    · subst hjn
      rw [memSet_getD_eq _ _ _ (by rw [refillCopy_length]; omega), memGet_nat,
        refillCopy_above _ _ _ _ _ (by omega)]
    · rw [memSet_getD_ne _ _ _ _ (by omega)]
      exact ih (by omega) (by omega)

theorem slice_ext (m1 m2 : List Int) (p1 p2 n : Nat) (h1 : p1 + n ≤ m1.length)
    (h2 : p2 + n ≤ m2.length) (h : ∀ j < n, m1.getD (p1 + j) 0 = m2.getD (p2 + j) 0) :
    slice m1 p1 n = slice m2 p2 n := by
  induction n generalizing p1 p2 with
  | zero => simp [slice_zero]
  | succ n ih =>
    rw [slice_cons_of_lt _ _ _ (by omega), slice_cons_of_lt _ _ _ (by omega)]
    congr 1
    · simpa using h 0 (by omega)
    · apply ih _ _ (by omega) (by omega)
      intro j hj
      have := h (j + 1) (by omega)
      simpa [Nat.add_assoc, Nat.add_comm 1 j] using this

theorem REFILL_none (E : Env) (s : St) (x : Int)
    (h : ¬ s.ifiles.curptr + x ≥ s.ifiles.maxread) : REFILL E x s = Res.ok () s := by
  simp [REFILL, h]

theorem REFILL_eof (E : Env) (s : St) (x : Int) (h : s.ifiles.curptr + x ≥ s.ifiles.maxread)
    (ho : s.ifiles.infil ≠ -1) (hf : s.ifiles.file = []) :
    REFILL E x s = Res.ok ()
      { s with ifiles := { s.ifiles with
          mem := memSet (refillCopy s.ifiles.mem
            (s.ifiles.buffer - (s.ifiles.maxread - s.ifiles.curptr)) s.ifiles.curptr
            (s.ifiles.maxread - s.ifiles.curptr).toNat) s.ifiles.buffer 0
          curptr := s.ifiles.buffer - (s.ifiles.maxread - s.ifiles.curptr)
          maxread := s.ifiles.buffer } } := by
  have h1 : ¬ s.ifiles.curptr + x < s.ifiles.maxread := by omega
  simp [REFILL, refill, inpbuf, h, h1, ho, hf]

theorem REFILL_read (E : Env) (s : St) (x : Int) (h : s.ifiles.curptr + x ≥ s.ifiles.maxread)
    (ho : s.ifiles.infil ≠ -1) (hs : 0 < E.CPPBUF) (hf : s.ifiles.file ≠ []) :
    REFILL E x s = Res.ok ()
      { s with ifiles := { s.ifiles with
          mem := memSet (memCopy (refillCopy s.ifiles.mem
              (s.ifiles.buffer - (s.ifiles.maxread - s.ifiles.curptr)) s.ifiles.curptr
              (s.ifiles.maxread - s.ifiles.curptr).toNat) s.ifiles.buffer
              (s.ifiles.file.take (min E.CPPBUF s.ifiles.file.length)))
            (s.ifiles.buffer + (min E.CPPBUF s.ifiles.file.length : Nat)) 0
          curptr := s.ifiles.buffer - (s.ifiles.maxread - s.ifiles.curptr)
          maxread := s.ifiles.buffer + (min E.CPPBUF s.ifiles.file.length : Nat)
          file := s.ifiles.file.drop (min E.CPPBUF s.ifiles.file.length) } } := by
  have h1 : ¬ s.ifiles.curptr + x < s.ifiles.maxread := by omega
  have hl : 0 < s.ifiles.file.length := List.length_pos.mpr hf
  have hlen : 0 < min E.CPPBUF s.ifiles.file.length := by omega
  have hlen' : ¬ ((min E.CPPBUF s.ifiles.file.length : Nat) : Int) = 0 := by omega
  simp only [REFILL, refill, inpbuf, M.bind_eq, M.andThen_apply, frame_apply, Res.andThen_ok,
    M.ite_apply, h, h1, if_false, ho, hlen, if_true, modFrame_apply, M.pure_eq, M.ret_apply,
    hlen', ge_iff_le, ne_eq, not_false_eq_true]

theorem head_of_buffered (f : includ) (h0 : 0 ≤ f.curptr) (h : f.curptr < f.maxread)
    (hm : f.maxread ≤ f.mem.length) : memGet f.mem f.curptr = (pending f).headD 0 := by
  rw [pending_of_buffered f h0 h hm]
  rfl

theorem slice_append_read (m : List Int) (p n b : Nat) (bs tl : List Int) (hb : p + n = b)
    (hl : b ≤ m.length) :
    slice (m.take b ++ bs ++ tl) p (n + bs.length) = slice m p n ++ bs := by
  unfold slice
  have h1 : (m.take b).length = b := by simp [List.length_take]; omega
  rw [List.append_assoc, List.drop_append_of_le_length (by omega)]
  have h2 : ((m.take b).drop p).length = n := by simp [h1]; omega
  rw [List.take_append_eq_append_take, h2]
  have h3 : n + bs.length - n = bs.length := by omega
  rw [h3, List.take_left', List.take_of_length_le (by omega)]
  · congr 1
    rw [List.drop_take]
    have : b - p = n := by omega
    rw [this]
  · rfl

/-- `REFILL(2)` keeps the pending input, and afterwards `*curptr` is its first
character, or NUL at the end of the input. -/
theorem REFILL_ok (E : Env) (s : St) (p : List Int) (r : Int) (h : Rd E s p r)
    (hb : 2 ≤ s.ifiles.buffer) :
    ∃ s1, REFILL E 2 s = Res.ok () s1 ∧ s1.strip = s.strip ∧ Rd E s1 p 0 ∧
      memGet s1.ifiles.mem s1.ifiles.curptr = p.headD 0 ∧
      (p ≠ [] → s1.ifiles.curptr < s1.ifiles.maxread) := by
  obtain ⟨hok, hp, _⟩ := h
  by_cases hge : s.ifiles.curptr + 2 ≥ s.ifiles.maxread
  · obtain ⟨cn, hcn⟩ := Int.eq_ofNat_of_zero_le hok.cur
    obtain ⟨bn, hbn⟩ := Int.eq_ofNat_of_zero_le hok.buf
    obtain ⟨mn, hmn⟩ := Int.eq_ofNat_of_zero_le (le_trans hok.cur hok.curmax)
    have hcm : cn ≤ mn := by have := hok.curmax; omega
    have hbm : bn ≤ mn := by have := hok.bufmax; omega
    have hsz : mn - cn ≤ 2 := by omega
    have hb2 : 2 ≤ bn := by omega
    have hml : mn ≤ s.ifiles.mem.length := by have := hok.maxlen; omega
    have hfit : bn + E.CPPBUF < s.ifiles.mem.length := by have := hok.fits; omega
    have hdp : s.ifiles.buffer - (s.ifiles.maxread - s.ifiles.curptr) =
        ((bn - (mn - cn) : Nat) : Int) := by omega
    have hszn : (s.ifiles.maxread - s.ifiles.curptr).toNat = mn - cn := by omega
    have hcopy : slice (refillCopy s.ifiles.mem ((bn - (mn - cn) : Nat) : Int) (cn : Int)
        (mn - cn)) (bn - (mn - cn)) (mn - cn) = slice s.ifiles.mem cn (mn - cn) := by
      apply slice_ext
      · rw [refillCopy_length]; omega
      · omega
      · intro j hj
        exact refillCopy_copied _ _ _ _ (by omega) (by omega) j hj
    have hpend : pending s.ifiles = slice s.ifiles.mem cn (mn - cn) ++ s.ifiles.file := by
      simp only [pending, hcn, hmn, Int.toNat_ofNat]
      congr 2
      omega
    by_cases hf : s.ifiles.file = []
    · have hpf : pending { s.ifiles with
          mem := memSet (refillCopy s.ifiles.mem
            (s.ifiles.buffer - (s.ifiles.maxread - s.ifiles.curptr)) s.ifiles.curptr
            (s.ifiles.maxread - s.ifiles.curptr).toNat) s.ifiles.buffer 0
          curptr := s.ifiles.buffer - (s.ifiles.maxread - s.ifiles.curptr)
          maxread := s.ifiles.buffer } = p := by
        rw [← hp, hpend]
        simp only [pending]
        rw [hdp, hszn, Int.toNat_ofNat, hbn, hcn]
        have e1 : ((bn : Int) - ((bn - (mn - cn) : Nat) : Int)).toNat = mn - cn := by omega
        rw [e1, ← hcopy]
        congr 1
        apply slice_ext
        · rw [memSet_length, refillCopy_length]; omega
        · rw [refillCopy_length]; omega
        · intro j hj
          exact memSet_getD_ne _ _ _ _ (by omega)
      have hfok : FrameOK E { s.ifiles with
          mem := memSet (refillCopy s.ifiles.mem
            (s.ifiles.buffer - (s.ifiles.maxread - s.ifiles.curptr)) s.ifiles.curptr
            (s.ifiles.maxread - s.ifiles.curptr).toNat) s.ifiles.buffer 0
          curptr := s.ifiles.buffer - (s.ifiles.maxread - s.ifiles.curptr)
          maxread := s.ifiles.buffer } :=
        { opened := hok.opened, size := hok.size, buf := hok.buf,
          cur := by show 0 ≤ s.ifiles.buffer - _; omega,
          curmax := by show s.ifiles.buffer - _ ≤ s.ifiles.buffer; omega,
          bufmax := le_refl _,
          maxlen := by
            show s.ifiles.buffer ≤ ((memSet _ _ _).length : Int)
            rw [memSet_length, refillCopy_length]; omega,
          fits := by
            show s.ifiles.buffer + _ < ((memSet _ _ _).length : Int)
            rw [memSet_length, refillCopy_length]; exact hok.fits,
          bytes := fun b hbm => hok.bytes b (by rw [hp]; rw [hpf] at hbm; exact hbm) }
      refine ⟨_, REFILL_eof E s 2 hge hok.opened hf, rfl, ⟨hfok, hpf, hfok.cur⟩, ?_⟩
      by_cases hz : mn = cn
      · have hp0 : p = [] := by
          rw [← hp, hpend, hf, hz]
          simp [slice_zero]
        rw [hp0]
        refine ⟨?_, fun hne => absurd rfl hne⟩
        show memGet (memSet _ _ _) (s.ifiles.buffer - _) = 0
        have e2 : s.ifiles.buffer - (s.ifiles.maxread - s.ifiles.curptr) = (bn : Int) := by omega
        rw [e2, hbn, memGet_nat, memSet_getD_eq _ _ _ (by rw [refillCopy_length]; omega)]
      · have hlt : s.ifiles.buffer - (s.ifiles.maxread - s.ifiles.curptr) < s.ifiles.buffer := by
          omega
        refine ⟨?_, fun _ => hlt⟩
        rw [← hpf]
        exact head_of_buffered _ hfok.cur hlt hfok.maxlen
    · have hlenb : (s.ifiles.file.take (min E.CPPBUF s.ifiles.file.length)).length =
          min E.CPPBUF s.ifiles.file.length := by simp [List.length_take]
      have hpos : 0 < min E.CPPBUF s.ifiles.file.length := by
        have := hok.size
        have : 0 < s.ifiles.file.length := List.length_pos.mpr hf
        omega
      have hfit2 : bn + (s.ifiles.file.take (min E.CPPBUF s.ifiles.file.length)).length <
          (refillCopy s.ifiles.mem ((bn - (mn - cn) : Nat) : Int) (cn : Int) (mn - cn)).length := by
        rw [hlenb, refillCopy_length]; omega
      have hmem := mem_after_read _ bn _ hfit2
      have hmlen := length_after_read _ bn _ hfit2
      rw [hlenb] at hmem hmlen
      rw [refillCopy_length] at hmlen
      have hpf : pending { s.ifiles with
          mem := memSet (memCopy (refillCopy s.ifiles.mem
              (s.ifiles.buffer - (s.ifiles.maxread - s.ifiles.curptr)) s.ifiles.curptr
              (s.ifiles.maxread - s.ifiles.curptr).toNat) s.ifiles.buffer
              (s.ifiles.file.take (min E.CPPBUF s.ifiles.file.length)))
            (s.ifiles.buffer + (min E.CPPBUF s.ifiles.file.length : Nat)) 0
          curptr := s.ifiles.buffer - (s.ifiles.maxread - s.ifiles.curptr)
          maxread := s.ifiles.buffer + (min E.CPPBUF s.ifiles.file.length : Nat)
          file := s.ifiles.file.drop (min E.CPPBUF s.ifiles.file.length) } = p := by
        rw [← hp, hpend]
        simp only [pending]
        rw [hdp, hszn, Int.toNat_ofNat, hbn, hcn, hmem]
        have e1 : ((bn : Int) + ((min E.CPPBUF s.ifiles.file.length : Nat) : Int) -
            ((bn - (mn - cn) : Nat) : Int)).toNat =
            (mn - cn) + (s.ifiles.file.take (min E.CPPBUF s.ifiles.file.length)).length := by
          rw [hlenb]; omega
        rw [e1, slice_append_read _ _ _ bn _ _ (by omega) (by rw [refillCopy_length]; omega),
          hcopy, List.append_assoc, List.take_append_drop]
      have hfok : FrameOK E { s.ifiles with
          mem := memSet (memCopy (refillCopy s.ifiles.mem
              (s.ifiles.buffer - (s.ifiles.maxread - s.ifiles.curptr)) s.ifiles.curptr
              (s.ifiles.maxread - s.ifiles.curptr).toNat) s.ifiles.buffer
              (s.ifiles.file.take (min E.CPPBUF s.ifiles.file.length)))
            (s.ifiles.buffer + (min E.CPPBUF s.ifiles.file.length : Nat)) 0
          curptr := s.ifiles.buffer - (s.ifiles.maxread - s.ifiles.curptr)
          maxread := s.ifiles.buffer + (min E.CPPBUF s.ifiles.file.length : Nat)
          file := s.ifiles.file.drop (min E.CPPBUF s.ifiles.file.length) } :=
        { opened := hok.opened, size := hok.size, buf := hok.buf,
          cur := by show 0 ≤ s.ifiles.buffer - _; omega,
          curmax := by show s.ifiles.buffer - _ ≤ s.ifiles.buffer + _; omega,
          bufmax := by show s.ifiles.buffer ≤ s.ifiles.buffer + _; omega,
          maxlen := by
            show s.ifiles.buffer + _ ≤ ((memSet _ _ _).length : Int)
            rw [hdp, hszn, hbn, hcn, hmlen]; omega,
          fits := by
            show s.ifiles.buffer + _ < ((memSet _ _ _).length : Int)
            rw [hdp, hszn, hbn, hcn, hmlen]; omega,
          bytes := fun b hbm => hok.bytes b (by rw [hp]; rw [hpf] at hbm; exact hbm) }
      have hlt : s.ifiles.buffer - (s.ifiles.maxread - s.ifiles.curptr) <
          s.ifiles.buffer + (min E.CPPBUF s.ifiles.file.length : Nat) := by omega
      refine ⟨_, REFILL_read E s 2 hge hok.opened hok.size hf, rfl, ⟨hfok, hpf, hfok.cur⟩, ?_,
        fun _ => hlt⟩
      rw [← hpf]
      exact head_of_buffered _ hfok.cur hlt hfok.maxlen
  · refine ⟨s, REFILL_none E s 2 hge, rfl, ⟨hok, hp, hok.cur⟩, ?_, fun _ => by omega⟩
    rw [← hp]
    exact head_of_buffered _ hok.cur (by omega) hok.maxlen

theorem REFILL_noread (E : Env) (s : St) (x : Int)
    (h : s.ifiles.curptr + x ≥ s.ifiles.maxread)
    (hz : s.ifiles.infil = -1 ∨ min E.CPPBUF s.ifiles.file.length = 0) :
    REFILL E x s = Res.ok ()
      { s with ifiles := { s.ifiles with
          mem := memSet (refillCopy s.ifiles.mem
            (s.ifiles.buffer - (s.ifiles.maxread - s.ifiles.curptr)) s.ifiles.curptr
            (s.ifiles.maxread - s.ifiles.curptr).toNat) s.ifiles.buffer 0
          curptr := s.ifiles.buffer - (s.ifiles.maxread - s.ifiles.curptr)
          maxread := s.ifiles.buffer } } := by
  have h1 : ¬ s.ifiles.curptr + x < s.ifiles.maxread := by omega
  by_cases ho : s.ifiles.infil = -1
  · simp [REFILL, refill, inpbuf, h, h1, ho]
  · have hl : min E.CPPBUF s.ifiles.file.length = 0 := by
      rcases hz with hz | hz
      · exact absurd hz ho
      · exact hz
    have hl1 : ¬ 0 < min E.CPPBUF s.ifiles.file.length := by omega
    have hl2 : ((min E.CPPBUF s.ifiles.file.length : Nat) : Int) = 0 := by omega
    simp only [REFILL, refill, inpbuf, M.bind_eq, M.andThen_apply, frame_apply,
      Res.andThen_ok, M.ite_apply, h, h1, if_false, ho, hl1, if_true, modFrame_apply,
      M.pure_eq, M.ret_apply, hl2, ge_iff_le]

theorem REFILL_doread (E : Env) (s : St) (x : Int)
    (h : s.ifiles.curptr + x ≥ s.ifiles.maxread)
    (ho : s.ifiles.infil ≠ -1) (hl : 0 < min E.CPPBUF s.ifiles.file.length) :
    REFILL E x s = Res.ok ()
      { s with ifiles := { s.ifiles with
          mem := memSet (memCopy (refillCopy s.ifiles.mem
              (s.ifiles.buffer - (s.ifiles.maxread - s.ifiles.curptr)) s.ifiles.curptr
              (s.ifiles.maxread - s.ifiles.curptr).toNat) s.ifiles.buffer
              (s.ifiles.file.take (min E.CPPBUF s.ifiles.file.length)))
            (s.ifiles.buffer + (min E.CPPBUF s.ifiles.file.length : Nat)) 0
          curptr := s.ifiles.buffer - (s.ifiles.maxread - s.ifiles.curptr)
          maxread := s.ifiles.buffer + (min E.CPPBUF s.ifiles.file.length : Nat)
          file := s.ifiles.file.drop (min E.CPPBUF s.ifiles.file.length) } } := by
  have h1 : ¬ s.ifiles.curptr + x < s.ifiles.maxread := by omega
  have hlen' : ¬ ((min E.CPPBUF s.ifiles.file.length : Nat) : Int) = 0 := by omega
  simp only [REFILL, refill, inpbuf, M.bind_eq, M.andThen_apply, frame_apply, Res.andThen_ok,
    M.ite_apply, h, h1, if_false, ho, hl, if_true, modFrame_apply, M.pure_eq, M.ret_apply,
    hlen', ge_iff_le, ne_eq, not_false_eq_true]

/-- `REFILL` always returns, and touches nothing but the raw buffer. -/
theorem REFILL_total (E : Env) (s : St) (x : Int) :
    ∃ s1, REFILL E x s = Res.ok () s1 ∧ s1.strip = s.strip := by
  by_cases hge : s.ifiles.curptr + x ≥ s.ifiles.maxread
  · by_cases hz : s.ifiles.infil = -1 ∨ min E.CPPBUF s.ifiles.file.length = 0
    · exact ⟨_, REFILL_noread E s x hge hz, rfl⟩
    · simp only [not_or] at hz
      exact ⟨_, REFILL_doread E s x hge hz.1 (by omega), rfl⟩
  · exact ⟨s, REFILL_none E s x hge, rfl⟩

/-! ## The scanner in terms of the pending input -/

theorem inch_plain (E : Env) (fuel : Nat) (s : St) (c : Int) (rest : List Int) (r r1 : Int)
    (h : Rd E s (c :: rest) r) (h13 : c ≠ 13) (h92 : c ≠ 92) (h63 : c ≠ 63) (h47 : c ≠ 47)
    (hr1 : r1 ≤ r + 1) (hr2 : r1 ≤ s.ifiles.buffer + 1) :
    ∃ s1, inch E (fuel + 2) s = Res.ok c s1 ∧ s1.strip = s.strip ∧ Rd E s1 rest r1 := by
  obtain ⟨s1, h1, hs1, hr⟩ := inc2_plain E fuel s c rest r r1 h h13 h92 h63 hr1 hr2
  refine ⟨s1, ?_, hs1, hr⟩
  rw [inch]
  simp [h1, h47]

theorem inch_nil (E : Env) (fuel : Nat) (s : St) (r : Int) (h : Rd E s [] r) :
    inch E (fuel + 2) s = Res.ok (-1) s := by
  rw [inch]
  simp [inc2_nil E fuel s r h]

theorem spechrHas_of (ch : Int) (bit v : Nat) (s : St) (h : spechr ch = some v) :
    spechrHas ch bit s = Res.ok (v &&& bit != 0) s := by
  simp [spechrHas, h]

/-- A character that is not in the class `C_SPEC` is copied to the output. -/
theorem fastscan_copy (E : Env) (fuel : Nat) (s : St) (c : Int) (v : Nat) (h0 : 0 ≤ c)
    (hv : spechr c = some v) (hs : v &&& C_SPEC = 0) :
    fastscanAt E (fuel + 1) (FsAt.xloop c) s =
      fastscanAt E fuel FsAt.top { s with pb := s.pb ++ [c % 256] } := by
  have h1 : ¬ c < 0 := by omega
  rw [fastscanAt]
  simp [h1, spechrHas_of c C_SPEC v s hv, hs]

theorem fastscan_top (E : Env) (fuel : Nat) (s : St) (c : Int) (rest : List Int) (r r1 : Int)
    (h : Rd E s (c :: rest) r) (hr1 : r1 ≤ r + 1) (hr2 : r1 ≤ s.ifiles.buffer + 1) :
    ∃ s1, s1.strip = s.strip ∧ Rd E s1 rest r1 ∧
      fastscanAt E (fuel + 1) FsAt.top s = fastscanAt E fuel (FsAt.xloop c) s1 := by
  obtain ⟨s1, h1, hs1, hr⟩ := inpch_cons E s c rest r r1 h hr1 hr2
  refine ⟨s1, hs1, hr, ?_⟩
  rw [fastscanAt]
  simp [h1]

theorem fastscan_eof (E : Env) (fuel : Nat) (s : St) (c : Int) (hc : c < 0) :
    fastscanAt E (fuel + 1) (FsAt.xloop c) s = Res.ok () s := by
  rw [fastscanAt]
  simp [hc]

theorem fastscan_run (E : Env) (fuel : Nat) (s : St) (c : Int) (rest : List Int) (r r1 : Int)
    (h : Rd E s (c :: rest) r) (h13 : c ≠ 13) (h92 : c ≠ 92) (h63 : c ≠ 63) (h47 : c ≠ 47)
    (h9 : c ≠ 9) (h32 : c ≠ 32) (h37 : c ≠ 37) (h35 : c ≠ 35)
    (hr1 : r1 ≤ r + 1) (hr2 : r1 ≤ s.ifiles.buffer + 1) :
    ∃ s1, s1.strip = s.strip ∧ Rd E s1 rest r1 ∧
      fastscanAt E (fuel + 3) FsAt.run s = fastscanAt E (fuel + 2) (FsAt.xloop c) s1 := by
  obtain ⟨s1, h1, hs1, hr⟩ := inch_plain E fuel s c rest r r1 h h13 h92 h63 h47 hr1 hr2
  refine ⟨s1, hs1, hr, ?_⟩
  rw [fastscanAt]
  simp [h1, h9, h32, h37, h35]

theorem fastscan_run_eof (E : Env) (fuel : Nat) (s : St) (r : Int) (h : Rd E s [] r) :
    fastscanAt E (fuel + 3) FsAt.run s = Res.ok () s := by
  rw [fastscanAt]
  simp [inch_nil E fuel s r h, fastscan_eof]

/-- The newline case of `fastscan`: after `REFILL(2)`, the bookkeeping of
`fastscanNewline`, then the label `run`. -/
theorem fastscan_newline (E : Env) (fuel : Nat) (s : St) (hW : E.WARN ≠ 10)
    (hC : E.CONC ≠ 10) :
    fastscanAt E (fuel + 1) (FsAt.xloop 10) s =
      (REFILL E 2 s).andThen (fun _ s1 =>
        (fastscanNewline s1).andThen (fun _ s2 => fastscanAt E fuel FsAt.run s2)) := by
  have hv : spechr 10 = some C_NL := by decide
  have hs : (C_NL &&& C_SPEC != 0) = true := by decide
  rw [fastscanAt]
  simp only [M.bind_eq, M.andThen_apply, M.ite_apply, spechrHas_of 10 C_SPEC C_NL s hv, hs,
    Res.andThen_ok, Bool.not_true, Bool.false_eq_true, if_false, frame_apply]
  simp [hW.symm, hC.symm]
  rfl

theorem fastscanNewline_eq (s : St) :
    fastscanNewline s = Res.ok ()
      { s with
        ifiles := { s.ifiles with lineno := s.ifiles.lineno + (s.ifiles.escln + 1), escln := 0 }
        pb := s.pb ++ List.replicate (s.ifiles.escln + 1).toNat 10 } := by
  simp [fastscanNewline]

theorem pb_of_strip {s s1 : St} (h : s1.strip = s.strip) : s1.pb = s.pb := by
  have := congrArg (fun t => t.pb) h
  exact this

theorem lineno_of_strip {s s1 : St} (h : s1.strip = s.strip) :
    s1.ifiles.lineno = s.ifiles.lineno := by
  have := congrArg (fun t => t.ifiles.lineno) h
  exact this

theorem Rd.zero {E : Env} {s : St} {p : List Int} {r : Int} (h : Rd E s p r) : Rd E s p 0 :=
  ⟨h.1, h.2.1, h.1.cur⟩

/-- The tight loop of `fastscan` on a character outside the class `C_SPEC`:
the character is read and copied to the output. -/
theorem fastscan_top_copy (E : Env) (fuel : Nat) (s : St) (c : Int) (v : Nat)
    (rest : List Int) (r : Int) (h : Rd E s (c :: rest) r)
    (hv : spechr c = some v) (hs : v &&& C_SPEC = 0) :
    ∃ s1, s1.ifiles.buffer = s.ifiles.buffer ∧ s1.ifiles.escln = s.ifiles.escln ∧
      s1.ifiles.lineno = s.ifiles.lineno ∧ s1.pb = s.pb ++ [c] ∧ Rd E s1 rest 0 ∧
      fastscanAt E (fuel + 2) FsAt.top s = fastscanAt E fuel FsAt.top s1 := by
  have hb := h.byte
  have h0 := h.1.buf
  obtain ⟨s1, hs1, hr, e⟩ := fastscan_top E (fuel + 1) s c rest 0 0 h.zero (by omega) (by omega)
  have hc : c % 256 = c := by omega
  have hbuf := buffer_of_strip hs1
  have hesc := escln_of_strip hs1
  have hlin := lineno_of_strip hs1
  refine ⟨{ s1 with pb := s1.pb ++ [c % 256] }, hbuf, hesc, hlin, ?_, hr, ?_⟩
  · show s1.pb ++ [c % 256] = s.pb ++ [c]
    rw [pb_of_strip hs1, hc]
  · rw [e, fastscan_copy E fuel s1 c v hb.1 hv hs]

/-- The first character of a line, read at the label `run`, when it is outside
the class `C_SPEC` and starts no directive: it is copied to the output. -/
theorem fastscan_run_copy (E : Env) (fuel : Nat) (s : St) (c : Int) (v : Nat)
    (rest : List Int) (r : Int) (h : Rd E s (c :: rest) r)
    (h13 : c ≠ 13) (h92 : c ≠ 92) (h63 : c ≠ 63) (h47 : c ≠ 47)
    (h9 : c ≠ 9) (h32 : c ≠ 32) (h37 : c ≠ 37) (h35 : c ≠ 35)
    (hv : spechr c = some v) (hs : v &&& C_SPEC = 0) :
    ∃ s1, s1.ifiles.buffer = s.ifiles.buffer ∧ s1.ifiles.escln = s.ifiles.escln ∧
      s1.ifiles.lineno = s.ifiles.lineno ∧ s1.pb = s.pb ++ [c] ∧ Rd E s1 rest 0 ∧
      fastscanAt E (fuel + 4) FsAt.run s = fastscanAt E (fuel + 2) FsAt.top s1 := by
  have hb := h.byte
  have h0 := h.1.buf
  obtain ⟨s1, hs1, hr, e⟩ :=
    fastscan_run E (fuel + 1) s c rest 0 0 h.zero h13 h92 h63 h47 h9 h32 h37 h35
      (by omega) (by omega)
  have hc : c % 256 = c := by omega
  have hbuf := buffer_of_strip hs1
  have hesc := escln_of_strip hs1
  have hlin := lineno_of_strip hs1
  refine ⟨{ s1 with pb := s1.pb ++ [c % 256] }, hbuf, hesc, hlin, ?_, hr, ?_⟩
  · show s1.pb ++ [c % 256] = s.pb ++ [c]
    rw [pb_of_strip hs1, hc]
  · rw [e, fastscan_copy E (fuel + 2) s1 c v hb.1 hv hs]

/-- The newline case of `fastscan` in terms of the pending input. -/
theorem fastscan_newline_rd (E : Env) (fuel : Nat) (s : St) (p : List Int) (r : Int)
    (h : Rd E s p r) (hb : 2 ≤ s.ifiles.buffer) (hW : E.WARN ≠ 10) (hC : E.CONC ≠ 10) :
    ∃ s1, s1.ifiles.buffer = s.ifiles.buffer ∧ s1.ifiles.escln = 0 ∧
      s1.ifiles.lineno = s.ifiles.lineno + (s.ifiles.escln + 1) ∧
      s1.pb = s.pb ++ List.replicate (s.ifiles.escln + 1).toNat 10 ∧ Rd E s1 p 0 ∧
      fastscanAt E (fuel + 1) (FsAt.xloop 10) s = fastscanAt E fuel FsAt.run s1 := by
  obtain ⟨s1, h1, hs1, hr, _, _⟩ := REFILL_ok E s p r h hb
  have hbuf := buffer_of_strip hs1
  refine ⟨{ s1 with
      ifiles := { s1.ifiles with lineno := s1.ifiles.lineno + (s1.ifiles.escln + 1), escln := 0 }
      pb := s1.pb ++ List.replicate (s1.ifiles.escln + 1).toNat 10 },
    hbuf, rfl, ?_, ?_, ?_, ?_⟩
  · show s1.ifiles.lineno + (s1.ifiles.escln + 1) = _
    rw [lineno_of_strip hs1, escln_of_strip hs1]
  · show s1.pb ++ List.replicate (s1.ifiles.escln + 1).toNat 10 = _
    rw [pb_of_strip hs1, escln_of_strip hs1]
  · exact ⟨{ opened := hr.1.opened, size := hr.1.size, buf := hr.1.buf, cur := hr.1.cur,
             curmax := hr.1.curmax, bufmax := hr.1.bufmax, maxlen := hr.1.maxlen,
             fits := hr.1.fits, bytes := hr.1.bytes }, hr.2.1, hr.2.2⟩
  · rw [fastscan_newline E fuel s hW hC, h1, Res.andThen_ok, fastscanNewline_eq,
      Res.andThen_ok]

/-- A backslash before a newline in the tight loop of `fastscan` (token.c
761-766): the newline is skipped and counted in `escln`, nothing is written. -/
theorem fastscan_splice (E : Env) (fuel : Nat) (s : St) (rest : List Int) (r : Int)
    (h : Rd E s (10 :: rest) r) (hb : 2 ≤ s.ifiles.buffer) (hW : E.WARN ≠ 92)
    (hC : E.CONC ≠ 92) :
    ∃ s1, s1.ifiles.buffer = s.ifiles.buffer ∧ s1.ifiles.escln = s.ifiles.escln + 1 ∧
      s1.ifiles.lineno = s.ifiles.lineno ∧ s1.pb = s.pb ∧ Rd E s1 rest 0 ∧
      fastscanAt E (fuel + 1) (FsAt.xloop 92) s = fastscanAt E fuel FsAt.top s1 := by
  obtain ⟨s1, h1, hs1, hr, hn, hlt⟩ := REFILL_ok E s (10 :: rest) r h hb
  have hlt1 := hlt (by simp)
  have hp := pending_of_buffered s1.ifiles hr.1.cur hlt1 hr.1.maxlen
  rw [hr.2.1, hn] at hp
  have hp1 : pending { s1.ifiles with curptr := s1.ifiles.curptr + 1 } = rest :=
    (List.cons.inj hp).2.symm
  have hv : spechr 92 = some C_SPEC := by decide
  have hs : (C_SPEC &&& C_SPEC != 0) = true := by decide
  have hn1 : memGet s1.ifiles.mem s1.ifiles.curptr = 10 := hn
  have hbuf := buffer_of_strip hs1
  have hlin := lineno_of_strip hs1
  have hpb := pb_of_strip hs1
  refine ⟨{ s1 with ifiles := { s1.ifiles with escln := s1.ifiles.escln + 1,
                                               curptr := s1.ifiles.curptr + 1 } },
    hbuf, ?_, hlin, hpb, ?_, ?_⟩
  · show s1.ifiles.escln + 1 = _
    rw [escln_of_strip hs1]
  · refine ⟨{ opened := hr.1.opened, size := hr.1.size, buf := hr.1.buf, cur := ?_,
              curmax := ?_, bufmax := hr.1.bufmax, maxlen := hr.1.maxlen,
              fits := hr.1.fits, bytes := ?_ }, hp1, ?_⟩
    · show 0 ≤ s1.ifiles.curptr + 1
      have := hr.1.cur
      omega
    · show s1.ifiles.curptr + 1 ≤ s1.ifiles.maxread
      omega
    · intro b hb1
      have hb2 : b ∈ pending { s1.ifiles with curptr := s1.ifiles.curptr + 1 } := hb1
      rw [hp1] at hb2
      exact hr.1.bytes b (by rw [hr.2.1]; exact List.mem_cons_of_mem _ hb2)
    · show 0 ≤ s1.ifiles.curptr + 1
      have := hr.1.cur
      omega
  · rw [fastscanAt]
    simp only [M.bind_eq, M.andThen_apply, M.ite_apply, spechrHas_of 92 C_SPEC C_SPEC s hv, hs,
      Res.andThen_ok, Bool.not_true, Bool.false_eq_true, if_false, frame_apply, h1]
    simp [hW.symm, hC.symm, hn1]

/-! ## A directive line in terms of the pending input -/

theorem cond_of_strip {s s1 : St} (h : s1.strip = s.strip) : s1.cond = s.cond := by
  have := congrArg (fun t => t.cond) h
  exact this

theorem idbuf_of_strip {s s1 : St} (h : s1.strip = s.strip) : s1.idbuf = s.idbuf := by
  have := congrArg (fun t => t.idbuf) h
  exact this

theorem erb_of_strip {s s1 : St} (h : s1.strip = s.strip) : s1.erb = s.erb := by
  have := congrArg (fun t => t.erb) h
  exact this

theorem Cflag_of_strip {s s1 : St} (h : s1.strip = s.strip) : s1.Cflag = s.Cflag := by
  have := congrArg (fun t => t.Cflag) h
  exact this

theorem fastspc_plain (E : Env) (fuel : Nat) (s : St) (c : Int) (rest : List Int) (r r1 : Int)
    (h : Rd E s (c :: rest) r) (h13 : c ≠ 13) (h92 : c ≠ 92) (h63 : c ≠ 63) (h47 : c ≠ 47)
    (h9 : c ≠ 9) (h32 : c ≠ 32) (hr1 : r1 ≤ r + 1) (hr2 : r1 ≤ s.ifiles.buffer + 1) :
    ∃ s1, fastspc E (fuel + 3) s = Res.ok c s1 ∧ s1.strip = s.strip ∧ Rd E s1 rest r1 := by
  obtain ⟨s1, h1, hs1, hr⟩ := inch_plain E fuel s c rest r r1 h h13 h92 h63 h47 hr1 hr2
  refine ⟨s1, ?_, hs1, hr⟩
  rw [fastspc]
  simp [h1, ISWS, h9, h32]

theorem readidLoop_more (E : Env) (fuel : Nat) (s : St) (ch : Int) (p : Nat) (c : Int)
    (v : Nat) (rest : List Int) (r r1 : Int) (h : Rd E s (c :: rest) r)
    (h13 : c ≠ 13) (h92 : c ≠ 92) (h63 : c ≠ 63) (h47 : c ≠ 47) (hp : p < E.MAXIDSZ)
    (hv : spechr c = some v) (hid : (v &&& C_ID != 0) = true)
    (hr1 : r1 ≤ r + 1) (hr2 : r1 ≤ s.ifiles.buffer + 1) :
    ∃ s1, s1.strip = ({ s with idbuf := arrSet s.idbuf p (ch % 256) } : St).strip ∧
      Rd E s1 rest r1 ∧
      readidLoop E (fuel + 3) ch p s = readidLoop E (fuel + 2) c (p + 1) s1 := by
  obtain ⟨s1, h1, hs1, hr⟩ :=
    inch_plain E fuel { s with idbuf := arrSet s.idbuf p (ch % 256) } c rest r r1 h
      h13 h92 h63 h47 hr1 hr2
  refine ⟨s1, hs1, hr, ?_⟩
  have hne : p ≠ E.MAXIDSZ := by omega
  rw [readidLoop]
  simp [hne, hp, h1, ISID, spechrHas_of c C_ID v s1 hv, hid]

theorem readidLoop_done (E : Env) (fuel : Nat) (s : St) (ch : Int) (p : Nat) (c : Int)
    (v : Nat) (rest : List Int) (r r1 : Int) (h : Rd E s (c :: rest) r)
    (h13 : c ≠ 13) (h92 : c ≠ 92) (h63 : c ≠ 63) (h47 : c ≠ 47) (hp : p < E.MAXIDSZ)
    (hv : spechr c = some v) (hid : (v &&& C_ID != 0) = false)
    (hr1 : r1 ≤ r + 1) (hr2 : r1 ≤ s.ifiles.buffer + 1) :
    ∃ s1, s1.strip = ({ s with idbuf := arrSet s.idbuf p (ch % 256) } : St).strip ∧
      Rd E s1 rest r1 ∧
      readidLoop E (fuel + 3) ch p s = Res.ok (c, p + 1) s1 := by
  obtain ⟨s1, h1, hs1, hr⟩ :=
    inch_plain E fuel { s with idbuf := arrSet s.idbuf p (ch % 256) } c rest r r1 h
      h13 h92 h63 h47 hr1 hr2
  refine ⟨s1, hs1, hr, ?_⟩
  have hne : p ≠ E.MAXIDSZ := by omega
  rw [readidLoop]
  simp [hne, hp, h1, ISID, spechrHas_of c C_ID v s1 hv, hid]

/-- The function `readid` on an identifier of two characters: the second is
`c1`, and `c2`, which is no identifier character, ends it and is pushed
back. -/
theorem readid_two (E : Env) (fuel : Nat) (s : St) (c0 c1 c2 : Int) (v1 v2 : Nat)
    (rest : List Int) (h : Rd E s (c1 :: c2 :: rest) 0)
    (h13 : c1 ≠ 13) (h92 : c1 ≠ 92) (h63 : c1 ≠ 63) (h47 : c1 ≠ 47)
    (k13 : c2 ≠ 13) (k92 : c2 ≠ 92) (k63 : c2 ≠ 63) (k47 : c2 ≠ 47)
    (hM : 2 < E.MAXIDSZ)
    (hv1 : spechr c1 = some v1) (hid1 : (v1 &&& C_ID != 0) = true)
    (hv2 : spechr c2 = some v2) (hid2 : (v2 &&& C_ID != 0) = false) :
    ∃ s1, readid E (fuel + 4) c0 s =
        Res.ok (cstr (arrSet (arrSet (arrSet s.idbuf 0 (c0 % 256)) 1 (c1 % 256)) 2 0)) s1 ∧
      s1.cond = s.cond ∧ s1.ifiles.buffer = s.ifiles.buffer ∧ s1.Cflag = s.Cflag ∧
      Rd E s1 (c2 :: rest) 0 := by
  have hb0 := h.1.buf
  obtain ⟨sa, hsa, hra, ea⟩ :=
    readidLoop_more E (fuel + 1) s c0 0 c1 v1 (c2 :: rest) 0 0 h h13 h92 h63 h47 (by omega)
      hv1 hid1 (by omega) (by omega)
  have hba : sa.ifiles.buffer = s.ifiles.buffer := congrArg (fun t => t.ifiles.buffer) hsa
  obtain ⟨sb, hsb, hrb, eb⟩ :=
    readidLoop_done E fuel sa c1 1 c2 v2 rest 0 1 hra k13 k92 k63 k47 (by omega)
      hv2 hid2 (by omega) (by omega)
  have hbb : sb.ifiles.buffer = sa.ifiles.buffer := congrArg (fun t => t.ifiles.buffer) hsb
  have hc2 := hra.byte
  obtain ⟨sd, hd, hsd, hrd⟩ :=
    unch_ok E { sb with idbuf := arrSet sb.idbuf 2 0 } c2 rest 1 hrb (le_refl _) hc2.1 hc2.2
  have hia : sa.idbuf = arrSet s.idbuf 0 (c0 % 256) := congrArg (fun t => t.idbuf) hsa
  have hib : sb.idbuf = arrSet sa.idbuf 1 (c1 % 256) := congrArg (fun t => t.idbuf) hsb
  have hid : sd.idbuf = arrSet sb.idbuf 2 0 := congrArg (fun t => t.idbuf) hsd
  have hca : sa.cond = s.cond := congrArg (fun t => t.cond) hsa
  have hcb : sb.cond = sa.cond := congrArg (fun t => t.cond) hsb
  have hcd : sd.cond = sb.cond := congrArg (fun t => t.cond) hsd
  have hbd : sd.ifiles.buffer = sb.ifiles.buffer := congrArg (fun t => t.ifiles.buffer) hsd
  have hfa : sa.Cflag = s.Cflag := congrArg (fun t => t.Cflag) hsa
  have hfb : sb.Cflag = sa.Cflag := congrArg (fun t => t.Cflag) hsb
  have hfd : sd.Cflag = sb.Cflag := congrArg (fun t => t.Cflag) hsd
  have hM2 : ¬ 2 > E.MAXIDSZ := by omega
  refine ⟨sd, ?_, by rw [hcd, hcb, hca], by rw [hbd, hbb, hba], by rw [hfd, hfb, hfa],
    by simpa using hrd⟩
  have e0 : readidLoop E (fuel + 4) c0 0 s = Res.ok (c2, 2) sb := by
    have := ea
    simp only [Nat.add_assoc] at this eb ⊢
    rw [this]
    exact eb
  rw [readid]
  simp only [M.bind_eq, M.andThen_apply, e0, Res.andThen_ok, M.ite_apply, hM2, false_and,
    if_false, M.pure_eq, M.ret_apply, modState_apply, hd, getState_apply]
  rw [hid, hib, hia]

theorem exprLoop_read (E : Env) (fuel : Nat) (s : St) (ifdef : Bool) (c : Int)
    (rest : List Int) (r r1 : Int) (h : Rd E s (c :: rest) r)
    (h13 : c ≠ 13) (h92 : c ≠ 92) (h63 : c ≠ 63) (h47 : c ≠ 47)
    (hr1 : r1 ≤ r + 1) (hr2 : r1 ≤ s.ifiles.buffer + 1) :
    ∃ s1, s1.strip = s.strip ∧ Rd E s1 rest r1 ∧
      exprLoop E (fuel + 3) none ifdef s = exprLoop E (fuel + 2) (some c) ifdef s1 := by
  obtain ⟨s1, h1, hs1, hr⟩ := inch_plain E fuel s c rest r r1 h h13 h92 h63 h47 hr1 hr2
  refine ⟨s1, hs1, hr, ?_⟩
  rw [exprLoop]
  simp [h1]

theorem exprLoop_newline (E : Env) (fuel : Nat) (s : St) (ifdef : Bool) :
    exprLoop E (fuel + 1) (some 10) ifdef s = Res.ok () s := by
  rw [exprLoop]
  simp

/-- A character of the `#if` line that starts no number, literal or
identifier is copied to the expression buffer. -/
theorem exprLoop_other (E : Env) (fuel : Nat) (s : St) (ifdef : Bool) (c : Int) (v : Nat)
    (h10 : c ≠ 10) (h46 : c ≠ 46) (h39 : c ≠ 39) (h34 : c ≠ 34) (h76 : c ≠ 76)
    (h117 : c ≠ 117) (h85 : c ≠ 85) (hv : spechr c = some v)
    (hd : (v &&& C_DIGIT != 0) = false) (hi : (v &&& C_ID0 != 0) = false) :
    exprLoop E (fuel + 1) (some c) ifdef s =
      exprLoop E fuel none ifdef { s with erb := s.erb ++ [c % 256] } := by
  rw [exprLoop]
  simp [h10, h46, h39, h34, h76, h117, h85, ISDIGIT, ISID0, spechrHas_of c C_DIGIT v s hv,
    spechrHas_of c C_ID0 v s hv, hd, hi]

/-- A number of one digit on the `#if` line, followed by a character `d` that
cannot go on a number: the digit is copied to the expression buffer. -/
theorem exprLoop_digit (E : Env) (fuel : Nat) (s : St) (ifdef : Bool) (c d : Int) (v w : Nat)
    (rest : List Int) (r r1 : Int) (h : Rd E s (d :: rest) r)
    (h13 : d ≠ 13) (h92 : d ≠ 92) (h63 : d ≠ 63) (h47 : d ≠ 47) (h46 : d ≠ 46)
    (c10 : c ≠ 10) (c46 : c ≠ 46)
    (hv : spechr c = some v) (hd : (v &&& C_DIGIT != 0) = true)
    (hw : spechr d = some w) (he : (w &&& C_EP != 0) = false) (hi : (w &&& C_ID != 0) = false)
    (hr1 : r1 ≤ r + 1) (hr2 : r1 ≤ s.ifiles.buffer + 1) :
    ∃ s1, s1.strip = ({ s with erb := s.erb ++ [c % 256] } : St).strip ∧ Rd E s1 rest r1 ∧
      exprLoop E (fuel + 4) (some c) ifdef s = exprLoop E (fuel + 3) (some d) ifdef s1 := by
  have hd0 := h.byte
  have hdn : ¬ d < 0 := by omega
  obtain ⟨s1, h1, hs1, hr⟩ :=
    inch_plain E fuel { s with erb := s.erb ++ [c % 256] } d rest r r1 h h13 h92 h63 h47 hr1 hr2
  refine ⟨s1, hs1, hr, ?_⟩
  rw [exprLoop]
  simp only [M.bind_eq, M.andThen_apply, M.ite_apply, c10, c46, if_false, M.pure_eq,
    M.ret_apply, Res.andThen_ok, Bool.false_eq_true, ISDIGIT, spechrHas_of c C_DIGIT v s hv, hd,
    if_true, fastnum, Bool.not_true]
  rw [fastnumLoop]
  simp only [M.bind_eq, M.andThen_apply, putob_erb, Res.andThen_ok, h1, M.ite_apply, hdn,
    if_false, spechrHas_of d C_EP w s1 hw, he, Bool.false_eq_true, h46,
    spechrHas_of d C_ID w s1 hw, hi, M.pure_eq, M.ret_apply]

/-- The function `exprline` on the rest of line ` 1`: the expression buffer
handed to `yyparse` is a blank and the digit, and the newline is pushed
back. -/
theorem exprline_one (E : Env) (fuel : Nat) (s : St) (rest : List Int)
    (h : Rd E s (32 :: 49 :: 10 :: rest) 0)
    (hy : ∀ t : St, t.yyinp = [32, 49] → E.yyparse t = Res.ok 1 t) :
    ∃ s1, exprline E (fuel + 7) s = Res.ok 1 s1 ∧ s1.cond = s.cond ∧
      s1.ifiles.buffer = s.ifiles.buffer ∧ Rd E s1 (10 :: rest) 0 := by
  have hb0 := h.1.buf
  have v32 : spechr 32 = some C_WSNL := by decide
  have v49 : spechr 49 = some 201 := by decide
  have v10 : spechr 10 = some C_NL := by decide
  obtain ⟨t1, hs1, hr1, e1⟩ :=
    exprLoop_read E (fuel + 4)
      { s with erb := [], nbufused := s.nbufused - 1, Cflag := 0 } false 32 _ 0 0 h
      (by decide) (by decide) (by decide) (by decide) (by omega)
      (by show (0 : Int) ≤ s.ifiles.buffer + 1; omega)
  have hb1 : t1.ifiles.buffer = s.ifiles.buffer := congrArg (fun t => t.ifiles.buffer) hs1
  have e2 := exprLoop_other E (fuel + 5) t1 false 32 C_WSNL (by decide) (by decide) (by decide)
    (by decide) (by decide) (by decide) (by decide) v32 (by decide) (by decide)
  obtain ⟨t3, hs3, hr3, e3⟩ :=
    exprLoop_read E (fuel + 2) { t1 with erb := t1.erb ++ [32 % 256] } false 49 _ 0 0 hr1
      (by decide) (by decide) (by decide) (by decide) (by omega)
      (by show (0 : Int) ≤ t1.ifiles.buffer + 1; omega)
  have hb3 : t3.ifiles.buffer = t1.ifiles.buffer := congrArg (fun t => t.ifiles.buffer) hs3
  obtain ⟨t4, hs4, hr4, e4⟩ :=
    exprLoop_digit E fuel t3 false 49 10 _ C_NL _ 0 1 hr3
      (by decide) (by decide) (by decide) (by decide) (by decide) (by decide) (by decide)
      v49 (by decide) v10 (by decide) (by decide) (by omega) (by omega)
  have hb4 : t4.ifiles.buffer = t3.ifiles.buffer := congrArg (fun t => t.ifiles.buffer) hs4
  have e5 := exprLoop_newline E (fuel + 2) t4 false
  obtain ⟨t5, h5, hs5, hr5⟩ := unch_ok E t4 10 rest 1 hr4 (le_refl _) (by decide) (by decide)
  have hb5 : t5.ifiles.buffer = t4.ifiles.buffer := buffer_of_strip hs5
  have c1 : t1.cond = s.cond := congrArg (fun t => t.cond) hs1
  have c3 : t3.cond = t1.cond := congrArg (fun t => t.cond) hs3
  have c4 : t4.cond = t3.cond := congrArg (fun t => t.cond) hs4
  have c5 : t5.cond = t4.cond := cond_of_strip hs5
  have b1 : t1.erb = [] := congrArg (fun t => t.erb) hs1
  have b3 : t3.erb = t1.erb ++ [32 % 256] := congrArg (fun t => t.erb) hs3
  have b4 : t4.erb = t3.erb ++ [49 % 256] := congrArg (fun t => t.erb) hs4
  have b5 : t5.erb = t4.erb := erb_of_strip hs5
  have hy5 : E.yyparse { t5 with yyinp := t5.erb } = Res.ok 1 { t5 with yyinp := t5.erb } := by
    apply hy
    show t5.erb = [32, 49]
    rw [b5, b4, b3, b1]
    rfl
  have eL : exprLoop E (fuel + 7) none false
      { s with erb := [], nbufused := s.nbufused - 1, Cflag := 0 } = Res.ok () t4 := by
    rw [e1, e2, e3, e4, e5]
  refine ⟨{ t5 with yyinp := t5.erb, nbufused := t5.nbufused + 1, Cflag := s.Cflag }, ?_,
    by show t5.cond = s.cond; rw [c5, c4, c3, c1],
    by show t5.ifiles.buffer = s.ifiles.buffer; rw [hb5, hb4, hb3, hb1], hr5⟩
  have hreset : obReset Ob.erb s = Res.ok () { s with erb := [] } := rfl
  rw [exprline]
  simp only [M.bind_eq, M.andThen_apply, getState_apply, Res.andThen_ok, hreset, modState_apply,
    eL, h5, hy5, M.pure_eq, M.ret_apply]

theorem cstr_two (a : List Int) (c0 c1 : Int) (h0 : c0 ≠ 0) (h1 : c1 ≠ 0) :
    cstr (arrSet (arrSet (arrSet a 0 c0) 1 c1) 2 0) = [c0, c1] := by
  have hb0 : (c0 != 0) = true := by simpa using h0
  have hb1 : (c1 != 0) = true := by simpa using h1
  rcases a with _ | ⟨x, _ | ⟨y, _ | ⟨z, t⟩⟩⟩ <;> simp [arrSet, cstr, List.takeWhile, hb0, hb1]

/-- The test of `ppdir` on a character of the table is the plain lookup. -/
theorem spechrAt_of (E : Env) (ch : Int) (bit v : Nat) (s : St) (h : spechr ch = some v) :
    spechrAt E ch bit s = Res.ok (v &&& bit != 0) s := by
  have hne : ch ≠ -1 := by
    intro hc
    rw [hc] at h
    have hn : spechr (-1) = none := by decide
    rw [hn] at h
    cases h
  unfold spechrAt
  rw [if_neg hne]
  exact spechrHas_of ch bit v s h

theorem ppdFind_if (g : Bool) :
    ppdFind g [105, 102] = some ⟨str "if", PpFun.ifstmt, DIR_FLSINC⟩ := by
  cases g <;> decide

/-- The directive `#if 1`, read by `ppdir` after the `#`: the condition is
true, `trulvl` goes up by one, and the newline is left pending. -/
theorem ppdir_if_one (E : Env) (fuel : Nat) (s : St) (rest : List Int)
    (h : Rd E s (105 :: 102 :: 32 :: 49 :: 10 :: rest) 0) (hf : s.cond.flslvl = 0)
    (hM : 2 < E.MAXIDSZ)
    (hy : ∀ t : St, t.yyinp = [32, 49] → E.yyparse t = Res.ok 1 t) :
    ∃ s1, ppdir E (fuel + 8) s = Res.ok () s1 ∧ s1.cond = incTru s.cond ∧
      s1.ifiles.buffer = s.ifiles.buffer ∧ Rd E s1 (10 :: rest) 0 := by
  have hb0 := h.1.buf
  have v105 : spechr 105 = some 25 := by decide
  have v102 : spechr 102 = some 153 := by decide
  have v32 : spechr 32 = some C_WSNL := by decide
  obtain ⟨sb, h1, hsb, hrb⟩ :=
    fastspc_plain E (fuel + 4) { s with Cflag := 0 } 105 _ 0 0 h (by decide) (by decide)
      (by decide) (by decide) (by decide) (by decide) (by omega)
      (by show (0 : Int) ≤ s.ifiles.buffer + 1; omega)
  have bb : sb.ifiles.buffer = s.ifiles.buffer := congrArg (fun t => t.ifiles.buffer) hsb
  have cb : sb.cond = s.cond := congrArg (fun t => t.cond) hsb
  obtain ⟨sd, h2, cd, bd, _, hrd⟩ :=
    readid_two E (fuel + 3) { sb with Cflag := s.Cflag } 105 102 32 _ _ _ hrb
      (by decide) (by decide) (by decide) (by decide) (by decide) (by decide) (by decide)
      (by decide) hM v102 (by decide) v32 (by decide)
  rw [cstr_two _ _ _ (by decide) (by decide)] at h2
  obtain ⟨se, h3, ce, be, hre⟩ := exprline_one E fuel sd rest hrd hy
  have cd1 : sd.cond = s.cond := by rw [cd]; exact cb
  have hfd : sd.cond.flslvl = 0 := by rw [cd1]; exact hf
  have hfe : (incTru se.cond).flslvl = 0 := by
    show se.cond.flslvl = 0
    rw [ce]; exact hfd
  refine ⟨{ se with cond := incTru se.cond }, ?_, by show incTru se.cond = _; rw [ce, cd1],
    by show se.ifiles.buffer = _; rw [be, bd]; exact bb, hre⟩
  have hm1 : ((105 : Int) % 256) = 105 := by decide
  have hm2 : ((102 : Int) % 256) = 102 := by decide
  rw [hm1, hm2] at h2
  rw [ppdir]
  simp only [M.bind_eq, M.andThen_apply, getState_apply, Res.andThen_ok]
  rw [ppdirRedo]
  simp only [M.bind_eq, M.andThen_apply, modState_apply, Res.andThen_ok, h1, M.ite_apply,
    spechrAt_of E 105 C_ID0 _ _ v105]
  simp only [show ¬ ((105 : Int) = 10) by decide, if_false, M.andThen_apply, modState_apply,
    Res.andThen_ok, M.bind_eq, M.ite_apply, spechrAt_of E 105 C_ID0 _ _ v105,
    show ((25 : Nat) &&& C_ID0 != 0) = true by decide, Bool.not_true,
    Bool.false_eq_true, h2, ppdFind_if]
  simp [ppdirDispatch, Ops.get, Ops.upd, stOps, ppFun, ppFunCall, ifstmt, hfd, h3, hfe]

/-- A line that starts with `#`, read at the label `run`: `ppdir` handles the
directive, and the tight loop goes on after it. -/
theorem fastscan_directive (E : Env) (fuel : Nat) (s : St) (rest : List Int) (r r1 : Int)
    (h : Rd E s (35 :: rest) r) (hr1 : r1 ≤ r + 1) (hr2 : r1 ≤ s.ifiles.buffer + 1) :
    ∃ s1, s1.strip = s.strip ∧ Rd E s1 rest r1 ∧
      fastscanAt E (fuel + 3) FsAt.run s =
        (ppdir E (fuel + 2) s1).andThen (fun _ s2 => fastscanAt E (fuel + 2) FsAt.top s2) := by
  obtain ⟨s1, h1, hs1, hr⟩ :=
    inch_plain E fuel s 35 rest r r1 h (by decide) (by decide) (by decide) (by decide) hr1 hr2
  refine ⟨s1, hs1, hr, ?_⟩
  conv_lhs => rw [fastscanAt]
  simp only [M.bind_eq, M.andThen_apply, h1, Res.andThen_ok, M.ite_apply,
    show ¬ ((35 : Int) = 9 ∨ (35 : Int) = 32) by decide, if_false,
    show ¬ ((35 : Int) = 37) by decide, M.pure_eq, M.ret_apply, if_true]

/-- A run of `fastscan` over a file that is the one line `#if 1`: it returns
at the end of the file with `trulvl` one higher than at the start. -/
theorem fastscan_if_one (E : Env) (fuel : Nat) (s : St)
    (h : Rd E s [35, 105, 102, 32, 49, 10] 0) (hf : s.cond.flslvl = 0)
    (hb : 2 ≤ s.ifiles.buffer) (hM : 2 < E.MAXIDSZ) (hW : E.WARN ≠ 10) (hC : E.CONC ≠ 10)
    (hy : ∀ t : St, t.yyinp = [32, 49] → E.yyparse t = Res.ok 1 t) :
    ∃ s1, fastscan E (fuel + 9) s = Res.ok () s1 ∧ s1.cond = incTru s.cond := by
  obtain ⟨sa, hsa, hra, q1⟩ := fastscan_directive E (fuel + 6) s _ 0 0 h (by omega) (by omega)
  have ba : sa.ifiles.buffer = s.ifiles.buffer := buffer_of_strip hsa
  have ca : sa.cond = s.cond := cond_of_strip hsa
  obtain ⟨sb, h2, cb, bb, hrb⟩ := ppdir_if_one E fuel sa [] hra (by rw [ca]; exact hf) hM hy
  obtain ⟨sc, hsc, hrc, q3⟩ := fastscan_top E (fuel + 7) sb 10 [] 0 0 hrb (by omega)
    (by rw [bb, ba]; omega)
  have bc : sc.ifiles.buffer = sb.ifiles.buffer := buffer_of_strip hsc
  have cc : sc.cond = sb.cond := cond_of_strip hsc
  obtain ⟨sd, h4, hsd, hrd, _, _⟩ := REFILL_ok E sc [] 0 hrc (by rw [bc, bb, ba]; exact hb)
  have cd : sd.cond = sc.cond := cond_of_strip hsd
  have q4 := fastscan_newline E (fuel + 6) sc hW hC
  rw [h4, Res.andThen_ok, fastscanNewline_eq, Res.andThen_ok] at q4
  have q5 := fastscan_run_eof E (fuel + 3)
    { sd with
      ifiles := { sd.ifiles with lineno := sd.ifiles.lineno + (sd.ifiles.escln + 1), escln := 0 }
      pb := sd.pb ++ List.replicate (sd.ifiles.escln + 1).toNat 10 } 0
    ⟨{ opened := hrd.1.opened, size := hrd.1.size, buf := hrd.1.buf, cur := hrd.1.cur,
       curmax := hrd.1.curmax, bufmax := hrd.1.bufmax, maxlen := hrd.1.maxlen,
       fits := hrd.1.fits, bytes := hrd.1.bytes }, hrd.2.1, hrd.2.2⟩
  have h2a : ppdir E (fuel + 6 + 2) sa = Res.ok () sb := h2
  have q3a : fastscanAt E (fuel + 6 + 2) FsAt.top sb =
      fastscanAt E (fuel + 6 + 1) (FsAt.xloop 10) sc := q3
  have q5a : fastscanAt E (fuel + 6) FsAt.run
      { sd with
        ifiles := { sd.ifiles with lineno := sd.ifiles.lineno + (sd.ifiles.escln + 1), escln := 0 }
        pb := sd.pb ++ List.replicate (sd.ifiles.escln + 1).toNat 10 } = Res.ok () _ := q5
  have q1a : fastscan E (fuel + 9) s = (ppdir E (fuel + 6 + 2) sa).andThen
      (fun _ s2 => fastscanAt E (fuel + 6 + 2) FsAt.top s2) := q1
  refine ⟨{ sd with
      ifiles := { sd.ifiles with lineno := sd.ifiles.lineno + (sd.ifiles.escln + 1), escln := 0 }
      pb := sd.pb ++ List.replicate (sd.ifiles.escln + 1).toNat 10 }, ?_, ?_⟩
  · rw [q1a, h2a, Res.andThen_ok, q3a, q4, q5a]
  · show sd.cond = incTru s.cond
    rw [cd, cc, cb, ca]

/-! ## The end of a file inside a conditional -/

theorem pushfileEnter_stdin (input : List Int) :
    pushfileEnter sampleEnv none 0 (startState input) = Res.ok true (openState input) := by
  simp [pushfileEnter, prtline, startState, openState, sampleFrame, sampleEnv]

/-- The last test of `pushfile` (token.c 956-957): when the file has been
opened and `fastscan` returns with `trulvl` different from its value at the
opening of the frame, or with `flslvl` nonzero, `pushfile` ends in the fatal
error "unterminated conditional". -/
theorem pushfile_unterminated (E : Env) (fuel : Nat) (file : Option (List Int))
    (idx : Int) (s s0 s1 : St)
    (h0 : pushfileEnter E file idx s = Res.ok true s0)
    (h1 : fastscan E fuel s0 = Res.ok () s1)
    (h : s0.cond.trulvl ≠ s1.cond.trulvl ∨ s1.cond.flslvl ≠ 0) :
    pushfile E fuel file idx s = Res.fatal Err.unterminatedConditional s1 := by
  simp only [pushfile, M.bind_eq, M.andThen_apply, h0, Res.andThen_ok, M.ite_apply,
    Bool.not_true, Bool.false_eq_true, if_false, getState_apply, h1]
  simp [h]

/-- C7 (as amended). Trigraph decoding equals the reference table: for every
byte `X`, `inc1` applied to input starting `??X` returns, for the nine `X` of
the table, the character the trigraph stands for, as one character, with the
rest of the input left pending; for every other `X` except the carriage
return, the input `??X` decodes to the three characters `?`, `?`, `X`, then end
of input; and for the carriage return it decodes to `?`, `?` and the end of
input, the carriage return being dropped as anywhere else. -/
theorem trigraph_decoding (E : Env) (fuel : Nat) (s : St) (x : Int)
    (hok : FrameOK E s.ifiles) (hm : 1 ≤ s.ifiles.buffer) :
    (∀ y rest, (x, y) ∈ trigraphTable → pending s.ifiles = 63 :: 63 :: x :: rest →
      ∃ s1, inc1 E (fuel + 2) s = Res.ok y s1 ∧ pending s1.ifiles = rest) ∧
    ((∀ y, (x, y) ∉ trigraphTable) → x ≠ 13 → pending s.ifiles = [63, 63, x] →
      (repeatM (inc1 E (fuel + 2)) 4 s).value? = some [63, 63, x, -1]) ∧
    (x = 13 → pending s.ifiles = [63, 63, x] →
      (repeatM (inc1 E (fuel + 2)) 3 s).value? = some [63, 63, -1]) := by
  refine ⟨?_, ?_, ?_⟩
  · intro y rest hxy hp
    obtain ⟨s1, h1, _, hr1⟩ := inc1_trigraph E (fuel + 1) s x y rest 0 0 ⟨hok, hp, hok.cur⟩ hxy
      (by omega) (by omega)
    exact ⟨s1, h1, hr1.2.1⟩
  · intro hx h13 hp
    exact inc1_qq_other E (fuel + 1) s x 0 ⟨hok, hp, hok.cur⟩ (le_refl _) hm hx h13
  · intro hx hp
    subst hx
    exact inc1_qq_cr E fuel s 0 ⟨hok, hp, hok.cur⟩ (le_refl _) hm

theorem trigraph_decoding_witness :
    (∃ s1, inc1 sampleEnv 2 (openState [63, 63, 61, 97]) = Res.ok 35 s1 ∧
      pending s1.ifiles = [97]) ∧
    (repeatM (inc1 sampleEnv 2) 4 (openState [63, 63, 120])).value? = some [63, 63, 120, -1] ∧
    (repeatM (inc1 sampleEnv 2) 3 (openState [63, 63, 13])).value? = some [63, 63, -1] :=
  ⟨(trigraph_decoding sampleEnv 0 (openState [63, 63, 61, 97]) 61
      (frameOK_open _ (by decide)) (by decide)).1 35 [97] (by decide) (pending_open _),
    (trigraph_decoding sampleEnv 0 (openState [63, 63, 120]) 120
      (frameOK_open _ (by decide)) (by decide)).2.1 (not_trigraph_of 120 (by decide)) (by decide)
      (pending_open _),
    (trigraph_decoding sampleEnv 0 (openState [63, 63, 13]) 13
      (frameOK_open _ (by decide)) (by decide)).2.2 rfl (pending_open _)⟩

/-- C7, counterexample. The carriage return forms no trigraph, yet the input
`??` followed by a carriage return does not decode to `?`, `?` and the
carriage return: the third character delivered is the end of input. -/
theorem trigraph_passthrough_fails_for_cr :
    (∀ y, ((13 : Int), y) ∉ trigraphTable) ∧
    (repeatM (inc1 sampleEnv 2) 3 (openState [63, 63, 13])).value? = some [63, 63, -1] ∧
    (repeatM (inc1 sampleEnv 2) 3 (openState [63, 63, 13])).value? ≠ some [63, 63, 13] := by
  have h := inc1_qq_cr sampleEnv 0 (openState [63, 63, 13]) 0 (rd_open _ (by decide))
    (le_refl _) (by decide)
  refine ⟨not_trigraph_13, h, ?_⟩
  rw [h]
  decide

/-- C8 (as amended). Line splicing in `inc2`: for every input consisting of
`k >= 0` backslash-newline pairs followed by a character `c` other than a
backslash, a carriage return and `?`, `inc2` returns `c`, leaves what follows
`c` pending and increases `escln` of the active frame by exactly `k`; a
backslash followed by a character `d` other than newline, carriage return,
backslash, `?`, `u` and `U` is returned as a backslash, with `d` pushed back so
that it is the next character read; and a backslash followed by a carriage
return and a newline is a splice like any other. -/
theorem line_splicing (E : Env) (fuel : Nat) (s : St) (hok : FrameOK E s.ifiles) :
    (∀ (k : Nat) (c : Int) (rest : List Int), c ≠ 13 → c ≠ 92 → c ≠ 63 →
      pending s.ifiles = splices k (c :: rest) →
      ∃ s1, inc2 E (fuel + k + 1) s = Res.ok c s1 ∧ pending s1.ifiles = rest ∧
        s1.ifiles.escln = s.ifiles.escln + k) ∧
    (∀ (d : Int) (rest : List Int), d ∉ [10, 13, 92, 63, 117, 85] →
      pending s.ifiles = 92 :: d :: rest →
      ∃ s1, inc2 E (fuel + 1) s = Res.ok 92 s1 ∧ pending s1.ifiles = d :: rest ∧
        s1.ifiles.escln = s.ifiles.escln ∧ (inpch E s1).value? = some d) ∧
    (∀ (c : Int) (rest : List Int), c ≠ 13 → c ≠ 92 → c ≠ 63 →
      pending s.ifiles = 92 :: 13 :: 10 :: c :: rest →
      ∃ s1, inc2 E (fuel + 3) s = Res.ok c s1 ∧ s1.ifiles.escln = s.ifiles.escln + 1) := by
  refine ⟨?_, ?_, ?_⟩
  · intro k c rest h13 h92 h63 hp
    obtain ⟨s1, h1, hs1, hr1⟩ := inc2_splices E fuel k s c rest 0 ⟨hok, hp, hok.cur⟩ (le_refl _)
      h13 h92 h63
    exact ⟨s1, h1, hr1.2.1, by rw [escln_of_strip hs1]; rfl⟩
  · intro d rest hd hp
    simp only [List.mem_cons, List.mem_singleton, List.not_mem_nil, or_false, not_or] at hd
    obtain ⟨s1, h1, hs1, hr1⟩ := inc2_backslash E fuel s d rest 0 ⟨hok, hp, hok.cur⟩ (le_refl _)
      hd.1 hd.2.1 hd.2.2.1 hd.2.2.2.1 hd.2.2.2.2.1 hd.2.2.2.2.2
    obtain ⟨s2, h2, _, _⟩ := inpch_cons E s1 d rest 0 0 hr1 (by omega)
      (by have := hr1.1.buf; omega)
    exact ⟨s1, h1, hr1.2.1, escln_of_strip hs1, by rw [h2]; rfl⟩
  · intro c rest h13 h92 h63 hp
    exact inc2_backslash_cr_nl E fuel s c rest 0 ⟨hok, hp, hok.cur⟩ (le_refl _) h13 h92 h63

theorem line_splicing_witness :
    (∃ s1, inc2 sampleEnv (0 + 2 + 1) (openState [92, 10, 92, 10, 97, 98]) = Res.ok 97 s1 ∧
      pending s1.ifiles = [98] ∧
      s1.ifiles.escln = (openState [92, 10, 92, 10, 97, 98]).ifiles.escln + (2 : Nat)) ∧
    (∃ s1, inc2 sampleEnv (0 + 1) (openState [92, 110, 97]) = Res.ok 92 s1 ∧
      pending s1.ifiles = [110, 97] ∧
      s1.ifiles.escln = (openState [92, 110, 97]).ifiles.escln ∧
      (inpch sampleEnv s1).value? = some 110) ∧
    (∃ s1, inc2 sampleEnv (0 + 3) (openState [92, 13, 10, 120]) = Res.ok 120 s1 ∧
      s1.ifiles.escln = (openState [92, 13, 10, 120]).ifiles.escln + 1) :=
  ⟨(line_splicing sampleEnv 0 (openState [92, 10, 92, 10, 97, 98])
      (frameOK_open _ (by decide))).1 2 97 [98] (by decide) (by decide) (by decide)
      (pending_open _),
    (line_splicing sampleEnv 0 (openState [92, 110, 97])
      (frameOK_open _ (by decide))).2.1 110 [97] (by decide) (pending_open _),
    (line_splicing sampleEnv 0 (openState [92, 13, 10, 120])
      (frameOK_open _ (by decide))).2.2 120 [] (by decide) (by decide) (by decide)
      (pending_open _)⟩

/-- C8, counterexample. In the input backslash, carriage return, newline, `x`
the backslash is followed by a character other than newline, yet `inc2` does
not return the backslash: it splices the line and returns `x`, with `escln`
increased by one. -/
theorem backslash_before_cr_not_returned :
    (∃ s1, inc2 sampleEnv 3 (openState [92, 13, 10, 120]) = Res.ok 120 s1 ∧
      s1.ifiles.escln = 1) ∧
    (inc2 sampleEnv 3 (openState [92, 13, 10, 120])).value? ≠ some 92 := by
  obtain ⟨s1, h1, h2⟩ := inc2_backslash_cr_nl sampleEnv 0 (openState [92, 13, 10, 120]) 120 []
    0 (rd_open _ (by decide)) (le_refl _) (by decide) (by decide) (by decide)
  refine ⟨⟨s1, h1, by rw [h2]; rfl⟩, ?_⟩
  rw [h1]
  simp [Res.value?]

/-! ## Line numbers across line splices -/

/-- Claim C9.  When `fastscan` handles a newline character while `k` line
splices are pending (`escln = k`), it goes on at the label `run` in a state in
which `lineno` has grown by exactly `k + 1`, exactly `k + 1` newline characters
have been appended to the output, and `escln` is 0; apart from that the state
is the one `REFILL(2)` leaves, which differs from the old one at most in the raw
buffer.  And a backslash before a newline in the tight loop is a splice: the
newline is consumed, `escln` grows by one, `lineno` and the output stay as they
are. -/
theorem newline_bookkeeping (E : Env) (fuel : Nat) (s : St) :
    (∀ k : Nat, s.ifiles.escln = (k : Int) → E.WARN ≠ 10 → E.CONC ≠ 10 →
      ∃ s1, REFILL E 2 s = Res.ok () s1 ∧ s1.strip = s.strip ∧
        fastscanAt E (fuel + 1) (FsAt.xloop 10) s =
          fastscanAt E fuel FsAt.run
            { s1 with
              ifiles := { s1.ifiles with lineno := s.ifiles.lineno + ((k : Int) + 1), escln := 0 }
              pb := s.pb ++ List.replicate (k + 1) 10 }) ∧
    (∀ rest : List Int, FrameOK E s.ifiles → pending s.ifiles = 10 :: rest →
      2 ≤ s.ifiles.buffer → E.WARN ≠ 92 → E.CONC ≠ 92 →
      ∃ s1, fastscanAt E (fuel + 1) (FsAt.xloop 92) s = fastscanAt E fuel FsAt.top s1 ∧
        s1.ifiles.escln = s.ifiles.escln + 1 ∧ s1.ifiles.lineno = s.ifiles.lineno ∧
        s1.pb = s.pb ∧ pending s1.ifiles = rest) := by
  refine ⟨?_, ?_⟩
  · intro k hk hW hC
    obtain ⟨s1, h1, hs1⟩ := REFILL_total E s 2
    refine ⟨s1, h1, hs1, ?_⟩
    have hn : ((k : Int) + 1).toNat = k + 1 := by omega
    rw [fastscan_newline E fuel s hW hC, h1, Res.andThen_ok, fastscanNewline_eq,
      Res.andThen_ok, lineno_of_strip hs1, escln_of_strip hs1, pb_of_strip hs1, hk, hn]
  · intro rest hok hp hb hW hC
    obtain ⟨s1, _, he, hl, hpb, hr, hq⟩ :=
      fastscan_splice E fuel s rest 0 ⟨hok, hp, hok.cur⟩ hb hW hC
    exact ⟨s1, hq, he, hl, hpb, hr.2.1⟩

theorem newline_bookkeeping_witness :
    (∃ s1, REFILL sampleEnv 2 ((openState [59]).spliced 1) = Res.ok () s1 ∧
      s1.strip = ((openState [59]).spliced 1).strip ∧
      fastscanAt sampleEnv 8 (FsAt.xloop 10) ((openState [59]).spliced 1) =
        fastscanAt sampleEnv 7 FsAt.run
          { s1 with
            ifiles := { s1.ifiles with
              lineno := ((openState [59]).spliced 1).ifiles.lineno + (((1 : Nat) : Int) + 1)
              escln := 0 }
            pb := ((openState [59]).spliced 1).pb ++ List.replicate (1 + 1) 10 }) ∧
    (∃ s1, fastscanAt sampleEnv 8 (FsAt.xloop 92) (openState [10, 59]) =
        fastscanAt sampleEnv 7 FsAt.top s1 ∧
      s1.ifiles.escln = (openState [10, 59]).ifiles.escln + 1 ∧
      s1.ifiles.lineno = (openState [10, 59]).ifiles.lineno ∧
      s1.pb = (openState [10, 59]).pb ∧ pending s1.ifiles = [59]) :=
  ⟨(newline_bookkeeping sampleEnv 7 ((openState [59]).spliced 1)).1 1 (by decide) (by decide)
      (by decide),
    (newline_bookkeeping sampleEnv 7 (openState [10, 59])).2 [59] (frameOK_open _ (by decide))
      (pending_open _) (by decide) (by decide) (by decide)⟩

/-- A run of `fastscan` over the two physical lines `;\` and `;`: the splice
writes nothing, the newline that ends the logical line writes two newline
characters and moves `lineno` from 1 to 3. -/
theorem spliced_line_run :
    ∃ s1, fastscan sampleEnv 12 (openState [59, 92, 10, 59, 10]) = Res.ok () s1 ∧
      s1.pb = [59, 59, 10, 10] ∧ s1.ifiles.lineno = 3 ∧ s1.ifiles.escln = 0 := by
  have hin : ∀ b ∈ [59, 92, 10, 59, 10], (0 : Int) ≤ b ∧ b < 256 := by decide
  have h0 := rd_open [59, 92, 10, 59, 10] hin
  have hv : spechr 59 = some 0 := by decide
  obtain ⟨s1, b1, e1, l1, p1, r1, q1⟩ :=
    fastscan_run_copy sampleEnv 8 _ 59 0 _ 0 h0 (by decide) (by decide) (by decide) (by decide)
      (by decide) (by decide) (by decide) (by decide) hv (by decide)
  obtain ⟨s2, hs2, r2, q2⟩ := fastscan_top sampleEnv 9 s1 92 _ 0 0 r1 (by decide)
    (by rw [b1]; decide)
  obtain ⟨s3, b3, e3, l3, p3, r3, q3⟩ :=
    fastscan_splice sampleEnv 8 s2 _ 0 r2 (by rw [buffer_of_strip hs2, b1]; decide)
      (by decide) (by decide)
  obtain ⟨s4, b4, e4, l4, p4, r4, q4⟩ :=
    fastscan_top_copy sampleEnv 6 s3 59 0 _ 0 r3 hv (by decide)
  obtain ⟨s5, hs5, r5, q5⟩ := fastscan_top sampleEnv 5 s4 10 _ 0 0 r4 (by decide)
    (by rw [b4, b3, buffer_of_strip hs2, b1]; decide)
  obtain ⟨s6, b6, e6, l6, p6, r6, q6⟩ :=
    fastscan_newline_rd sampleEnv 4 s5 _ 0 r5
      (by rw [buffer_of_strip hs5, b4, b3, buffer_of_strip hs2, b1]; decide)
      (by decide) (by decide)
  have q7 := fastscan_run_eof sampleEnv 1 s6 0 r6
  refine ⟨s6, ?_, ?_, ?_, e6⟩
  · rw [fastscan, q1, q2, q3, q4, q5, q6, q7]
  · rw [p6, pb_of_strip hs5, p4, p3, pb_of_strip hs2, p1, escln_of_strip hs5, e4, e3,
      escln_of_strip hs2, e1]
    rfl
  · rw [l6, lineno_of_strip hs5, l4, l3, lineno_of_strip hs2, l1, escln_of_strip hs5, e4, e3,
      escln_of_strip hs2, e1]
    rfl

/-! ## Carriage returns in the tight loop of `fastscan` -/

/-- The tight loop of `fastscan` on a carriage return: `spechr[13]` is `C_WSNL`
without `C_SPEC`, so the character is written to the output like any other. -/
theorem fastscan_cr (E : Env) (fuel : Nat) (s : St) :
    fastscanAt E (fuel + 1) (FsAt.xloop 13) s =
      fastscanAt E fuel FsAt.top { s with pb := s.pb ++ [13] } :=
  fastscan_copy E fuel s 13 C_WSNL (by decide) (by decide) (by decide)

/-- Claim C10.  A run of `fastscan` over the line `;` ended by CR LF writes the
carriage return to the output: the bytes written are `;`, CR, LF. -/
theorem carriage_return_written :
    ∃ s1, fastscan sampleEnv 9 (openState [59, 13, 10]) = Res.ok () s1 ∧
      s1.pb = [59, 13, 10] := by
  have hin : ∀ b ∈ [59, 13, 10], (0 : Int) ≤ b ∧ b < 256 := by decide
  have h0 := rd_open [59, 13, 10] hin
  have hv : spechr 59 = some 0 := by decide
  have hw : spechr 13 = some C_WSNL := by decide
  obtain ⟨s1, b1, e1, l1, p1, r1, q1⟩ :=
    fastscan_run_copy sampleEnv 5 _ 59 0 _ 0 h0 (by decide) (by decide) (by decide) (by decide)
      (by decide) (by decide) (by decide) (by decide) hv (by decide)
  obtain ⟨s2, b2, e2, l2, p2, r2, q2⟩ :=
    fastscan_top_copy sampleEnv 5 s1 13 C_WSNL _ 0 r1 hw (by decide)
  obtain ⟨s3, hs3, r3, q3⟩ := fastscan_top sampleEnv 4 s2 10 _ 0 0 r2 (by decide)
    (by rw [b2, b1]; decide)
  obtain ⟨s4, b4, e4, l4, p4, r4, q4⟩ :=
    fastscan_newline_rd sampleEnv 3 s3 _ 0 r3 (by rw [buffer_of_strip hs3, b2, b1]; decide)
      (by decide) (by decide)
  have q5 := fastscan_run_eof sampleEnv 0 s4 0 r4
  refine ⟨s4, ?_, ?_⟩
  · rw [fastscan, q1, q2, q3, q4, q5]
  · rw [p4, pb_of_strip hs3, p2, p1, escln_of_strip hs3, e2, e1]
    rfl

/-! ## Universal character names -/

theorem frameOK_wide (input : List Int) (h : ∀ b ∈ input, 0 ≤ b ∧ b < 256) :
    FrameOK sampleEnv (wideState input).ifiles where
  opened := by simp [wideState, wideFrame, sampleFrame]
  size := by simp [sampleEnv]
  buf := by simp [wideState, wideFrame]
  cur := by simp [wideState, wideFrame]
  curmax := by simp [wideState, wideFrame]
  bufmax := by simp [wideState, wideFrame]
  maxlen := by simp [wideState, wideFrame]
  fits := by simp [wideState, wideFrame, sampleEnv]
  bytes := by
    intro b hb
    have : pending (wideState input).ifiles = input := by
      simp [pending, wideState, wideFrame, sampleFrame, slice]
    rw [this] at hb
    exact h b hb

theorem pending_wide (input : List Int) : pending (wideState input).ifiles = input := by
  simp [pending, wideState, wideFrame, sampleFrame, slice]

theorem hex_spechr (d : Int) (h : isHexDigit d = true) (s : St) :
    spechrHas d C_HEX s = Res.ok true s := by
  simp only [isHexDigit, Bool.or_eq_true, Bool.and_eq_true, decide_eq_true_eq] at h
  rcases h with (⟨h1, h2⟩ | ⟨h1, h2⟩) | ⟨h1, h2⟩ <;> interval_cases d <;> rfl

theorem hex_dig2num (d : Int) (h : isHexDigit d = true) :
    (dig2num d).toNat = hexDigitValue d := by
  simp only [isHexDigit, Bool.or_eq_true, Bool.and_eq_true, decide_eq_true_eq] at h
  rcases h with (⟨h1, h2⟩ | ⟨h1, h2⟩) | ⟨h1, h2⟩ <;> interval_cases d <;> rfl

theorem hex_range (d : Int) (h : isHexDigit d = true) : 48 ≤ d ∧ d ≤ 102 := by
  simp only [isHexDigit, Bool.or_eq_true, Bool.and_eq_true, decide_eq_true_eq] at h
  omega

theorem hexDigitValue_lt (d : Int) (h : isHexDigit d = true) : hexDigitValue d < 16 := by
  simp only [isHexDigit, Bool.or_eq_true, Bool.and_eq_true, decide_eq_true_eq] at h
  unfold hexDigitValue
  split_ifs <;> omega

/-- The digit loop of `chkucn` over a string of hexadecimal digits. -/
theorem ucnDigits_hex (E : Env) :
    ∀ (ds : List Int) (cp : Nat) (s : St) (rest : List Int) (r r1 : Int),
      Rd E s (ds ++ rest) r → (∀ d ∈ ds, isHexDigit d = true) → r1 ≤ r + ds.length →
      r1 ≤ s.ifiles.buffer + 1 → (ds = [] → r1 ≤ r) →
      ∃ s1, ucnDigits E ds.length cp s =
          Res.ok (ds.foldl (fun a d => a * 16 + hexDigitValue d) cp) s1 ∧
        s1.strip = s.strip ∧ Rd E s1 rest r1 := by
  intro ds
  induction ds with
  | nil =>
    intro cp s rest r r1 h _ _ _ h0
    exact ⟨s, rfl, rfl, Rd.mono h (h0 rfl)⟩
  | cons d tl ih =>
    intro cp s rest r r1 h hds hr1 hr2 _
    have hd := hds d (List.mem_cons_self _ _)
    have hrange := hex_range d hd
    have hb0 := h.1.buf
    obtain ⟨sa, ha, hsa, hra⟩ :=
      inpch_cons E s d (tl ++ rest) r (min (r + 1) (s.ifiles.buffer + 1)) h (by omega) (by omega)
    have hba : sa.ifiles.buffer = s.ifiles.buffer := buffer_of_strip hsa
    obtain ⟨sb, hb, hsb, hrb⟩ :=
      ih (cp * 16 + hexDigitValue d) sa rest (min (r + 1) (s.ifiles.buffer + 1)) r1 hra
        (fun x hx => hds x (List.mem_cons_of_mem _ hx))
        (by simp only [List.length_cons, Nat.cast_add, Nat.cast_one] at hr1; omega)
        (by rw [hba]; exact hr2)
        (fun htl => by
          subst htl
          simp only [List.length_cons, List.length_nil, Nat.cast_add, Nat.cast_one,
            Nat.cast_zero] at hr1
          omega)
    refine ⟨sb, ?_, hsb.trans hsa, hrb⟩
    have hne : d ≠ -1 := by omega
    simp only [List.length_cons, List.foldl_cons]
    rw [ucnDigits]
    simp only [M.bind_eq, M.andThen_apply, ha, Res.andThen_ok, M.ite_apply, hne, if_false,
      hex_spechr d hd sa, Bool.not_true, Bool.false_eq_true, hex_dig2num d hd]
    exact hb

theorem or_cont (x : Nat) (h : x < 64) : 128 ||| x = 128 + x := by
  interval_cases x <;> rfl

theorem and_63 (cp : Nat) : cp &&& 63 = cp % 64 := Nat.and_pow_two_sub_one_eq_mod cp 6

theorem shr_6 (cp : Nat) : cp >>> 6 = cp / 64 := Nat.shiftRight_eq_div_pow cp 6

theorem cont_byte (cp : Nat) : 128 ||| (cp &&& 63) = 128 + cp % 64 := by
  rw [and_63, or_cont _ (Nat.mod_lt _ (by decide))]

theorem lead_2 (x : Nat) (h : x < 32) : ((31 <<< 1) ^^^ 254) ||| x = 192 + x := by
  interval_cases x <;> rfl

theorem lead_3 (x : Nat) (h : x < 16) : ((15 <<< 1) ^^^ 254) ||| x = 224 + x := by
  interval_cases x <;> rfl

theorem lead_4 (x : Nat) (h : x < 8) : ((7 <<< 1) ^^^ 254) ||| x = 240 + x := by
  interval_cases x <;> rfl

theorem lead_5 (x : Nat) (h : x < 4) : ((3 <<< 1) ^^^ 254) ||| x = 248 + x := by
  interval_cases x <;> rfl

theorem lead_6 (x : Nat) (h : x < 2) : ((1 <<< 1) ^^^ 254) ||| x = 252 + x := by
  interval_cases x <;> rfl

theorem lead_1 (x : Nat) : ((127 <<< 1) ^^^ 254) ||| x = x := by
  have : (127 <<< 1) ^^^ 254 = 0 := by decide
  rw [this, Nat.zero_or]

/-- One round of the encoding loop of `chkucn`: a continuation byte with the
low six bits of `cp` is pushed back. -/
theorem ucnPush_step (E : Env) (k cp m n m1 : Nat) (s : St) (p : List Int) (r : Int)
    (h : Rd E s p r) (hr : 1 ≤ r) (hgt : cp > m)
    (hm : m >>> (if n ≠ 0 then 1 else 2) = m1) :
    ∃ s1, s1.strip = s.strip ∧ Rd E s1 (((128 + cp % 64 : Nat) : Int) :: p) (r - 1) ∧
      ucnPush (k + 1) cp m n s = ucnPush k (cp / 64) m1 (n + 1) s1 := by
  have hlt : cp % 64 < 64 := Nat.mod_lt _ (by decide)
  obtain ⟨s1, h1, hs1, hr1⟩ :=
    unch_ok E s ((128 + cp % 64 : Nat) : Int) p r h hr (by omega) (by omega)
  refine ⟨s1, hs1, hr1, ?_⟩
  rw [ucnPush]
  simp only [hgt, if_true, M.bind_eq, M.andThen_apply, cont_byte, h1, Res.andThen_ok, shr_6, hm]

theorem ucnPush_done (k cp m n : Nat) (s : St) (hle : cp ≤ m) :
    ucnPush (k + 1) cp m n s = Res.ok (cp, m) s := by
  have : ¬ cp > m := by omega
  rw [ucnPush]
  simp only [this, if_false, M.pure_eq, M.ret_apply]

/-- The encoding loop of `chkucn` for a code point up to `0x7FFFFFFF`: the
continuation bytes of the UTF-8 encoding are pushed back, and the lead byte
is what is left. -/
theorem ucnPush_encode (E : Env) (cp : Nat) (s : St) (rest : List Int) (r : Int)
    (h : Rd E s rest r) (hcp : cp ≤ 0x7FFFFFFF) (hr : 3 ≤ r) (hr6 : 0x10000 ≤ cp → 6 ≤ r) :
    ∃ (cp1 m : Nat) (conts : List Nat) (s1 : St),
      ucnPush 8 cp 127 0 s = Res.ok (cp1, m) s1 ∧ s1.strip = s.strip ∧
      Rd E s1 (List.map Int.ofNat conts ++ rest) 1 ∧
      utf8Encode cp = (((m <<< 1) ^^^ 254) ||| cp1) :: conts ∧
      (((m <<< 1) ^^^ 254) ||| cp1) < 256 := by
  by_cases c1 : cp < 0x80
  · refine ⟨cp, 127, [], s, ucnPush_done 7 cp 127 0 s (by omega), rfl, Rd.mono h (by omega), ?_,
      ?_⟩
    · rw [lead_1]; simp [utf8Encode, c1]
    · rw [lead_1]; omega
  obtain ⟨s1, hs1, hr1, e1⟩ := ucnPush_step E 7 cp 127 0 31 s rest r h (by omega) (by omega) rfl
  by_cases c2 : cp < 0x800
  · have e2 := ucnPush_done 6 (cp / 64) 31 1 s1 (by omega)
    refine ⟨cp / 64, 31, [128 + cp % 64], s1, by rw [e1, e2], hs1, Rd.mono hr1 (by omega), ?_,
      ?_⟩
    · rw [lead_2 _ (by omega)]; simp [utf8Encode, c1, c2]
    · rw [lead_2 _ (by omega)]; omega
  obtain ⟨s2, hs2, hr2, e2⟩ :=
    ucnPush_step E 6 (cp / 64) 31 1 15 s1 _ (r - 1) hr1 (by omega) (by omega) rfl
  by_cases c3 : cp < 0x10000
  · have e3 := ucnPush_done 5 (cp / 64 / 64) 15 2 s2 (by omega)
    refine ⟨cp / 64 / 64, 15, [128 + cp / 64 % 64, 128 + cp % 64], s2, by rw [e1, e2, e3],
      hs2.trans hs1, Rd.mono hr2 (by omega), ?_, ?_⟩
    · rw [lead_3 _ (by omega)]
      simp only [utf8Encode, c1, c2, c3, if_false, if_true, List.cons.injEq, and_true]
      omega
    · rw [lead_3 _ (by omega)]; omega
  have hr6a : 6 ≤ r := hr6 (by omega)
  obtain ⟨s3, hs3, hr3, e3⟩ :=
    ucnPush_step E 5 (cp / 64 / 64) 15 2 7 s2 _ (r - 1 - 1) hr2 (by omega) (by omega) rfl
  by_cases c4 : cp < 0x200000
  · have e4 := ucnPush_done 4 (cp / 64 / 64 / 64) 7 3 s3 (by omega)
    refine ⟨cp / 64 / 64 / 64, 7, [128 + cp / 64 / 64 % 64, 128 + cp / 64 % 64, 128 + cp % 64],
      s3, by rw [e1, e2, e3, e4], hs3.trans (hs2.trans hs1), Rd.mono hr3 (by omega), ?_, ?_⟩
    · rw [lead_4 _ (by omega)]
      simp only [utf8Encode, c1, c2, c3, c4, if_false, if_true, List.cons.injEq, and_true]
      omega
    · rw [lead_4 _ (by omega)]; omega
  obtain ⟨s4, hs4, hr4, e4⟩ :=
    ucnPush_step E 4 (cp / 64 / 64 / 64) 7 3 3 s3 _ (r - 1 - 1 - 1) hr3 (by omega) (by omega) rfl
  by_cases c5 : cp < 0x4000000
  · have e5 := ucnPush_done 3 (cp / 64 / 64 / 64 / 64) 3 4 s4 (by omega)
    refine ⟨cp / 64 / 64 / 64 / 64, 3,
      [128 + cp / 64 / 64 / 64 % 64, 128 + cp / 64 / 64 % 64, 128 + cp / 64 % 64,
        128 + cp % 64],
      s4, by rw [e1, e2, e3, e4, e5], hs4.trans (hs3.trans (hs2.trans hs1)),
      Rd.mono hr4 (by omega), ?_, ?_⟩
    · rw [lead_5 _ (by omega)]
      simp only [utf8Encode, c1, c2, c3, c4, c5, if_false, if_true, List.cons.injEq, and_true]
      omega
    · rw [lead_5 _ (by omega)]; omega
  obtain ⟨s5, hs5, hr5, e5⟩ :=
    ucnPush_step E 3 (cp / 64 / 64 / 64 / 64) 3 4 1 s4 _ (r - 1 - 1 - 1 - 1) hr4 (by omega)
      (by omega) rfl
  have e6 := ucnPush_done 2 (cp / 64 / 64 / 64 / 64 / 64) 1 5 s5 (by omega)
  refine ⟨cp / 64 / 64 / 64 / 64 / 64, 1,
    [128 + cp / 64 / 64 / 64 / 64 % 64, 128 + cp / 64 / 64 / 64 % 64, 128 + cp / 64 / 64 % 64,
      128 + cp / 64 % 64, 128 + cp % 64],
    s5, by rw [e1, e2, e3, e4, e5, e6], hs5.trans (hs4.trans (hs3.trans (hs2.trans hs1))),
    Rd.mono hr5 (by omega), ?_, ?_⟩
  · rw [lead_6 _ (by omega)]
    simp only [utf8Encode, c1, c2, c3, c4, c5, if_false, if_true, List.cons.injEq, and_true]
    omega
  · rw [lead_6 _ (by omega)]; omega

theorem hexFold_lt (ds : List Int) (h : ∀ d ∈ ds, isHexDigit d = true) :
    ∀ acc : Nat, ds.foldl (fun a d => a * 16 + hexDigitValue d) acc < (acc + 1) * 16 ^ ds.length := by
  induction ds with
  | nil => intro acc; simp
  | cons d tl ih =>
    intro acc
    have hd := hexDigitValue_lt d (h d (List.mem_cons_self _ _))
    have := ih (fun x hx => h x (List.mem_cons_of_mem _ hx)) (acc * 16 + hexDigitValue d)
    simp only [List.foldl_cons, List.length_cons]
    calc _ < (acc * 16 + hexDigitValue d + 1) * 16 ^ tl.length := this
      _ ≤ ((acc + 1) * 16) * 16 ^ tl.length := Nat.mul_le_mul_right _ (by omega)
      _ = (acc + 1) * 16 ^ (tl.length + 1) := by rw [Nat.pow_succ]; ring

theorem hexValue_lt (ds : List Int) (h : ∀ d ∈ ds, isHexDigit d = true) :
    hexValue ds < 16 ^ ds.length := by
  have := hexFold_lt ds h 0
  simpa [hexValue] using this

/-- The function `chkucn` on `u` with four or `U` with eight hexadecimal
digits, outside comments and literals: the value is checked, and the UTF-8
encoding of an accepted value is pushed back in front of what follows. -/
theorem chkucn_ucn (E : Env) (s : St) (lead : Int) (ds rest : List Int)
    (h : Rd E s (lead :: (ds ++ rest)) 0) (hin : s.incmnt = 0) (hm : 5 ≤ s.ifiles.buffer)
    (hlead : (lead = 117 ∧ ds.length = 4) ∨ (lead = 85 ∧ ds.length = 8))
    (hds : ∀ d ∈ ds, isHexDigit d = true) :
    (((hexValue ds < 160 ∧ hexValue ds ≠ 36 ∧ hexValue ds ≠ 64 ∧ hexValue ds ≠ 96) ∨
        (hexValue ds ≥ 55296 ∧ hexValue ds ≤ 57343)) →
      ∃ s1, chkucn E s = Res.fatal Err.ucnCannotBeUsed s1) ∧
    (¬ ((hexValue ds < 160 ∧ hexValue ds ≠ 36 ∧ hexValue ds ≠ 64 ∧ hexValue ds ≠ 96) ∨
        (hexValue ds ≥ 55296 ∧ hexValue ds ≤ 57343)) → hexValue ds > 2147483647 →
      ∃ s1, chkucn E s = Res.fatal Err.ucnOutOfRange s1) ∧
    (¬ ((hexValue ds < 160 ∧ hexValue ds ≠ 36 ∧ hexValue ds ≠ 64 ∧ hexValue ds ≠ 96) ∨
        (hexValue ds ≥ 55296 ∧ hexValue ds ≤ 57343)) → ¬ hexValue ds > 2147483647 →
      ∃ s1, chkucn E s = Res.ok 1 s1 ∧ s1.strip = s.strip ∧
        Rd E s1 (List.map Int.ofNat (utf8Encode (hexValue ds)) ++ rest) 0) := by
  have hb0 := h.1.buf
  obtain ⟨sa, ha, hsa, hra⟩ := inpch_cons E s lead (ds ++ rest) 0 1 h (by omega) (by omega)
  have hba : sa.ifiles.buffer = s.ifiles.buffer := buffer_of_strip hsa
  have hlen : 4 ≤ ds.length := by rcases hlead with ⟨_, h4⟩ | ⟨_, h8⟩ <;> omega
  obtain ⟨sb, hb, hsb, hrb⟩ :=
    ucnDigits_hex E ds 0 sa rest 1 (min (ds.length + 1) 6) hra hds (by omega)
      (by rw [hba]; omega) (fun h0 => by subst h0; simp at hlen)
  have hval := hexValue_lt ds hds
  have hn : (if lead = 117 then 4 else 8) = ds.length := by
    rcases hlead with ⟨hl, h4⟩ | ⟨hl, h8⟩
    · rw [hl, h4]; rfl
    · rw [hl, h8]; rfl
  have hl1 : lead ≠ -1 := by rcases hlead with ⟨hl, _⟩ | ⟨hl, _⟩ <;> rw [hl] <;> decide
  have hl2 : ¬ (lead ≠ 117 ∧ lead ≠ 85) := by
    rcases hlead with ⟨hl, _⟩ | ⟨hl, _⟩ <;> rw [hl] <;> decide
  have hfold : ds.foldl (fun a d => a * 16 + hexDigitValue d) 0 = hexValue ds := rfl
  rw [hfold] at hb
  have hunf : chkucn E s =
      (if (hexValue ds < 160 ∧ hexValue ds ≠ 36 ∧ hexValue ds ≠ 64 ∧ hexValue ds ≠ 96) ∨
          (hexValue ds ≥ 55296 ∧ hexValue ds ≤ 57343) then
        Res.fatal Err.ucnCannotBeUsed sb
      else if hexValue ds > 2147483647 then Res.fatal Err.ucnOutOfRange sb
      else (ucnPush 8 (hexValue ds) 127 0 sb).andThen (fun x s2 =>
        (unch ((((x.2 <<< 1) ^^^ 254) ||| x.1 : Nat) : Int) s2).andThen
          (fun _ s3 => Res.ok 1 s3))) := by
    simp only [chkucn, M.bind_eq, M.andThen_apply, getState_apply, Res.andThen_ok, M.ite_apply,
      hin, ne_eq, not_true_eq_false, if_false, ha, hl1, hl2, hn, hb, M.pure_eq, M.ret_apply,
      error_apply]
    split_ifs <;> rfl
  refine ⟨fun hbad => ⟨sb, by rw [hunf, if_pos hbad]⟩,
    fun hbad hbig => ⟨sb, by rw [hunf, if_neg hbad, if_pos hbig]⟩, fun hbad hbig => ?_⟩
  have hsmall : 0x10000 ≤ hexValue ds → (6 : Int) ≤ min ((ds.length : Int) + 1) 6 := by
    intro hge
    rcases hlead with ⟨_, h4⟩ | ⟨_, h8⟩
    · rw [h4] at hval
      norm_num at hval
      omega
    · rw [h8]; decide
  obtain ⟨cp1, m, conts, sc, hc, hsc, hrc, henc, hlt⟩ :=
    ucnPush_encode E (hexValue ds) sb rest (min ((ds.length : Int) + 1) 6) hrb (by omega)
      (by omega) hsmall
  obtain ⟨sd, hd, hsd, hrd⟩ :=
    unch_ok E sc ((((m <<< 1) ^^^ 254) ||| cp1 : Nat) : Int) _ 1 hrc (le_refl _) (by omega)
      (by omega)
  refine ⟨sd, ?_, hsd.trans (hsc.trans (hsb.trans hsa)), ?_⟩
  · rw [hunf, if_neg hbad, if_neg hbig, hc, Res.andThen_ok, hd, Res.andThen_ok]
  · rw [henc]
    simpa using hrd

/-- The reference decoder undoes the reference encoder. -/
theorem utf8_decode_encode (cp : Nat) (h : cp ≤ 0x7FFFFFFF) :
    utf8Decode (utf8Encode cp) = some cp := by
  unfold utf8Encode
  split_ifs with c1 c2 c3 c4 c5
  · simp [utf8Decode, c1]
  · have a1 : ¬ (192 + cp / 64 < 128) := by omega
    have a2 : ¬ (192 + cp / 64 < 192) := by omega
    have a3 : 192 + cp / 64 < 224 := by omega
    have a4 : ¬ (192 + cp / 64 ≥ 254) := by omega
    have b1 : isCont (128 + cp % 64) = true := by simp [isCont]; omega
    have v : (192 + cp / 64 - 192) * 64 + (128 + cp % 64 - 128) = cp := by omega
    simp [utf8Decode, utf8Cont, a1, a2, a3, a4, b1, v]
    omega
  · have a1 : ¬ (224 + cp / 4096 < 128) := by omega
    have a2 : ¬ (224 + cp / 4096 < 192) := by omega
    have a3 : ¬ (224 + cp / 4096 < 224) := by omega
    have a4 : 224 + cp / 4096 < 240 := by omega
    have a5 : ¬ (224 + cp / 4096 ≥ 254) := by omega
    have b1 : isCont (128 + cp % 64) = true := by simp [isCont]; omega
    have b2 : isCont (128 + cp / 64 % 64) = true := by simp [isCont]; omega
    have v : ((224 + cp / 4096 - 224) * 64 + (128 + cp / 64 % 64 - 128)) * 64 +
        (128 + cp % 64 - 128) = cp := by omega
    simp [utf8Decode, utf8Cont, a1, a2, a3, a4, a5, b1, b2, v]
    omega
  · have a1 : ¬ (240 + cp / 262144 < 128) := by omega
    have a2 : ¬ (240 + cp / 262144 < 192) := by omega
    have a3 : ¬ (240 + cp / 262144 < 224) := by omega
    have a4 : ¬ (240 + cp / 262144 < 240) := by omega
    have a5 : 240 + cp / 262144 < 248 := by omega
    have a6 : ¬ (240 + cp / 262144 ≥ 254) := by omega
    have b1 : isCont (128 + cp % 64) = true := by simp [isCont]; omega
    have b2 : isCont (128 + cp / 64 % 64) = true := by simp [isCont]; omega
    have b3 : isCont (128 + cp / 4096 % 64) = true := by simp [isCont]; omega
    have v : (((240 + cp / 262144 - 240) * 64 + (128 + cp / 4096 % 64 - 128)) * 64 +
        (128 + cp / 64 % 64 - 128)) * 64 + (128 + cp % 64 - 128) = cp := by omega
    simp [utf8Decode, utf8Cont, a1, a2, a3, a4, a5, a6, b1, b2, b3, v]
    omega
  · have a1 : ¬ (248 + cp / 16777216 < 128) := by omega
    have a2 : ¬ (248 + cp / 16777216 < 192) := by omega
    have a3 : ¬ (248 + cp / 16777216 < 224) := by omega
    have a4 : ¬ (248 + cp / 16777216 < 240) := by omega
    have a5 : ¬ (248 + cp / 16777216 < 248) := by omega
    have a6 : 248 + cp / 16777216 < 252 := by omega
    have a7 : ¬ (248 + cp / 16777216 ≥ 254) := by omega
    have b1 : isCont (128 + cp % 64) = true := by simp [isCont]; omega
    have b2 : isCont (128 + cp / 64 % 64) = true := by simp [isCont]; omega
    have b3 : isCont (128 + cp / 4096 % 64) = true := by simp [isCont]; omega
    have b4 : isCont (128 + cp / 262144 % 64) = true := by simp [isCont]; omega
    have v : ((((248 + cp / 16777216 - 248) * 64 + (128 + cp / 262144 % 64 - 128)) * 64 +
        (128 + cp / 4096 % 64 - 128)) * 64 + (128 + cp / 64 % 64 - 128)) * 64 +
        (128 + cp % 64 - 128) = cp := by omega
    simp [utf8Decode, utf8Cont, a1, a2, a3, a4, a5, a6, a7, b1, b2, b3, b4, v]
    omega
  · have a1 : ¬ (252 + cp / 1073741824 < 128) := by omega
    have a2 : ¬ (252 + cp / 1073741824 < 192) := by omega
    have a3 : ¬ (252 + cp / 1073741824 < 224) := by omega
    have a4 : ¬ (252 + cp / 1073741824 < 240) := by omega
    have a5 : ¬ (252 + cp / 1073741824 < 248) := by omega
    have a6 : ¬ (252 + cp / 1073741824 < 252) := by omega
    have a7 : ¬ (252 + cp / 1073741824 ≥ 254) := by omega
    have b1 : isCont (128 + cp % 64) = true := by simp [isCont]; omega
    have b2 : isCont (128 + cp / 64 % 64) = true := by simp [isCont]; omega
    have b3 : isCont (128 + cp / 4096 % 64) = true := by simp [isCont]; omega
    have b4 : isCont (128 + cp / 262144 % 64) = true := by simp [isCont]; omega
    have b5 : isCont (128 + cp / 16777216 % 64) = true := by simp [isCont]; omega
    have v : (((((252 + cp / 1073741824 - 252) * 64 + (128 + cp / 16777216 % 64 - 128)) * 64 +
        (128 + cp / 262144 % 64 - 128)) * 64 + (128 + cp / 4096 % 64 - 128)) * 64 +
        (128 + cp / 64 % 64 - 128)) * 64 + (128 + cp % 64 - 128) = cp := by omega
    simp [utf8Decode, utf8Cont, a1, a2, a3, a4, a5, a6, a7, b1, b2, b3, b4, b5, v]
    omega

theorem utf8Encode_length (cp : Nat) :
    1 ≤ (utf8Encode cp).length ∧ (utf8Encode cp).length ≤ 6 := by
  unfold utf8Encode
  split_ifs <;> simp

/-- Claim C11.  Outside comments and literals, in a frame in good order whose
pushback margin holds five bytes, `chkucn` on `u` with four or `U` with eight
hexadecimal digits of value `cp` ends in a fatal error if and only if `cp` is
below `0xA0` and none of `0x24`, `0x40`, `0x60`, or lies in `0xD800..0xDFFF`,
or exceeds `0x7FFFFFFF`; otherwise it returns 1. -/
theorem ucn_validation (E : Env) (s : St) (lead : Int) (ds rest : List Int)
    (hok : FrameOK E s.ifiles) (hin : s.incmnt = 0) (hm : 5 ≤ s.ifiles.buffer)
    (hlead : (lead = 117 ∧ ds.length = 4) ∨ (lead = 85 ∧ ds.length = 8))
    (hds : ∀ d ∈ ds, isHexDigit d = true)
    (hp : pending s.ifiles = lead :: (ds ++ rest)) :
    ((∃ e s1, chkucn E s = Res.fatal e s1) ↔ ucnRejected (hexValue ds) = true) ∧
    (ucnRejected (hexValue ds) = false → ∃ s1, chkucn E s = Res.ok 1 s1) := by
  obtain ⟨hA, hB, hC⟩ := chkucn_ucn E s lead ds rest ⟨hok, hp, hok.cur⟩ hin hm hlead hds
  have hrej : ucnRejected (hexValue ds) = true ↔
      ((hexValue ds < 160 ∧ hexValue ds ≠ 36 ∧ hexValue ds ≠ 64 ∧ hexValue ds ≠ 96) ∨
        (hexValue ds ≥ 55296 ∧ hexValue ds ≤ 57343)) ∨ hexValue ds > 2147483647 := by
    simp only [ucnRejected, Bool.or_eq_true, Bool.and_eq_true, decide_eq_true_eq]
    constructor <;> intro hh <;> omega
  constructor
  · constructor
    · rintro ⟨e, s1, he⟩
      by_contra hnot
      rw [hrej] at hnot
      obtain ⟨s2, h2, _⟩ := hC (fun hb => hnot (Or.inl hb)) (fun hb => hnot (Or.inr hb))
      rw [h2] at he
      cases he
    · intro hr
      rw [hrej] at hr
      by_cases hbad : (hexValue ds < 160 ∧ hexValue ds ≠ 36 ∧ hexValue ds ≠ 64 ∧
          hexValue ds ≠ 96) ∨ (hexValue ds ≥ 55296 ∧ hexValue ds ≤ 57343)
      · obtain ⟨s1, h1⟩ := hA hbad
        exact ⟨_, s1, h1⟩
      · obtain ⟨s1, h1⟩ := hB hbad (by rcases hr with hr | hr; exact absurd hr hbad; exact hr)
        exact ⟨_, s1, h1⟩
  · intro hacc
    have hnot : ¬ (ucnRejected (hexValue ds) = true) := by rw [hacc]; decide
    rw [hrej] at hnot
    obtain ⟨s2, h2, _⟩ := hC (fun hb => hnot (Or.inl hb)) (fun hb => hnot (Or.inr hb))
    exact ⟨s2, h2⟩

theorem ucn_validation_witness :
    (∃ s1, chkucn sampleEnv (wideState [117, 48, 48, 101, 57, 59]) = Res.ok 1 s1) ∧
    (∃ e s1, chkucn sampleEnv (wideState [117, 48, 48, 52, 49, 59]) = Res.fatal e s1) ∧
    (∃ e s1, chkucn sampleEnv (wideState [85, 56, 48, 48, 48, 48, 48, 48, 48]) =
      Res.fatal e s1) :=
  ⟨(ucn_validation sampleEnv (wideState [117, 48, 48, 101, 57, 59]) 117 [48, 48, 101, 57] [59]
      (frameOK_wide _ (by decide)) rfl (by decide) (Or.inl ⟨rfl, rfl⟩) (by decide)
      (pending_wide _)).2 (by decide),
    (ucn_validation sampleEnv (wideState [117, 48, 48, 52, 49, 59]) 117 [48, 48, 52, 49] [59]
      (frameOK_wide _ (by decide)) rfl (by decide) (Or.inl ⟨rfl, rfl⟩) (by decide)
      (pending_wide _)).1.2 (by decide),
    (ucn_validation sampleEnv (wideState [85, 56, 48, 48, 48, 48, 48, 48, 48]) 85
      [56, 48, 48, 48, 48, 48, 48, 48] []
      (frameOK_wide _ (by decide)) rfl (by decide) (Or.inr ⟨rfl, rfl⟩) (by decide)
      (pending_wide _)).1.2 (by decide)⟩

/-- Claim C12.  Under the conditions of C11, for an accepted value `cp`
`chkucn` returns 1 with the shortest UTF-8 encoding of `cp`, one to six
bytes, pushed back in front of what follows the digits, lead byte first; and
the reference decoder applied to these bytes gives `cp` back. -/
theorem ucn_utf8_round_trip (E : Env) (s : St) (lead : Int) (ds rest : List Int)
    (hok : FrameOK E s.ifiles) (hin : s.incmnt = 0) (hm : 5 ≤ s.ifiles.buffer)
    (hlead : (lead = 117 ∧ ds.length = 4) ∨ (lead = 85 ∧ ds.length = 8))
    (hds : ∀ d ∈ ds, isHexDigit d = true)
    (hp : pending s.ifiles = lead :: (ds ++ rest))
    (hacc : ucnRejected (hexValue ds) = false) :
    ∃ s1, chkucn E s = Res.ok 1 s1 ∧
      pending s1.ifiles = List.map Int.ofNat (utf8Encode (hexValue ds)) ++ rest ∧
      utf8Decode (utf8Encode (hexValue ds)) = some (hexValue ds) ∧
      1 ≤ (utf8Encode (hexValue ds)).length ∧ (utf8Encode (hexValue ds)).length ≤ 6 := by
  obtain ⟨_, _, hC⟩ := chkucn_ucn E s lead ds rest ⟨hok, hp, hok.cur⟩ hin hm hlead hds
  have hrej : ucnRejected (hexValue ds) = true ↔
      ((hexValue ds < 160 ∧ hexValue ds ≠ 36 ∧ hexValue ds ≠ 64 ∧ hexValue ds ≠ 96) ∨
        (hexValue ds ≥ 55296 ∧ hexValue ds ≤ 57343)) ∨ hexValue ds > 2147483647 := by
    simp only [ucnRejected, Bool.or_eq_true, Bool.and_eq_true, decide_eq_true_eq]
    constructor <;> intro hh <;> omega
  have hnot : ¬ (ucnRejected (hexValue ds) = true) := by rw [hacc]; decide
  rw [hrej] at hnot
  obtain ⟨s1, h1, _, hr1⟩ := hC (fun hb => hnot (Or.inl hb)) (fun hb => hnot (Or.inr hb))
  exact ⟨s1, h1, hr1.2.1, utf8_decode_encode _ (by omega), utf8Encode_length _⟩

theorem ucn_utf8_round_trip_witness :
    ∃ s1, chkucn sampleEnv (wideState [117, 50, 48, 97, 99, 59]) = Res.ok 1 s1 ∧
      pending s1.ifiles = List.map Int.ofNat (utf8Encode (hexValue [50, 48, 97, 99])) ++ [59] ∧
      utf8Decode (utf8Encode (hexValue [50, 48, 97, 99])) = some (hexValue [50, 48, 97, 99]) ∧
      1 ≤ (utf8Encode (hexValue [50, 48, 97, 99])).length ∧
      (utf8Encode (hexValue [50, 48, 97, 99])).length ≤ 6 :=
  ucn_utf8_round_trip sampleEnv (wideState [117, 50, 48, 97, 99, 59]) 117 [50, 48, 97, 99] [59]
    (frameOK_wide _ (by decide)) rfl (by decide) (Or.inl ⟨rfl, rfl⟩) (by decide)
    (pending_wide _) (by decide)

/-- The encoding of the euro sign `U+20AC` is `E2 82 AC`. -/
theorem utf8_euro : utf8Encode (hexValue [50, 48, 97, 99]) = [0xE2, 0x82, 0xAC] := by decide

/-- A `u` or `U` followed at once by a character that is no hexadecimal digit:
`chkucn` logs the warning, and then the value 0 accumulated so far fails the
range check, so the call ends in a fatal error. -/
theorem chkucn_no_digit (E : Env) (s : St) (lead x : Int) (rest : List Int)
    (h : Rd E s (lead :: x :: rest) 0) (hin : s.incmnt = 0)
    (hlead : lead = 117 ∨ lead = 85)
    (hx : ∀ t : St, spechrHas x C_HEX t = Res.ok false t) :
    ∃ s1, chkucn E s = Res.fatal Err.ucnCannotBeUsed s1 ∧
      s1.diag = s.diag ++ [Warn.invalidUcn] ∧ Rd E s1 (x :: rest) 0 := by
  have hb0 := h.1.buf
  obtain ⟨sa, ha, hsa, hra⟩ := inpch_cons E s lead (x :: rest) 0 0 h (by omega) (by omega)
  have hbx := hra.byte
  obtain ⟨sb, hb, hsb, hrb⟩ := inpch_cons E sa x rest 0 1 hra (by omega)
    (by rw [buffer_of_strip hsa]; omega)
  obtain ⟨sc, hc, hsc, hrc⟩ :=
    unch_ok E { sb with diag := sb.diag ++ [Warn.invalidUcn] } x rest 1 hrb (le_refl _)
      hbx.1 hbx.2
  have hl1 : lead ≠ -1 := by rcases hlead with hl | hl <;> rw [hl] <;> decide
  have hl2 : ¬ (lead ≠ 117 ∧ lead ≠ 85) := by
    rcases hlead with hl | hl <;> rw [hl] <;> decide
  have hx1 : x ≠ -1 := by omega
  have hd1 : sa.diag = s.diag := congrArg (fun t => t.diag) hsa
  have hd2 : sb.diag = sa.diag := congrArg (fun t => t.diag) hsb
  have hd3 : sc.diag = sb.diag ++ [Warn.invalidUcn] := congrArg (fun t => t.diag) hsc
  have hdig : ∀ n : Nat, ucnDigits E (n + 1) 0 sa = Res.ok 0 sc := by
    intro n
    rw [ucnDigits]
    simp only [M.bind_eq, M.andThen_apply, hb, Res.andThen_ok, M.ite_apply, hx1, if_false,
      hx sb, Bool.not_false, if_true, warning_apply, hc, M.pure_eq, M.ret_apply]
  refine ⟨sc, ?_, by rw [hd3, hd2, hd1], by simpa using hrc⟩
  rcases hlead with hl | hl <;> subst hl
  · simp only [chkucn, M.bind_eq, M.andThen_apply, getState_apply, Res.andThen_ok, M.ite_apply,
      hin, ne_eq, not_true_eq_false, if_false, ha, if_true, hdig 3]
    simp
  · simp only [chkucn, M.bind_eq, M.andThen_apply, getState_apply, Res.andThen_ok, M.ite_apply,
      hin, ne_eq, not_true_eq_false, if_false, ha, show ¬ ((85 : Int) = 117) by decide,
      hdig 7]
    simp

/-- Claim C13.  The malformed name `\ux`, read by `inc1` outside comments and
literals: the warning "invalid universal character name" is logged, and the
run ends in the fatal error "universal character name cannot be used". -/
theorem malformed_ucn_fatal :
    ∃ s1, inc1 sampleEnv 1 (openState [92, 117, 120]) = Res.fatal Err.ucnCannotBeUsed s1 ∧
      s1.diag = [Warn.invalidUcn] := by
  obtain ⟨sa, ha, hsa, hra⟩ :=
    inpch_cons sampleEnv (openState [92, 117, 120]) 92 [117, 120] 0 0 (rd_open _ (by decide))
      (by decide) (by decide)
  have hin : sa.incmnt = 0 := congrArg (fun t => t.incmnt) hsa
  have hd : sa.diag = [] := congrArg (fun t => t.diag) hsa
  obtain ⟨sb, hb, hdb, _⟩ :=
    chkucn_no_digit sampleEnv sa 117 120 [] hra hin (Or.inl rfl) (fun t => rfl)
  refine ⟨sb, ?_, by rw [hdb, hd]; rfl⟩
  simp only [inc1, inc1Loop, M.bind_eq, M.andThen_apply, ha, Res.andThen_ok, M.ite_apply,
    show ¬ ((92 : Int) = 13) by decide, if_false, if_true, hb, Res.andThen_fatal]

/-! ## Reading input that phases 1 and 2 leave as it is -/

theorem incmnt_of_strip {s s1 : St} (h : s1.strip = s.strip) : s1.incmnt = s.incmnt := by
  have := congrArg (fun t => t.incmnt) h
  exact this

theorem chkucn_incmnt (E : Env) (s : St) (h : s.incmnt ≠ 0) : chkucn E s = Res.ok 0 s := by
  simp [chkucn, h]

/-- Inside a literal or comment (`incmnt` set) a backslash is read by `inc1`
without a look at what follows. -/
theorem inc1_backslash_incmnt (E : Env) (fuel : Nat) (s : St) (rest : List Int) (r r1 : Int)
    (h : Rd E s (92 :: rest) r) (hin : s.incmnt ≠ 0) (hr1 : r1 ≤ r + 1)
    (hr2 : r1 ≤ s.ifiles.buffer + 1) :
    ∃ s1, inc1 E (fuel + 1) s = Res.ok 92 s1 ∧ s1.strip = s.strip ∧ Rd E s1 rest r1 := by
  obtain ⟨s1, h1, hs1, hr⟩ := inpch_cons E s 92 rest r r1 h hr1 hr2
  have hin1 : s1.incmnt ≠ 0 := by rw [incmnt_of_strip hs1]; exact hin
  exact ⟨s1, by simp [inc1, inc1Loop, h1, chkucn_incmnt E s1 hin1], hs1, hr⟩

theorem rawAt_trivial (c : Int) (tl : List Int) (h13 : c ≠ 13) (h63 : c ≠ 63) (h92 : c ≠ 92) :
    rawAt (c :: tl) = true := by
  simp [rawAt, h13, h63, h92]

theorem rawAt_ne13 (c : Int) (tl : List Int) (h : rawAt (c :: tl) = true) : c ≠ 13 := by
  simp only [rawAt, Bool.and_eq_true, decide_eq_true_eq] at h
  exact h.1.1

theorem rawAt_bs (d : Int) (tl : List Int) (h : rawAt (92 :: d :: tl) = true) : d ≠ 10 := by
  intro hd
  subst hd
  simp [rawAt] at h

theorem rawAt_q (e : Int) (tl : List Int) (h : rawAt (63 :: 63 :: e :: tl) = true) :
    e ∉ trigraphTable.map Prod.fst := by
  intro he
  simp [rawAt, he] at h

theorem rawUpTo_head (n : Nat) (l : List Int) (h : rawUpTo (n + 1) l = true) :
    rawAt l = true := by
  cases l with
  | nil => rfl
  | cons c tl =>
    simp only [rawUpTo, Bool.and_eq_true] at h
    exact h.1

theorem rawUpTo_tail (n : Nat) (c : Int) (tl : List Int) (h : rawUpTo (n + 1) (c :: tl) = true) :
    rawUpTo n tl = true := by
  simp only [rawUpTo, Bool.and_eq_true] at h
  exact h.2

/-- The positions checked by `rawUpTo` can be extended by one whose character
is none of carriage return, `?` and backslash. -/
theorem rawUpTo_append : ∀ (body : List Int) (x : Int) (rest : List Int),
    x ≠ 13 → x ≠ 63 → x ≠ 92 → rawUpTo body.length (body ++ x :: rest) = true →
    rawUpTo (body.length + 1) (body ++ x :: rest) = true := by
  intro body
  induction body with
  | nil =>
    intro x rest h13 h63 h92 _
    simp only [List.length_nil, List.nil_append, rawUpTo, Bool.and_eq_true]
    exact ⟨rawAt_trivial x rest h13 h63 h92, trivial⟩
  | cons c b ih =>
    intro x rest h13 h63 h92 h
    simp only [List.length_cons, List.cons_append, rawUpTo, Bool.and_eq_true] at h ⊢
    exact ⟨h.1, ih x rest h13 h63 h92 h.2⟩

/-- Checking every position of a list is checking one position more. -/
theorem rawUpTo_length : ∀ (l : List Int), rawUpTo l.length l = true →
    rawUpTo (l.length + 1) l = true := by
  intro l
  induction l with
  | nil => intro _; rfl
  | cons c tl ih =>
    intro h
    simp only [List.length_cons, rawUpTo, Bool.and_eq_true] at h ⊢
    exact ⟨h.1, ih h.2⟩

/-- Where the input has no carriage return and no trigraph at its head,
`inc1` delivers the first character and leaves the rest; a backslash is
delivered as it is inside a comment or literal (`incmnt` set). -/
theorem inc1_raw (E : Env) (fuel : Nat) (s : St) (c : Int) (tl : List Int) (r r1 : Int)
    (h : Rd E s (c :: tl) r) (hraw : rawAt (c :: tl) = true) (hbs : c = 92 → s.incmnt ≠ 0)
    (hr0 : 0 ≤ r1) (hr1 : r1 ≤ r + 1) (hr2 : r1 + 1 ≤ s.ifiles.buffer) :
    ∃ s1, inc1 E (fuel + 1) s = Res.ok c s1 ∧ s1.strip = s.strip ∧ Rd E s1 tl r1 := by
  have h13 := rawAt_ne13 c tl hraw
  by_cases h92 : c = 92
  · subst h92
    exact inc1_backslash_incmnt E fuel s tl r r1 h (hbs rfl) hr1 (by omega)
  by_cases h63 : c = 63
  · subst h63
    cases tl with
    | nil => exact inc1_question_last E fuel s r r1 h hr1 (by omega)
    | cons d tl1 =>
      by_cases hd : d = 63
      · subst hd
        cases tl1 with
        | nil => exact inc1_question2_last E fuel s r r1 h hr0 hr1 (by omega)
        | cons e tl2 =>
          exact inc1_untrigraph E fuel s e tl2 r r1 h
            (not_trigraph_of e (rawAt_q e tl2 hraw)) hr0 hr1 hr2
      · exact inc1_question E fuel s d tl1 r r1 h hd hr0 hr1 (by omega)
  · exact inc1_plain E fuel s c tl r r1 h h13 h92 h63 hr1 (by omega)

/-- Inside a comment or literal (`incmnt` set), where the input has no
carriage return, no trigraph and no backslash-newline at its head, `inc2`
delivers the first character and leaves the rest. -/
theorem inc2_raw (E : Env) (fuel : Nat) (s : St) (c : Int) (tl : List Int) (r1 : Int)
    (h : Rd E s (c :: tl) 0) (hraw : rawAt (c :: tl) = true) (hnext : c = 92 → rawAt tl = true)
    (hin : s.incmnt ≠ 0) (hm : 3 ≤ s.ifiles.buffer) (hr0 : 0 ≤ r1) (hr1 : r1 ≤ 1) :
    ∃ s1, inc2 E (fuel + 1) s = Res.ok c s1 ∧ s1.strip = s.strip ∧ Rd E s1 tl r1 := by
  by_cases h92 : c = 92
  · subst h92
    cases tl with
    | nil =>
      obtain ⟨sa, ha, hsa, hra⟩ := inc1_raw E fuel s 92 [] 0 r1 h hraw (fun _ => hin) hr0
        (by omega) (by omega)
      refine ⟨sa, ?_, hsa, hra⟩
      rw [inc2]
      simp only [M.bind_eq, M.andThen_apply, ha, Res.andThen_ok, M.ite_apply, ne_eq,
        not_true_eq_false, if_false, inc1_nil E fuel sa r1 hra,
        show ¬ ((-1 : Int) = 10) by decide, unch_eof, M.pure_eq, M.ret_apply]
    | cons d tl1 =>
      obtain ⟨sa, ha, hsa, hra⟩ := inc1_raw E fuel s 92 (d :: tl1) 0 1 h hraw (fun _ => hin)
        (by omega) (by omega) (by omega)
      have hba : sa.ifiles.buffer = s.ifiles.buffer := buffer_of_strip hsa
      have hina : sa.incmnt ≠ 0 := by rw [incmnt_of_strip hsa]; exact hin
      have hbd := hra.byte
      have h10 := rawAt_bs d tl1 hraw
      obtain ⟨sb, hb, hsb, hrb⟩ :=
        inc1_raw E fuel sa d tl1 1 (r1 + 1) hra (hnext rfl) (fun _ => hina) (by omega)
          (by omega) (by rw [hba]; omega)
      obtain ⟨sc, hc, hsc, hrc⟩ := unch_ok E sb d tl1 (r1 + 1) hrb (by omega) hbd.1 hbd.2
      refine ⟨sc, ?_, hsc.trans (hsb.trans hsa), by simpa using hrc⟩
      rw [inc2]
      simp only [M.bind_eq, M.andThen_apply, ha, Res.andThen_ok, M.ite_apply, ne_eq,
        not_true_eq_false, if_false, hb, h10, hc, M.pure_eq, M.ret_apply]
  · obtain ⟨s1, h1, hs1, hr⟩ := inc1_raw E fuel s c tl 0 r1 h hraw (fun hc => absurd hc h92)
      hr0 (by omega) (by omega)
    refine ⟨s1, ?_, hs1, hr⟩
    rw [inc2]
    simp only [M.bind_eq, M.andThen_apply, h1, Res.andThen_ok, M.ite_apply, ne_eq, h92,
      not_false_eq_true, if_true, M.pure_eq, M.ret_apply]

/-! ## Block comments -/

/-- The pending input depends on the buffer of the frame only. -/
theorem Rd.of_frame {E : Env} {s t : St} {p : List Int} {r : Int} (h : Rd E s p r)
    (h1 : t.ifiles.infil = s.ifiles.infil) (h2 : t.ifiles.buffer = s.ifiles.buffer)
    (h3 : t.ifiles.curptr = s.ifiles.curptr) (h4 : t.ifiles.maxread = s.ifiles.maxread)
    (h5 : t.ifiles.mem = s.ifiles.mem) (h6 : t.ifiles.file = s.ifiles.file) : Rd E t p r := by
  have hp : pending t.ifiles = pending s.ifiles := by
    unfold pending
    rw [h3, h4, h5, h6]
  refine ⟨⟨?_, h.1.size, ?_, ?_, ?_, ?_, ?_, ?_, ?_⟩, ?_, ?_⟩
  · rw [h1]; exact h.1.opened
  · rw [h2]; exact h.1.buf
  · rw [h3]; exact h.1.cur
  · rw [h3, h4]; exact h.1.curmax
  · rw [h2, h4]; exact h.1.bufmax
  · rw [h4, h5]; exact h.1.maxlen
  · rw [h2, h5]; exact h.1.fits
  · rw [hp]; exact h.1.bytes
  · rw [hp]; exact h.2.1
  · rw [h3]; exact h.2.2

theorem blockCmnt_eof (E : Env) (fuel : Nat) (s : St) (r : Int) (h : Rd E s [] r) :
    blockCmnt E (fuel + 2) s = Res.ok (-1) s := by
  rw [blockCmnt]
  simp [inc2_nil E fuel s r h]

theorem blockCmnt_plain (E : Env) (fuel : Nat) (s : St) (c : Int) (rest : List Int)
    (h : Rd E s (c :: rest) 0) (hraw : rawAt (c :: rest) = true)
    (hnext : c = 92 → rawAt rest = true) (hin : s.incmnt ≠ 0) (hm : 3 ≤ s.ifiles.buffer)
    (h42 : c ≠ 42) (h10 : c ≠ 10) :
    ∃ s1, s1.strip = s.strip ∧ Rd E s1 rest 0 ∧
      blockCmnt E (fuel + 2) s = blockCmnt E (fuel + 1) s1 := by
  have hb := h.byte
  obtain ⟨s1, h1, hs1, hr1⟩ :=
    inc2_raw E fuel s c rest 0 h hraw hnext hin hm (le_refl _) (by omega)
  refine ⟨s1, hs1, hr1, ?_⟩
  have hn : ¬ c < 0 := by omega
  conv_lhs => rw [blockCmnt]
  simp only [M.bind_eq, M.andThen_apply, h1, Res.andThen_ok, M.ite_apply, hn, h42, h10,
    if_false]

theorem blockCmnt_newline (E : Env) (fuel : Nat) (s : St) (rest : List Int)
    (h : Rd E s (10 :: rest) 0) :
    ∃ s1, s1.pb = s.pb ++ [10] ∧ s1.ifiles.lineno = s.ifiles.lineno + 1 ∧ Rd E s1 rest 0 ∧
      blockCmnt E (fuel + 2) s = blockCmnt E (fuel + 1) s1 ∧
      s1.incmnt = s.incmnt ∧ s1.ifiles.buffer = s.ifiles.buffer := by
  have h0 := h.1.buf
  obtain ⟨s1, h1, hs1, hr1⟩ :=
    inc2_plain E fuel s 10 rest 0 0 h (by decide) (by decide) (by decide) (by omega) (by omega)
  have hp : s1.pb = s.pb := pb_of_strip hs1
  have hl : s1.ifiles.lineno = s.ifiles.lineno := lineno_of_strip hs1
  refine ⟨{ s1 with ifiles := { s1.ifiles with lineno := s1.ifiles.lineno + 1 },
                    pb := s1.pb ++ [10 % 256] }, ?_, ?_, ?_, ?_, ?_, ?_⟩
  · show s1.pb ++ [10 % 256] = s.pb ++ [10]
    rw [hp]; rfl
  · show s1.ifiles.lineno + 1 = _
    rw [hl]
  · exact hr1.of_frame rfl rfl rfl rfl rfl rfl
  · conv_lhs => rw [blockCmnt]
    simp only [M.bind_eq, M.andThen_apply, h1, Res.andThen_ok, M.ite_apply,
      show ¬ ((10 : Int) < 0) by decide, show ¬ ((10 : Int) = 42) by decide, if_false, if_true,
      modFrame_apply, putch_apply]
  · show s1.incmnt = s.incmnt
    exact incmnt_of_strip hs1
  · show s1.ifiles.buffer = s.ifiles.buffer
    exact buffer_of_strip hs1

theorem blockCmnt_star (E : Env) (fuel : Nat) (s : St) (d : Int) (rest : List Int)
    (h : Rd E s (42 :: d :: rest) 0) (hraw : rawAt (d :: rest) = true)
    (hnext : d = 92 → rawAt rest = true) (hin : s.incmnt ≠ 0) (hm : 3 ≤ s.ifiles.buffer)
    (h47 : d ≠ 47) :
    ∃ s1, s1.strip = s.strip ∧ Rd E s1 (d :: rest) 0 ∧
      blockCmnt E (fuel + 2) s = blockCmnt E (fuel + 1) s1 := by
  have h0 := h.1.buf
  obtain ⟨s1, h1, hs1, hr1⟩ :=
    inc2_plain E fuel s 42 (d :: rest) 0 0 h (by decide) (by decide) (by decide) (by omega)
      (by omega)
  have hb := hr1.byte
  have hb1 : s1.ifiles.buffer = s.ifiles.buffer := buffer_of_strip hs1
  have hin1 : s1.incmnt ≠ 0 := by rw [incmnt_of_strip hs1]; exact hin
  obtain ⟨s2, h2, hs2, hr2⟩ :=
    inc2_raw E fuel s1 d rest 1 hr1 hraw hnext hin1 (by rw [hb1]; exact hm) (by omega)
      (le_refl _)
  obtain ⟨s3, h3, hs3, hr3⟩ := unch_ok E s2 d rest 1 hr2 (le_refl _) hb.1 hb.2
  refine ⟨s3, hs3.trans (hs2.trans hs1), by simpa using hr3, ?_⟩
  conv_lhs => rw [blockCmnt]
  simp only [M.bind_eq, M.andThen_apply, h1, Res.andThen_ok, M.ite_apply,
    show ¬ ((42 : Int) < 0) by decide, if_false, if_true, h2, h47, h3]

theorem blockCmnt_star_eof (E : Env) (fuel : Nat) (s : St) (h : Rd E s [42] 0) :
    ∃ s1, s1.strip = s.strip ∧ Rd E s1 [] 0 ∧
      blockCmnt E (fuel + 2) s = blockCmnt E (fuel + 1) s1 := by
  have h0 := h.1.buf
  obtain ⟨s1, h1, hs1, hr1⟩ :=
    inc2_plain E fuel s 42 [] 0 0 h (by decide) (by decide) (by decide) (by omega) (by omega)
  refine ⟨s1, hs1, hr1, ?_⟩
  conv_lhs => rw [blockCmnt]
  simp only [M.bind_eq, M.andThen_apply, h1, Res.andThen_ok, M.ite_apply,
    show ¬ ((42 : Int) < 0) by decide, if_false, if_true, inc2_nil E fuel s1 0 hr1,
    show ¬ ((-1 : Int) = 47) by decide, unch_eof]

theorem blockCmnt_end (E : Env) (fuel : Nat) (s : St) (rest : List Int)
    (h : Rd E s (42 :: 47 :: rest) 0) :
    ∃ s1, s1.strip = s.strip ∧ Rd E s1 rest 0 ∧ blockCmnt E (fuel + 2) s = Res.ok 47 s1 := by
  have h0 := h.1.buf
  obtain ⟨s1, h1, hs1, hr1⟩ :=
    inc2_plain E fuel s 42 (47 :: rest) 0 0 h (by decide) (by decide) (by decide) (by omega)
      (by omega)
  have hb1 : s1.ifiles.buffer = s.ifiles.buffer := buffer_of_strip hs1
  obtain ⟨s2, h2, hs2, hr2⟩ :=
    inc2_plain E fuel s1 47 rest 0 0 hr1 (by decide) (by decide) (by decide) (by omega)
      (by omega)
  refine ⟨s2, hs2.trans hs1, hr2, ?_⟩
  conv_lhs => rw [blockCmnt]
  simp only [M.bind_eq, M.andThen_apply, h1, Res.andThen_ok, M.ite_apply,
    show ¬ ((42 : Int) < 0) by decide, if_false, if_true, h2, M.pure_eq, M.ret_apply]

theorem cmntEnd_cons (c : Int) (tl : List Int) :
    cmntEnd (c :: tl) =
      if c = 42 ∧ tl.head? = some 47 then some ([], tl.tail)
      else (cmntEnd tl).map (fun p => (c :: p.1, p.2)) := rfl

/-- What `cmntEnd` splits off is followed by `*/` in the input. -/
theorem cmntEnd_append : ∀ (inp body rest : List Int),
    cmntEnd inp = some (body, rest) → inp = body ++ 42 :: 47 :: rest := by
  intro inp
  induction inp with
  | nil => intro body rest h; cases h
  | cons c tl ih =>
    intro body rest h
    rw [cmntEnd_cons] at h
    split_ifs at h with hc
    · obtain ⟨hc1, hc2⟩ := hc
      cases tl with
      | nil => cases hc2
      | cons d tl' =>
        simp only [List.head?_cons, Option.some.injEq] at hc2
        simp only [List.tail_cons, Option.some.injEq, Prod.mk.injEq] at h
        obtain ⟨hb, hr⟩ := h
        subst hb hr hc1 hc2
        rfl
    · cases hq : cmntEnd tl with
      | none => rw [hq] at h; cases h
      | some p =>
        rw [hq] at h
        simp only [Option.map_some', Option.some.injEq, Prod.mk.injEq] at h
        obtain ⟨hb, hr⟩ := h
        have := ih p.1 p.2 (by rw [hq])
        rw [← hb, ← hr, this]
        rfl

theorem cmntEnd_head (d : Int) (tl body rest : List Int)
    (h : cmntEnd (d :: tl) = some (body, rest)) : d = 42 ∨ d ∈ body := by
  rw [cmntEnd_cons] at h
  split_ifs at h with hc
  · exact Or.inl hc.1
  · cases hq : cmntEnd tl with
    | none => rw [hq] at h; cases h
    | some p =>
      rw [hq] at h
      simp only [Option.map_some', Option.some.injEq, Prod.mk.injEq] at h
      exact Or.inr (by rw [← h.1]; exact List.mem_cons_self _ _)

theorem cmntEnd_second (d : Int) (tl body rest : List Int)
    (h : cmntEnd (d :: tl) = some (body, rest)) (hd : d ≠ 42) : ∃ b2, body = d :: b2 := by
  rw [cmntEnd_cons] at h
  rw [if_neg (fun hc => hd hc.1)] at h
  cases hq : cmntEnd tl with
  | none => rw [hq] at h; cases h
  | some p =>
    rw [hq] at h
    simp only [Option.map_some', Option.some.injEq, Prod.mk.injEq] at h
    exact ⟨p.1, h.1.symm⟩

/-- After a character of the comment text, a backslash that comes next is not
followed by a newline. -/
theorem rawAt_after (d : Int) (tl body rest : List Int)
    (h : cmntEnd (d :: tl) = some (body, rest))
    (hraw : rawUpTo (body.length + 1) (d :: tl) = true) (hd : d = 92) : rawAt tl = true := by
  obtain ⟨b2, hb2⟩ := cmntEnd_second d tl body rest h (by rw [hd]; decide)
  rw [hb2] at hraw
  exact rawUpTo_head _ _ (rawUpTo_tail _ _ _ hraw)

/-- The loop of `fastcmnt` over a terminated block comment in whose text no
carriage return, trigraph or backslash-newline begins: it stops after the
first `*/`, having written a newline and counted a line for each newline of
the comment. -/
theorem blockCmnt_scan (E : Env) (fuel : Nat) :
    ∀ (inp body rest : List Int) (s : St),
      cmntEnd inp = some (body, rest) → Rd E s inp 0 →
      rawUpTo (body.length + 1) inp = true → s.incmnt ≠ 0 → 3 ≤ s.ifiles.buffer →
      ∃ s1, blockCmnt E (fuel + body.length + 2) s = Res.ok 47 s1 ∧ Rd E s1 rest 0 ∧
        s1.pb = s.pb ++ List.replicate (body.count 10) 10 ∧
        s1.ifiles.lineno = s.ifiles.lineno + (body.count 10 : Nat) := by
  intro inp
  induction inp with
  | nil => intro body rest s h; cases h
  | cons c tl ih =>
    intro body rest s h hrd hraw hin hm
    have hcons := h
    rw [cmntEnd_cons] at h
    split_ifs at h with hc
    · obtain ⟨hc1, hc2⟩ := hc
      cases tl with
      | nil => cases hc2
      | cons d tl' =>
        simp only [List.head?_cons, Option.some.injEq] at hc2
        simp only [List.tail_cons, Option.some.injEq, Prod.mk.injEq] at h
        obtain ⟨hb, hr⟩ := h
        subst hb hr hc1 hc2
        obtain ⟨s1, hs1, hr1, e1⟩ := blockCmnt_end E fuel s tl' hrd
        exact ⟨s1, e1, hr1, by rw [pb_of_strip hs1]; simp, by rw [lineno_of_strip hs1]; simp⟩
    · cases hq : cmntEnd tl with
      | none => rw [hq] at h; cases h
      | some p =>
        rw [hq] at h
        simp only [Option.map_some', Option.some.injEq, Prod.mk.injEq] at h
        obtain ⟨hb, hr⟩ := h
        obtain ⟨b1, r1⟩ := p
        simp only at hb hr
        subst hb hr
        have hrc : rawAt (c :: tl) = true := rawUpTo_head _ _ hraw
        have hrt : rawUpTo (b1.length + 1) tl = true := rawUpTo_tail _ _ _ hraw
        have hrn : rawAt tl = true := rawUpTo_head _ _ hrt
        have hfuel : fuel + (c :: b1).length + 2 = (fuel + b1.length + 1) + 2 := by
          simp only [List.length_cons]; omega
        rw [hfuel]
        by_cases h42 : c = 42
        · subst h42
          cases tl with
          | nil => cases hq
          | cons d tl' =>
            have hd47 : d ≠ 47 := by
              intro hd
              apply hc
              exact ⟨rfl, by rw [hd]; rfl⟩
            obtain ⟨s1, hs1, hr1, e1⟩ :=
              blockCmnt_star E (fuel + b1.length + 1) s d tl' hrd hrn
                (rawAt_after d tl' b1 r1 hq hrt) hin hm hd47
            obtain ⟨s2, e2, hr2, hp2, hl2⟩ := ih b1 r1 s1 hq hr1 hrt
              (by rw [incmnt_of_strip hs1]; exact hin) (by rw [buffer_of_strip hs1]; exact hm)
            refine ⟨s2, by rw [e1]; exact e2, hr2, ?_, ?_⟩
            · rw [hp2, pb_of_strip hs1]
              simp [List.count_cons]
            · rw [hl2, lineno_of_strip hs1]
              simp [List.count_cons]
        · by_cases h10 : c = 10
          · subst h10
            obtain ⟨s1, hp1, hl1, hr1, e1, hi1, hu1⟩ :=
              blockCmnt_newline E (fuel + b1.length + 1) s tl hrd
            obtain ⟨s2, e2, hr2, hp2, hl2⟩ := ih b1 r1 s1 hq hr1 hrt
              (by rw [hi1]; exact hin) (by rw [hu1]; exact hm)
            refine ⟨s2, by rw [e1]; exact e2, hr2, ?_, ?_⟩
            · rw [hp2, hp1]
              simp [List.count_cons, List.replicate_succ]
            · rw [hl2, hl1]
              simp [List.count_cons]
              omega
          · obtain ⟨s1, hs1, hr1, e1⟩ :=
              blockCmnt_plain E (fuel + b1.length + 1) s c tl hrd hrc (fun _ => hrn) hin hm
                h42 h10
            obtain ⟨s2, e2, hr2, hp2, hl2⟩ := ih b1 r1 s1 hq hr1 hrt
              (by rw [incmnt_of_strip hs1]; exact hin) (by rw [buffer_of_strip hs1]; exact hm)
            refine ⟨s2, by rw [e1]; exact e2, hr2, ?_, ?_⟩
            · rw [hp2, pb_of_strip hs1]
              simp [List.count_cons, h10]
            · rw [hl2, lineno_of_strip hs1]
              simp [List.count_cons, h10]

/-- The loop of `fastcmnt` over an input without `*/` in which no carriage
return, trigraph or backslash-newline begins: it stops at the end of the
input. -/
theorem blockCmnt_open (E : Env) (fuel : Nat) :
    ∀ (inp : List Int) (s : St),
      cmntEnd inp = none → Rd E s inp 0 → rawUpTo (inp.length + 1) inp = true →
      s.incmnt ≠ 0 → 3 ≤ s.ifiles.buffer →
      ∃ s1, blockCmnt E (fuel + inp.length + 2) s = Res.ok (-1) s1 := by
  intro inp
  induction inp with
  | nil => intro s _ hrd _ _ _; exact ⟨s, blockCmnt_eof E (fuel + 0) s 0 hrd⟩
  | cons c tl ih =>
    intro s h hrd hraw hin hm
    rw [cmntEnd_cons] at h
    split_ifs at h with hc
    have hq : cmntEnd tl = none := by
      cases hq : cmntEnd tl with
      | none => rfl
      | some p => rw [hq] at h; cases h
    have hrc : rawAt (c :: tl) = true := rawUpTo_head _ _ hraw
    have hrt : rawUpTo (tl.length + 1) tl = true := rawUpTo_tail _ _ _ hraw
    have hrn : rawAt tl = true := rawUpTo_head _ _ hrt
    have hfuel : fuel + (c :: tl).length + 2 = (fuel + tl.length + 1) + 2 := by
      simp only [List.length_cons]; omega
    rw [hfuel]
    by_cases h42 : c = 42
    · subst h42
      cases tl with
      | nil =>
        obtain ⟨s1, _, hr1, e1⟩ := blockCmnt_star_eof E (fuel + 0 + 1) s hrd
        exact ⟨s1, by
          rw [show fuel + ([] : List Int).length + 1 + 2 = fuel + 0 + 1 + 2 from rfl, e1]
          exact blockCmnt_eof E (fuel + 0) s1 0 hr1⟩
      | cons d tl' =>
        have hd47 : d ≠ 47 := by
          intro hd
          apply hc
          exact ⟨rfl, by rw [hd]; rfl⟩
        obtain ⟨s1, hs1, hr1, e1⟩ :=
          blockCmnt_star E (fuel + (d :: tl').length + 1) s d tl' hrd hrn
            (fun _ => rawUpTo_head _ _ (rawUpTo_tail _ _ _ hrt)) hin hm hd47
        obtain ⟨s2, e2⟩ := ih s1 hq hr1 hrt
          (by rw [incmnt_of_strip hs1]; exact hin) (by rw [buffer_of_strip hs1]; exact hm)
        exact ⟨s2, by rw [e1]; exact e2⟩
    · by_cases h10 : c = 10
      · subst h10
        obtain ⟨s1, _, _, hr1, e1, hi1, hu1⟩ :=
          blockCmnt_newline E (fuel + tl.length + 1) s tl hrd
        obtain ⟨s2, e2⟩ := ih s1 hq hr1 hrt (by rw [hi1]; exact hin) (by rw [hu1]; exact hm)
        exact ⟨s2, by rw [e1]; exact e2⟩
      · obtain ⟨s1, hs1, hr1, e1⟩ :=
          blockCmnt_plain E (fuel + tl.length + 1) s c tl hrd hrc (fun _ => hrn) hin hm h42 h10
        obtain ⟨s2, e2⟩ := ih s1 hq hr1 hrt
          (by rw [incmnt_of_strip hs1]; exact hin) (by rw [buffer_of_strip hs1]; exact hm)
        exact ⟨s2, by rw [e1]; exact e2⟩

/-- Claim C14 (as amended).  For every terminated block comment in whose text
no carriage return stands, no trigraph begins and no backslash is followed by
a newline (`rawUpTo`), and whose text holds `N` newline characters:
`fastcmnt`, called after the `/`, returns 1 with the input consumed through
the first `*/` that begins after the opening `/*`, exactly `N` newline
characters written to the output, and `lineno` increased by exactly `N`.  The
pushback margin of the buffer holds at least three characters. -/
theorem comment_line_count (E : Env) (fuel : Nat) (s : St) (ps : Int)
    (inp body rest : List Int) (hok : FrameOK E s.ifiles) (hm : 3 ≤ s.ifiles.buffer)
    (hp : pending s.ifiles = 42 :: inp) (hend : cmntEnd inp = some (body, rest))
    (hraw : rawUpTo body.length inp = true) :
    ∃ s1, fastcmnt E (fuel + body.length + 2) ps s = Res.ok 1 s1 ∧
      pending s1.ifiles = rest ∧
      s1.pb = s.pb ++ List.replicate (body.count 10) 10 ∧
      s1.ifiles.lineno = s.ifiles.lineno + (body.count 10 : Nat) := by
  have h0 := hok.buf
  obtain ⟨s1, h1, hs1, hr1⟩ :=
    inc2_plain E (fuel + body.length + 1) { s with incmnt := 1 } 42 inp 0 0 ⟨hok, hp, hok.cur⟩
      (by decide) (by decide) (by decide) (by omega)
      (by show (0 : Int) ≤ s.ifiles.buffer + 1; omega)
  have hp1 : s1.pb = s.pb := congrArg (fun t => t.pb) hs1
  have hl1 : s1.ifiles.lineno = s.ifiles.lineno := congrArg (fun t => t.ifiles.lineno) hs1
  have hraw1 : rawUpTo (body.length + 1) inp = true := by
    have hi := cmntEnd_append inp body rest hend
    rw [hi] at hraw ⊢
    exact rawUpTo_append body 42 (47 :: rest) (by decide) (by decide) (by decide) hraw
  have hi1 : s1.incmnt ≠ 0 := by
    have : s1.incmnt = 1 := congrArg (fun t => t.incmnt) hs1
    rw [this]; decide
  have hb1 : s1.ifiles.buffer = s.ifiles.buffer := congrArg (fun t => t.ifiles.buffer) hs1
  obtain ⟨s2, h2, hr2, hp2, hl2⟩ :=
    blockCmnt_scan E fuel inp body rest s1 hend hr1 hraw1 hi1 (by rw [hb1]; exact hm)
  refine ⟨{ s2 with incmnt := 0 }, ?_, hr2.2.1, by show s2.pb = _; rw [hp2, hp1],
    by show s2.ifiles.lineno = _; rw [hl2, hl1]⟩
  simp only [fastcmnt, M.bind_eq, M.andThen_apply, modState_apply, Res.andThen_ok, h1,
    M.ite_apply, show ¬ ((42 : Int) = 47) by decide, if_false, if_true, h2, M.pure_eq,
    M.ret_apply, show ¬ ((47 : Int) < 0) by decide]

theorem comment_line_count_witness :
    ∃ s1, fastcmnt sampleEnv (0 + [63, 92, 110, 10, 42, 10, 63, 63].length + 2) 0
        (openState [42, 63, 92, 110, 10, 42, 10, 63, 63, 42, 47, 59]) = Res.ok 1 s1 ∧
      pending s1.ifiles = [59] ∧
      s1.pb = (openState [42, 63, 92, 110, 10, 42, 10, 63, 63, 42, 47, 59]).pb ++
        List.replicate (List.count 10 [63, 92, 110, 10, 42, 10, 63, 63]) 10 ∧
      s1.ifiles.lineno =
        (openState [42, 63, 92, 110, 10, 42, 10, 63, 63, 42, 47, 59]).ifiles.lineno +
        (List.count 10 [63, 92, 110, 10, 42, 10, 63, 63] : Nat) :=
  comment_line_count sampleEnv 0 (openState [42, 63, 92, 110, 10, 42, 10, 63, 63, 42, 47, 59]) 0
    [63, 92, 110, 10, 42, 10, 63, 63, 42, 47, 59] [63, 92, 110, 10, 42, 10, 63, 63] [59]
    (frameOK_open _ (by decide)) (by decide) (pending_open _) (by decide) (by decide)

/-- One backslash-newline pair before a plain character, read by `inc2`: the
character is returned, the pair is counted in `escln`, and neither the output
nor `lineno` changes. -/
theorem inc2_splice_plain (E : Env) (fuel : Nat) (s : St) (c : Int) (rest : List Int)
    (h : Rd E s (92 :: 10 :: c :: rest) 0) (h13 : c ≠ 13) (h92 : c ≠ 92) (h63 : c ≠ 63) :
    ∃ s1, inc2 E (fuel + 2) s = Res.ok c s1 ∧ Rd E s1 rest 0 ∧ s1.pb = s.pb ∧
      s1.ifiles.lineno = s.ifiles.lineno ∧ s1.ifiles.escln = s.ifiles.escln + 1 := by
  obtain ⟨s1, h1, hs1, hr1⟩ := inc2_splices E fuel 1 s c rest 0 h (le_refl _) h13 h92 h63
  exact ⟨s1, h1, hr1, congrArg (fun t => t.pb) hs1, congrArg (fun t => t.ifiles.lineno) hs1,
    congrArg (fun t => t.ifiles.escln) hs1⟩

/-- C14, counterexample.  The comment `/*`, backslash, newline, `*/` holds one
newline character, yet `fastcmnt` writes no newline and leaves `lineno` as it
is: the newline is spliced away by `inc2` and counted in `escln`. -/
theorem comment_splice_not_counted :
    cmntEnd [92, 10, 42, 47] = some ([92, 10], []) ∧ List.count (10 : Int) [92, 10] = 1 ∧
    ∃ s1, fastcmnt sampleEnv 3 0 (openState [42, 92, 10, 42, 47]) = Res.ok 1 s1 ∧
      s1.pb = [] ∧ s1.ifiles.lineno = 1 ∧ s1.ifiles.escln = 1 := by
  refine ⟨by decide, by decide, ?_⟩
  obtain ⟨s1, h1, hs1, hr1⟩ :=
    inc2_plain sampleEnv 2 { openState [42, 92, 10, 42, 47] with incmnt := 1 } 42 _ 0 0
      (rd_open _ (by decide)) (by decide) (by decide) (by decide) (by decide) (by decide)
  obtain ⟨s2, h2, hr2, hp2, hl2, he2⟩ :=
    inc2_splice_plain sampleEnv 0 s1 42 [47] hr1 (by decide) (by decide) (by decide)
  have hb2 := hr2.1.buf
  obtain ⟨s3, h3, hs3, _⟩ :=
    inc2_plain sampleEnv 1 s2 47 [] 0 0 hr2 (by decide) (by decide) (by decide) (by decide)
      (by omega)
  have hb : blockCmnt sampleEnv 3 s1 = Res.ok 47 s3 := by
    rw [blockCmnt]
    simp only [M.bind_eq, M.andThen_apply, h2, Res.andThen_ok, M.ite_apply,
      show ¬ ((42 : Int) < 0) by decide, if_false, if_true, h3, M.pure_eq, M.ret_apply]
  refine ⟨{ s3 with incmnt := 0 }, ?_, ?_, ?_, ?_⟩
  · simp only [fastcmnt, M.bind_eq, M.andThen_apply, modState_apply, Res.andThen_ok, h1,
      M.ite_apply, show ¬ ((42 : Int) = 47) by decide, if_false, if_true, hb, M.pure_eq,
      M.ret_apply, show ¬ ((47 : Int) < 0) by decide]
  · show s3.pb = []
    rw [pb_of_strip hs3, hp2]
    exact congrArg (fun t => t.pb) hs1
  · show s3.ifiles.lineno = 1
    rw [lineno_of_strip hs3, hl2]
    exact congrArg (fun t => t.ifiles.lineno) hs1
  · show s3.ifiles.escln = 1
    rw [escln_of_strip hs3, he2]
    have : s1.ifiles.escln = 0 := congrArg (fun t => t.ifiles.escln) hs1
    rw [this]
    rfl

/-- Claim C15 (as amended).  For every input that after the opening `/*` has
no `*/`, and in which no carriage return stands, no trigraph begins and no
backslash is followed by a newline (`rawUpTo`), `fastcmnt` ends in the fatal
error "file ends in comment"; it does not return.  The pushback margin of the
buffer holds at least three characters. -/
theorem unterminated_comment_fatal (E : Env) (fuel : Nat) (s : St) (ps : Int)
    (inp : List Int) (hok : FrameOK E s.ifiles) (hm : 3 ≤ s.ifiles.buffer)
    (hp : pending s.ifiles = 42 :: inp)
    (hno : cmntEnd inp = none) (hraw : rawUpTo inp.length inp = true) :
    ∃ s1, fastcmnt E (fuel + inp.length + 2) ps s = Res.fatal Err.fileEndsInComment s1 := by
  have h0 := hok.buf
  obtain ⟨s1, h1, hs1, hr1⟩ :=
    inc2_plain E (fuel + inp.length + 1) { s with incmnt := 1 } 42 inp 0 0 ⟨hok, hp, hok.cur⟩
      (by decide) (by decide) (by decide) (by omega)
      (by show (0 : Int) ≤ s.ifiles.buffer + 1; omega)
  have hi1 : s1.incmnt ≠ 0 := by
    have : s1.incmnt = 1 := congrArg (fun t => t.incmnt) hs1
    rw [this]; decide
  have hb1 : s1.ifiles.buffer = s.ifiles.buffer := congrArg (fun t => t.ifiles.buffer) hs1
  obtain ⟨s2, h2⟩ :=
    blockCmnt_open E fuel inp s1 hno hr1 (rawUpTo_length inp hraw) hi1 (by rw [hb1]; exact hm)
  refine ⟨s2, ?_⟩
  simp only [fastcmnt, M.bind_eq, M.andThen_apply, modState_apply, Res.andThen_ok, h1,
    M.ite_apply, show ¬ ((42 : Int) = 47) by decide, if_false, if_true, h2, M.pure_eq,
    M.ret_apply, show ((-1 : Int) < 0) by decide, error_apply, Res.andThen_fatal]

theorem unterminated_comment_fatal_witness :
    ∃ s1, fastcmnt sampleEnv (0 + [97, 42, 10, 47, 42, 63, 63, 92].length + 2) 0
        (openState [42, 97, 42, 10, 47, 42, 63, 63, 92]) = Res.fatal Err.fileEndsInComment s1 :=
  unterminated_comment_fatal sampleEnv 0 (openState [42, 97, 42, 10, 47, 42, 63, 63, 92]) 0
    [97, 42, 10, 47, 42, 63, 63, 92] (frameOK_open _ (by decide)) (by decide) (pending_open _)
    (by decide) (by decide)

/-- C15, counterexample.  After the opening `/*` the input `*`, backslash,
newline, `/` holds no `*/`, yet `fastcmnt` raises no error: `inc2` splices the
line, the `/` follows the `*`, and the call returns 1. -/
theorem comment_closed_across_splice :
    cmntEnd [42, 92, 10, 47] = none ∧
    ∃ s1, fastcmnt sampleEnv 3 0 (openState [42, 42, 92, 10, 47]) = Res.ok 1 s1 := by
  refine ⟨by decide, ?_⟩
  obtain ⟨s1, h1, hs1, hr1⟩ :=
    inc2_plain sampleEnv 2 { openState [42, 42, 92, 10, 47] with incmnt := 1 } 42 _ 0 0
      (rd_open _ (by decide)) (by decide) (by decide) (by decide) (by decide) (by decide)
  have hb1 := hr1.1.buf
  obtain ⟨s2, h2, hs2, hr2⟩ :=
    inc2_plain sampleEnv 1 s1 42 _ 0 0 hr1 (by decide) (by decide) (by decide) (by decide)
      (by omega)
  obtain ⟨s3, h3, _⟩ :=
    inc2_splice_plain sampleEnv 0 s2 47 [] hr2 (by decide) (by decide) (by decide)
  have hb : blockCmnt sampleEnv 3 s1 = Res.ok 47 s3 := by
    rw [blockCmnt]
    simp only [M.bind_eq, M.andThen_apply, h2, Res.andThen_ok, M.ite_apply,
      show ¬ ((42 : Int) < 0) by decide, if_false, if_true, h3, M.pure_eq, M.ret_apply]
  refine ⟨{ s3 with incmnt := 0 }, ?_⟩
  simp only [fastcmnt, M.bind_eq, M.andThen_apply, modState_apply, Res.andThen_ok, h1,
    M.ite_apply, show ¬ ((42 : Int) = 47) by decide, if_false, if_true, hb, M.pure_eq,
    M.ret_apply, show ¬ ((47 : Int) < 0) by decide]

/-! ## The character after `/` that starts no comment -/

/-- A character other than `/` and `*` after the `/`: `fastcmnt(0)` pushes it
back, writes nothing and returns 0. -/
theorem fastcmnt_not_comment (E : Env) (fuel : Nat) (s : St) (c : Int) (rest : List Int)
    (h : Rd E s (c :: rest) 0) (h13 : c ≠ 13) (h92 : c ≠ 92) (h63 : c ≠ 63)
    (h47 : c ≠ 47) (h42 : c ≠ 42) :
    ∃ s1, fastcmnt E (fuel + 1) 0 s = Res.ok 0 s1 ∧ Rd E s1 (c :: rest) 0 ∧ s1.pb = s.pb ∧
      s1.incmnt = 0 := by
  have hb := h.byte
  have h0 := h.1.buf
  obtain ⟨s1, h1, hs1, hr1⟩ :=
    inc2_plain E fuel { s with incmnt := 1 } c rest 0 1 h h13 h92 h63 (by omega)
      (by show (1 : Int) ≤ s.ifiles.buffer + 1; omega)
  obtain ⟨s2, h2, hs2, hr2⟩ := unch_ok E s1 c rest 1 hr1 (le_refl _) hb.1 hb.2
  have hn : ¬ c < 0 := by omega
  have p1 : s1.pb = s.pb := congrArg (fun t => t.pb) hs1
  have p2 : s2.pb = s1.pb := pb_of_strip hs2
  refine ⟨{ s2 with incmnt := 0 }, ?_, hr2, by show s2.pb = s.pb; rw [p2, p1], rfl⟩
  simp only [fastcmnt, M.bind_eq, M.andThen_apply, modState_apply, Res.andThen_ok, h1,
    M.ite_apply, h47, h42, if_false, ne_eq, not_true_eq_false, M.pure_eq, M.ret_apply, h2, hn]

/-- The end of the input after the `/`: `fastcmnt` ends in the fatal error
"file ends in comment". -/
theorem fastcmnt_eof (E : Env) (fuel : Nat) (s : St) (r : Int) (h : Rd E s [] r) :
    fastcmnt E (fuel + 1) 0 s = Res.fatal Err.fileEndsInComment { s with incmnt := 1 } := by
  have h1 : inc2 E (fuel + 1) { s with incmnt := 1 } = Res.ok (-1) { s with incmnt := 1 } :=
    inc2_nil E fuel { s with incmnt := 1 } r h
  simp only [fastcmnt, M.bind_eq, M.andThen_apply, modState_apply, Res.andThen_ok, h1,
    M.ite_apply, show ¬ ((-1 : Int) = 47) by decide, show ¬ ((-1 : Int) = 42) by decide,
    if_false, ne_eq, not_true_eq_false, M.pure_eq, M.ret_apply, unch_eof,
    show ((-1 : Int) < 0) by decide, if_true, error_apply, Res.andThen_fatal]

/-- A `/` that is the last character of the input, read by `inch` outside
`-C` mode: the run ends in "file ends in comment". -/
theorem inch_slash_eof (E : Env) (fuel : Nat) (s : St) (r : Int) (h : Rd E s [47] r)
    (hC : s.Cflag = 0) :
    ∃ s1, inch E (fuel + 2) s = Res.fatal Err.fileEndsInComment s1 ∧ s1.pb = s.pb := by
  have h0 := h.1.buf
  obtain ⟨s1, h1, hs1, hr1⟩ :=
    inc2_plain E fuel s 47 [] 0 0 h.zero (by decide) (by decide) (by decide)
      (by omega) (by omega)
  have hC1 : s1.Cflag = 0 := by
    have : s1.Cflag = s.Cflag := congrArg (fun t => t.Cflag) hs1
    rw [this]; exact hC
  have hp1 : s1.pb = s.pb := pb_of_strip hs1
  refine ⟨{ s1 with incmnt := 1 }, ?_, hp1⟩
  rw [inch]
  simp only [M.bind_eq, M.andThen_apply, h1, Res.andThen_ok, frame_apply, getState_apply,
    M.ite_apply, hC1, and_self, if_true, fastcmnt_eof E fuel s1 0 hr1, Res.andThen_fatal]

/-- Claim C16.  On a file that is the single character `/`, the lookahead of
`fastcmnt(0)` is the end of the input, and the run of `fastscan` ends in the
fatal error "file ends in comment", with nothing written. -/
theorem slash_at_end_of_file_fatal :
    ∃ s1, fastscan sampleEnv 3 (openState [47]) = Res.fatal Err.fileEndsInComment s1 ∧
      s1.pb = [] := by
  obtain ⟨s1, h1, hp⟩ := inch_slash_eof sampleEnv 0 (openState [47]) 0 (rd_open _ (by decide)) rfl
  refine ⟨s1, ?_, by rw [hp]; rfl⟩
  rw [fastscan]
  conv_lhs => rw [fastscanAt]
  simp only [M.bind_eq, M.andThen_apply, h1, Res.andThen_fatal]

/-! ## Preprocessing numbers -/

/-- The function `fastnum` on a digit followed by an exponent letter and a
character `d` that is no sign: the digit alone is copied, the exponent letter
is returned as the character after the number, and `d` is pushed back. -/
theorem fastnum_exponent_no_sign (E : Env) (fuel : Nat) (s : St) (c e d : Int) (v w : Nat)
    (rest : List Int) (h : Rd E s (e :: d :: rest) 0)
    (hv : spechr c = some v) (hd : (v &&& C_DIGIT != 0) = true)
    (hw : spechr e = some w) (he : (w &&& C_EP != 0) = true)
    (e13 : e ≠ 13) (e92 : e ≠ 92) (e63 : e ≠ 63) (e47 : e ≠ 47)
    (d13 : d ≠ 13) (d92 : d ≠ 92) (d63 : d ≠ 63) (d47 : d ≠ 47)
    (d45 : d ≠ 45) (d43 : d ≠ 43) :
    ∃ s1, fastnum E (fuel + 3) c Ob.pb s = Res.ok e s1 ∧ s1.pb = s.pb ++ [c % 256] ∧
      Rd E s1 (d :: rest) 0 := by
  have h0 := h.1.buf
  have hbd : 0 ≤ d ∧ d < 256 :=
    h.1.bytes d (by rw [h.2.1]; exact List.mem_cons_of_mem _ (List.mem_cons_self _ _))
  have hbe := h.byte
  obtain ⟨s1, h1, hs1, hr1⟩ :=
    inch_plain E fuel { s with pb := s.pb ++ [c % 256] } e (d :: rest) 0 0 h e13 e92 e63 e47
      (by omega) (by show (0 : Int) ≤ s.ifiles.buffer + 1; omega)
  have hb1 : s1.ifiles.buffer = s.ifiles.buffer := congrArg (fun t => t.ifiles.buffer) hs1
  obtain ⟨s2, h2, hs2, hr2⟩ :=
    inch_plain E fuel s1 d rest 0 1 hr1 d13 d92 d63 d47 (by omega) (by omega)
  obtain ⟨s3, h3, hs3, hr3⟩ := unch_ok E s2 d rest 1 hr2 (le_refl _) hbd.1 hbd.2
  have hp1 : s1.pb = s.pb ++ [c % 256] := congrArg (fun t => t.pb) hs1
  have hp2 : s2.pb = s1.pb := pb_of_strip hs2
  have hp3 : s3.pb = s2.pb := pb_of_strip hs3
  refine ⟨s3, ?_, by rw [hp3, hp2, hp1], by simpa using hr3⟩
  have hen : ¬ e < 0 := by omega
  have hdn : d ≥ 0 := hbd.1
  simp only [fastnum, M.bind_eq, M.andThen_apply, spechrHas_of c C_DIGIT v s hv, hd,
    Res.andThen_ok, Bool.not_true, Bool.false_eq_true, M.ite_apply, if_false]
  rw [fastnumLoop]
  simp only [M.bind_eq, M.andThen_apply, putob_pb, Res.andThen_ok, h1, M.ite_apply, hen,
    if_false, spechrHas_of e C_EP w s1 hw, he, if_true, h2, ne_eq, d45, d43, not_false_eq_true,
    and_self, hdn, h3, M.pure_eq, M.ret_apply]

/-- Claim C17.  On the number `1e5`, `fastnum` called with the `1` copies the
`1` alone to the output, returns the `e` as the first character after the
number, and leaves `5` as the next character to read. -/
theorem exponent_without_sign_splits_number :
    ∃ s1, fastnum sampleEnv 3 49 Ob.pb (openState [101, 53, 10]) = Res.ok 101 s1 ∧
      s1.pb = [49] ∧ pending s1.ifiles = [53, 10] := by
  obtain ⟨s1, h1, hp, hr⟩ :=
    fastnum_exponent_no_sign sampleEnv 0 (openState [101, 53, 10]) 49 101 53 201 185 [10]
      (rd_open _ (by decide)) (by decide) (by decide) (by decide) (by decide) (by decide)
      (by decide) (by decide) (by decide) (by decide) (by decide) (by decide) (by decide)
      (by decide) (by decide)
  exact ⟨s1, h1, by rw [hp]; rfl, hr.2.1⟩

/-! ## The identifier reader `readid` -/

theorem idClass_plain (c : Int) (h : idClass c = true) :
    c ≠ 13 ∧ c ≠ 92 ∧ c ≠ 63 ∧ c ≠ 47 ∧ c ≠ 0 ∧ c ≠ 10 := by
  have e13 : idClass 13 = false := by decide
  have e92 : idClass 92 = false := by decide
  have e63 : idClass 63 = false := by decide
  have e47 : idClass 47 = false := by decide
  have e0 : idClass 0 = false := by decide
  have e10 : idClass 10 = false := by decide
  refine ⟨?_, ?_, ?_, ?_, ?_, ?_⟩ <;> intro hc <;> rw [hc] at h <;> simp_all

set_option maxRecDepth 8000 in
theorem spechrTable_length : spechrTable.length = 256 := by decide

theorem idClass_spechr (c : Int) (b : Bool) (h : idClass c = b) (hc0 : 0 ≤ c) (hc1 : c < 256)
    (s : St) : spechrHas c C_ID s = Res.ok b s := by
  unfold idClass at h
  unfold spechrHas
  cases hs : spechr c with
  | none =>
    exfalso
    unfold spechr at hs
    rw [if_pos ⟨hc0, hc1⟩] at hs
    have hlen : c.toNat < spechrTable.length := by
      have : spechrTable.length = 256 := spechrTable_length
      omega
    rw [List.get?_eq_get hlen] at hs
    cases hs
  | some v =>
    rw [hs] at h
    simp only at h
    rw [← h]
    rfl

/-- One round of the loop of `readid`: the character `ch` is stored if there
is room, the warning is issued at the index `MAXIDSZ`, and the next character
`c` is read. -/
theorem readidLoop_any (E : Env) (fuel : Nat) (s : St) (ch : Int) (p : Nat) (c : Int)
    (rest : List Int) (r1 : Int) (h : Rd E s (c :: rest) 0)
    (h13 : c ≠ 13) (h92 : c ≠ 92) (h63 : c ≠ 63) (h47 : c ≠ 47) (hr1 : r1 ≤ 1) :
    ∃ s1, Rd E s1 rest r1 ∧
      s1.idbuf = (if p < E.MAXIDSZ then arrSet s.idbuf p (ch % 256) else s.idbuf) ∧
      s1.diag = (if p = E.MAXIDSZ then s.diag ++ [Warn.idExceedsTruncating] else s.diag) ∧
      s1.cond = s.cond ∧ s1.ifiles.buffer = s.ifiles.buffer ∧ s1.Cflag = s.Cflag ∧
      readidLoop E (fuel + 3) ch p s =
        (if idClass c = true then readidLoop E (fuel + 2) c (p + 1) s1
         else Res.ok (c, p + 1) s1) := by
  have hb := h.byte
  have h0 := h.1.buf
  obtain ⟨s1, h1, hs1, hr⟩ :=
    inch_plain E fuel
      { s with
        idbuf := if p < E.MAXIDSZ then arrSet s.idbuf p (ch % 256) else s.idbuf
        diag := if p = E.MAXIDSZ then s.diag ++ [Warn.idExceedsTruncating] else s.diag }
      c rest 0 r1 h h13 h92 h63 h47 (by omega)
      (by show r1 ≤ s.ifiles.buffer + 1; omega)
  refine ⟨s1, hr, congrArg (fun t => t.idbuf) hs1, congrArg (fun t => t.diag) hs1,
    congrArg (fun t => t.cond) hs1, congrArg (fun t => t.ifiles.buffer) hs1,
    congrArg (fun t => t.Cflag) hs1, ?_⟩
  conv_lhs => rw [readidLoop]
  have hid := idClass_spechr c (idClass c) rfl hb.1 hb.2 s1
  rcases Nat.lt_trichotomy p E.MAXIDSZ with hlt | heq | hgt
  · have hne : p ≠ E.MAXIDSZ := by omega
    simp only [hne, hlt, if_false, if_true] at h1
    simp only [M.bind_eq, M.andThen_apply, M.ite_apply, hne, hlt, if_false, if_true,
      M.pure_eq, M.ret_apply, Res.andThen_ok, modState_apply, h1, ISID, hid]
  · subst heq
    simp only [lt_self_iff_false, if_false, if_true] at h1
    simp only [M.bind_eq, M.andThen_apply, M.ite_apply, lt_self_iff_false, if_false, if_true,
      M.pure_eq, M.ret_apply, Res.andThen_ok, warning_apply, h1, ISID, hid]
  · have hne : p ≠ E.MAXIDSZ := by omega
    have hnl : ¬ p < E.MAXIDSZ := by omega
    simp only [hne, hnl, if_false] at h1
    simp only [M.bind_eq, M.andThen_apply, M.ite_apply, hne, hnl, if_false,
      M.pure_eq, M.ret_apply, Res.andThen_ok, h1, ISID, hid]

theorem storeRun_cons (a : List Int) (p : Nat) (c : Int) (cs : List Int) :
    storeRun a p (c :: cs) = storeRun (arrSet a p (c % 256)) (p + 1) cs := rfl

/-- The loop of `readid` over a run of identifier characters ended by the
character `stop`: the first `MAXIDSZ` characters are stored, the warning is
issued when the index `MAXIDSZ` is reached, and the count of all characters
comes back with `stop`. -/
theorem readidLoop_run (E : Env) (fuel : Nat) (stop : Int) (rest : List Int)
    (hstop : idClass stop = false)
    (h13 : stop ≠ 13) (h92 : stop ≠ 92) (h63 : stop ≠ 63) (h47 : stop ≠ 47) :
    ∀ (run : List Int) (ch : Int) (p : Nat) (s : St),
      Rd E s (run ++ stop :: rest) 0 → (∀ c ∈ run, idClass c = true) →
      ∃ s1, readidLoop E (fuel + run.length + 3) ch p s =
          Res.ok (stop, p + run.length + 1) s1 ∧
        Rd E s1 rest 1 ∧
        s1.idbuf = storeRun s.idbuf p ((ch :: run).take (E.MAXIDSZ - p)) ∧
        s1.diag = s.diag ++
          (if p ≤ E.MAXIDSZ ∧ E.MAXIDSZ ≤ p + run.length then [Warn.idExceedsTruncating]
           else []) ∧
        s1.cond = s.cond ∧ s1.ifiles.buffer = s.ifiles.buffer ∧ s1.Cflag = s.Cflag := by
  intro run
  induction run with
  | nil =>
    intro ch p s h _
    obtain ⟨s1, hr1, hi1, hd1, hc1, hb1, hf1, e1⟩ :=
      readidLoop_any E fuel s ch p stop rest 1 h h13 h92 h63 h47 (le_refl _)
    rw [hstop] at e1
    refine ⟨s1, by simpa using e1, hr1, ?_, ?_, hc1, hb1, hf1⟩
    · rw [hi1]
      by_cases hlt : p < E.MAXIDSZ
      · have : E.MAXIDSZ - p = (E.MAXIDSZ - p - 1) + 1 := by omega
        rw [if_pos hlt, this, List.take_succ_cons, storeRun_cons, List.take_nil]
        rfl
      · have : E.MAXIDSZ - p = 0 := by omega
        rw [if_neg hlt, this]
        rfl
    · rw [hd1]
      by_cases heq : p = E.MAXIDSZ
      · have : p ≤ E.MAXIDSZ ∧ E.MAXIDSZ ≤ p + ([] : List Int).length := by
          simp only [List.length_nil]; omega
        rw [if_pos heq, if_pos this]
      · have : ¬ (p ≤ E.MAXIDSZ ∧ E.MAXIDSZ ≤ p + ([] : List Int).length) := by
          simp only [List.length_nil]; omega
        rw [if_neg heq, if_neg this, List.append_nil]
  | cons c tl ih =>
    intro ch p s h hrun
    have hc := hrun c (List.mem_cons_self _ _)
    have hcp := idClass_plain c hc
    obtain ⟨s1, hr1, hi1, hd1, hc1, hb1, hf1, e1⟩ :=
      readidLoop_any E (fuel + tl.length + 1) s ch p c (tl ++ stop :: rest) 0 h hcp.1 hcp.2.1
        hcp.2.2.1 hcp.2.2.2.1 (by omega)
    rw [hc, if_pos rfl] at e1
    obtain ⟨s2, e2, hr2, hi2, hd2, hc2, hb2, hf2⟩ :=
      ih c (p + 1) s1 hr1 (fun x hx => hrun x (List.mem_cons_of_mem _ hx))
    have hfuel : fuel + (c :: tl).length + 3 = fuel + tl.length + 1 + 3 := by
      simp only [List.length_cons]; omega
    have hcnt : p + 1 + tl.length + 1 = p + (c :: tl).length + 1 := by
      simp only [List.length_cons]; omega
    refine ⟨s2, ?_, hr2, ?_, ?_, hc2.trans hc1, hb2.trans hb1, hf2.trans hf1⟩
    · rw [hfuel, e1, ← hcnt]
      exact e2
    · rw [hi2, hi1]
      by_cases hlt : p < E.MAXIDSZ
      · have : E.MAXIDSZ - p = (E.MAXIDSZ - (p + 1)) + 1 := by omega
        rw [if_pos hlt, this, List.take_succ_cons, storeRun_cons]
      · have h1 : E.MAXIDSZ - p = 0 := by omega
        have h2 : E.MAXIDSZ - (p + 1) = 0 := by omega
        rw [if_neg hlt, h1, h2]
        rfl
    · rw [hd2, hd1]
      simp only [List.length_cons]
      by_cases heq : p = E.MAXIDSZ
      · have a1 : ¬ (p + 1 ≤ E.MAXIDSZ ∧ E.MAXIDSZ ≤ p + 1 + tl.length) := by omega
        have a2 : p ≤ E.MAXIDSZ ∧ E.MAXIDSZ ≤ p + (tl.length + 1) := by omega
        rw [if_pos heq, if_neg a1, if_pos a2, List.append_nil]
      · rw [if_neg heq]
        by_cases a1 : p + 1 ≤ E.MAXIDSZ ∧ E.MAXIDSZ ≤ p + 1 + tl.length
        · have a2 : p ≤ E.MAXIDSZ ∧ E.MAXIDSZ ≤ p + (tl.length + 1) := by omega
          rw [if_pos a1, if_pos a2]
        · have a2 : ¬ (p ≤ E.MAXIDSZ ∧ E.MAXIDSZ ≤ p + (tl.length + 1)) := by omega
          rw [if_neg a1, if_neg a2]

/-- An identifier of more than `MAXIDSZ` characters: the warning is issued,
and then `readid` stores the terminating NUL at `idbuf[p]` with `p > MAXIDSZ`,
outside the array of `MAXIDSZ + 1` bytes. -/
theorem readid_long (E : Env) (fuel : Nat) (s : St) (ch stop : Int) (run rest : List Int)
    (h : Rd E s (run ++ stop :: rest) 0) (hrun : ∀ c ∈ run, idClass c = true)
    (hstop : idClass stop = false)
    (h13 : stop ≠ 13) (h92 : stop ≠ 92) (h63 : stop ≠ 63) (h47 : stop ≠ 47)
    (hlong : E.MAXIDSZ < run.length + 1) (hub : E.idbufOverrun = false) :
    ∃ s1, readid E (fuel + run.length + 3) ch s = Res.fatal Err.undefinedAccess s1 ∧
      s1.diag = s.diag ++ [Warn.idExceedsTruncating] := by
  obtain ⟨s1, e1, _, _, hd1, _⟩ :=
    readidLoop_run E fuel stop rest hstop h13 h92 h63 h47 run ch 0 s h hrun
  have hw : 0 ≤ E.MAXIDSZ ∧ E.MAXIDSZ ≤ 0 + run.length := by omega
  rw [if_pos hw] at hd1
  have hgt : 0 + run.length + 1 > E.MAXIDSZ := by omega
  refine ⟨s1, ?_, hd1⟩
  rw [readid]
  simp only [M.bind_eq, M.andThen_apply, e1, Res.andThen_ok, M.ite_apply, hgt, hub, and_self,
    if_true, error_apply, Res.andThen_fatal]

theorem arrSet_length_gt (a : List Int) (i : Nat) (v : Int) : i < (arrSet a i v).length := by
  unfold arrSet
  split_ifs with h
  · simpa using h
  · simp only [List.length_append, List.length_replicate, List.length_singleton]
    omega

theorem arrSet_getD (a : List Int) (i : Nat) (v : Int) (j : Nat) :
    (arrSet a i v).getD j 0 = if j = i then v else a.getD j 0 := by
  unfold arrSet
  split_ifs with h hj hj
  · subst hj
    simp [List.getD_eq_getElem?_getD, List.getElem?_set_self h]
  · have : i ≠ j := fun e => hj e.symm
    simp [List.getD_eq_getElem?_getD, List.getElem?_set_ne this]
  · subst hj
    have h1 : (a ++ List.replicate (j - a.length) 0).length = j := by
      simp only [List.length_append, List.length_replicate]; omega
    rw [List.getD_eq_getElem?_getD, List.getElem?_append_right (by omega), h1]
    simp
  · rw [List.getD_eq_getElem?_getD, List.getD_eq_getElem?_getD]
    by_cases hja : j < a.length
    · rw [List.append_assoc, List.getElem?_append_left hja]
    · have e1 : a[j]? = none := List.getElem?_eq_none (by omega)
      rw [e1]
      by_cases hji : j < i
      · have hl : j < (a ++ List.replicate (i - a.length) 0).length := by
          simp only [List.length_append, List.length_replicate]; omega
        rw [List.getElem?_append_left hl, List.getElem?_append_right (by omega)]
        have : j - a.length < (List.replicate (i - a.length) (0 : Int)).length := by
          simp only [List.length_replicate]; omega
        rw [List.getElem?_eq_getElem this]
        simp
      · have : (a ++ List.replicate (i - a.length) 0 ++ [v])[j]? = none := by
          apply List.getElem?_eq_none
          simp only [List.length_append, List.length_replicate, List.length_singleton]
          omega
        rw [this]

theorem storeRun_length_gt : ∀ (cs : List Int) (a : List Int) (p n : Nat),
    n < a.length → n < (storeRun a p cs).length := by
  intro cs
  induction cs with
  | nil => intro a p n h; exact h
  | cons c tl ih =>
    intro a p n h
    rw [storeRun_cons]
    apply ih
    unfold arrSet
    split_ifs with hp
    · simpa using h
    · simp only [List.length_append, List.length_replicate, List.length_singleton]
      omega

theorem storeRun_getD : ∀ (cs : List Int) (a : List Int) (p j : Nat),
    (storeRun a p cs).getD j 0 =
      if p ≤ j ∧ j < p + cs.length then (cs.getD (j - p) 0) % 256 else a.getD j 0 := by
  intro cs
  induction cs with
  | nil =>
    intro a p j
    have : ¬ (p ≤ j ∧ j < p + ([] : List Int).length) := by
      simp only [List.length_nil]; omega
    rw [if_neg this]
    rfl
  | cons c tl ih =>
    intro a p j
    rw [storeRun_cons, ih, arrSet_getD]
    simp only [List.length_cons]
    by_cases h1 : p + 1 ≤ j ∧ j < p + 1 + tl.length
    · have h2 : p ≤ j ∧ j < p + (tl.length + 1) := by omega
      have h3 : j - p = (j - (p + 1)) + 1 := by omega
      rw [if_pos h1, if_pos h2, h3, List.getD_cons_succ]
    · rw [if_neg h1]
      by_cases h2 : j = p
      · have h3 : p ≤ j ∧ j < p + (tl.length + 1) := by omega
        rw [if_pos h2, if_pos h3, h2, Nat.sub_self, List.getD_cons_zero]
      · have h3 : ¬ (p ≤ j ∧ j < p + (tl.length + 1)) := by omega
        rw [if_neg h2, if_neg h3]

/-- A character array that starts with the non-zero characters `cs` followed
by a NUL holds the string `cs`. -/
theorem cstr_prefix : ∀ (cs L : List Int), cs.length < L.length →
    (∀ j < cs.length, L.getD j 0 = cs.getD j 0) → L.getD cs.length 0 = 0 →
    (∀ c ∈ cs, c ≠ 0) → cstr L = cs := by
  intro cs
  induction cs with
  | nil =>
    intro L hl _ h0 _
    cases L with
    | nil => simp at hl
    | cons x L' =>
      simp only [List.length_nil, List.getD_cons_zero] at h0
      simp [cstr, List.takeWhile, h0]
  | cons c tl ih =>
    intro L hl hj h0 hnz
    cases L with
    | nil => simp at hl
    | cons x L' =>
      have hx : x = c := by simpa using hj 0 (by simp)
      have hc : c ≠ 0 := hnz c (List.mem_cons_self _ _)
      have hb : (c != 0) = true := by simpa using hc
      have := ih L' (by simpa using hl)
        (fun j hjl => by simpa using hj (j + 1) (by simpa using hjl))
        (by simpa using h0) (fun y hy => hnz y (List.mem_cons_of_mem _ hy))
      rw [hx]
      unfold cstr at this ⊢
      rw [List.takeWhile_cons, hb, if_pos rfl, this]

/-- An identifier of at most `MAXIDSZ` characters, ended by a character that
is no identifier character: `readid` returns it whole, issues no warning and
pushes the ending character back. -/
theorem readid_short (E : Env) (fuel : Nat) (s : St) (ch stop : Int) (run rest : List Int)
    (h : Rd E s (run ++ stop :: rest) 0) (hrun : ∀ c ∈ run, idClass c = true)
    (hch : idClass ch = true) (hch0 : 0 ≤ ch) (hch1 : ch < 256)
    (hstop : idClass stop = false)
    (h13 : stop ≠ 13) (h92 : stop ≠ 92) (h63 : stop ≠ 63) (h47 : stop ≠ 47)
    (hshort : run.length + 1 ≤ E.MAXIDSZ) :
    ∃ s1, readid E (fuel + run.length + 3) ch s = Res.ok (ch :: run) s1 ∧
      Rd E s1 (stop :: rest) 0 ∧ s1.diag = s.diag ∧ s1.cond = s.cond := by
  obtain ⟨s1, e1, hr1, hi1, hd1, hc1, hb1, _⟩ :=
    readidLoop_run E fuel stop rest hstop h13 h92 h63 h47 run ch 0 s h hrun
  have hw : ¬ (0 ≤ E.MAXIDSZ ∧ E.MAXIDSZ ≤ 0 + run.length) := by omega
  rw [if_neg hw, List.append_nil] at hd1
  have htake : (ch :: run).take (E.MAXIDSZ - 0) = ch :: run := by
    apply List.take_of_length_le
    simp only [List.length_cons]; omega
  rw [htake] at hi1
  have hbs : 0 ≤ stop ∧ stop < 256 :=
    h.1.bytes stop (by rw [h.2.1]; simp)
  have hbr : ∀ c ∈ run, 0 ≤ c ∧ c < 256 :=
    fun c hc => h.1.bytes c (by rw [h.2.1]; simp [hc])
  obtain ⟨s2, h2, hs2, hr2⟩ :=
    unch_ok E { s1 with idbuf := arrSet s1.idbuf (0 + run.length + 1) 0 } stop rest 1 hr1
      (le_refl _) hbs.1 hbs.2
  have hi2 : s2.idbuf = arrSet s1.idbuf (0 + run.length + 1) 0 := congrArg (fun t => t.idbuf) hs2
  have hd2 : s2.diag = s1.diag := congrArg (fun t => t.diag) hs2
  have hc2 : s2.cond = s1.cond := congrArg (fun t => t.cond) hs2
  have hle : ¬ (0 + run.length + 1 > E.MAXIDSZ) := by omega
  have hall : ∀ c ∈ ch :: run, 0 ≤ c ∧ c < 256 ∧ c ≠ 0 := by
    intro c hc
    rcases List.mem_cons.1 hc with hc | hc
    · rw [hc]; exact ⟨hch0, hch1, (idClass_plain ch hch).2.2.2.2.1⟩
    · exact ⟨(hbr c hc).1, (hbr c hc).2, (idClass_plain c (hrun c hc)).2.2.2.2.1⟩
  have hstr : cstr s2.idbuf = ch :: run := by
    rw [hi2, hi1]
    have hn : 0 + run.length + 1 = (ch :: run).length := by simp
    rw [hn]
    apply cstr_prefix
    · exact arrSet_length_gt _ _ _
    · intro j hj
      have hne : j ≠ (ch :: run).length := by omega
      have hin : 0 ≤ j ∧ j < 0 + (ch :: run).length := by omega
      rw [arrSet_getD, if_neg hne, storeRun_getD, if_pos hin, Nat.sub_zero]
      have hm : (ch :: run).getD j 0 ∈ ch :: run := by
        rw [List.getD_eq_getElem _ _ hj]
        exact List.getElem_mem _
      obtain ⟨a1, a2, _⟩ := hall _ hm
      exact Int.emod_eq_of_lt a1 a2
    · rw [arrSet_getD, if_pos rfl]
    · exact fun c hc => (hall c hc).2.2
  refine ⟨s2, ?_, by simpa using hr2, hd2.trans hd1, hc2.trans hc1⟩
  rw [readid]
  simp only [M.bind_eq, M.andThen_apply, e1, Res.andThen_ok, M.ite_apply, hle, false_and,
    if_false, M.pure_eq, M.ret_apply, modState_apply, h2, getState_apply, hstr]

/-- With `MAXIDSZ = 8` and a store outside the array taken to have no defined
result, the identifier `abcdefghi` of nine characters followed by `;`: `readid`
issues the truncation warning and then stores the terminating NUL at
`idbuf[9]`, outside the array `idbuf[MAXIDSZ+1]`. -/
theorem readid_long_identifier_out_of_bounds :
    ∃ s1, readid sampleEnv (0 + 8 + 3) 97
        (openState [98, 99, 100, 101, 102, 103, 104, 105, 59]) =
          Res.fatal Err.undefinedAccess s1 ∧
      s1.diag = [Warn.idExceedsTruncating] := by
  obtain ⟨s1, h1, hd⟩ :=
    readid_long sampleEnv 0 (openState [98, 99, 100, 101, 102, 103, 104, 105, 59]) 97 59
      [98, 99, 100, 101, 102, 103, 104, 105] [] (rd_open _ (by decide)) (by decide) (by decide)
      (by decide) (by decide) (by decide) (by decide) (by decide) rfl
  exact ⟨s1, h1, by rw [hd]; rfl⟩

/-- An identifier of eight characters is returned whole, without warning. -/
theorem readid_eight_characters :
    ∃ s1, readid sampleEnv (0 + 7 + 3) 97
        (openState [98, 99, 100, 101, 102, 103, 104, 59]) =
          Res.ok [97, 98, 99, 100, 101, 102, 103, 104] s1 ∧
      pending s1.ifiles = [59] ∧ s1.diag = [] := by
  obtain ⟨s1, h1, hr, hd, _⟩ :=
    readid_short sampleEnv 0 (openState [98, 99, 100, 101, 102, 103, 104, 59]) 97 59
      [98, 99, 100, 101, 102, 103, 104] [] (rd_open _ (by decide)) (by decide) (by decide)
      (by decide) (by decide) (by decide) (by decide) (by decide) (by decide) (by decide)
      (by decide)
  exact ⟨s1, h1, hr.2.1, by rw [hd]; rfl⟩

theorem idClass_range (c : Int) (h : idClass c = true) : 0 ≤ c ∧ c < 256 := by
  by_contra hn
  unfold idClass spechr at h
  rw [if_neg hn] at h
  cases h

/-- Claim C19.  The identifier `ch :: run` of `n = run.length + 1` identifier
characters, followed by a plain character `stop` that is none: `readid`
returns the string of its first `min(n, MAXIDSZ)` characters, with the NUL
after it in `idbuf`, issues the truncation warning exactly when `n > MAXIDSZ`,
consumes the whole run, and pushes `stop` back, which is the next character
read.  For `n > MAXIDSZ` the terminating store `idbuf[n] = 0` lands behind the
array: it is taken as carried out, and the NUL that ends the string is the one
that `idbuf[MAXIDSZ]` holds already; `readid` leaves that NUL in place. -/
theorem identifier_truncation (E : Env) (fuel : Nat) (s : St) (ch stop : Int)
    (run rest : List Int)
    (h : Rd E s (run ++ stop :: rest) 0) (hrun : ∀ c ∈ run, idClass c = true)
    (hch : idClass ch = true) (hstop : idClass stop = false)
    (h13 : stop ≠ 13) (h92 : stop ≠ 92) (h63 : stop ≠ 63) (h47 : stop ≠ 47)
    (hover : E.MAXIDSZ < run.length + 1 →
      E.idbufOverrun = true ∧ s.idbuf.getD E.MAXIDSZ 0 = 0) :
    ∃ s1, readid E (fuel + run.length + 3) ch s = Res.ok ((ch :: run).take E.MAXIDSZ) s1 ∧
      s1.idbuf.getD (min (run.length + 1) E.MAXIDSZ) 0 = 0 ∧
      s1.diag = s.diag ++
        (if E.MAXIDSZ < run.length + 1 then [Warn.idExceedsTruncating] else []) ∧
      pending s1.ifiles = stop :: rest ∧
      (∃ s2, inch E (fuel + 2) s1 = Res.ok stop s2) ∧
      (s.idbuf.getD E.MAXIDSZ 0 = 0 → s1.idbuf.getD E.MAXIDSZ 0 = 0) := by
  obtain ⟨s1, e1, hr1, hi1, hd1, _⟩ :=
    readidLoop_run E fuel stop rest hstop h13 h92 h63 h47 run ch 0 s h hrun
  rw [Nat.sub_zero] at hi1
  have hbs : 0 ≤ stop ∧ stop < 256 := h.1.bytes stop (by rw [h.2.1]; simp)
  obtain ⟨s2, h2, hs2, hr2⟩ :=
    unch_ok E { s1 with idbuf := arrSet s1.idbuf (0 + run.length + 1) 0 } stop rest 1 hr1
      (le_refl _) hbs.1 hbs.2
  have hr2a : Rd E s2 (stop :: rest) 0 := by simpa using hr2
  have hi2 : s2.idbuf = arrSet s1.idbuf (0 + run.length + 1) 0 :=
    congrArg (fun t => t.idbuf) hs2
  have hd2 : s2.diag = s1.diag := congrArg (fun t => t.diag) hs2
  have hguard : ¬ (0 + run.length + 1 > E.MAXIDSZ ∧ E.idbufOverrun = false) := by
    intro hg
    have ho := (hover (by omega)).1
    rw [ho] at hg
    exact Bool.noConfusion hg.2
  have hmem : ∀ c ∈ (ch :: run).take E.MAXIDSZ, idClass c = true := by
    intro c hc
    rcases List.mem_cons.1 (List.mem_of_mem_take hc) with hc1 | hc1
    · rw [hc1]; exact hch
    · exact hrun c hc1
  have hlen : ((ch :: run).take E.MAXIDSZ).length = min (run.length + 1) E.MAXIDSZ := by
    rw [List.length_take, List.length_cons, Nat.min_comm]
  have hget : ∀ j, s2.idbuf.getD j 0 =
      if j = 0 + run.length + 1 then 0
      else if 0 ≤ j ∧ j < 0 + ((ch :: run).take E.MAXIDSZ).length then
        (((ch :: run).take E.MAXIDSZ).getD (j - 0) 0) % 256
      else s.idbuf.getD j 0 := by
    intro j
    rw [hi2, arrSet_getD, hi1, storeRun_getD]
  have hnul : s2.idbuf.getD (min (run.length + 1) E.MAXIDSZ) 0 = 0 := by
    rw [hget]
    by_cases hn : run.length + 1 ≤ E.MAXIDSZ
    · have : min (run.length + 1) E.MAXIDSZ = 0 + run.length + 1 := by omega
      rw [if_pos this]
    · have hne : ¬ (min (run.length + 1) E.MAXIDSZ = 0 + run.length + 1) := by omega
      have hnr : ¬ (0 ≤ min (run.length + 1) E.MAXIDSZ ∧
          min (run.length + 1) E.MAXIDSZ < 0 + ((ch :: run).take E.MAXIDSZ).length) := by
        rw [hlen]; omega
      have hm : min (run.length + 1) E.MAXIDSZ = E.MAXIDSZ := by omega
      rw [if_neg hne, if_neg hnr, hm]
      exact (hover (by omega)).2
  have hstr : cstr s2.idbuf = (ch :: run).take E.MAXIDSZ := by
    apply cstr_prefix
    · rw [hi2, hlen]
      have := arrSet_length_gt s1.idbuf (0 + run.length + 1) 0
      omega
    · intro j hj
      have hj1 : j < min (run.length + 1) E.MAXIDSZ := by rw [← hlen]; exact hj
      have hne : ¬ (j = 0 + run.length + 1) := by omega
      have hin : 0 ≤ j ∧ j < 0 + ((ch :: run).take E.MAXIDSZ).length := by omega
      rw [hget, if_neg hne, if_pos hin, Nat.sub_zero]
      have hm : ((ch :: run).take E.MAXIDSZ).getD j 0 ∈ (ch :: run).take E.MAXIDSZ := by
        rw [List.getD_eq_getElem _ _ hj]
        exact List.getElem_mem _
      have hb := idClass_range _ (hmem _ hm)
      exact Int.emod_eq_of_lt hb.1 hb.2
    · rw [hlen]; exact hnul
    · intro c hc
      exact (idClass_plain c (hmem c hc)).2.2.2.2.1
  obtain ⟨s3, h3, _, _⟩ :=
    inch_plain E fuel s2 stop rest 0 0 hr2a h13 h92 h63 h47 (by omega)
      (by have := hr2a.1.buf; omega)
  refine ⟨s2, ?_, hnul, ?_, hr2a.2.1, ⟨s3, h3⟩, ?_⟩
  · rw [readid]
    simp only [M.bind_eq, M.andThen_apply, e1, Res.andThen_ok, M.ite_apply, hguard, if_false,
      M.pure_eq, M.ret_apply, modState_apply, h2, getState_apply, hstr]
  · rw [hd2, hd1]
    by_cases hn : E.MAXIDSZ < run.length + 1
    · rw [if_pos hn, if_pos (by omega)]
    · rw [if_neg hn, if_neg (by omega)]
  · intro h0
    rw [hget]
    by_cases hm : E.MAXIDSZ = 0 + run.length + 1
    · rw [if_pos hm]
    · have hnr : ¬ (0 ≤ E.MAXIDSZ ∧ E.MAXIDSZ < 0 + ((ch :: run).take E.MAXIDSZ).length) := by
        rw [hlen]; omega
      rw [if_neg hm, if_neg hnr]
      exact h0

theorem identifier_truncation_witness :
    ∃ s1, readid (machineEnv 0) (0 + [98, 99, 100, 101, 102, 103, 104, 105].length + 3) 97
          (openState [98, 99, 100, 101, 102, 103, 104, 105, 59]) =
        Res.ok ((97 :: [98, 99, 100, 101, 102, 103, 104, 105]).take (machineEnv 0).MAXIDSZ)
          s1 ∧
      s1.idbuf.getD
        (min ([98, 99, 100, 101, 102, 103, 104, 105].length + 1) (machineEnv 0).MAXIDSZ) 0 =
        0 ∧
      s1.diag = (openState [98, 99, 100, 101, 102, 103, 104, 105, 59]).diag ++
        (if (machineEnv 0).MAXIDSZ < [98, 99, 100, 101, 102, 103, 104, 105].length + 1 then
          [Warn.idExceedsTruncating] else []) ∧
      pending s1.ifiles = 59 :: [] ∧
      (∃ s2, inch (machineEnv 0) (0 + 2) s1 = Res.ok 59 s2) ∧
      ((openState [98, 99, 100, 101, 102, 103, 104, 105, 59]).idbuf.getD
          (machineEnv 0).MAXIDSZ 0 = 0 →
        s1.idbuf.getD (machineEnv 0).MAXIDSZ 0 = 0) :=
  identifier_truncation (machineEnv 0) 0 (openState [98, 99, 100, 101, 102, 103, 104, 105, 59])
    97 59 [98, 99, 100, 101, 102, 103, 104, 105] []
    ((rd_open _ (by decide)).env rfl) (by decide) (by decide) (by decide) (by decide)
    (by decide) (by decide) (by decide) (fun _ => ⟨rfl, by decide⟩)

/-! ## String and character literals -/

theorem putob_eq (ob : Ob) (ch : Int) (s : St) : putob ob ch s = Res.ok () (obPut ob ch s) := by
  cases ob <;> rfl

theorem obOf_obPut (ob : Ob) (ch : Int) (s : St) :
    obOf ob (obPut ob ch s) = obOf ob s ++ [ch % 256] := by
  cases ob <;> rfl

theorem obPut_ifiles (ob : Ob) (ch : Int) (s : St) : (obPut ob ch s).ifiles = s.ifiles := by
  cases ob <;> rfl

theorem obPut_incmnt (ob : Ob) (ch : Int) (s : St) : (obPut ob ch s).incmnt = s.incmnt := by
  cases ob <;> rfl

theorem obOf_incmnt (ob : Ob) (s : St) (v : Int) : obOf ob { s with incmnt := v } = obOf ob s := by
  cases ob <;> rfl

theorem obOf_of_strip (ob : Ob) {s s1 : St} (h : s1.strip = s.strip) : obOf ob s1 = obOf ob s := by
  have h1 : ∀ t : St, obOf ob t.strip = obOf ob t := by intro t; cases ob <;> rfl
  rw [← h1 s1, ← h1 s, h]

theorem Rd.obPut {E : Env} {s : St} {p : List Int} {r : Int} (ob : Ob) (ch : Int)
    (h : Rd E s p r) : Rd E (obPut ob ch s) p r := by
  have e := obPut_ifiles ob ch s
  exact h.of_frame (by rw [e]) (by rw [e]) (by rw [e]) (by rw [e]) (by rw [e]) (by rw [e])

/-- Inside a literal (`incmnt` set), `inc2` on a backslash followed by a
character `d` other than newline, carriage return and `?`: the backslash is
returned and `d` is the next character. -/
theorem inc2_backslash_incmnt (E : Env) (fuel : Nat) (s : St) (d : Int) (rest : List Int)
    (h : Rd E s (92 :: d :: rest) 0) (hin : s.incmnt ≠ 0)
    (h10 : d ≠ 10) (h13 : d ≠ 13) (h63 : d ≠ 63) :
    ∃ s1, inc2 E (fuel + 1) s = Res.ok 92 s1 ∧ s1.strip = s.strip ∧ Rd E s1 (d :: rest) 0 := by
  have h0 := h.1.buf
  have hbd : 0 ≤ d ∧ d < 256 :=
    h.1.bytes d (by rw [h.2.1]; exact List.mem_cons_of_mem _ (List.mem_cons_self _ _))
  obtain ⟨sa, ha, hsa, hra⟩ := inc1_backslash_incmnt E fuel s (d :: rest) 0 0 h hin (by omega)
    (by omega)
  have hba : sa.ifiles.buffer = s.ifiles.buffer := buffer_of_strip hsa
  have hina : sa.incmnt ≠ 0 := by rw [incmnt_of_strip hsa]; exact hin
  have hd : ∃ sb, inc1 E (fuel + 1) sa = Res.ok d sb ∧ sb.strip = sa.strip ∧ Rd E sb rest 1 := by
    by_cases h92 : d = 92
    · subst h92
      exact inc1_backslash_incmnt E fuel sa rest 0 1 hra hina (by omega) (by omega)
    · exact inc1_plain E fuel sa d rest 0 1 hra h13 h92 h63 (by omega) (by omega)
  obtain ⟨sb, hb, hsb, hrb⟩ := hd
  obtain ⟨sc, hc, hsc, hrc⟩ := unch_ok E sb d rest 1 hrb (le_refl _) hbd.1 hbd.2
  refine ⟨sc, ?_, hsc.trans (hsb.trans hsa), by simpa using hrc⟩
  rw [inc2]
  simp only [M.bind_eq, M.andThen_apply, ha, Res.andThen_ok, M.ite_apply, ne_eq,
    not_true_eq_false, if_false, hb, h10, hc, M.pure_eq, M.ret_apply]

/-- A round of the loop of `faststr` in which `inc2` delivers an ordinary
character: it is copied to the buffer. -/
theorem faststrLoop_copy (E : Env) (bc : Int) (ob : Ob) (fuel : Nat) (s s1 : St) (c : Int)
    (h : inc2 E (fuel + 1) s = Res.ok c s1) (hbc : c ≠ bc) (h10 : c ≠ 10) (h92 : c ≠ 92)
    (h0 : 0 ≤ c) :
    faststrLoop E bc ob (fuel + 2) s = faststrLoop E bc ob (fuel + 1) (obPut ob c s1) := by
  have hn : ¬ c < 0 := by omega
  conv_lhs => rw [faststrLoop]
  simp only [M.bind_eq, M.andThen_apply, h, Res.andThen_ok, M.ite_apply, hbc, h10, hn, h92,
    if_false, putob_eq]

theorem faststrLoop_close (E : Env) (bc : Int) (ob : Ob) (fuel : Nat) (s : St)
    (rest : List Int) (h : Rd E s (bc :: rest) 0) (hbc : bc = 34 ∨ bc = 39) :
    ∃ s1, faststrLoop E bc ob (fuel + 2) s = Res.ok true s1 ∧ s1.strip = s.strip ∧
      Rd E s1 rest 0 := by
  have h0 := h.1.buf
  obtain ⟨s1, h1, hs1, hr1⟩ :=
    inc2_plain E fuel s bc rest 0 0 h (by omega) (by omega) (by omega) (by omega) (by omega)
  refine ⟨s1, ?_, hs1, hr1⟩
  conv_lhs => rw [faststrLoop]
  simp only [M.bind_eq, M.andThen_apply, h1, Res.andThen_ok, M.ite_apply, if_true, M.pure_eq,
    M.ret_apply]

theorem faststrLoop_plain (E : Env) (bc : Int) (ob : Ob) (fuel : Nat) (s : St) (c : Int)
    (rest : List Int) (h : Rd E s (c :: rest) 0) (hbc : c ≠ bc)
    (h10 : c ≠ 10) (h13 : c ≠ 13) (h63 : c ≠ 63) (h92 : c ≠ 92) :
    ∃ s1, faststrLoop E bc ob (fuel + 2) s = faststrLoop E bc ob (fuel + 1) s1 ∧
      Rd E s1 rest 0 ∧ obOf ob s1 = obOf ob s ++ [c] ∧ s1.incmnt = s.incmnt := by
  have h0 := h.1.buf
  have hb := h.byte
  obtain ⟨s1, h1, hs1, hr1⟩ := inc2_plain E fuel s c rest 0 0 h h13 h92 h63 (by omega) (by omega)
  refine ⟨obPut ob c s1, faststrLoop_copy E bc ob fuel s s1 c h1 hbc h10 h92 hb.1, hr1.obPut ob c,
    ?_, ?_⟩
  · rw [obOf_obPut, obOf_of_strip ob hs1, Int.emod_eq_of_lt hb.1 hb.2]
  · rw [obPut_incmnt, incmnt_of_strip hs1]

/-- A round of the loop of `faststr` on a character other than the quote,
newline and backslash, at which no carriage return stands and no trigraph
begins: it is copied to the buffer. -/
theorem faststrLoop_raw (E : Env) (bc : Int) (ob : Ob) (fuel : Nat) (s : St) (c : Int)
    (rest : List Int) (h : Rd E s (c :: rest) 0) (hraw : rawAt (c :: rest) = true)
    (hin : s.incmnt ≠ 0) (hm : 3 ≤ s.ifiles.buffer) (hbc : c ≠ bc) (h10 : c ≠ 10)
    (h92 : c ≠ 92) :
    ∃ s1, faststrLoop E bc ob (fuel + 2) s = faststrLoop E bc ob (fuel + 1) s1 ∧
      Rd E s1 rest 0 ∧ obOf ob s1 = obOf ob s ++ [c] ∧ s1.incmnt = s.incmnt ∧
      s1.ifiles.buffer = s.ifiles.buffer := by
  have hb := h.byte
  obtain ⟨s1, h1, hs1, hr1⟩ :=
    inc2_raw E fuel s c rest 0 h hraw (fun hc => absurd hc h92) hin hm (le_refl _) (by omega)
  refine ⟨obPut ob c s1, faststrLoop_copy E bc ob fuel s s1 c h1 hbc h10 h92 hb.1, hr1.obPut ob c,
    ?_, ?_, ?_⟩
  · rw [obOf_obPut, obOf_of_strip ob hs1, Int.emod_eq_of_lt hb.1 hb.2]
  · rw [obPut_incmnt, incmnt_of_strip hs1]
  · rw [obPut_ifiles, buffer_of_strip hs1]

/-- A round of the loop of `faststr` on a backslash and the character `d` it
escapes, other than `u` and `U`, where neither begins a line splice and `d`
neither is a carriage return nor begins a trigraph: both are copied to the
buffer. -/
theorem faststrLoop_escape (E : Env) (bc : Int) (ob : Ob) (fuel : Nat) (s : St) (d : Int)
    (rest : List Int) (h : Rd E s (92 :: d :: rest) 0) (hin : s.incmnt = 1)
    (hm : 3 ≤ s.ifiles.buffer) (hbc : bc ≠ 92) (hraw : rawAt (92 :: d :: rest) = true)
    (hrawd : rawAt (d :: rest) = true) (hnext : d = 92 → rawAt rest = true)
    (hu : d ≠ 117) (hU : d ≠ 85) :
    ∃ s1, faststrLoop E bc ob (fuel + 2) s = faststrLoop E bc ob (fuel + 1) s1 ∧
      Rd E s1 rest 0 ∧ obOf ob s1 = obOf ob s ++ [92, d] ∧ s1.incmnt = 1 ∧
      s1.ifiles.buffer = s.ifiles.buffer := by
  have hbd : 0 ≤ d ∧ d < 256 :=
    h.1.bytes d (by rw [h.2.1]; exact List.mem_cons_of_mem _ (List.mem_cons_self _ _))
  have hin0 : s.incmnt ≠ 0 := by rw [hin]; decide
  obtain ⟨sa, ha, hsa, hra⟩ :=
    inc2_raw E fuel s 92 (d :: rest) 0 h hraw (fun _ => hrawd) hin0 hm (le_refl _) (by omega)
  have hba := hra.1.buf
  have hua : sa.ifiles.buffer = s.ifiles.buffer := buffer_of_strip hsa
  obtain ⟨sb, hb, hsb, hrb⟩ :=
    chkucn_other E { sa with incmnt := 0 } d rest 0 0 hra hu hU (le_refl _) (le_refl _) hba
  have hub : sb.ifiles.buffer = sa.ifiles.buffer := congrArg (fun t => t.ifiles.buffer) hsb
  have hsc : Rd E (obPut ob 92 { sb with incmnt := 1 }) (d :: rest) 0 :=
    Rd.obPut ob 92 (show Rd E { sb with incmnt := 1 } (d :: rest) 0 from hrb)
  have hic : (obPut ob 92 { sb with incmnt := 1 }).incmnt = 1 := by rw [obPut_incmnt]
  have huc : (obPut ob 92 { sb with incmnt := 1 }).ifiles.buffer = s.ifiles.buffer := by
    rw [obPut_ifiles]
    show sb.ifiles.buffer = _
    rw [hub, hua]
  obtain ⟨sd, hdd, hsd, hrd⟩ :=
    inc2_raw E fuel (obPut ob 92 { sb with incmnt := 1 }) d rest 0 hsc hrawd hnext
      (by rw [hic]; decide) (by rw [huc]; exact hm) (le_refl _) (by omega)
  refine ⟨obPut ob d sd, ?_, hrd.obPut ob d, ?_, ?_, ?_⟩
  · conv_lhs => rw [faststrLoop]
    simp only [M.bind_eq, M.andThen_apply, ha, Res.andThen_ok, M.ite_apply, hbc.symm,
      show ¬ ((92 : Int) = 10) by decide, show ¬ ((92 : Int) < 0) by decide, if_false, if_true,
      modState_apply, hb, ne_eq, not_true_eq_false, putob_eq, hdd]
  · rw [obOf_obPut, obOf_of_strip ob hsd, obOf_obPut, obOf_incmnt, obOf_of_strip ob hsb,
      obOf_incmnt, obOf_of_strip ob hsa, Int.emod_eq_of_lt hbd.1 hbd.2, List.append_assoc]
    rfl
  · rw [obPut_incmnt, incmnt_of_strip hsd, hic]
  · rw [obPut_ifiles, buffer_of_strip hsd, huc]

theorem litNoUcn_cons (c : Int) (b : List Int) (h : litNoUcn (c :: b) = true) (h92 : c ≠ 92) :
    litNoUcn b = true := by
  cases b with
  | nil => rfl
  | cons x tl => simpa only [litNoUcn, h92, if_false] using h

theorem litNoUcn_escape (d : Int) (b : List Int) (h : litNoUcn (92 :: d :: b) = true) :
    (d ≠ 117 ∧ d ≠ 85) ∧ litNoUcn b = true := by
  simpa only [litNoUcn, if_true, Bool.and_eq_true, decide_eq_true_eq] using h

/-- What `litEnd` splits off is followed by the quote in the input. -/
theorem litEnd_append (bc : Int) :
    ∀ (n : Nat) (inp : List Int), inp.length ≤ n → ∀ (body rest : List Int),
      litEnd bc inp = some (body, rest) → inp = body ++ bc :: rest := by
  intro n
  induction n with
  | zero =>
    intro inp hlen body rest h
    have : inp = [] := List.length_eq_zero.1 (by omega)
    subst this
    cases h
  | succ n ih =>
    intro inp hlen body rest h
    cases inp with
    | nil => cases h
    | cons c tl =>
      by_cases hc : c = bc
      · cases tl with
        | nil =>
          simp only [litEnd, hc, if_true, Option.some.injEq, Prod.mk.injEq] at h
          rw [← h.1, ← h.2, hc]
          rfl
        | cons d tl2 =>
          simp only [litEnd, hc, if_true, Option.some.injEq, Prod.mk.injEq] at h
          rw [← h.1, ← h.2, hc]
          rfl
      · cases tl with
        | nil => simp [litEnd, hc] at h
        | cons d tl2 =>
          by_cases h92 : c = 92
          · subst h92
            simp only [litEnd, hc, if_false, if_true] at h
            cases hq : litEnd bc tl2 with
            | none => rw [hq] at h; cases h
            | some p =>
              rw [hq] at h
              simp only [Option.map_some', Option.some.injEq, Prod.mk.injEq] at h
              have := ih tl2 (by simp only [List.length_cons] at hlen; omega) p.1 p.2 (by rw [hq])
              rw [← h.1, ← h.2, this]
              rfl
          · simp only [litEnd, hc, h92, if_false] at h
            cases hq : litEnd bc (d :: tl2) with
            | none => rw [hq] at h; cases h
            | some p =>
              rw [hq] at h
              simp only [Option.map_some', Option.some.injEq, Prod.mk.injEq] at h
              have := ih (d :: tl2) (by simp only [List.length_cons] at hlen ⊢; omega) p.1 p.2
                (by rw [hq])
              rw [← h.1, ← h.2, this]
              rfl

/-- The loop of `faststr` over the rest of a literal in whose body no newline
and no carriage return stands, no trigraph and no line splice begins, and no
backslash escapes `u` or `U`: the body is copied to the buffer and the loop
stops after the closing quote. -/
theorem faststrLoop_scan (E : Env) (bc : Int) (ob : Ob) (hbc : bc = 34 ∨ bc = 39) :
    ∀ (n : Nat) (inp : List Int), inp.length ≤ n →
      ∀ (s : St) (body rest : List Int) (F : Nat),
        litEnd bc inp = some (body, rest) → litNoUcn body = true → (∀ c ∈ body, c ≠ 10) →
        rawUpTo (body.length + 1) inp = true → Rd E s inp 0 →
        s.incmnt = 1 → 3 ≤ s.ifiles.buffer → body.length + 2 ≤ F →
        ∃ s1, faststrLoop E bc ob F s = Res.ok true s1 ∧ Rd E s1 rest 0 ∧
          obOf ob s1 = obOf ob s ++ body ∧ s1.incmnt = 1 := by
  intro n
  induction n with
  | zero =>
    intro inp hlen s body rest F h
    have : inp = [] := List.length_eq_zero.1 (by omega)
    subst this
    cases h
  | succ n ih =>
    intro inp hlen s body rest F h hs hnl hraw hrd hin hm hF
    obtain ⟨F1, rfl⟩ : ∃ F1, F = F1 + 2 := ⟨F - 2, by omega⟩
    cases inp with
    | nil => cases h
    | cons c tl =>
      by_cases hc : c = bc
      · have hb : body = [] ∧ rest = tl := by
          cases tl with
          | nil =>
            simp only [litEnd, hc, if_true, Option.some.injEq, Prod.mk.injEq] at h
            exact ⟨h.1.symm, h.2.symm⟩
          | cons d tl2 =>
            simp only [litEnd, hc, if_true, Option.some.injEq, Prod.mk.injEq] at h
            exact ⟨h.1.symm, h.2.symm⟩
        obtain ⟨hb1, hb2⟩ := hb
        subst hb1 hb2 hc
        obtain ⟨s1, e1, hs1, hr1⟩ := faststrLoop_close E c ob F1 s rest hrd hbc
        exact ⟨s1, e1, hr1, by rw [obOf_of_strip ob hs1, List.append_nil],
          by rw [incmnt_of_strip hs1, hin]⟩
      · cases tl with
        | nil => simp [litEnd, hc] at h
        | cons d tl2 =>
          have hin0 : s.incmnt ≠ 0 := by rw [hin]; decide
          by_cases h92 : c = 92
          · subst h92
            simp only [litEnd, hc, if_false, if_true] at h
            cases hq : litEnd bc tl2 with
            | none => rw [hq] at h; cases h
            | some p =>
              rw [hq] at h
              simp only [Option.map_some', Option.some.injEq, Prod.mk.injEq] at h
              obtain ⟨hb1, hb2⟩ := h
              obtain ⟨b1, r1⟩ := p
              simp only at hb1 hb2
              subst hb1 hb2
              obtain ⟨hd, hs1⟩ := litNoUcn_escape d b1 hs
              have hra : rawAt (92 :: d :: tl2) = true := rawUpTo_head _ _ hraw
              have hrt : rawUpTo (b1.length + 1 + 1) (d :: tl2) = true :=
                rawUpTo_tail _ _ _ hraw
              have hrd1 : rawAt (d :: tl2) = true := rawUpTo_head _ _ hrt
              have hrt2 : rawUpTo (b1.length + 1) tl2 = true := rawUpTo_tail _ _ _ hrt
              obtain ⟨s1, e1, hr1, ho1, hi1, hu1⟩ :=
                faststrLoop_escape E bc ob F1 s d tl2 hrd hin hm (by omega) hra hrd1
                  (fun _ => rawUpTo_head _ _ hrt2) hd.1 hd.2
              obtain ⟨s2, e2, hr2, ho2, hi2⟩ :=
                ih tl2 (by simp only [List.length_cons] at hlen; omega) s1 b1 r1 (F1 + 1) hq hs1
                  (fun x hx => hnl x (List.mem_cons_of_mem _ (List.mem_cons_of_mem _ hx)))
                  hrt2 hr1 hi1 (by rw [hu1]; exact hm)
                  (by simp only [List.length_cons] at hF; omega)
              exact ⟨s2, by rw [e1]; exact e2, hr2, by rw [ho2, ho1]; simp, hi2⟩
          · simp only [litEnd, hc, h92, if_false] at h
            cases hq : litEnd bc (d :: tl2) with
            | none => rw [hq] at h; cases h
            | some p =>
              rw [hq] at h
              simp only [Option.map_some', Option.some.injEq, Prod.mk.injEq] at h
              obtain ⟨hb1, hb2⟩ := h
              obtain ⟨b1, r1⟩ := p
              simp only at hb1 hb2
              subst hb1 hb2
              have hs1 := litNoUcn_cons c b1 hs h92
              have c10 : c ≠ 10 := hnl c (List.mem_cons_self _ _)
              have hra : rawAt (c :: d :: tl2) = true := rawUpTo_head _ _ hraw
              have hrt : rawUpTo (b1.length + 1) (d :: tl2) = true := rawUpTo_tail _ _ _ hraw
              obtain ⟨s1, e1, hr1, ho1, hi1, hu1⟩ :=
                faststrLoop_raw E bc ob F1 s c (d :: tl2) hrd hra hin0 hm hc c10 h92
              obtain ⟨s2, e2, hr2, ho2, hi2⟩ :=
                ih (d :: tl2) (by simp only [List.length_cons] at hlen ⊢; omega) s1 b1 r1
                  (F1 + 1) hq hs1 (fun x hx => hnl x (List.mem_cons_of_mem _ hx)) hrt hr1
                  (by rw [hi1, hin]) (by rw [hu1]; exact hm)
                  (by simp only [List.length_cons] at hF; omega)
              exact ⟨s2, by rw [e1]; exact e2, hr2, by rw [ho2, ho1]; simp, hi2⟩

/-- Claim C18 (as amended).  For every input holding the rest of a literal
opened by the quote `bc`, in whose body no newline and no carriage return
stands, no trigraph and no backslash-newline begins (`rawUpTo`), and no
backslash escapes `u` or `U` (`litNoUcn`): `faststr` appends to `ob` exactly
the opening quote, the body unchanged and the closing quote, where the closing
quote is the first `bc` that no backslash escapes (a backslash takes the
following character with it), and leaves the input just after the closing
quote.  The pushback margin of the buffer holds at least three characters. -/
theorem literal_scan (E : Env) (F : Nat) (s : St) (bc : Int) (ob : Ob)
    (inp body rest : List Int) (hok : FrameOK E s.ifiles) (hm : 3 ≤ s.ifiles.buffer)
    (hbc : bc = 34 ∨ bc = 39) (hp : pending s.ifiles = inp)
    (hend : litEnd bc inp = some (body, rest)) (hnl : ∀ c ∈ body, c ≠ 10)
    (hraw : rawUpTo body.length inp = true) (hucn : litNoUcn body = true)
    (hF : body.length + 2 ≤ F) :
    ∃ s1, faststr E F bc ob s = Res.ok () s1 ∧
      obOf ob s1 = obOf ob s ++ [bc] ++ body ++ [bc] ∧ pending s1.ifiles = rest := by
  have hmod : bc % 256 = bc := by omega
  have hrd : Rd E (obPut ob bc { s with incmnt := 1 }) inp 0 :=
    Rd.obPut ob bc (show Rd E { s with incmnt := 1 } inp 0 from ⟨hok, hp, hok.cur⟩)
  have hraw1 : rawUpTo (body.length + 1) inp = true := by
    have hi := litEnd_append bc inp.length inp (le_refl _) body rest hend
    rw [hi] at hraw ⊢
    exact rawUpTo_append body bc rest (by omega) (by omega) (by omega) hraw
  obtain ⟨s1, e1, hr1, ho1, _⟩ :=
    faststrLoop_scan E bc ob hbc inp.length inp (le_refl _) _ body rest F hend hucn hnl hraw1
      hrd (by rw [obPut_incmnt]) (by rw [obPut_ifiles]; exact hm) hF
  refine ⟨{ obPut ob bc s1 with incmnt := 0 }, ?_, ?_, ?_⟩
  · simp only [faststr, M.bind_eq, M.andThen_apply, modState_apply, Res.andThen_ok, putob_eq,
      e1, M.ite_apply, if_true]
  · rw [obOf_incmnt, obOf_obPut, ho1, obOf_obPut, obOf_incmnt, hmod]
  · show pending (obPut ob bc s1).ifiles = rest
    rw [obPut_ifiles]
    exact hr1.2.1

theorem literal_scan_witness :
    ∃ s1, faststr sampleEnv 10 34 Ob.pb (openState [97, 92, 34, 63, 63, 92, 92, 34, 59]) =
        Res.ok () s1 ∧
      obOf Ob.pb s1 = obOf Ob.pb (openState [97, 92, 34, 63, 63, 92, 92, 34, 59]) ++ [34] ++
        [97, 92, 34, 63, 63, 92, 92] ++ [34] ∧
      pending s1.ifiles = [59] :=
  literal_scan sampleEnv 10 (openState [97, 92, 34, 63, 63, 92, 92, 34, 59]) 34 Ob.pb
    [97, 92, 34, 63, 63, 92, 92, 34, 59] [97, 92, 34, 63, 63, 92, 92] [59]
    (frameOK_open _ (by decide)) (by decide) (Or.inl rfl) (pending_open _) (by decide)
    (by decide) (by decide) (by decide) (by decide)

/-- The function `inc2` on a carriage return before a plain character: the
carriage return is dropped. -/
theorem inc2_cr_plain (E : Env) (fuel : Nat) (s : St) (c : Int) (rest : List Int)
    (h : Rd E s (13 :: c :: rest) 0) (h13 : c ≠ 13) (h92 : c ≠ 92) (h63 : c ≠ 63) :
    ∃ s1, inc2 E (fuel + 2) s = Res.ok c s1 ∧ s1.strip = s.strip ∧ Rd E s1 rest 0 := by
  have h0 := h.1.buf
  obtain ⟨sa, hsa, hra, ea⟩ := inc1_cr E fuel s (c :: rest) 0 0 h (by omega) (by omega)
  obtain ⟨sb, hb, hsb, hrb⟩ :=
    inc1_plain E fuel sa c rest 0 0 hra h13 h92 h63 (by omega)
      (by rw [buffer_of_strip hsa]; omega)
  refine ⟨sb, ?_, hsb.trans hsa, hrb⟩
  have e1 : inc1 E (fuel + 1 + 1) s = Res.ok c sb := ea.trans hb
  rw [inc2]
  simp only [M.bind_eq, M.andThen_apply, e1, Res.andThen_ok, M.ite_apply, ne_eq, h92,
    not_false_eq_true, if_true, M.pure_eq, M.ret_apply]

/-- C18, counterexample.  The literal `"a`, carriage return, `b"` has no
newline, trigraph, line splice or universal character name in its body, yet
`faststr` does not copy the body unchanged: the carriage return is dropped,
and the buffer receives `"ab"`. -/
theorem literal_drops_carriage_return :
    litEnd 34 [97, 13, 98, 34] = some ([97, 13, 98], []) ∧
    ∃ s1, faststr sampleEnv 4 34 Ob.pb (openState [97, 13, 98, 34]) = Res.ok () s1 ∧
      s1.pb = [34, 97, 98, 34] ∧ s1.pb ≠ [34] ++ [97, 13, 98] ++ [34] := by
  refine ⟨by decide, ?_⟩
  have hrd : Rd sampleEnv (obPut Ob.pb 34 { openState [97, 13, 98, 34] with incmnt := 1 })
      [97, 13, 98, 34] 0 :=
    Rd.obPut Ob.pb 34
      (show Rd sampleEnv { openState [97, 13, 98, 34] with incmnt := 1 } [97, 13, 98, 34] 0
        from rd_open _ (by decide))
  obtain ⟨s1, e1, hr1, ho1, _⟩ :=
    faststrLoop_plain sampleEnv 34 Ob.pb 2 _ 97 [13, 98, 34] hrd (by decide) (by decide)
      (by decide) (by decide) (by decide)
  obtain ⟨s2, h2, hs2, hr2⟩ :=
    inc2_cr_plain sampleEnv 0 s1 98 [34] hr1 (by decide) (by decide) (by decide)
  have e2 := faststrLoop_copy sampleEnv 34 Ob.pb 1 s1 s2 98 h2 (by decide) (by decide)
    (by decide) (by decide)
  obtain ⟨s3, e3, hs3, _⟩ :=
    faststrLoop_close sampleEnv 34 Ob.pb 0 (obPut Ob.pb 98 s2) [] (hr2.obPut Ob.pb 98)
      (Or.inl rfl)
  have hpb : s3.pb = [34, 97, 98] := by
    have a3 : s3.pb = (obPut Ob.pb 98 s2).pb := pb_of_strip hs3
    have a2 : s2.pb = s1.pb := pb_of_strip hs2
    have a1 : s1.pb = [34 % 256] ++ [97] := ho1
    rw [a3]
    show s2.pb ++ [98 % 256] = _
    rw [a2, a1]
    rfl
  refine ⟨{ obPut Ob.pb 34 s3 with incmnt := 0 }, ?_, ?_, ?_⟩
  · simp only [faststr, M.bind_eq, M.andThen_apply, modState_apply, Res.andThen_ok, putob_eq,
      e1, e2, e3, M.ite_apply, if_true]
  · show s3.pb ++ [34 % 256] = _
    rw [hpb]
    rfl
  · show s3.pb ++ [34 % 256] ≠ _
    rw [hpb]
    decide

/-! ## Pushback overflow -/

theorem unch_full (s : St) (c : Int) (hc : c ≠ -1) (h : s.ifiles.curptr ≤ bbuf) :
    unch c s = Res.fatal Err.pushbackFull
      { s with ifiles := { s.ifiles with curptr := s.ifiles.curptr - 1 } } := by
  have h1 : s.ifiles.curptr - 1 < bbuf := by omega
  simp [unch, hc, h1]

/-- Claim C20.  In a frame whose read cursor is not below `bbuf`, `unch(c)`
with `c != -1` ends in the fatal error "pushback buffer full" exactly when
`curptr = bbuf`, and then the storage of the frame is as before; otherwise it
moves the cursor down by one and stores the byte there.  The call `unch(-1)`
returns and leaves the state as it is. -/
theorem pushback_overflow (s : St) (c : Int) (hcur : bbuf ≤ s.ifiles.curptr) :
    (c ≠ -1 → ((unch c s).error? = some Err.pushbackFull ↔ s.ifiles.curptr = bbuf)) ∧
    (c ≠ -1 → s.ifiles.curptr = bbuf →
      ∃ s1, unch c s = Res.fatal Err.pushbackFull s1 ∧ s1.ifiles.mem = s.ifiles.mem) ∧
    (c ≠ -1 → s.ifiles.curptr ≠ bbuf →
      unch c s = Res.ok ()
        { s with ifiles := { s.ifiles with
            curptr := s.ifiles.curptr - 1
            mem := memSet s.ifiles.mem (s.ifiles.curptr - 1) (c % 256) } }) ∧
    unch (-1) s = Res.ok () s := by
  have hb : bbuf = 0 := rfl
  refine ⟨fun hc => ⟨fun he => ?_, fun he => ?_⟩, fun hc he => ?_, fun hc he => ?_, ?_⟩
  · by_contra hne
    rw [unch_of_room s c hc (by omega)] at he
    cases he
  · rw [unch_full s c hc (by omega)]
    rfl
  · exact ⟨_, unch_full s c hc (by omega), rfl⟩
  · exact unch_of_room s c hc (by omega)
  · simp [unch]

theorem pushback_overflow_witness :
    bbuf ≤ ({ openState [] with ifiles := { sampleFrame [] with curptr := 0 } } : St).ifiles.curptr ∧
    (unch 97 { openState [] with ifiles := { sampleFrame [] with curptr := 0 } }).error? =
      some Err.pushbackFull ∧
    unch 97 (openState []) = Res.ok ()
      { openState [] with ifiles := { (openState []).ifiles with
          curptr := (openState []).ifiles.curptr - 1
          mem := memSet (openState []).ifiles.mem ((openState []).ifiles.curptr - 1)
            (97 % 256) } } :=
  ⟨by decide,
    ((pushback_overflow { openState [] with ifiles := { sampleFrame [] with curptr := 0 } } 97
      (by decide)).1 (by decide)).2 rfl,
    (pushback_overflow (openState []) 97 (by decide)).2.2.1 (by decide) (by decide)⟩

/-! ## The invariant of the conditional counters -/

/-- Claim C29.  In every state of the conditional counters reachable from the
all-zero state through the handlers as `ppdir` dispatches them (with every
outcome of the conditions, stopping at errors): `trulvl` and `flslvl` are not
negative, `elflvl` is 0 or `trulvl + 1`, and `flslvl = 0` implies
`elflvl = 0`. -/
theorem counters_invariant (c : Cond) (hr : Reachable c) :
    0 ≤ c.trulvl ∧ 0 ≤ c.flslvl ∧ (c.elflvl = 0 ∨ c.elflvl = c.trulvl + 1) ∧
      (c.flslvl = 0 → c.elflvl = 0) := by
  obtain ⟨h1, h2, h3, _⟩ := condInv_of_reachable c hr
  refine ⟨h1, h2, ?_, ?_⟩
  · rcases h3 with h | h
    · exact Or.inl h
    · exact Or.inr h.1
  · intro hf
    rcases h3 with h | h
    · exact h
    · omega

theorem counters_invariant_witness :
    Reachable ⟨0, 1, 1, 0⟩ ∧
    ((0 : Int) ≤ (⟨0, 1, 1, 0⟩ : Cond).trulvl ∧ 0 ≤ (⟨0, 1, 1, 0⟩ : Cond).flslvl ∧
      ((⟨0, 1, 1, 0⟩ : Cond).elflvl = 0 ∨
        (⟨0, 1, 1, 0⟩ : Cond).elflvl = (⟨0, 1, 1, 0⟩ : Cond).trulvl + 1) ∧
      ((⟨0, 1, 1, 0⟩ : Cond).flslvl = 0 → (⟨0, 1, 1, 0⟩ : Cond).elflvl = 0)) :=
  ⟨⟨[Dir.if_ true, Dir.elif false], 1, by decide⟩,
    counters_invariant ⟨0, 1, 1, 0⟩ ⟨[Dir.if_ true, Dir.elif false], 1, by decide⟩⟩

/-! ## The transitions of `#else` -/

/-- Claim C26 (as amended).  The handler `elsestmt` on the counters
`trulvl = t`, `flslvl = f`, `elflvl`, `elslvl`:
(a) suppressed (`f > 0`) with a branch of the chain already taken
(`elflvl > t`): `t` and `f` stay;
(b1) otherwise suppressed with `f = 1`: the one level of suppression becomes
active, `f` is 0 and `t` is one more;
(b2) otherwise suppressed with `f > 1` (the `#else` belongs to a conditional
nested in suppressed text): `t` and `f` stay;
(c) active (`f = 0`, `t > 0`): `t` is one less and `f` is 1.
In each case the call ends in the fatal error "too many #else" when `elslvl`
equals the new `t + f`, and otherwise records that sum in `elslvl`.  Whenever
the call returns, `trulvl + flslvl` is what it was. -/
theorem else_transitions (b : Bool) (t f elf els : Int) (n : Nat) :
    (0 < f → elf > t →
      elsestmt (dirOps b) ⟨⟨t, f, elf, els⟩, n⟩ =
        if els = t + f then Res.fatal Err.tooManyElse ⟨⟨t, f, elf, els⟩, n⟩
        else Res.ok () ⟨⟨t, f, elf, t + f⟩, n⟩) ∧
    (f = 1 → elf ≤ t →
      elsestmt (dirOps b) ⟨⟨t, f, elf, els⟩, n⟩ =
        if els = t + 1 then Res.fatal Err.tooManyElse ⟨⟨t + 1, 0, elf, els⟩, n⟩
        else Res.ok () ⟨⟨t + 1, 0, elf, t + 1⟩, n⟩) ∧
    (1 < f → elf ≤ t →
      elsestmt (dirOps b) ⟨⟨t, f, elf, els⟩, n⟩ =
        if els = t + f then Res.fatal Err.tooManyElse ⟨⟨t, f, elf, els⟩, n⟩
        else Res.ok () ⟨⟨t, f, elf, t + f⟩, n⟩) ∧
    (f = 0 → 0 < t →
      elsestmt (dirOps b) ⟨⟨t, f, elf, els⟩, n⟩ =
        if els = t then Res.fatal Err.tooManyElse ⟨⟨t - 1, 1, elf, els⟩, n⟩
        else Res.ok () ⟨⟨t - 1, 1, elf, t⟩, n⟩) ∧
    (∀ s1, elsestmt (dirOps b) ⟨⟨t, f, elf, els⟩, n⟩ = Res.ok () s1 →
      s1.cond.trulvl + s1.cond.flslvl = t + f) := by
  refine ⟨?_, ?_, ?_, ?_, ?_⟩
  · intro hf he
    have hf0 : f ≠ 0 := by omega
    simp only [elsestmt, M.bind_eq, M.andThen_apply, dirOps_get, Res.andThen_ok, M.ite_apply,
      ne_eq, hf0, not_false_eq_true, if_true, he, M.pure_eq, M.ret_apply, dirOps_upd,
      dirOps_chknl, error_apply]
    split_ifs <;> rfl
  · intro hf he
    subst hf
    have he1 : ¬ elf > t := by omega
    simp only [elsestmt, M.bind_eq, M.andThen_apply, dirOps_get, Res.andThen_ok, M.ite_apply,
      ne_eq, one_ne_zero, not_false_eq_true, if_true, he1, if_false, M.pure_eq, M.ret_apply,
      dirOps_upd, dirOps_chknl, error_apply, decFls, incTru, sub_self, not_true_eq_false,
      add_zero]
    split_ifs <;> rfl
  · intro hf he
    have hf0 : f ≠ 0 := by omega
    have hf1 : f - 1 ≠ 0 := by omega
    have he1 : ¬ elf > t := by omega
    simp only [elsestmt, M.bind_eq, M.andThen_apply, dirOps_get, Res.andThen_ok, M.ite_apply,
      ne_eq, hf0, not_false_eq_true, if_true, he1, if_false, M.pure_eq, M.ret_apply,
      dirOps_upd, dirOps_chknl, error_apply, decFls, incFls, hf1, sub_add_cancel]
    split_ifs <;> rfl
  · intro hf ht
    subst hf
    have ht0 : t ≠ 0 := by omega
    simp only [elsestmt, M.bind_eq, M.andThen_apply, dirOps_get, Res.andThen_ok, M.ite_apply,
      ne_eq, not_true_eq_false, if_false, ht0, not_false_eq_true, if_true, M.pure_eq,
      M.ret_apply, dirOps_upd, dirOps_chknl, error_apply, decTru, incFls, zero_add]
    have e : t - 1 + 1 = t := by omega
    simp only [e]
    split_ifs <;> rfl
  · intro s1 h
    simp only [elsestmt, M.bind_eq, M.andThen_apply, dirOps_get, Res.andThen_ok, M.ite_apply,
      ne_eq, M.pure_eq, M.ret_apply, dirOps_upd, dirOps_chknl, error_apply, decFls, incFls,
      incTru, decTru] at h
    split_ifs at h <;> cases h <;> dsimp only <;> omega

theorem else_transitions_witness :
    (elsestmt (dirOps false) ⟨⟨0, 1, 1, 0⟩, 0⟩ =
      if (0 : Int) = 0 + 1 then Res.fatal Err.tooManyElse ⟨⟨0, 1, 1, 0⟩, 0⟩
      else Res.ok () ⟨⟨0, 1, 1, 0 + 1⟩, 0⟩) ∧
    (elsestmt (dirOps false) ⟨⟨0, 1, 0, 0⟩, 0⟩ =
      if (0 : Int) = 0 + 1 then Res.fatal Err.tooManyElse ⟨⟨0 + 1, 0, 0, 0⟩, 0⟩
      else Res.ok () ⟨⟨0 + 1, 0, 0, 0 + 1⟩, 0⟩) ∧
    (elsestmt (dirOps false) ⟨⟨0, 2, 0, 0⟩, 0⟩ =
      if (0 : Int) = 0 + 2 then Res.fatal Err.tooManyElse ⟨⟨0, 2, 0, 0⟩, 0⟩
      else Res.ok () ⟨⟨0, 2, 0, 0 + 2⟩, 0⟩) ∧
    (elsestmt (dirOps false) ⟨⟨1, 0, 0, 0⟩, 0⟩ =
      if (0 : Int) = 1 then Res.fatal Err.tooManyElse ⟨⟨1 - 1, 1, 0, 0⟩, 0⟩
      else Res.ok () ⟨⟨1 - 1, 1, 0, 1⟩, 0⟩) :=
  ⟨(else_transitions false 0 1 1 0 0).1 (by decide) (by decide),
    (else_transitions false 0 1 0 0 0).2.1 rfl (by decide),
    (else_transitions false 0 2 0 0 0).2.2.1 (by decide) (by decide),
    (else_transitions false 1 0 0 0 0).2.2.2.1 rfl (by decide)⟩

/-- C26, counterexample.  After `#if 0` and a nested `#if`, the counters are
`trulvl = 0`, `flslvl = 2`, `elflvl = 0`: the state is suppressed and no branch
of the chain was taken, yet `elsestmt` flips no level of suppression to
active, `flslvl` stays 2 and `trulvl` stays 0. -/
theorem else_in_nested_suppression_flips_nothing :
    dirRun [Dir.if_ false, Dir.if_ true] CState.zero = Res.ok () ⟨⟨0, 2, 0, 0⟩, 1⟩ ∧
    elsestmt (dirOps false) ⟨⟨0, 2, 0, 0⟩, 1⟩ = Res.ok () ⟨⟨0, 2, 0, 2⟩, 1⟩ := by
  decide

/-! ## The dispatch of directives in suppressed text -/

/-- Claim C27.  For every state with `flslvl > 0` and every entry of the
directive table, which `ppdir` finds under its name: for `else`, `elif` and
`endif` the dispatch is the call of the handler; for `if`, `ifdef` and
`ifndef` the dispatch calls no handler, whatever it is, and adds one to
`flslvl`, the rest of the state (input, macro table, buffers) staying as it
is; for every other directive the dispatch calls no handler and leaves the
state as it is. -/
theorem suppressed_dispatch (E : Env) (fuel : Nat) (s : St) (e : PpdEntry)
    (he : e ∈ ppd E.GCC_COMPAT) (hf : 0 < s.cond.flslvl) :
    ppdFind E.GCC_COMPAT e.name = some e ∧
    (e.func ∈ [PpFun.elsestmt, PpFun.elifstmt, PpFun.endifstmt] →
      ∀ fn : M St Unit, ppdirDispatch (stOps E fuel) fn e.flags s =
        (fn s).andThen (fun _ s1 => Res.ok (decide (s1.cond.flslvl = 0)) s1)) ∧
    (e.func ∈ [PpFun.ifstmt, PpFun.ifdefstmt, PpFun.ifndefstmt] →
      ∀ fn : M St Unit, ppdirDispatch (stOps E fuel) fn e.flags s =
        Res.ok false { s with cond := { s.cond with flslvl := s.cond.flslvl + 1 } }) ∧
    (e.func ∉ [PpFun.elsestmt, PpFun.elifstmt, PpFun.endifstmt, PpFun.ifstmt, PpFun.ifdefstmt,
        PpFun.ifndefstmt] →
      ∀ fn : M St Unit, ppdirDispatch (stOps E fuel) fn e.flags s = Res.ok false s) := by
  have hf0 : s.cond.flslvl ≠ 0 := by omega
  have hget : (stOps E fuel).get s = Res.ok s.cond s := rfl
  have hupd : ∀ g : Cond → Cond, ∀ t : St,
      (stOps E fuel).upd g t = Res.ok () { t with cond := g t.cond } := fun _ _ => rfl
  have key1 : ∀ fn : M St Unit, ppdirDispatch (stOps E fuel) fn DIR_FLSLVL s =
      (fn s).andThen (fun _ s1 => Res.ok (decide (s1.cond.flslvl = 0)) s1) := by
    intro fn
    simp only [ppdirDispatch, M.bind_eq, M.andThen_apply, hget, Res.andThen_ok, M.ite_apply,
      hf0, if_false, DIR_FLSLVL, Nat.and_self, ne_eq, one_ne_zero, not_false_eq_true, if_true]
    cases fn s <;> rfl
  have key2 : ∀ fn : M St Unit, ppdirDispatch (stOps E fuel) fn DIR_FLSINC s =
      Res.ok false { s with cond := { s.cond with flslvl := s.cond.flslvl + 1 } } := by
    intro fn
    simp only [ppdirDispatch, M.bind_eq, M.andThen_apply, hget, Res.andThen_ok, M.ite_apply,
      hf0, if_false, DIR_FLSLVL, DIR_FLSINC, show (2 : Nat) &&& 1 = 0 from rfl, ne_eq,
      not_true_eq_false, Nat.and_self, OfNat.ofNat_ne_zero, not_false_eq_true, if_true, hupd,
      incFls, M.pure_eq, M.ret_apply]
  have key3 : ∀ fn : M St Unit, ppdirDispatch (stOps E fuel) fn 0 s = Res.ok false s := by
    intro fn
    simp only [ppdirDispatch, M.bind_eq, M.andThen_apply, hget, Res.andThen_ok, M.ite_apply,
      hf0, if_false, Nat.zero_and, ne_eq, not_true_eq_false, M.pure_eq, M.ret_apply]
  cases hg : E.GCC_COMPAT <;> rw [hg] at he <;>
    simp only [ppd, if_true, if_false, Bool.false_eq_true, List.append_nil, List.cons_append,
      List.nil_append, List.mem_cons, List.mem_singleton, List.not_mem_nil, or_false] at he <;>
    rcases he with rfl | rfl | rfl | rfl | rfl | rfl | rfl | rfl | rfl | rfl | rfl | rfl | rfl | he <;>
    first
      | exact ⟨by decide, fun _ => key1, fun h => absurd h (by decide), fun h => absurd (by decide) h⟩
      | exact ⟨by decide, fun h => absurd h (by decide), fun _ => key2, fun h => absurd (by decide) h⟩
      | exact ⟨by decide, fun h => absurd h (by decide), fun h => absurd h (by decide), fun _ => key3⟩
      | skip
  all_goals
    first
      | (subst he
         exact ⟨by decide, fun h => absurd h (by decide), fun h => absurd h (by decide),
           fun _ => key3⟩)
      | (rcases he with rfl | rfl <;>
         exact ⟨by decide, fun h => absurd h (by decide), fun h => absurd h (by decide),
           fun _ => key3⟩)

theorem suppressed_dispatch_witness :
    ppdFind sampleEnv.GCC_COMPAT (str "ifdef") = some ⟨str "ifdef", PpFun.ifdefstmt, DIR_FLSINC⟩ ∧
    ∀ fn : M St Unit,
      ppdirDispatch (stOps sampleEnv 5) fn DIR_FLSINC
          { openState [] with cond := ⟨0, 1, 0, 0⟩ } =
        Res.ok false { openState [] with cond := ⟨0, 1 + 1, 0, 0⟩ } :=
  ⟨(suppressed_dispatch sampleEnv 5 { openState [] with cond := ⟨0, 1, 0, 0⟩ }
      ⟨str "ifdef", PpFun.ifdefstmt, DIR_FLSINC⟩ (by decide) (by decide)).1,
    (suppressed_dispatch sampleEnv 5 { openState [] with cond := ⟨0, 1, 0, 0⟩ }
      ⟨str "ifdef", PpFun.ifdefstmt, DIR_FLSINC⟩ (by decide) (by decide)).2.2.1 (by decide)⟩

/-! ## Pushback followed by reading -/

/-- The byte stored at an offset of the storage is the byte read there. -/
theorem memGet_memSet (m : List Int) (p v : Int) (h0 : 0 ≤ p) (h : p < m.length) :
    memGet (memSet m p v) p = v := by
  obtain ⟨n, hn⟩ := Int.eq_ofNat_of_zero_le h0
  subst hn
  rw [memGet_nat, memSet_getD_eq m n v (by omega)]

/-- One pushback and the read that takes it back. -/
theorem unch_inpch (E : Env) (s : St) (c : Int) (hc0 : 0 ≤ c) (hc1 : c < 256)
    (hcur : bbuf < s.ifiles.curptr) (hmax : s.ifiles.curptr ≤ s.ifiles.maxread)
    (hlen : s.ifiles.maxread ≤ s.ifiles.mem.length) :
    ∃ s1 s2, unch c s = Res.ok () s1 ∧ inpch E s1 = Res.ok c s2 ∧
      s1.ifiles.curptr = s.ifiles.curptr - 1 ∧ s1.ifiles.maxread = s.ifiles.maxread ∧
      s1.ifiles.mem = memSet s.ifiles.mem (s.ifiles.curptr - 1) (c % 256) ∧
      s2.ifiles.curptr = s.ifiles.curptr ∧ s2.ifiles.maxread = s.ifiles.maxread ∧
      s2.ifiles.mem = s1.ifiles.mem := by
  have hb : bbuf = 0 := rfl
  have e1 : memGet (memSet s.ifiles.mem (s.ifiles.curptr - 1) (c % 256)) (s.ifiles.curptr - 1) =
      c := by
    rw [memGet_memSet _ _ _ (by omega) (by omega), Int.emod_eq_of_lt hc0 hc1]
  refine ⟨{ s with ifiles := { s.ifiles with
          curptr := s.ifiles.curptr - 1
          mem := memSet s.ifiles.mem (s.ifiles.curptr - 1) (c % 256) } },
    { s with ifiles := { s.ifiles with
          curptr := s.ifiles.curptr - 1 + 1
          mem := memSet s.ifiles.mem (s.ifiles.curptr - 1) (c % 256) } },
    unch_of_room s c (by omega) (by omega), ?_, rfl, rfl, rfl, ?_, rfl, rfl⟩
  · rw [inpch_of_buffered E _ (by show s.ifiles.curptr - 1 < s.ifiles.maxread; omega)]
    show Res.ok (memGet (memSet s.ifiles.mem (s.ifiles.curptr - 1) (c % 256))
      (s.ifiles.curptr - 1)) _ = _
    rw [e1]
  · show s.ifiles.curptr - 1 + 1 = s.ifiles.curptr
    omega

/-- Claim C28 (as amended).  In a frame with `curptr <= maxread` inside its
storage: for every byte `c`, if `curptr > bbuf` then `unch(c)` followed by
`inpch()` returns `c` and leaves the read cursor where it was before the
`unch`; and for all bytes `a` and `b`, if `curptr > bbuf + 1`, so that two
characters can be taken back, then after `unch(a); unch(b)` the next two calls
of `inpch()` return `b` and then `a`, and the read cursor is where it was. -/
theorem pushback_round_trip (E : Env) (s : St)
    (hmax : s.ifiles.curptr ≤ s.ifiles.maxread)
    (hlen : s.ifiles.maxread ≤ s.ifiles.mem.length) :
    (∀ c : Int, 0 ≤ c → c < 256 → bbuf < s.ifiles.curptr →
      ∃ s1 s2, unch c s = Res.ok () s1 ∧ inpch E s1 = Res.ok c s2 ∧
        s2.ifiles.curptr = s.ifiles.curptr) ∧
    (∀ a b : Int, 0 ≤ a → a < 256 → 0 ≤ b → b < 256 → bbuf + 1 < s.ifiles.curptr →
      ∃ s1 s2 s3 s4, unch a s = Res.ok () s1 ∧ unch b s1 = Res.ok () s2 ∧
        inpch E s2 = Res.ok b s3 ∧ inpch E s3 = Res.ok a s4 ∧
        s4.ifiles.curptr = s.ifiles.curptr) := by
  have hb : bbuf = 0 := rfl
  constructor
  · intro c hc0 hc1 hcur
    obtain ⟨s1, s2, h1, h2, _, _, _, h3, _⟩ := unch_inpch E s c hc0 hc1 hcur hmax hlen
    exact ⟨s1, s2, h1, h2, h3⟩
  · intro a b ha0 ha1 hb0 hb1 hcur
    obtain ⟨s1, _, h1, _, c1, m1, e1, _⟩ := unch_inpch E s a ha0 ha1 (by omega) hmax hlen
    obtain ⟨s2, s3, h2, h3, _, _, e2, c3, m3, e3⟩ := unch_inpch E s1 b hb0 hb1
      (by rw [c1]; omega) (by rw [c1, m1]; omega) (by rw [m1, e1, memSet_length]; exact hlen)
    have hlt : s3.ifiles.curptr < s3.ifiles.maxread := by rw [c3, m3, c1, m1]; omega
    have hget : memGet s3.ifiles.mem s3.ifiles.curptr = a := by
      obtain ⟨n, hn⟩ : ∃ n : Nat, s.ifiles.curptr = (n + 2 : Nat) :=
        ⟨(s.ifiles.curptr - 2).toNat, by omega⟩
      have q1 : s.ifiles.curptr - 1 = ((n + 1 : Nat) : Int) := by omega
      have q2 : s.ifiles.curptr - 1 - 1 = ((n : Nat) : Int) := by omega
      rw [e3, e2, c3, c1, e1, q2, q1, memGet_nat, memSet_getD_ne _ _ _ _ (by omega),
        memSet_getD_eq _ _ _ (by omega), Int.emod_eq_of_lt ha0 ha1]
    refine ⟨s1, s2, s3, { s3 with ifiles := { s3.ifiles with curptr := s3.ifiles.curptr + 1 } },
      h1, h2, h3, ?_, ?_⟩
    · rw [inpch_of_buffered E s3 hlt, hget]
    · show s3.ifiles.curptr + 1 = s.ifiles.curptr
      rw [c3, c1]
      omega

theorem pushback_round_trip_witness :
    (∃ s1 s2, unch 97 (openState []) = Res.ok () s1 ∧
      inpch sampleEnv s1 = Res.ok 97 s2 ∧
      s2.ifiles.curptr = (openState []).ifiles.curptr) ∧
    (∃ s1 s2 s3 s4, unch 97 (openState []) = Res.ok () s1 ∧ unch 98 s1 = Res.ok () s2 ∧
      inpch sampleEnv s2 = Res.ok 98 s3 ∧ inpch sampleEnv s3 = Res.ok 97 s4 ∧
      s4.ifiles.curptr = (openState []).ifiles.curptr) :=
  ⟨(pushback_round_trip sampleEnv (openState []) (by decide) (by decide)).1 97 (by decide)
      (by decide) (by decide),
    (pushback_round_trip sampleEnv (openState []) (by decide) (by decide)).2 97 98 (by decide)
      (by decide) (by decide) (by decide) (by decide)⟩

/-- C28, counterexample.  In a frame whose read cursor is one above `bbuf`
(`curptr > bbuf`), `unch(a)` is taken, and `unch(b)` after it ends in the
fatal error "pushback buffer full": no call of `inpch()` follows that could
return `b` and then `a`. -/
theorem second_pushback_overflows :
    bbuf <
      ({ openState [] with ifiles := { sampleFrame [] with curptr := 1 } } : St).ifiles.curptr ∧
    ∃ s1 s2,
      unch 97 { openState [] with ifiles := { sampleFrame [] with curptr := 1 } } =
        Res.ok () s1 ∧
      unch 98 s1 = Res.fatal Err.pushbackFull s2 :=
  ⟨show bbuf < (1 : Int) by decide, _, _,
    unch_of_room { openState [] with ifiles := { sampleFrame [] with curptr := 1 } } 97
      (by decide) (show (1 : Int) ≤ 1 by decide),
    unch_full _ 98 (by decide) (show (1 : Int) - 1 ≤ bbuf by decide)⟩

/-! ## The array accesses of `readid` -/

/-- A round of the loop of `readid` at the end of the input: `inch` returns -1
and the lookup `spechr[-1]` is outside the table. -/
theorem readidLoop_eof (E : Env) (fuel : Nat) (s : St) (ch : Int) (p : Nat) (r : Int)
    (h : Rd E s [] r) :
    ∃ s1, readidLoop E (fuel + 3) ch p s = Res.fatal Err.undefinedAccess s1 ∧
      s1.diag = (if p = E.MAXIDSZ then s.diag ++ [Warn.idExceedsTruncating] else s.diag) := by
  have h1 := inch_nil E fuel
      { s with
        idbuf := if p < E.MAXIDSZ then arrSet s.idbuf p (ch % 256) else s.idbuf
        diag := if p = E.MAXIDSZ then s.diag ++ [Warn.idExceedsTruncating] else s.diag } r h
  have hsp : spechr (-1) = none := by decide
  refine ⟨{ s with
        idbuf := if p < E.MAXIDSZ then arrSet s.idbuf p (ch % 256) else s.idbuf
        diag := if p = E.MAXIDSZ then s.diag ++ [Warn.idExceedsTruncating] else s.diag },
    ?_, rfl⟩
  conv_lhs => rw [readidLoop]
  rcases Nat.lt_trichotomy p E.MAXIDSZ with hlt | heq | hgt
  · have hne : p ≠ E.MAXIDSZ := by omega
    simp only [hne, hlt, if_false, if_true] at h1 ⊢
    simp only [M.bind_eq, M.andThen_apply, M.ite_apply, hne, hlt, if_false, if_true,
      M.pure_eq, M.ret_apply, Res.andThen_ok, modState_apply, h1, ISID, spechrHas, hsp,
      error_apply, Res.andThen_fatal]
  · subst heq
    simp only [lt_self_iff_false, if_false, if_true] at h1 ⊢
    simp only [M.bind_eq, M.andThen_apply, M.ite_apply, lt_self_iff_false, if_false, if_true,
      M.pure_eq, M.ret_apply, Res.andThen_ok, warning_apply, h1, ISID, spechrHas, hsp,
      error_apply, Res.andThen_fatal]
  · have hne : p ≠ E.MAXIDSZ := by omega
    have hnl : ¬ p < E.MAXIDSZ := by omega
    simp only [hne, hnl, if_false] at h1 ⊢
    simp only [M.bind_eq, M.andThen_apply, M.ite_apply, hne, hnl, if_false,
      M.pure_eq, M.ret_apply, Res.andThen_ok, h1, ISID, spechrHas, hsp, error_apply,
      Res.andThen_fatal]

/-- The loop of `readid` over a run of identifier characters that ends with
the input: after the last character the table `spechr` is indexed with -1. -/
theorem readidLoop_run_eof (E : Env) (fuel : Nat) :
    ∀ (run : List Int) (ch : Int) (p : Nat) (s : St),
      Rd E s run 0 → (∀ c ∈ run, idClass c = true) → p + run.length < E.MAXIDSZ →
      ∃ s1, readidLoop E (fuel + run.length + 3) ch p s = Res.fatal Err.undefinedAccess s1 ∧
        s1.diag = s.diag := by
  intro run
  induction run with
  | nil =>
    intro ch p s h _ hp
    obtain ⟨s1, e1, hd1⟩ := readidLoop_eof E fuel s ch p 0 h
    have hne : p ≠ E.MAXIDSZ := by simp only [List.length_nil] at hp; omega
    rw [if_neg hne] at hd1
    exact ⟨s1, e1, hd1⟩
  | cons c tl ih =>
    intro ch p s h hrun hp
    simp only [List.length_cons] at hp
    have hc := hrun c (List.mem_cons_self _ _)
    have hcp := idClass_plain c hc
    obtain ⟨s1, hr1, _, hd1, _, _, _, e1⟩ :=
      readidLoop_any E (fuel + tl.length + 1) s ch p c tl 0 h hcp.1 hcp.2.1
        hcp.2.2.1 hcp.2.2.2.1 (by omega)
    rw [hc, if_pos rfl] at e1
    have hne : p ≠ E.MAXIDSZ := by omega
    rw [if_neg hne] at hd1
    obtain ⟨s2, e2, hd2⟩ :=
      ih c (p + 1) s1 hr1 (fun x hx => hrun x (List.mem_cons_of_mem _ hx)) (by omega)
    have hfuel : fuel + (c :: tl).length + 3 = fuel + tl.length + 1 + 3 := by
      simp only [List.length_cons]; omega
    exact ⟨s2, by rw [hfuel, e1]; exact e2, hd2.trans hd1⟩

/-- An identifier of fewer than `MAXIDSZ` characters that ends with the
input: `readid` indexes the table `spechr` with -1; no warning is issued
before. -/
theorem readid_eof (E : Env) (fuel : Nat) (s : St) (ch : Int) (run : List Int)
    (h : Rd E s run 0) (hrun : ∀ c ∈ run, idClass c = true)
    (hshort : run.length < E.MAXIDSZ) :
    ∃ s1, readid E (fuel + run.length + 3) ch s = Res.fatal Err.undefinedAccess s1 ∧
      s1.diag = s.diag := by
  obtain ⟨s1, e1, hd1⟩ := readidLoop_run_eof E fuel run ch 0 s h hrun (by omega)
  refine ⟨s1, ?_, hd1⟩
  simp only [readid, M.bind_eq, M.andThen_apply, e1, Res.andThen_fatal]

/-- Claim C30.  Two inputs for which an array access of `readid` is out of
bounds.  The identifier `ab` ended by the end of the input: after `b` the call
`inch()` returns -1 and `spechr[-1]` is looked up, an index outside 0..255 (no
warning was issued, the identifier is short).  The identifier `abcdefghij` of
ten characters followed by a blank, with `MAXIDSZ = 8`: the terminating NUL is
stored at `idbuf[10]`, an index outside 0..MAXIDSZ.  Neither run has a defined
result. -/
theorem readid_index_out_of_bounds :
    spechr (-1) = none ∧
    (∃ s1, readid sampleEnv (0 + 1 + 3) 97 (openState [98]) =
        Res.fatal Err.undefinedAccess s1 ∧ s1.diag = []) ∧
    (∃ s1, readid sampleEnv (0 + 9 + 3) 97
        (openState [98, 99, 100, 101, 102, 103, 104, 105, 106, 32]) =
          Res.fatal Err.undefinedAccess s1 ∧ s1.diag = [Warn.idExceedsTruncating]) := by
  refine ⟨by decide, ?_, ?_⟩
  · obtain ⟨s1, h1, hd⟩ :=
      readid_eof sampleEnv 0 (openState [98]) 97 [98] (rd_open _ (by decide)) (by decide)
        (by decide)
    exact ⟨s1, h1, by rw [hd]; rfl⟩
  · obtain ⟨s1, h1, hd⟩ :=
      readid_long sampleEnv 0 (openState [98, 99, 100, 101, 102, 103, 104, 105, 106, 32]) 97 32
        [98, 99, 100, 101, 102, 103, 104, 105, 106] [] (rd_open _ (by decide)) (by decide)
        (by decide) (by decide) (by decide) (by decide) (by decide) (by decide) rfl
    exact ⟨s1, h1, by rw [hd]; rfl⟩

/-! ## Long identifiers in ordinary text -/

theorem obPut_diag (ob : Ob) (ch : Int) (s : St) : (obPut ob ch s).diag = s.diag := by
  cases ob <;> rfl

theorem obGet_eq (ob : Ob) (s : St) : obGet ob s = Res.ok (obOf ob s) s := by
  cases ob <;> rfl

/-- The test of `bufid` compares the start of the identifier minus the write
cursor, which is never positive, with `MAXIDSZ`. -/
theorem bufid_test_false (E : Env) (k : Nat) (h : 0 < E.MAXIDSZ) :
    ¬ ((0 - (k : Int)) = E.MAXIDSZ) := by
  omega

/-- One round of the loop of `bufid`: the character `ch` is stored, no
warning is issued, and the next character `c` is read. -/
theorem bufidLoop_any (E : Env) (ob : Ob) (fuel : Nat) (s : St) (ch : Int) (k : Nat) (c : Int)
    (rest : List Int) (r1 : Int) (h : Rd E s (c :: rest) 0) (hpos : 0 < E.MAXIDSZ)
    (h13 : c ≠ 13) (h92 : c ≠ 92) (h63 : c ≠ 63) (h47 : c ≠ 47) (hr1 : r1 ≤ 1) :
    ∃ s1, Rd E s1 rest r1 ∧ obOf ob s1 = obOf ob s ++ [ch % 256] ∧ s1.diag = s.diag ∧
      bufidLoop E ob (fuel + 3) ch k s =
        (if idClass c = true then bufidLoop E ob (fuel + 2) c (k + 1) s1
         else Res.ok c s1) := by
  have hb := h.byte
  have h0 := h.1.buf
  obtain ⟨s1, h1, hs1, hr⟩ :=
    inch_plain E fuel (obPut ob ch s) c rest 0 r1 (h.obPut ob ch) h13 h92 h63 h47 (by omega)
      (by rw [obPut_ifiles]; omega)
  refine ⟨s1, hr, ?_, ?_, ?_⟩
  · rw [obOf_of_strip ob hs1, obOf_obPut]
  · have : s1.diag = (obPut ob ch s).diag := congrArg (fun t => t.diag) hs1
    rw [this, obPut_diag]
  · conv_lhs => rw [bufidLoop]
    have hid := idClass_spechr c (idClass c) rfl hb.1 hb.2 s1
    simp only [M.bind_eq, M.andThen_apply, M.ite_apply, bufid_test_false E k hpos, if_false,
      M.pure_eq, M.ret_apply, Res.andThen_ok, putob_eq, h1, ISID, hid]

/-- The loop of `bufid` over a run of identifier characters ended by the
character `stop`: every character is stored, however many there are, and no
warning is issued. -/
theorem bufidLoop_run (E : Env) (ob : Ob) (fuel : Nat) (stop : Int) (rest : List Int)
    (hpos : 0 < E.MAXIDSZ) (hstop : idClass stop = false)
    (h13 : stop ≠ 13) (h92 : stop ≠ 92) (h63 : stop ≠ 63) (h47 : stop ≠ 47) :
    ∀ (run : List Int) (ch : Int) (k : Nat) (s : St),
      Rd E s (run ++ stop :: rest) 0 → (∀ c ∈ run, idClass c = true) →
      0 ≤ ch → ch < 256 →
      ∃ s1, bufidLoop E ob (fuel + run.length + 3) ch k s = Res.ok stop s1 ∧
        Rd E s1 rest 1 ∧ obOf ob s1 = obOf ob s ++ ch :: run ∧ s1.diag = s.diag := by
  intro run
  induction run with
  | nil =>
    intro ch k s h _ hc0 hc1
    obtain ⟨s1, hr1, ho1, hd1, e1⟩ :=
      bufidLoop_any E ob fuel s ch k stop rest 1 h hpos h13 h92 h63 h47 (le_refl _)
    rw [hstop] at e1
    refine ⟨s1, by simpa using e1, hr1, ?_, hd1⟩
    rw [ho1, Int.emod_eq_of_lt hc0 hc1]
  | cons c tl ih =>
    intro ch k s h hrun hc0 hc1
    have hc := hrun c (List.mem_cons_self _ _)
    have hcp := idClass_plain c hc
    have hcb := h.byte
    obtain ⟨s1, hr1, ho1, hd1, e1⟩ :=
      bufidLoop_any E ob (fuel + tl.length + 1) s ch k c (tl ++ stop :: rest) 0 h hpos hcp.1
        hcp.2.1 hcp.2.2.1 hcp.2.2.2.1 (by omega)
    rw [hc, if_pos rfl] at e1
    obtain ⟨s2, e2, hr2, ho2, hd2⟩ :=
      ih c (k + 1) s1 hr1 (fun x hx => hrun x (List.mem_cons_of_mem _ hx)) hcb.1 hcb.2
    have hfuel : fuel + (c :: tl).length + 3 = fuel + tl.length + 1 + 3 := by
      simp only [List.length_cons]; omega
    refine ⟨s2, by rw [hfuel, e1]; exact e2, hr2, ?_, hd2.trans hd1⟩
    rw [ho2, ho1, Int.emod_eq_of_lt hc0 hc1, List.append_assoc]
    rfl

/-- An identifier of any length read by `bufid`: it is returned whole, the
character that ends it is pushed back, and no warning is issued. -/
theorem bufid_run (E : Env) (ob : Ob) (fuel : Nat) (s : St) (ch stop : Int)
    (run rest : List Int) (h : Rd E s (run ++ stop :: rest) 0)
    (hrun : ∀ c ∈ run, idClass c = true) (hc0 : 0 ≤ ch) (hc1 : ch < 256)
    (hpos : 0 < E.MAXIDSZ) (hstop : idClass stop = false)
    (h13 : stop ≠ 13) (h92 : stop ≠ 92) (h63 : stop ≠ 63) (h47 : stop ≠ 47) :
    ∃ s1, bufid E (fuel + run.length + 3) ch ob s = Res.ok (ch :: run) s1 ∧
      Rd E s1 (stop :: rest) 0 ∧ s1.diag = s.diag := by
  have hsb : 0 ≤ stop ∧ stop < 256 :=
    h.1.bytes stop (by rw [h.2.1]; exact List.mem_append_right _ (List.mem_cons_self _ _))
  obtain ⟨s1, e1, hr1, ho1, hd1⟩ :=
    bufidLoop_run E ob fuel stop rest hpos hstop h13 h92 h63 h47 run ch 0 s h hrun hc0 hc1
  obtain ⟨s2, e2, hs2, hr2⟩ := unch_ok E s1 stop rest 1 hr1 (le_refl _) hsb.1 hsb.2
  refine ⟨s2, ?_, by simpa using hr2, ?_⟩
  · simp only [bufid, M.bind_eq, M.andThen_apply, obGet_eq, Res.andThen_ok, e1, e2, M.pure_eq,
      M.ret_apply, obOf_of_strip ob hs2, ho1, List.drop_left]
  · have : s2.diag = s1.diag := congrArg (fun t => t.diag) hs2
    rw [this, hd1]

/-- Claim C25.  With `MAXIDSZ = 8`, the identifier `abcdefghi` of nine
characters followed by `;`: `bufid` returns all nine characters and issues no
warning; the list of diagnostics stays empty. -/
theorem bufid_long_identifier_no_warning :
    ∃ s1, bufid sampleEnv (0 + 8 + 3) 97 Ob.rbs
        (openState [98, 99, 100, 101, 102, 103, 104, 105, 59]) =
          Res.ok [97, 98, 99, 100, 101, 102, 103, 104, 105] s1 ∧
      pending s1.ifiles = [59] ∧ s1.diag = [] := by
  obtain ⟨s1, h1, hr, hd⟩ :=
    bufid_run sampleEnv Ob.rbs 0 (openState [98, 99, 100, 101, 102, 103, 104, 105, 59]) 97 59
      [98, 99, 100, 101, 102, 103, 104, 105] [] (rd_open _ (by decide)) (by decide) (by decide)
      (by decide) (by decide) (by decide) (by decide) (by decide) (by decide) (by decide)
  exact ⟨s1, h1, hr.2.1, by rw [hd]; rfl⟩

/-! ## The scan of suppressed text -/

/-- A round of `fastspcg` on a blank or a tab: it is written to the output
with `putch`, whatever the value of `flslvl`. -/
theorem fastspcg_blank (E : Env) (fuel : Nat) (s : St) (c : Int) (rest : List Int) (r1 : Int)
    (h : Rd E s (c :: rest) 0) (hc : c = 9 ∨ c = 32) (hr1 : r1 ≤ 1) :
    ∃ s1, Rd E s1 rest r1 ∧ s1.pb = s.pb ++ [c] ∧ s1.cond = s.cond ∧
      s1.ifiles.buffer = s.ifiles.buffer ∧
      fastspcg E (fuel + 3) s = fastspcg E (fuel + 2) s1 := by
  have h0 := h.1.buf
  obtain ⟨s1, h1, hs1, hr⟩ :=
    inch_plain E fuel s c rest 0 r1 h (by omega) (by omega) (by omega) (by omega) (by omega)
      (by omega)
  have hws : ISWS c = true := by
    rcases hc with hc | hc <;> subst hc <;> rfl
  have hmod : c % 256 = c := by omega
  have hcs : s1.cond = s.cond := cond_of_strip hs1
  have hbs : s1.ifiles.buffer = s.ifiles.buffer := buffer_of_strip hs1
  refine ⟨{ s1 with pb := s1.pb ++ [c % 256] }, hr.of_frame rfl rfl rfl rfl rfl rfl, ?_, hcs,
    hbs, ?_⟩
  · show s1.pb ++ [c % 256] = _
    rw [pb_of_strip hs1, hmod]
  · conv_lhs => rw [fastspcg]
    have h47 : c ≠ 47 := by omega
    have h37 : c ≠ 37 := by omega
    simp only [M.bind_eq, M.andThen_apply, h1, Res.andThen_ok, M.ite_apply, hws, or_true,
      if_true, h37, h47, if_false, putch_apply]

/-- A round of `fastspcg` on a character that is no blank, no tab, no `/` and
no `%`: it is returned. -/
theorem fastspcg_stop (E : Env) (fuel : Nat) (s : St) (c : Int) (rest : List Int) (r r1 : Int)
    (h : Rd E s (c :: rest) r) (h13 : c ≠ 13) (h92 : c ≠ 92) (h63 : c ≠ 63) (h47 : c ≠ 47)
    (h37 : c ≠ 37) (h9 : c ≠ 9) (h32 : c ≠ 32) (hr1 : r1 ≤ r + 1)
    (hr2 : r1 ≤ s.ifiles.buffer + 1) :
    ∃ s1, fastspcg E (fuel + 3) s = Res.ok c s1 ∧ s1.strip = s.strip ∧ Rd E s1 rest r1 := by
  obtain ⟨s1, h1, hs1, hr⟩ := inch_plain E fuel s c rest r r1 h h13 h92 h63 h47 hr1 hr2
  refine ⟨s1, ?_, hs1, hr⟩
  rw [fastspcg]
  simp [h1, ISWS, h47, h37, h9, h32]

/-- The newline case of `flscan` up to the call of `fastspcg`: the line is
counted and a newline is written. -/
theorem flscan_newline (E : Env) (fuel : Nat) (s : St) (rest : List Int)
    (h : Rd E s (10 :: rest) 0) :
    ∃ s1, Rd E s1 rest 0 ∧ s1.pb = s.pb ++ [10] ∧ s1.cond = s.cond ∧
      s1.ifiles.buffer = s.ifiles.buffer ∧ s1.ifiles.lineno = s.ifiles.lineno + 1 ∧
      flscan E (fuel + 3) s =
        (fastspcg E (fuel + 2) s1).andThen (fun ch1 s2 =>
          if ch1 = 35 then Res.ok () s2
          else (unch ch1 s2).andThen (fun _ s3 => flscan E (fuel + 2) s3)) := by
  have h0 := h.1.buf
  obtain ⟨s1, h1, hs1, hr⟩ :=
    inch_plain E fuel s 10 rest 0 0 h (by decide) (by decide) (by decide) (by decide) (by omega)
      (by omega)
  have hcs : s1.cond = s.cond := cond_of_strip hs1
  have hbs : s1.ifiles.buffer = s.ifiles.buffer := buffer_of_strip hs1
  refine ⟨{ s1 with ifiles := { s1.ifiles with lineno := s1.ifiles.lineno + 1 },
                    pb := s1.pb ++ [10 % 256] },
    hr.of_frame rfl rfl rfl rfl rfl rfl, ?_, hcs, hbs, ?_, ?_⟩
  · show s1.pb ++ [10 % 256] = _
    rw [pb_of_strip hs1]
    rfl
  · show s1.ifiles.lineno + 1 = _
    rw [lineno_of_strip hs1]
  · conv_lhs => rw [flscan]
    simp only [M.bind_eq, M.andThen_apply, h1, Res.andThen_ok, M.ite_apply,
      show ¬ ((10 : Int) = -1) by decide, if_false, if_true, modFrame_apply, putch_apply,
      M.pure_eq]
    congr 1
    funext ch1 s2
    simp only [M.ite_apply, M.ret_apply, M.andThen_apply]

/-- A character of suppressed text other than newline and `/`: `flscan`
passes over it. -/
theorem flscan_skip (E : Env) (fuel : Nat) (s : St) (c : Int) (rest : List Int)
    (h : Rd E s (c :: rest) 0) (h13 : c ≠ 13) (h92 : c ≠ 92) (h63 : c ≠ 63) (h47 : c ≠ 47)
    (h10 : c ≠ 10) :
    ∃ s1, Rd E s1 rest 0 ∧ s1.strip = s.strip ∧
      flscan E (fuel + 3) s = flscan E (fuel + 2) s1 := by
  have h0 := h.1.buf
  have hb := h.byte
  obtain ⟨s1, h1, hs1, hr⟩ :=
    inch_plain E fuel s c rest 0 0 h h13 h92 h63 h47 (by omega) (by omega)
  refine ⟨s1, hr, hs1, ?_⟩
  conv_lhs => rw [flscan]
  have hne : c ≠ -1 := by omega
  simp only [M.bind_eq, M.andThen_apply, h1, Res.andThen_ok, M.ite_apply, hne, h10, h47,
    if_false]

/-- Suppressed text made of a newline, a blank or tab `c`, a character `x`
of the line, and a newline followed by `#`: `flscan` writes the two newlines
and also `c`, the leading white space of the suppressed line, and stops after
the `#` with the counters as they were. -/
theorem flscan_blank_line (E : Env) (fuel : Nat) (s : St) (c x : Int) (rest : List Int)
    (h : Rd E s (10 :: c :: x :: 10 :: 35 :: rest) 0) (hc : c = 9 ∨ c = 32)
    (h13 : x ≠ 13) (h92 : x ≠ 92) (h63 : x ≠ 63) (h47 : x ≠ 47) (h37 : x ≠ 37) (h9 : x ≠ 9)
    (h32 : x ≠ 32) (h10 : x ≠ 10) (h35 : x ≠ 35) :
    ∃ s1, flscan E (fuel + 6) s = Res.ok () s1 ∧ s1.pb = s.pb ++ [10, c, 10] ∧
      s1.cond = s.cond ∧ Rd E s1 rest 0 := by
  have h0 := h.1.buf
  obtain ⟨sa, hra, pa, ca, ba, _, ea⟩ := flscan_newline E (fuel + 3) s _ h
  obtain ⟨sb, hrb, pb, cb, bb, eb⟩ := fastspcg_blank E (fuel + 2) sa c _ 0 hra hc (by omega)
  have hxb := hrb.byte
  obtain ⟨sc, ec, hsc, hrc⟩ :=
    fastspcg_stop E (fuel + 1) sb x _ 0 1 hrb h13 h92 h63 h47 h37 h9 h32 (by omega)
      (by rw [bb, ba]; omega)
  obtain ⟨sd, ed, hsd, hrd⟩ := unch_ok E sc x _ 1 hrc (le_refl _) hxb.1 hxb.2
  have hrd0 : Rd E sd (x :: 10 :: 35 :: rest) 0 := by simpa using hrd
  obtain ⟨se, hre, hse, ee⟩ := flscan_skip E (fuel + 2) sd x _ hrd0 h13 h92 h63 h47 h10
  obtain ⟨sf, hrf, pf, cf, bf, _, ef⟩ := flscan_newline E (fuel + 1) se _ hre
  have bsf : sf.ifiles.buffer = s.ifiles.buffer := by
    rw [bf, buffer_of_strip hse, buffer_of_strip hsd, buffer_of_strip hsc, bb, ba]
  obtain ⟨sg, eg, hsg, hrg⟩ :=
    fastspcg_stop E fuel sf 35 rest 0 0 hrf (by decide) (by decide) (by decide) (by decide)
      (by decide) (by decide) (by decide) (by omega) (by rw [bsf]; omega)
  refine ⟨sg, ?_, ?_, ?_, hrg⟩
  · have ea1 : flscan E (fuel + 6) s = _ := ea
    have eb1 : fastspcg E (fuel + 3 + 2) sa = fastspcg E (fuel + 2 + 2) sb := eb
    have ec1 : fastspcg E (fuel + 2 + 2) sb = Res.ok x sc := ec
    have ee1 : flscan E (fuel + 3 + 2) sd = flscan E (fuel + 2 + 2) se := ee
    have ef1 : flscan E (fuel + 2 + 2) se = _ := ef
    have eg1 : fastspcg E (fuel + 1 + 2) sf = Res.ok 35 sg := eg
    rw [ea1, eb1, ec1]
    simp only [Res.andThen_ok, h35, if_false, ed, ee1, ef1, eg1, if_true]
  · rw [pb_of_strip hsg, pf, pb_of_strip hse, pb_of_strip hsd, pb_of_strip hsc, pb, pa]
    simp
  · rw [cond_of_strip hsg, cf, cond_of_strip hse, cond_of_strip hsd, cond_of_strip hsc, cb, ca]

/-- Claim C21.  After `#if 0`, with `flslvl = 1`, the suppressed text is a
newline, the line ` x` with a leading blank, and a newline before `#endif`:
`flscan` writes to the output the two newlines and the blank, the leading
white space of the suppressed line, while `flslvl` stays 1. -/
theorem suppressed_leading_blank_written :
    ∃ s1, flscan sampleEnv (0 + 6)
        { openState [10, 32, 120, 10, 35, 101, 110, 100, 105, 102, 10] with
          cond := ⟨0, 1, 0, 0⟩ } = Res.ok () s1 ∧
      s1.pb = [10, 32, 10] ∧ s1.cond.flslvl = 1 ∧
      pending s1.ifiles = [101, 110, 100, 105, 102, 10] := by
  obtain ⟨s1, h1, hp, hc, hr⟩ :=
    flscan_blank_line sampleEnv 0
      { openState [10, 32, 120, 10, 35, 101, 110, 100, 105, 102, 10] with
        cond := ⟨0, 1, 0, 0⟩ } 32 120 [101, 110, 100, 105, 102, 10]
      ((rd_open _ (by decide)).of_frame rfl rfl rfl rfl rfl rfl) (Or.inr rfl) (by decide)
      (by decide) (by decide) (by decide) (by decide) (by decide) (by decide) (by decide)
      (by decide)
  exact ⟨s1, h1, by rw [hp]; rfl, by rw [hc], hr.2.1⟩

/-! ## The conversion of numerals -/

theorem getD_append_cons (a b : List Int) (c : Int) : (a ++ c :: b).getD a.length 0 = c := by
  induction a with
  | nil => rfl
  | cons x t ih => simpa using ih

theorem getD_append_nil (a : List Int) : a.getD a.length 0 = 0 := by
  simp

/-- The byte of the string at the end of the part `a`: the first character of
what follows, or the terminating NUL. -/
theorem Lex.byte_at (s : Lex) (a b : List Int) (h : s.buf = a ++ b) :
    s.byte a.length = b.headD 0 := by
  unfold Lex.byte
  rw [h]
  cases b with
  | nil => rw [List.append_nil]; exact getD_append_nil a
  | cons c tl => exact getD_append_cons a tl c

theorem spechrHas_hex {σ : Type} (d : Int) (h : isHexDigit d = true) (s : σ) :
    (spechrHas d C_HEX : M σ Bool) s = Res.ok true s := by
  simp only [isHexDigit, Bool.or_eq_true, Bool.and_eq_true, decide_eq_true_eq] at h
  rcases h with (⟨h1, h2⟩ | ⟨h1, h2⟩) | ⟨h1, h2⟩ <;> interval_cases d <;> rfl

theorem dig2num_hex (d : Int) (h : isHexDigit d = true) : dig2num d = (hexDigitValue d : Int) := by
  simp only [isHexDigit, Bool.or_eq_true, Bool.and_eq_true, decide_eq_true_eq] at h
  rcases h with (⟨h1, h2⟩ | ⟨h1, h2⟩) | ⟨h1, h2⟩ <;> interval_cases d <;> rfl

/-- The table entry of a byte that is no hexadecimal digit has no `C_HEX`. -/
theorem spechrHas_not_hex {σ : Type} (c : Int) (h0 : 0 ≤ c) (h1 : c < 256)
    (h : isHexDigit c = false) (s : σ) :
    (spechrHas c C_HEX : M σ Bool) s = Res.ok false s := by
  have hc : c = 0 ∨ 0 < c := by omega
  interval_cases c <;> first | rfl | (exfalso; revert h; decide)

theorem foldl_digits_ge (rad : Nat) (hrad : 1 ≤ rad) :
    ∀ (ds : List Int) (acc : Nat),
      acc ≤ ds.foldl (fun a d => a * rad + hexDigitValue d) acc := by
  intro ds
  induction ds with
  | nil => intro acc; exact le_refl _
  | cons d tl ih =>
    intro acc
    refine le_trans ?_ (ih _)
    calc acc ≤ acc * rad := Nat.le_mul_of_pos_right acc hrad
      _ ≤ acc * rad + hexDigitValue d := Nat.le_add_right _ _

theorem digitOK_hex (rad : Nat) (d : Int) (h : digitOK rad d = true) :
    isHexDigit d = true ∧ hexDigitValue d < rad := by
  simpa only [digitOK, Bool.and_eq_true, decide_eq_true_eq] using h

/-- One round of the digit loop of `cvtdig` on a digit `d` valid for the
base: when the value so far times the base plus the digit is below 2^64 the
loop goes on with it, and otherwise the overflow test raises the error. -/
theorem cvtdigDigits_step (rad : Nat) (hrad : 2 ≤ rad) (hrad16 : rad ≤ 16) (fuel y acc : Nat)
    (s : Lex) (d : Int) (hd : digitOK rad d = true) (hb : s.byte y = d) :
    cvtdigDigits rad (fuel + 1) y acc acc s =
      if acc * rad + hexDigitValue d < 2 ^ 64 then
        cvtdigDigits rad fuel (y + 1) (acc * rad + hexDigitValue d)
          (acc * rad + hexDigitValue d) s
      else Res.fatal Err.constantOutOfRange s := by
  obtain ⟨hx, hv⟩ := digitOK_hex rad d hd
  have e1 : (((acc : Int) * rad + dig2num d) % 2 ^ 64).toNat =
      (acc * rad + hexDigitValue d) % 2 ^ 64 := by
    rw [dig2num_hex d hx]
    have : ((acc : Int) * rad + (hexDigitValue d : Int)) = ((acc * rad + hexDigitValue d : Nat) : Int) := by
      push_cast
      ring
    rw [this]
    norm_cast
  rw [cvtdigDigits]
  simp only [M.bind_eq, M.andThen_apply, getState_apply, Res.andThen_ok, hb,
    spechrHas_hex d hx s, if_true, e1, M.ite_apply]
  generalize hm : acc * rad = m at *
  have hma : acc ≤ m := by rw [← hm]; exact Nat.le_mul_of_pos_right acc (by omega)
  by_cases hlt : m + hexDigitValue d < 2 ^ 64
  · rw [if_pos hlt, Nat.mod_eq_of_lt hlt]
    have hdiv : (m + hexDigitValue d) / rad = acc := by
      rw [← hm, Nat.mul_comm, Nat.mul_add_div (by omega), Nat.div_eq_of_lt hv, Nat.add_zero]
    rw [hdiv, if_neg (lt_irrefl _)]
    simp only [M.pure_eq, M.ret_apply, Res.andThen_ok]
  · rw [if_neg hlt]
    have hdiv : (m + hexDigitValue d) % 2 ^ 64 / rad < acc := by
      rw [Nat.div_lt_iff_lt_mul (by omega), hm]
      omega
    rw [if_pos hdiv]
    simp only [error_apply, Res.andThen_fatal]

/-- The digit loop of `cvtdig` over the digits `ds`, valid for the base, that
stand at the offset `pre.length` and are followed by no hexadecimal digit: it
comes back with the offset after them and their value on top of `acc` when
that value is below 2^64, and raises the error otherwise. -/
theorem cvtdigDigits_run (rad : Nat) (hrad : 2 ≤ rad) (hrad16 : rad ≤ 16) (tail : List Int)
    (hstop : isHexDigit (tail.headD 0) = false ∧ 0 ≤ tail.headD 0 ∧ tail.headD 0 < 256) :
    ∀ (ds pre : List Int) (acc F : Nat) (s : Lex),
      s.buf = pre ++ ds ++ tail → (∀ d ∈ ds, digitOK rad d = true) → acc < 2 ^ 64 →
      ds.length + 1 ≤ F →
      cvtdigDigits rad F pre.length acc acc s =
        if ds.foldl (fun a d => a * rad + hexDigitValue d) acc < 2 ^ 64 then
          Res.ok (pre.length + ds.length, ds.foldl (fun a d => a * rad + hexDigitValue d) acc) s
        else Res.fatal Err.constantOutOfRange s := by
  intro ds
  induction ds with
  | nil =>
    intro pre acc F s hbuf _ hacc hF
    obtain ⟨F1, rfl⟩ : ∃ F1, F = F1 + 1 := ⟨F - 1, by omega⟩
    have hb : s.byte pre.length = tail.headD 0 :=
      Lex.byte_at s pre tail (by rw [hbuf, List.append_nil])
    rw [cvtdigDigits]
    simp only [M.bind_eq, M.andThen_apply, getState_apply, Res.andThen_ok, hb,
      spechrHas_not_hex _ hstop.2.1 hstop.2.2 hstop.1 s, Bool.false_eq_true, if_false,
      M.pure_eq, M.ret_apply, List.foldl_nil, hacc, if_true, List.length_nil, Nat.add_zero]
  | cons d tl ih =>
    intro pre acc F s hbuf hds hacc hF
    simp only [List.length_cons] at hF
    obtain ⟨F1, rfl⟩ : ∃ F1, F = F1 + 1 := ⟨F - 1, by omega⟩
    have hb : s.byte pre.length = d := by
      have := Lex.byte_at s pre (d :: tl ++ tail) (by rw [hbuf]; simp)
      simpa using this
    rw [cvtdigDigits_step rad hrad hrad16 F1 pre.length acc s d (hds d (List.mem_cons_self _ _)) hb]
    by_cases hlt : acc * rad + hexDigitValue d < 2 ^ 64
    · rw [if_pos hlt]
      have hlen : (pre ++ [d]).length = pre.length + 1 := by simp
      have := ih (pre ++ [d]) (acc * rad + hexDigitValue d) F1 s (by rw [hbuf]; simp)
        (fun x hx => hds x (List.mem_cons_of_mem _ hx)) hlt (by omega)
      rw [hlen] at this
      rw [this, List.foldl_cons, List.length_cons]
      have e : pre.length + 1 + tl.length = pre.length + (tl.length + 1) := by omega
      rw [e]
    · rw [if_neg hlt, List.foldl_cons]
      have hge := foldl_digits_ge rad (by omega) tl (acc * rad + hexDigitValue d)
      rw [if_neg (by omega)]

theorem suffixLetter_iff (c : Int) :
    suffixLetter c = true ↔ (c = 108 ∨ c = 76 ∨ c = 117 ∨ c = 85) := by
  simp [suffixLetter, or_assoc]

/-- The suffix loop of `cvtdig` over the suffix letters `sfx` that stand at
the offset `pre.length` and are followed by no suffix letter: it comes back
with the offset after them, and `op` is `UNUMBER` if there is a `u` or `U`
among them. -/
theorem cvtdigSuffix_run (rest : List Int) (hstop : suffixLetter (rest.headD 0) = false) :
    ∀ (sfx pre : List Int) (F : Nat) (s : Lex),
      s.buf = pre ++ sfx ++ rest → (∀ c ∈ sfx, suffixLetter c = true) → sfx.length + 1 ≤ F →
      cvtdigSuffix F pre.length s =
        Res.ok (pre.length + sfx.length)
          { s with op := if hasU sfx = true then NodeOp.UNUMBER else s.op } := by
  intro sfx
  induction sfx with
  | nil =>
    intro pre F s hbuf _ hF
    obtain ⟨F1, rfl⟩ : ∃ F1, F = F1 + 1 := ⟨F - 1, by omega⟩
    have hb : s.byte pre.length = rest.headD 0 :=
      Lex.byte_at s pre rest (by rw [hbuf, List.append_nil])
    have hn := (suffixLetter_iff (rest.headD 0)).not.mp (by rw [hstop]; simp)
    rw [cvtdigSuffix]
    simp only [M.bind_eq, M.andThen_apply, getState_apply, Res.andThen_ok, hb, hn, if_false,
      M.pure_eq, M.ret_apply, List.length_nil, Nat.add_zero, hasU, List.any_nil,
      Bool.false_eq_true]
  | cons c tl ih =>
    intro pre F s hbuf hsfx hF
    simp only [List.length_cons] at hF
    obtain ⟨F1, rfl⟩ : ∃ F1, F = F1 + 1 := ⟨F - 1, by omega⟩
    have hb : s.byte pre.length = c := by
      have := Lex.byte_at s pre (c :: tl ++ rest) (by rw [hbuf]; simp)
      simpa using this
    have hc := (suffixLetter_iff c).mp (hsfx c (List.mem_cons_self _ _))
    have hlen : (pre ++ [c]).length = pre.length + 1 := by simp
    have e : pre.length + 1 + tl.length = pre.length + (tl.length + 1) := by omega
    rw [cvtdigSuffix]
    simp only [M.bind_eq, M.andThen_apply, getState_apply, Res.andThen_ok, hb, hc, if_true,
      M.ite_apply]
    by_cases hu : c = 117 ∨ c = 85
    · have := ih (pre ++ [c]) F1 { s with op := NodeOp.UNUMBER } (by simp [hbuf])
        (fun x hx => hsfx x (List.mem_cons_of_mem _ hx)) (by omega)
      rw [hlen] at this
      simp only [hu, if_true, modState_apply, Res.andThen_ok, this, List.length_cons, e]
      have hU : hasU (c :: tl) = true := by
        rcases hu with hu | hu <;> subst hu <;> simp [hasU]
      rw [hU]
      simp
    · have := ih (pre ++ [c]) F1 s (by simp [hbuf])
        (fun x hx => hsfx x (List.mem_cons_of_mem _ hx)) (by omega)
      rw [hlen] at this
      simp only [hu, if_false, M.pure_eq, M.ret_apply, Res.andThen_ok, this, List.length_cons, e]
      have hU : hasU (c :: tl) = hasU tl := by
        have h1 : c ≠ 117 := fun h => hu (Or.inl h)
        have h2 : c ≠ 85 := fun h => hu (Or.inr h)
        simp [hasU, h1, h2]
      rw [hU]

/-- The function `cvtdig` when its digit loop raises the error. -/
theorem cvtdig_overflow (rad : Nat) (F y0 : Nat) (s : Lex)
    (hrad : (if s.byte (s.yyinp - 1) ≠ 48 then 10
      else if s.byte (s.yyinp - 1 + 1) = 120 ∨ s.byte (s.yyinp - 1 + 1) = 88 then 16 else 8) = rad)
    (hy0 : (if rad = 16 then s.yyinp - 1 + 2 else s.yyinp - 1) = y0)
    (h1 : cvtdigDigits rad F y0 0 0 s = Res.fatal Err.constantOutOfRange s) :
    cvtdig F s = Res.fatal Err.constantOutOfRange s := by
  simp only [cvtdig, M.bind_eq, M.andThen_apply, getState_apply, Res.andThen_ok, hrad, hy0, h1,
    Res.andThen_fatal]

/-- The function `cvtdig` after its two loops: the value is stored, the kind
of the node is settled, the constant is checked against the signed range, and
the cursor is moved. -/
theorem cvtdig_finish (rad : Nat) (F y0 y1 y2 v : Nat) (s : Lex) (u : Bool) (hv : v < 2 ^ 64)
    (hrad : (if s.byte (s.yyinp - 1) ≠ 48 then 10
      else if s.byte (s.yyinp - 1 + 1) = 120 ∨ s.byte (s.yyinp - 1 + 1) = 88 then 16 else 8) = rad)
    (hy0 : (if rad = 16 then s.yyinp - 1 + 2 else s.yyinp - 1) = y0)
    (h1 : cvtdigDigits rad F y0 0 0 s = Res.ok (y1, v) s)
    (h2 : cvtdigSuffix F y1 { s with op := NodeOp.NUMBER } =
      Res.ok y2 { s with op := if u = true then NodeOp.UNUMBER else NodeOp.NUMBER }) :
    cvtdig F s =
      if (rad = 8 ∨ rad = 16 ∨ u = true) ∨ v < 2 ^ 63 then
        Res.ok () { s with
          op := if u = true ∨ 2 ^ 63 ≤ v then NodeOp.UNUMBER else NodeOp.NUMBER
          nd_uval := v
          yyinp := y2 }
      else
        Res.fatal Err.constantOutOfRange { s with op := NodeOp.NUMBER, nd_uval := v } := by
  simp only [cvtdig, M.bind_eq, M.andThen_apply, getState_apply, Res.andThen_ok, hrad, hy0, h1,
    modState_apply, h2, M.ite_apply, M.pure_eq, M.ret_apply]
  have hval : ∀ o : NodeOp, (({ s with op := o, nd_uval := v } : Lex).nd_val < 0) ↔ 2 ^ 63 ≤ v := by
    intro o
    unfold Lex.nd_val
    show (if v < 2 ^ 63 then (v : Int) else (v : Int) - 2 ^ 64) < 0 ↔ _
    split_ifs with hlt
    · constructor
      · intro h; omega
      · intro h; omega
    · constructor
      · intro _; omega
      · intro _
        have : (v : Int) < 2 ^ 64 := by exact_mod_cast hv
        omega
  by_cases hbig : 2 ^ 63 ≤ v
  · have hnlt : ¬ v < 2 ^ 63 := by omega
    have hbig1 : 9223372036854775808 ≤ v := by norm_num at hbig; exact hbig
    cases u <;> by_cases hr : rad = 8 ∨ rad = 16
    · have hcond : (rad = 8 ∨ rad = 16 ∨ false = true) ∨ v < 2 ^ 63 := by
        rcases hr with hr | hr
        · exact Or.inl (Or.inl hr)
        · exact Or.inl (Or.inr (Or.inl hr))
      rw [if_pos hcond]
      simp [hval, hbig1, hr]
    · have hcond : ¬ ((rad = 8 ∨ rad = 16 ∨ false = true) ∨ v < 2 ^ 63) := by
        intro h
        rcases h with (h | h | h) | h
        · exact hr (Or.inl h)
        · exact hr (Or.inr h)
        · cases h
        · omega
      rw [if_neg hcond]
      simp [hval, hbig1, hr]
    · have hcond : (rad = 8 ∨ rad = 16 ∨ true = true) ∨ v < 2 ^ 63 :=
        Or.inl (Or.inr (Or.inr rfl))
      rw [if_pos hcond]
      simp [hval, hbig1, hr]
    · have hcond : (rad = 8 ∨ rad = 16 ∨ true = true) ∨ v < 2 ^ 63 :=
        Or.inl (Or.inr (Or.inr rfl))
      rw [if_pos hcond]
      simp [hval, hbig1, hr]
  · have hlt : v < 2 ^ 63 := by omega
    have hbig1 : ¬ 9223372036854775808 ≤ v := by norm_num at hbig; omega
    have hcond : (rad = 8 ∨ rad = 16 ∨ u = true) ∨ v < 2 ^ 63 := Or.inr hlt
    rw [if_pos hcond]
    cases u <;> simp [hval, hbig1]

theorem endsNumeral_head (rest : List Int) (h : endsNumeral rest = true) :
    0 ≤ rest.headD 0 ∧ rest.headD 0 < 256 ∧ isHexDigit (rest.headD 0) = false ∧
      rest.headD 0 ≠ 120 ∧ rest.headD 0 ≠ 88 ∧ suffixLetter (rest.headD 0) = false := by
  cases rest with
  | nil => decide
  | cons c tl =>
    simp only [endsNumeral, Bool.and_eq_true, decide_eq_true_eq, Bool.not_eq_true'] at h
    simp only [List.headD_cons]
    exact ⟨h.1.1.1.1.1, h.1.1.1.1.2, h.1.1.1.2, h.1.1.2, h.1.2, h.2⟩

theorem suffixLetter_props (c : Int) (h : suffixLetter c = true) :
    0 ≤ c ∧ c < 256 ∧ isHexDigit c = false ∧ c ≠ 120 ∧ c ≠ 88 := by
  rcases (suffixLetter_iff c).mp h with h | h | h | h <;> subst h <;> decide

/-- What follows the digits of a numeral, its suffix letters or the rest of
the string, begins with a byte that is no hexadecimal digit, no `x` and no
`X`. -/
theorem numeral_tail_head (sfx rest : List Int) (hsfx : ∀ c ∈ sfx, suffixLetter c = true)
    (hend : endsNumeral rest = true) :
    0 ≤ (sfx ++ rest).headD 0 ∧ (sfx ++ rest).headD 0 < 256 ∧
      isHexDigit ((sfx ++ rest).headD 0) = false ∧ (sfx ++ rest).headD 0 ≠ 120 ∧
      (sfx ++ rest).headD 0 ≠ 88 := by
  cases sfx with
  | nil =>
    obtain ⟨h1, h2, h3, h4, h5, _⟩ := endsNumeral_head rest hend
    exact ⟨h1, h2, h3, h4, h5⟩
  | cons c tl => exact suffixLetter_props c (hsfx c (List.mem_cons_self _ _))

/-- The function `cvtdig` on digits valid for the base `rad` it has settled
on, which stand at the offset where its digit loop starts and are followed by
suffix letters and then by the end of the numeral. -/
theorem cvtdig_general (rad : Nat) (hrad2 : 2 ≤ rad) (hrad16 : rad ≤ 16)
    (pre ds sfx rest : List Int) (F : Nat) (s : Lex)
    (hrad : (if s.byte (s.yyinp - 1) ≠ 48 then 10
      else if s.byte (s.yyinp - 1 + 1) = 120 ∨ s.byte (s.yyinp - 1 + 1) = 88 then 16 else 8) = rad)
    (hy0 : (if rad = 16 then s.yyinp - 1 + 2 else s.yyinp - 1) = pre.length)
    (hbuf : s.buf = pre ++ ds ++ sfx ++ rest) (hds : ∀ d ∈ ds, digitOK rad d = true)
    (hsfx : ∀ c ∈ sfx, suffixLetter c = true) (hend : endsNumeral rest = true)
    (hF : ds.length + sfx.length + 1 ≤ F) :
    cvtdig F s =
      if 2 ^ 64 ≤ digitsValue rad ds then Res.fatal Err.constantOutOfRange s
      else if (rad = 8 ∨ rad = 16 ∨ hasU sfx = true) ∨ digitsValue rad ds < 2 ^ 63 then
        Res.ok () { s with
          op := if hasU sfx = true ∨ 2 ^ 63 ≤ digitsValue rad ds then NodeOp.UNUMBER
                else NodeOp.NUMBER
          nd_uval := digitsValue rad ds
          yyinp := pre.length + ds.length + sfx.length }
      else
        Res.fatal Err.constantOutOfRange
          { s with op := NodeOp.NUMBER, nd_uval := digitsValue rad ds } := by
  obtain ⟨t1, t2, t3, _, _⟩ := numeral_tail_head sfx rest hsfx hend
  have hrun := cvtdigDigits_run rad hrad2 hrad16 (sfx ++ rest) ⟨t3, t1, t2⟩ ds pre 0 F s
    (by rw [hbuf]; simp) hds (by norm_num) (by omega)
  have hval : ds.foldl (fun a d => a * rad + hexDigitValue d) 0 = digitsValue rad ds := rfl
  rw [hval] at hrun
  by_cases hov : 2 ^ 64 ≤ digitsValue rad ds
  · rw [if_neg (by omega)] at hrun
    rw [if_pos hov]
    exact cvtdig_overflow rad F pre.length s hrad hy0 hrun
  · rw [if_pos (by omega)] at hrun
    rw [if_neg hov]
    have hs := cvtdigSuffix_run rest (endsNumeral_head rest hend).2.2.2.2.2 sfx (pre ++ ds) F
      { s with op := NodeOp.NUMBER } (by show s.buf = _; rw [hbuf]) hsfx (by omega)
    rw [List.length_append] at hs
    exact cvtdig_finish rad F pre.length (pre.length + ds.length)
      (pre.length + ds.length + sfx.length) (digitsValue rad ds) s (hasU sfx) (by omega) hrad hy0
      hrun hs

theorem isHexDigit_not_x (d : Int) (h : isHexDigit d = true) : d ≠ 120 ∧ d ≠ 88 := by
  simp only [isHexDigit, Bool.or_eq_true, Bool.and_eq_true, decide_eq_true_eq] at h
  omega

/-- The function `cvtdig` on a numeral: the characters `lead` of its form, the
digits `ds` valid for its base, the suffix letters `sfx`, and then the end of
the numeral.  The mathematical value `v` of the digits decides: `v >= 2^64` is
the error "constant is out of range"; a decimal numeral without `u` or `U`
with `v >= 2^63` is that error too, raised after `v` was stored; otherwise `v`
is stored in `nd_uval`, the cursor is moved past the numeral, and `op` is
`UNUMBER` when there is a `u` or `U` or `v >= 2^63`. -/
theorem cvtdig_spec (r : Radix) (pre ds sfx rest : List Int) (F : Nat) (s : Lex)
    (hbuf : s.buf = pre ++ r.lead ++ ds ++ sfx ++ rest) (hpos : s.yyinp = pre.length + 1)
    (hds : ∀ d ∈ ds, digitOK r.base d = true) (hdec : r = Radix.dec → ds.headD 48 ≠ 48)
    (hsfx : ∀ c ∈ sfx, suffixLetter c = true) (hend : endsNumeral rest = true)
    (hF : ds.length + sfx.length + 2 ≤ F) :
    cvtdig F s =
      if 2 ^ 64 ≤ digitsValue r.base ds then Res.fatal Err.constantOutOfRange s
      else if (r ≠ Radix.dec ∨ hasU sfx = true) ∨ digitsValue r.base ds < 2 ^ 63 then
        Res.ok () { s with
          op := if hasU sfx = true ∨ 2 ^ 63 ≤ digitsValue r.base ds then NodeOp.UNUMBER
                else NodeOp.NUMBER
          nd_uval := digitsValue r.base ds
          yyinp := pre.length + r.lead.length + ds.length + sfx.length }
      else
        Res.fatal Err.constantOutOfRange
          { s with op := NodeOp.NUMBER, nd_uval := digitsValue r.base ds } := by
  have hy : s.yyinp - 1 = pre.length := by omega
  obtain ⟨t1, t2, t3, t4, t5⟩ := numeral_tail_head sfx rest hsfx hend
  cases r with
  | dec =>
    simp only [Radix.lead, Radix.base, List.append_nil, List.length_nil, Nat.add_zero] at *
    cases ds with
    | nil => exact absurd rfl (hdec trivial)
    | cons d tl =>
      have hd48 : d ≠ 48 := hdec trivial
      have hb0 : s.byte pre.length = d := by
        have := Lex.byte_at s pre (d :: tl ++ sfx ++ rest) (by rw [hbuf]; simp)
        simpa using this
      have h := cvtdig_general 10 (by norm_num) (by norm_num) pre (d :: tl) sfx rest F s
        (by rw [hy, hb0, if_pos hd48]) (by rw [if_neg (by norm_num), hy]) hbuf hds hsfx hend
        (by simp only [List.length_cons] at hF ⊢; omega)
      rw [h]
      simp
  | oct =>
    simp only [Radix.lead, Radix.base, List.length_singleton] at *
    have hb0 : s.byte pre.length = 48 := by
      have := Lex.byte_at s pre (48 :: ds ++ sfx ++ rest) (by rw [hbuf]; simp)
      simpa using this
    have hb1 : s.byte (pre.length + 1) ≠ 120 ∧ s.byte (pre.length + 1) ≠ 88 := by
      have := Lex.byte_at s (pre ++ [48]) (ds ++ (sfx ++ rest)) (by rw [hbuf]; simp)
      rw [List.length_append, List.length_singleton] at this
      rw [this]
      cases ds with
      | nil => exact ⟨t4, t5⟩
      | cons d tl =>
        exact isHexDigit_not_x d (digitOK_hex 8 d (hds d (List.mem_cons_self _ _))).1
    have hne : ¬ (s.byte (pre.length + 1) = 120 ∨ s.byte (pre.length + 1) = 88) := by
      intro h
      rcases h with h | h
      · exact hb1.1 h
      · exact hb1.2 h
    have h := cvtdig_general 8 (by norm_num) (by norm_num) pre (48 :: ds) sfx rest F s
      (by rw [hy, hb0, if_neg (by simp), if_neg hne]) (by rw [if_neg (by norm_num), hy])
      (by rw [hbuf]; simp)
      (by
        intro d hd
        rcases List.mem_cons.mp hd with h | h
        · subst h; decide
        · exact hds d h) hsfx hend
      (by simp only [List.length_cons]; omega)
    have hv : digitsValue 8 (48 :: ds) = digitsValue 8 ds := by
      unfold digitsValue
      rw [List.foldl_cons]
      rfl
    rw [h, hv]
    have e : pre.length + (48 :: ds).length + sfx.length =
        pre.length + 1 + ds.length + sfx.length := by
      simp only [List.length_cons]; omega
    rw [e]
    simp
  | hex u =>
    simp only [Radix.lead, Radix.base] at *
    have hx : (if u = true then (88 : Int) else 120) = 120 ∨
        (if u = true then (88 : Int) else 120) = 88 := by
      cases u <;> simp
    have hb0 : s.byte pre.length = 48 := by
      have := Lex.byte_at s pre (48 :: (if u = true then (88 : Int) else 120) :: ds ++ sfx ++ rest)
        (by rw [hbuf]; simp)
      simpa using this
    have hb1 : s.byte (pre.length + 1) = (if u = true then (88 : Int) else 120) := by
      have := Lex.byte_at s (pre ++ [48])
        ((if u = true then (88 : Int) else 120) :: ds ++ sfx ++ rest) (by rw [hbuf]; simp)
      rw [List.length_append, List.length_singleton] at this
      simpa using this
    have hlen : (pre ++ [48, if u = true then (88 : Int) else 120]).length = pre.length + 2 := by
      simp
    have h := cvtdig_general 16 (by norm_num) (by norm_num)
      (pre ++ [48, if u = true then (88 : Int) else 120]) ds sfx rest F s
      (by rw [hy, hb0, if_neg (by simp), hb1, if_pos hx]) (by rw [if_pos rfl, hy, hlen])
      (by rw [hbuf]) hds hsfx hend (by omega)
    rw [h, hlen]
    simp

/-- Claim C22 (as amended).  For every numeral in the string of the lexer,
made of the characters of its form (none for decimal, `0` for octal, `0x` or
`0X` for hexadecimal), digits valid for its base with mathematical value `v`,
and suffix letters, and followed by the end of the numeral, `cvtdig` called
after the first character of the numeral:
raises "constant is out of range" when `v >= 2^64`;
raises the same error, after storing `v`, when `v < 2^64`, the numeral is
decimal without `u` or `U`, and `v >= 2^63`;
and otherwise stores exactly `v` in `nd_uval` and moves the cursor past the
digits and the suffix letters. -/
theorem numeric_constant_conversion (r : Radix) (pre ds sfx rest : List Int) (F : Nat) (s : Lex)
    (hbuf : s.buf = pre ++ r.lead ++ ds ++ sfx ++ rest) (hpos : s.yyinp = pre.length + 1)
    (hds : ∀ d ∈ ds, digitOK r.base d = true) (hdec : r = Radix.dec → ds.headD 48 ≠ 48)
    (hsfx : ∀ c ∈ sfx, suffixLetter c = true) (hend : endsNumeral rest = true)
    (hF : ds.length + sfx.length + 2 ≤ F) :
    (2 ^ 64 ≤ digitsValue r.base ds → cvtdig F s = Res.fatal Err.constantOutOfRange s) ∧
    (digitsValue r.base ds < 2 ^ 64 → r = Radix.dec → hasU sfx = false →
      2 ^ 63 ≤ digitsValue r.base ds →
      cvtdig F s = Res.fatal Err.constantOutOfRange
        { s with op := NodeOp.NUMBER, nd_uval := digitsValue r.base ds }) ∧
    (digitsValue r.base ds < 2 ^ 64 →
      (r ≠ Radix.dec ∨ hasU sfx = true ∨ digitsValue r.base ds < 2 ^ 63) →
      cvtdig F s = Res.ok ()
        { s with
          op := if hasU sfx = true ∨ 2 ^ 63 ≤ digitsValue r.base ds then NodeOp.UNUMBER
                else NodeOp.NUMBER
          nd_uval := digitsValue r.base ds
          yyinp := pre.length + r.lead.length + ds.length + sfx.length }) := by
  have h := cvtdig_spec r pre ds sfx rest F s hbuf hpos hds hdec hsfx hend hF
  refine ⟨fun hv => ?_, fun hv hr hu hbig => ?_, fun hv hc => ?_⟩
  · rw [h, if_pos hv]
  · have hc : ¬ ((r ≠ Radix.dec ∨ hasU sfx = true) ∨ digitsValue r.base ds < 2 ^ 63) := by
      intro hc
      rcases hc with (hc | hc) | hc
      · exact hc hr
      · rw [hu] at hc; cases hc
      · omega
    rw [h, if_neg (by omega), if_neg hc]
  · have hc1 : (r ≠ Radix.dec ∨ hasU sfx = true) ∨ digitsValue r.base ds < 2 ^ 63 := by
      rcases hc with hc | hc | hc
      · exact Or.inl (Or.inl hc)
      · exact Or.inl (Or.inr hc)
      · exact Or.inr hc
    rw [h, if_neg (by omega), if_pos hc1]

theorem numeric_constant_conversion_witness :
    cvtdig 5 ⟨[32, 48, 120, 49, 70, 117, 41], 2, NodeOp.NUMBER, 0⟩ =
      Res.ok ()
        { (⟨[32, 48, 120, 49, 70, 117, 41], 2, NodeOp.NUMBER, 0⟩ : Lex) with
          op := if hasU [117] = true ∨ 2 ^ 63 ≤ digitsValue (Radix.hex false).base [49, 70]
                then NodeOp.UNUMBER else NodeOp.NUMBER
          nd_uval := digitsValue (Radix.hex false).base [49, 70]
          yyinp := [32].length + (Radix.hex false).lead.length + [49, 70].length +
            [117].length } :=
  (numeric_constant_conversion (Radix.hex false) [32] [49, 70] [117] [41] 5
      ⟨[32, 48, 120, 49, 70, 117, 41], 2, NodeOp.NUMBER, 0⟩ (by decide) (by decide) (by decide)
      (by decide) (by decide) (by decide) (by decide)).2.2 (by decide) (Or.inl (by decide))

/-- C22, counterexample.  The decimal numeral `9223372036854775808` has the
value 2^63, which is below 2^64, yet `cvtdig` raises "constant is out of
range": the value is stored in `nd_uval`, but a decimal constant without `u`
that does not fit the signed type is refused, and the cursor is not moved. -/
theorem decimal_above_signed_range_refused :
    digitsValue 10 [57, 50, 50, 51, 51, 55, 50, 48, 51, 54, 56, 53, 52, 55, 55, 53, 56, 48, 56] =
      2 ^ 63 ∧
    cvtdig 21 ⟨[57, 50, 50, 51, 51, 55, 50, 48, 51, 54, 56, 53, 52, 55, 55, 53, 56, 48, 56], 1,
        NodeOp.NUMBER, 0⟩ =
      Res.fatal Err.constantOutOfRange
        ⟨[57, 50, 50, 51, 51, 55, 50, 48, 51, 54, 56, 53, 52, 55, 55, 53, 56, 48, 56], 1,
          NodeOp.NUMBER, 2 ^ 63⟩ := by
  have hv : digitsValue 10
      [57, 50, 50, 51, 51, 55, 50, 48, 51, 54, 56, 53, 52, 55, 55, 53, 56, 48, 56] = 2 ^ 63 := by
    decide
  refine ⟨hv, ?_⟩
  have h := cvtdig_spec Radix.dec []
    [57, 50, 50, 51, 51, 55, 50, 48, 51, 54, 56, 53, 52, 55, 55, 53, 56, 48, 56] [] [] 21
    ⟨[57, 50, 50, 51, 51, 55, 50, 48, 51, 54, 56, 53, 52, 55, 55, 53, 56, 48, 56], 1,
      NodeOp.NUMBER, 0⟩ (by decide) (by decide) (by decide) (by decide) (by decide) (by decide)
    (by decide)
  rw [h]
  simp only [Radix.base, hv]
  rw [if_neg (by norm_num), if_neg (by decide)]

/-! ## What `readid` leaves alone -/

theorem core_of_strip {s s1 : St} (h : s1.strip = s.strip) : s1.core = s.core := by
  unfold St.core
  rw [h]

theorem core_of_strip_id {s s1 : St} (a : List Int) (d : List Warn)
    (h : s1.strip = ({ s with idbuf := a, diag := d } : St).strip) : s1.core = s.core := by
  unfold St.core
  rw [h]
  rfl

theorem erb_of_core {s s1 : St} (h : s1.core = s.core) : s1.erb = s.erb :=
  congrArg (fun t => t.erb) h

theorem symtab_of_core {s s1 : St} (h : s1.core = s.core) : s1.symtab = s.symtab :=
  congrArg (fun t => t.symtab) h

theorem cond_of_core {s s1 : St} (h : s1.core = s.core) : s1.cond = s.cond :=
  congrArg (fun t => t.cond) h

theorem pb_of_core {s s1 : St} (h : s1.core = s.core) : s1.pb = s.pb :=
  congrArg (fun t => t.pb) h

theorem buffer_of_core {s s1 : St} (h : s1.core = s.core) :
    s1.ifiles.buffer = s.ifiles.buffer :=
  congrArg (fun t => t.ifiles.buffer) h

/-- One round of the loop of `readid`, with what it leaves alone. -/
theorem readidLoop_any_core (E : Env) (fuel : Nat) (s : St) (ch : Int) (p : Nat) (c : Int)
    (rest : List Int) (r1 : Int) (h : Rd E s (c :: rest) 0)
    (h13 : c ≠ 13) (h92 : c ≠ 92) (h63 : c ≠ 63) (h47 : c ≠ 47) (hr1 : r1 ≤ 1) :
    ∃ s1, Rd E s1 rest r1 ∧ s1.core = s.core ∧
      readidLoop E (fuel + 3) ch p s =
        (if idClass c = true then readidLoop E (fuel + 2) c (p + 1) s1
         else Res.ok (c, p + 1) s1) := by
  have hb := h.byte
  have h0 := h.1.buf
  obtain ⟨s1, h1, hs1, hr⟩ :=
    inch_plain E fuel
      { s with
        idbuf := if p < E.MAXIDSZ then arrSet s.idbuf p (ch % 256) else s.idbuf
        diag := if p = E.MAXIDSZ then s.diag ++ [Warn.idExceedsTruncating] else s.diag }
      c rest 0 r1 h h13 h92 h63 h47 (by omega)
      (by show r1 ≤ s.ifiles.buffer + 1; omega)
  refine ⟨s1, hr, core_of_strip_id _ _ hs1, ?_⟩
  conv_lhs => rw [readidLoop]
  have hid := idClass_spechr c (idClass c) rfl hb.1 hb.2 s1
  rcases Nat.lt_trichotomy p E.MAXIDSZ with hlt | heq | hgt
  · have hne : p ≠ E.MAXIDSZ := by omega
    simp only [hne, hlt, if_false, if_true] at h1
    simp only [M.bind_eq, M.andThen_apply, M.ite_apply, hne, hlt, if_false, if_true,
      M.pure_eq, M.ret_apply, Res.andThen_ok, modState_apply, h1, ISID, hid]
  · subst heq
    simp only [lt_self_iff_false, if_false, if_true] at h1
    simp only [M.bind_eq, M.andThen_apply, M.ite_apply, lt_self_iff_false, if_false, if_true,
      M.pure_eq, M.ret_apply, Res.andThen_ok, warning_apply, h1, ISID, hid]
  · have hne : p ≠ E.MAXIDSZ := by omega
    have hnl : ¬ p < E.MAXIDSZ := by omega
    simp only [hne, hnl, if_false] at h1
    simp only [M.bind_eq, M.andThen_apply, M.ite_apply, hne, hnl, if_false,
      M.pure_eq, M.ret_apply, Res.andThen_ok, h1, ISID, hid]

/-- The loop of `readid` over a run of identifier characters, with what it
leaves alone. -/
theorem readidLoop_run_core (E : Env) (fuel : Nat) (stop : Int) (rest : List Int)
    (hstop : idClass stop = false)
    (h13 : stop ≠ 13) (h92 : stop ≠ 92) (h63 : stop ≠ 63) (h47 : stop ≠ 47) :
    ∀ (run : List Int) (ch : Int) (p : Nat) (s : St),
      Rd E s (run ++ stop :: rest) 0 → (∀ c ∈ run, idClass c = true) →
      ∃ s1, readidLoop E (fuel + run.length + 3) ch p s =
          Res.ok (stop, p + run.length + 1) s1 ∧ s1.core = s.core := by
  intro run
  induction run with
  | nil =>
    intro ch p s h _
    obtain ⟨s1, _, hc1, e1⟩ :=
      readidLoop_any_core E fuel s ch p stop rest 1 h h13 h92 h63 h47 (le_refl _)
    rw [hstop] at e1
    exact ⟨s1, by simpa using e1, hc1⟩
  | cons c tl ih =>
    intro ch p s h hrun
    have hc := hrun c (List.mem_cons_self _ _)
    have hcp := idClass_plain c hc
    obtain ⟨s1, hr1, hc1, e1⟩ :=
      readidLoop_any_core E (fuel + tl.length + 1) s ch p c (tl ++ stop :: rest) 0 h hcp.1
        hcp.2.1 hcp.2.2.1 hcp.2.2.2.1 (by omega)
    rw [hc, if_pos rfl] at e1
    obtain ⟨s2, e2, hc2⟩ :=
      ih c (p + 1) s1 hr1 (fun x hx => hrun x (List.mem_cons_of_mem _ hx))
    have hfuel : fuel + (c :: tl).length + 3 = fuel + tl.length + 1 + 3 := by
      simp only [List.length_cons]; omega
    have hcnt : p + 1 + tl.length + 1 = p + (c :: tl).length + 1 := by
      simp only [List.length_cons]; omega
    exact ⟨s2, by rw [hfuel, e1, ← hcnt]; exact e2, hc2.trans hc1⟩

/-- An identifier of at most `MAXIDSZ` characters read by `readid`: it is
returned whole, the character that ends it is pushed back, and nothing but the
input buffer and `idbuf` has changed. -/
theorem readid_short_core (E : Env) (fuel : Nat) (s : St) (ch stop : Int) (run rest : List Int)
    (h : Rd E s (run ++ stop :: rest) 0) (hrun : ∀ c ∈ run, idClass c = true)
    (hch : idClass ch = true) (hch0 : 0 ≤ ch) (hch1 : ch < 256)
    (hstop : idClass stop = false)
    (h13 : stop ≠ 13) (h92 : stop ≠ 92) (h63 : stop ≠ 63) (h47 : stop ≠ 47)
    (hshort : run.length + 1 ≤ E.MAXIDSZ) :
    ∃ s1, readid E (fuel + run.length + 3) ch s = Res.ok (ch :: run) s1 ∧
      Rd E s1 (stop :: rest) 0 ∧ s1.diag = s.diag ∧ s1.core = s.core := by
  obtain ⟨s3, e3, hr3, hd3, _⟩ :=
    readid_short E fuel s ch stop run rest h hrun hch hch0 hch1 hstop h13 h92 h63 h47 hshort
  refine ⟨s3, e3, hr3, hd3, ?_⟩
  obtain ⟨s1, e1, hr1, _⟩ :=
    readidLoop_run E fuel stop rest hstop h13 h92 h63 h47 run ch 0 s h hrun
  obtain ⟨sa, ea, hca⟩ :=
    readidLoop_run_core E fuel stop rest hstop h13 h92 h63 h47 run ch 0 s h hrun
  have hsa : sa = s1 := by
    rw [e1] at ea
    simp only [Res.ok.injEq] at ea
    exact ea.2.symm
  subst hsa
  have hbs : 0 ≤ stop ∧ stop < 256 :=
    h.1.bytes stop (by rw [h.2.1]; simp)
  obtain ⟨s2, h2, hs2, _⟩ :=
    unch_ok E { sa with idbuf := arrSet sa.idbuf (0 + run.length + 1) 0 } stop rest 1 hr1
      (le_refl _) hbs.1 hbs.2
  have hle : ¬ (0 + run.length + 1 > E.MAXIDSZ) := by omega
  rw [readid] at e3
  simp only [M.bind_eq, M.andThen_apply, e1, Res.andThen_ok, M.ite_apply, hle, false_and,
    if_false, M.pure_eq, M.ret_apply, modState_apply, h2, getState_apply, Res.ok.injEq] at e3
  rw [← e3.2, ← hca]
  exact core_of_strip_id _ _ (by rw [hs2])

/-! ## Steps of the loop of `exprline` -/

set_option maxRecDepth 100000 in
theorem id0Class_table :
    ∀ n : Fin 256, id0Class ((n : Nat) : Int) = true →
      idClass ((n : Nat) : Int) = true ∧
      (spechr ((n : Nat) : Int)).map (fun v => v &&& C_DIGIT != 0) = some false ∧
      (spechr ((n : Nat) : Int)).map (fun v => v &&& C_ID0 != 0) = some true ∧
      (n : Nat) ≠ 10 ∧ (n : Nat) ≠ 46 ∧ (n : Nat) ≠ 39 ∧ (n : Nat) ≠ 34 := by
  decide

/-- A character that can start an identifier is a byte of the class `C_ID`, no
digit, and none of the characters the loop of `exprline` tests before. -/
theorem id0Class_props (c : Int) (h : id0Class c = true) :
    0 ≤ c ∧ c < 256 ∧ idClass c = true ∧
      (∃ v, spechr c = some v ∧ (v &&& C_DIGIT != 0) = false ∧ (v &&& C_ID0 != 0) = true) ∧
      c ≠ 10 ∧ c ≠ 46 ∧ c ≠ 39 ∧ c ≠ 34 := by
  have hr : 0 ≤ c ∧ c < 256 := by
    by_contra hn
    unfold id0Class spechr at h
    rw [if_neg hn] at h
    cases h
  obtain ⟨n, hn⟩ : ∃ n : Nat, c = (n : Int) := ⟨c.toNat, by omega⟩
  subst hn
  have hlt : n < 256 := by omega
  obtain ⟨t1, t2, t3, t4, t5, t6, t7⟩ := id0Class_table ⟨n, hlt⟩ h
  simp only at t1 t2 t3 t4 t5 t6 t7
  cases hs : spechr (n : Int) with
  | none => rw [hs] at t2; cases t2
  | some v =>
    rw [hs] at t2 t3
    simp only [Option.map_some', Option.some.injEq] at t2 t3
    exact ⟨hr.1, hr.2, t1, ⟨v, rfl, t2, t3⟩, by omega, by omega, by omega, by omega⟩

theorem diag_of_strip {s s1 : St} (h : s1.strip = s.strip) : s1.diag = s.diag :=
  congrArg (fun t => t.diag) h

theorem core_erb {s s1 : St} (a : List Int) (h : s1.core = s.core) :
    ({ s1 with erb := s1.erb ++ a } : St).core = ({ s with erb := s.erb ++ a } : St).core := by
  have e : ∀ t : St, ({ t with erb := t.erb ++ a } : St).core =
      { t.core with erb := t.core.erb ++ a } := fun _ => rfl
  rw [e, e, h]

@[simp] theorem lookup_apply (bp : List Int) (s : St) :
    lookup bp s =
      Res.ok (s.symtab.findIdx? (fun e => e.namep == bp && e.value.isSome)) s := rfl

/-- The loop of `exprline` with fuel `F`: a plain character is read. -/
theorem exprLoop_readF (E : Env) (F : Nat) (s : St) (ifdef : Bool) (c : Int)
    (rest : List Int) (r1 : Int) (h : Rd E s (c :: rest) 0)
    (h13 : c ≠ 13) (h92 : c ≠ 92) (h63 : c ≠ 63) (h47 : c ≠ 47) (hr1 : r1 ≤ 1) (hF : 3 ≤ F) :
    ∃ s1, s1.strip = s.strip ∧ Rd E s1 rest r1 ∧
      exprLoop E F none ifdef s = exprLoop E (F - 1) (some c) ifdef s1 := by
  obtain ⟨f, rfl⟩ : ∃ f, F = f + 3 := ⟨F - 3, by omega⟩
  have h0 := h.1.buf
  exact exprLoop_read E f s ifdef c rest 0 r1 h h13 h92 h63 h47 (by omega) (by omega)

/-- A character of the `#if` line that starts no number, literal or
identifier is read and copied to the expression buffer. -/
theorem exprLoop_copy (E : Env) (F : Nat) (s : St) (ifdef : Bool) (c : Int) (v : Nat)
    (rest : List Int) (h : Rd E s (c :: rest) 0)
    (h13 : c ≠ 13) (h92 : c ≠ 92) (h63 : c ≠ 63) (h47 : c ≠ 47)
    (h10 : c ≠ 10) (h46 : c ≠ 46) (h39 : c ≠ 39) (h34 : c ≠ 34) (h76 : c ≠ 76)
    (h117 : c ≠ 117) (h85 : c ≠ 85) (hv : spechr c = some v)
    (hd : (v &&& C_DIGIT != 0) = false) (hi : (v &&& C_ID0 != 0) = false) (hF : 3 ≤ F) :
    ∃ s1, Rd E s1 rest 0 ∧ s1.core = s.core ∧ s1.diag = s.diag ∧
      exprLoop E F none ifdef s =
        exprLoop E (F - 2) none ifdef { s1 with erb := s1.erb ++ [c] } := by
  obtain ⟨f, rfl⟩ : ∃ f, F = f + 3 := ⟨F - 3, by omega⟩
  have hb := h.byte
  obtain ⟨s1, hs1, hr1, e1⟩ :=
    exprLoop_readF E (f + 3) s ifdef c rest 0 h h13 h92 h63 h47 (by omega) (by omega)
  have e2 := exprLoop_other E (f + 1) s1 ifdef c v h10 h46 h39 h34 h76 h117 h85 hv hd hi
  rw [Int.emod_eq_of_lt hb.1 hb.2] at e2
  exact ⟨s1, hr1, core_of_strip hs1, diag_of_strip hs1, e1.trans e2⟩

/-- The character after an `L`, `u` or `U` is looked at and pushed back. -/
theorem exprLoop_ident (E : Env) (fuel : Nat) (s : St) (ifdef : Bool) (c d : Int)
    (rest : List Int) (hc : id0Class c = true) (h : Rd E s (d :: rest) 0)
    (h13 : d ≠ 13) (h92 : d ≠ 92) (h63 : d ≠ 63) (h47 : d ≠ 47) (h39 : d ≠ 39) :
    ∃ s1, s1.strip = s.strip ∧ Rd E s1 (d :: rest) 0 ∧
      exprLoop E (fuel + 3) (some c) ifdef s =
        (readid E (fuel + 2) c s1).andThen (fun dp s2 =>
          (exprIdent E (s2.symtab.findIdx? (fun e => e.namep == dp && e.value.isSome))
            ifdef s2).andThen (fun b s3 => exprLoop E (fuel + 2) none b s3)) := by
  obtain ⟨_, _, _, ⟨v, hv, hd, hi⟩, c10, c46, c39, c34⟩ := id0Class_props c hc
  have h0 := h.1.buf
  have hb := h.byte
  by_cases hL : c = 76 ∨ c = 117 ∨ c = 85
  · obtain ⟨sa, ha, hsa, hra⟩ :=
      inch_plain E fuel s d rest 0 1 h h13 h92 h63 h47 (by omega) (by omega)
    obtain ⟨sb, hb2, hsb, hrb⟩ := unch_ok E sa d rest 1 hra (le_refl _) hb.1 hb.2
    refine ⟨sb, hsb.trans hsa, by simpa using hrb, ?_⟩
    rw [exprLoop]
    simp only [M.bind_eq, M.andThen_apply, M.ite_apply, c10, c46, if_false, M.pure_eq,
      M.ret_apply, Res.andThen_ok, Bool.false_eq_true, ISDIGIT, ISID0,
      spechrHas_of c C_DIGIT v _ hv, spechrHas_of c C_ID0 v _ hv, hd, hi, c39, c34, or_self,
      hL, if_true, ha, hb2, h39, decide_False]
    rfl
  · refine ⟨s, rfl, h, ?_⟩
    rw [exprLoop]
    simp only [M.bind_eq, M.andThen_apply, M.ite_apply, c10, c46, if_false, M.pure_eq,
      M.ret_apply, Res.andThen_ok, Bool.false_eq_true, ISDIGIT, ISID0,
      spechrHas_of c C_DIGIT v _ hv, spechrHas_of c C_ID0 v _ hv, hd, hi, c39, c34, or_self,
      hL, if_true]
    rfl

theorem exprIdent_defloc (E : Env) (s : St) (ifdef : Bool) (i : Nat)
    (h : ((s.symtab.get? i).bind (fun e => e.value)).bind List.head? = some E.DEFLOC) :
    exprIdent E (some i) ifdef s = Res.ok true s := by
  simp only [exprIdent, M.bind_eq, M.andThen_apply, getState_apply, Res.andThen_ok, M.ite_apply,
    h, if_true, M.pure_eq, M.ret_apply]

theorem exprIdent_defined (E : Env) (s : St) (nl : Option Nat)
    (h : ∀ i, nl = some i →
      ((s.symtab.get? i).bind (fun e => e.value)).bind List.head? ≠ some E.DEFLOC) :
    exprIdent E nl true s =
      Res.ok false { s with erb := s.erb ++ [if nl.isSome = true then 49 else 48] } := by
  cases nl with
  | none => simp [exprIdent]
  | some i =>
    have hi := h i rfl
    simp only [exprIdent, M.bind_eq, M.andThen_apply, getState_apply, Res.andThen_ok,
      M.ite_apply, hi, if_false, if_true, M.pure_eq, M.ret_apply, putob_erb, Option.isSome_some]
    rfl

theorem exprIdent_none (E : Env) (s : St) (ifdef : Bool) :
    exprIdent E none ifdef s = Res.ok false { s with erb := s.erb ++ [48] } := by
  cases ifdef <;> simp [exprIdent]

theorem head_of_append (run : List Int) (stop : Int) (rest : List Int) :
    ∃ d rest1, run ++ stop :: rest = d :: rest1 ∧ (d ∈ run ∨ d = stop) := by
  cases run with
  | nil => exact ⟨stop, rest, rfl, Or.inr rfl⟩
  | cons a t => exact ⟨a, t ++ stop :: rest, rfl, Or.inl (List.mem_cons_self _ _)⟩

/-- An identifier of at most `MAXIDSZ` characters met at the label `xloop`: it
is read and looked up, and `exprIdent` decides what is written. -/
theorem exprLoop_name (E : Env) (F : Nat) (s : St) (ifdef : Bool) (ch stop : Int)
    (run rest : List Int) (h : Rd E s (run ++ stop :: rest) 0)
    (hrun : ∀ c ∈ run, idClass c = true) (hch : id0Class ch = true)
    (hstop : idClass stop = false)
    (h13 : stop ≠ 13) (h92 : stop ≠ 92) (h63 : stop ≠ 63) (h47 : stop ≠ 47) (h39 : stop ≠ 39)
    (hshort : run.length + 1 ≤ E.MAXIDSZ) (hF : run.length + 4 ≤ F) :
    ∃ s1, Rd E s1 (stop :: rest) 0 ∧ s1.diag = s.diag ∧ s1.core = s.core ∧
      exprLoop E F (some ch) ifdef s =
        (exprIdent E (s.symtab.findIdx? (fun e => e.namep == (ch :: run) && e.value.isSome))
          ifdef s1).andThen (fun b s2 => exprLoop E (F - 1) none b s2) := by
  obtain ⟨g, rfl⟩ : ∃ g, F = g + run.length + 1 + 3 := ⟨F - run.length - 4, by omega⟩
  obtain ⟨c0, c1, hid, _, _, _, _, _⟩ := id0Class_props ch hch
  obtain ⟨d, rest1, hd, hmem⟩ := head_of_append run stop rest
  have e39 : idClass 39 = false := by decide
  have hdp : d ≠ 13 ∧ d ≠ 92 ∧ d ≠ 63 ∧ d ≠ 47 ∧ d ≠ 39 := by
    rcases hmem with hm | hm
    · have hi := hrun d hm
      have hp := idClass_plain d hi
      refine ⟨hp.1, hp.2.1, hp.2.2.1, hp.2.2.2.1, ?_⟩
      intro h39d
      rw [h39d, e39] at hi
      cases hi
    · rw [hm]; exact ⟨h13, h92, h63, h47, h39⟩
  have h1 : Rd E s (d :: rest1) 0 := by rw [← hd]; exact h
  obtain ⟨sa, hsa, hra, ea⟩ :=
    exprLoop_ident E (g + run.length + 1) s ifdef ch d rest1 hch h1 hdp.1 hdp.2.1 hdp.2.2.1
      hdp.2.2.2.1 hdp.2.2.2.2
  rw [← hd] at hra
  obtain ⟨sb, eb, hrb, hdb, hcb⟩ :=
    readid_short_core E g sa ch stop run rest hra hrun hid c0 c1 hstop h13 h92 h63 h47 hshort
  have eb1 : readid E (g + run.length + 1 + 2) ch sa = Res.ok (ch :: run) sb := eb
  have hcs : sb.core = s.core := hcb.trans (core_of_strip hsa)
  refine ⟨sb, hrb, hdb.trans (diag_of_strip hsa), hcs, ?_⟩
  rw [ea, eb1, Res.andThen_ok, symtab_of_core hcs]
  rfl

/-- An identifier of at most `MAXIDSZ` characters met at the top of the loop
of `exprline`. -/
theorem exprLoop_word (E : Env) (F : Nat) (s : St) (ifdef : Bool) (ch stop : Int)
    (run rest : List Int) (h : Rd E s (ch :: (run ++ stop :: rest)) 0)
    (hrun : ∀ c ∈ run, idClass c = true) (hch : id0Class ch = true)
    (hstop : idClass stop = false)
    (h13 : stop ≠ 13) (h92 : stop ≠ 92) (h63 : stop ≠ 63) (h47 : stop ≠ 47) (h39 : stop ≠ 39)
    (hshort : run.length + 1 ≤ E.MAXIDSZ) (hF : run.length + 5 ≤ F) :
    ∃ s1, Rd E s1 (stop :: rest) 0 ∧ s1.diag = s.diag ∧ s1.core = s.core ∧
      exprLoop E F none ifdef s =
        (exprIdent E (s.symtab.findIdx? (fun e => e.namep == (ch :: run) && e.value.isSome))
          ifdef s1).andThen (fun b s2 => exprLoop E (F - 2) none b s2) := by
  obtain ⟨_, _, hid, _, _, _, _, _⟩ := id0Class_props ch hch
  have hp := idClass_plain ch hid
  obtain ⟨s1, hs1, hr1, e1⟩ :=
    exprLoop_readF E F s ifdef ch _ 0 h hp.1 hp.2.1 hp.2.2.1 hp.2.2.2.1 (by omega) (by omega)
  obtain ⟨s2, hr2, hd2, hc2, e2⟩ :=
    exprLoop_name E (F - 1) s1 ifdef ch stop run rest hr1 hrun hch hstop h13 h92 h63 h47 h39
      hshort (by omega)
  have hc1 : s1.core = s.core := core_of_strip hs1
  refine ⟨s2, hr2, hd2.trans (diag_of_strip hs1), hc2.trans hc1, ?_⟩
  have hF2 : F - 1 - 1 = F - 2 := by omega
  rw [e1, e2, symtab_of_core hc1, hF2]

/-! ## C23: the operator `defined` -/

/-- C23 (amended): on an `#if` line, with the word `defined` in the table as
the symbol whose value begins with `DEFLOC`: when the loop of `exprline` meets
`defined NAME` or `defined(NAME)`, where `NAME` is an identifier of at most
`MAXIDSZ` characters that is not itself a symbol whose value begins with
`DEFLOC`, ended by a plain character other than a quote, it writes the blank or
the parenthesis and then `1` if `lookup` finds `NAME` and `0` otherwise,
nothing for the word `defined`, whatever `kfind` would expand `NAME` to; and an
identifier that `lookup` does not find and that does not follow `defined` is
written as `0`. -/
theorem defined_operator (E : Env) (F : Nat) (s : St) (sep n0 stop : Int)
    (nrun rest : List Int) (i : Nat) (nl : Option Nat)
    (hsep : sep = 32 ∨ sep = 40)
    (hn0 : id0Class n0 = true) (hnrun : ∀ c ∈ nrun, idClass c = true)
    (hlen : nrun.length + 1 ≤ E.MAXIDSZ) (hmax : 7 ≤ E.MAXIDSZ)
    (hstop : idClass stop = false)
    (h13 : stop ≠ 13) (h92 : stop ≠ 92) (h63 : stop ≠ 63) (h47 : stop ≠ 47) (h39 : stop ≠ 39)
    (hdef : lookup (str "defined") s = Res.ok (some i) s)
    (hloc : ((s.symtab.get? i).bind (fun e => e.value)).bind List.head? = some E.DEFLOC)
    (hnl : lookup (n0 :: nrun) s = Res.ok nl s)
    (hnot : ∀ j, nl = some j →
      ((s.symtab.get? j).bind (fun e => e.value)).bind List.head? ≠ some E.DEFLOC)
    (hF : nrun.length + 11 ≤ F) :
    (Rd E s (str "defined" ++ (sep :: ((n0 :: nrun) ++ (stop :: rest)))) 0 →
      ∃ s1, exprLoop E F none false s = exprLoop E (F - 6) none false s1 ∧
        s1.erb = s.erb ++ [sep, if nl.isSome = true then 49 else 48] ∧
        pending s1.ifiles = stop :: rest ∧ s1.diag = s.diag) ∧
    (nl = none → Rd E s ((n0 :: nrun) ++ (stop :: rest)) 0 →
      ∃ s1, exprLoop E F none false s = exprLoop E (F - 2) none false s1 ∧
        s1.erb = s.erb ++ [48] ∧ pending s1.ifiles = stop :: rest ∧ s1.diag = s.diag) := by
  have hnl1 : s.symtab.findIdx? (fun e => e.namep == (n0 :: nrun) && e.value.isSome) = nl := by
    have := hnl
    simp only [lookup_apply, Res.ok.injEq, and_true] at this
    exact this
  constructor
  · intro h
    have hstr : str "defined" = [100, 101, 102, 105, 110, 101, 100] := by decide
    have hdef1 : s.symtab.findIdx?
        (fun e => e.namep == [100, 101, 102, 105, 110, 101, 100] && e.value.isSome) = some i := by
      have := hdef
      simp only [lookup_apply, Res.ok.injEq, and_true, hstr] at this
      exact this
    have h1 : Rd E s (100 :: ([101, 102, 105, 110, 101, 100] ++
        sep :: ((n0 :: nrun) ++ (stop :: rest)))) 0 := by
      rw [hstr] at h
      exact h
    have hsepc : idClass sep = false ∧ sep ≠ 13 ∧ sep ≠ 92 ∧ sep ≠ 63 ∧ sep ≠ 47 ∧ sep ≠ 39 ∧
        sep ≠ 10 ∧ sep ≠ 46 ∧ sep ≠ 34 ∧ sep ≠ 76 ∧ sep ≠ 117 ∧ sep ≠ 85 ∧
        ∃ v, spechr sep = some v ∧ (v &&& C_DIGIT != 0) = false ∧
          (v &&& C_ID0 != 0) = false := by
      rcases hsep with rfl | rfl
      · exact ⟨by decide, by decide, by decide, by decide, by decide, by decide, by decide,
          by decide, by decide, by decide, by decide, by decide, 4, by decide, by decide,
          by decide⟩
      · exact ⟨by decide, by decide, by decide, by decide, by decide, by decide, by decide,
          by decide, by decide, by decide, by decide, by decide, 0, by decide, by decide,
          by decide⟩
    obtain ⟨q1, q13, q92, q63, q47, q39, q10, q46, q34, q76, q117, q85, v, qv, qd, qi⟩ := hsepc
    -- the word `defined`
    obtain ⟨s2, hr2, hd2, hc2, e2⟩ :=
      exprLoop_word E F s false 100 sep [101, 102, 105, 110, 101, 100] _ h1 (by decide)
        (by decide) q1 q13 q92 q63 q47 q39 (by simpa using hmax) (by simp; omega)
    rw [hdef1, exprIdent_defloc E s2 false i (by rw [symtab_of_core hc2]; exact hloc),
      Res.andThen_ok] at e2
    -- the blank or the parenthesis
    obtain ⟨s3, hr3, hc3, hd3, e3⟩ :=
      exprLoop_copy E (F - 2) s2 true sep v _ hr2 q13 q92 q63 q47 q10 q46 q39 q34 q76 q117 q85
        qv qd qi (by omega)
    -- the name
    have hr3a : Rd E ({ s3 with erb := s3.erb ++ [sep] } : St)
        (n0 :: (nrun ++ stop :: rest)) 0 := hr3
    obtain ⟨s5, hr5, hd5, hc5, e5⟩ :=
      exprLoop_word E (F - 2 - 2) { s3 with erb := s3.erb ++ [sep] } true n0 stop nrun rest hr3a
        hnrun hn0 hstop h13 h92 h63 h47 h39 hlen (by omega)
    have hsym3 : s3.symtab = s.symtab := (symtab_of_core hc3).trans (symtab_of_core hc2)
    have hsym5 : s5.symtab = s.symtab := (symtab_of_core hc5).trans hsym3
    have e5a : exprLoop E (F - 2 - 2) none true { s3 with erb := s3.erb ++ [sep] } =
        exprLoop E (F - 6) none false
          { s5 with erb := s5.erb ++ [if nl.isSome = true then 49 else 48] } := by
      rw [e5]
      show (exprIdent E (s3.symtab.findIdx? _) true s5).andThen _ = _
      rw [hsym3, hnl1, exprIdent_defined E s5 nl (by rw [hsym5]; exact hnot), Res.andThen_ok]
      have hF6 : F - 2 - 2 - 2 = F - 6 := by omega
      rw [hF6]
    refine ⟨{ s5 with erb := s5.erb ++ [if nl.isSome = true then 49 else 48] },
      e2.trans (e3.trans e5a), ?_, hr5.2.1, ?_⟩
    · show s5.erb ++ [if nl.isSome = true then 49 else 48] = _
      have b5 : s5.erb = s3.erb ++ [sep] := erb_of_core hc5
      rw [b5, erb_of_core hc3, erb_of_core hc2]
      simp
    · show s5.diag = s.diag
      rw [hd5]
      show s3.diag = s.diag
      rw [hd3, hd2]
  · intro hnone h
    obtain ⟨s2, hr2, hd2, hc2, e2⟩ :=
      exprLoop_word E F s false n0 stop nrun rest h hnrun hn0 hstop h13 h92 h63 h47 h39 hlen
        (by omega)
    rw [hnl1, hnone, exprIdent_none, Res.andThen_ok] at e2
    refine ⟨{ s2 with erb := s2.erb ++ [48] }, e2, ?_, hr2.2.1, hd2⟩
    show s2.erb ++ [48] = s.erb ++ [48]
    rw [erb_of_core hc2]

theorem defined_operator_witness :
    (∃ s1, exprLoop sampleEnv 11 none false
          (definedState [100, 101, 102, 105, 110, 101, 100, 32, 88, 10]) =
        exprLoop sampleEnv (11 - 6) none false s1 ∧
      s1.erb = (definedState [100, 101, 102, 105, 110, 101, 100, 32, 88, 10]).erb ++
        [32, if (some 1 : Option Nat).isSome = true then 49 else 48] ∧
      pending s1.ifiles = 10 :: [] ∧
      s1.diag = (definedState [100, 101, 102, 105, 110, 101, 100, 32, 88, 10]).diag) ∧
    (∃ s1, exprLoop sampleEnv 11 none false (definedState [89, 10]) =
        exprLoop sampleEnv (11 - 2) none false s1 ∧
      s1.erb = (definedState [89, 10]).erb ++ [48] ∧ pending s1.ifiles = 10 :: [] ∧
      s1.diag = (definedState [89, 10]).diag) :=
  ⟨(defined_operator sampleEnv 11 (definedState [100, 101, 102, 105, 110, 101, 100, 32, 88, 10])
      32 88 10 [] [] 0 (some 1) (Or.inl rfl) (by decide) (by decide) (by decide) (by decide)
      (by decide) (by decide) (by decide) (by decide) (by decide) (by decide) rfl (by decide)
      rfl (by intro j hj; cases hj; decide) (by decide)).1
      ((rd_open _ (by decide)).of_frame rfl rfl rfl rfl rfl rfl),
   (defined_operator sampleEnv 11 (definedState [89, 10])
      32 89 10 [] [] 0 none (Or.inl rfl) (by decide) (by decide) (by decide) (by decide)
      (by decide) (by decide) (by decide) (by decide) (by decide) (by decide) rfl (by decide)
      rfl (by intro j hj; cases hj) (by decide)).2 rfl
      ((rd_open _ (by decide)).of_frame rfl rfl rfl rfl rfl rfl)⟩

/-- C23, counterexample.  The word `defined` is itself found by `lookup`, yet
for `defined defined` the loop of `exprline` writes only the blank: no `1` is
written for the second word, which is taken for the operator again. -/
theorem defined_of_defined_writes_nothing :
    lookup (str "defined")
        (definedState [100, 101, 102, 105, 110, 101, 100, 32,
          100, 101, 102, 105, 110, 101, 100, 10]) =
      Res.ok (some 0)
        (definedState [100, 101, 102, 105, 110, 101, 100, 32,
          100, 101, 102, 105, 110, 101, 100, 10]) ∧
    ∃ s1, exprLoop sampleEnv 15 none false
          (definedState [100, 101, 102, 105, 110, 101, 100, 32,
            100, 101, 102, 105, 110, 101, 100, 10]) = Res.ok () s1 ∧
      s1.erb = [32] := by
  refine ⟨rfl, ?_⟩
  have h0 : Rd sampleEnv
      (definedState [100, 101, 102, 105, 110, 101, 100, 32, 100, 101, 102, 105, 110, 101, 100, 10])
      (100 :: ([101, 102, 105, 110, 101, 100] ++
        32 :: 100 :: 101 :: 102 :: 105 :: 110 :: 101 :: 100 :: 10 :: [])) 0 :=
    (rd_open _ (by decide)).of_frame rfl rfl rfl rfl rfl rfl
  obtain ⟨s2, hr2, _, hc2, e2⟩ :=
    exprLoop_word sampleEnv 15 _ false 100 32 [101, 102, 105, 110, 101, 100] _ h0 (by decide)
      (by decide) (by decide) (by decide) (by decide) (by decide) (by decide) (by decide)
      (by decide) (by decide)
  have hfind : (definedState [100, 101, 102, 105, 110, 101, 100, 32,
      100, 101, 102, 105, 110, 101, 100, 10]).symtab.findIdx?
      (fun e => e.namep == [100, 101, 102, 105, 110, 101, 100] && e.value.isSome) = some 0 := by
    decide
  have hsym2 : s2.symtab = [⟨str "defined", some [sampleEnv.DEFLOC]⟩, ⟨[88], some [49]⟩] :=
    symtab_of_core hc2
  rw [hfind, exprIdent_defloc sampleEnv s2 false 0 (by rw [hsym2]; decide),
    Res.andThen_ok] at e2
  obtain ⟨s3, hr3, hc3, _, e3⟩ :=
    exprLoop_copy sampleEnv (15 - 2) s2 true 32 4 _ hr2 (by decide) (by decide) (by decide)
      (by decide) (by decide) (by decide) (by decide) (by decide) (by decide) (by decide)
      (by decide) (by decide) (by decide) (by decide) (by decide)
  have hr3a : Rd sampleEnv ({ s3 with erb := s3.erb ++ [32] } : St)
      (100 :: ([101, 102, 105, 110, 101, 100] ++ 10 :: [])) 0 := hr3
  obtain ⟨s5, hr5, _, hc5, e5⟩ :=
    exprLoop_word sampleEnv (15 - 2 - 2) _ true 100 10 [101, 102, 105, 110, 101, 100] _ hr3a
      (by decide) (by decide) (by decide) (by decide) (by decide) (by decide) (by decide)
      (by decide) (by decide) (by decide)
  have hsym3 : s3.symtab = [⟨str "defined", some [sampleEnv.DEFLOC]⟩, ⟨[88], some [49]⟩] :=
    (symtab_of_core hc3).trans hsym2
  have hsym5 : s5.symtab = [⟨str "defined", some [sampleEnv.DEFLOC]⟩, ⟨[88], some [49]⟩] :=
    (symtab_of_core hc5).trans hsym3
  have e5a : exprLoop sampleEnv (15 - 2 - 2) none true { s3 with erb := s3.erb ++ [32] } =
      exprLoop sampleEnv (15 - 2 - 2 - 2) none true s5 := by
    rw [e5]
    show (exprIdent sampleEnv (s3.symtab.findIdx? _) true s5).andThen _ = _
    rw [hsym3]
    have hf2 : ([⟨str "defined", some [sampleEnv.DEFLOC]⟩, ⟨[88], some [49]⟩] :
        List symtab).findIdx?
        (fun e => e.namep == [100, 101, 102, 105, 110, 101, 100] && e.value.isSome) =
        some 0 := by decide
    rw [hf2, exprIdent_defloc sampleEnv s5 true 0 (by rw [hsym5]; decide), Res.andThen_ok]
  obtain ⟨s6, hs6, _, e6⟩ :=
    exprLoop_readF sampleEnv (15 - 2 - 2 - 2) s5 true 10 [] 0 hr5 (by decide) (by decide)
      (by decide) (by decide) (by decide) (by decide)
  have e7 : exprLoop sampleEnv (15 - 2 - 2 - 2 - 1) (some 10) true s6 = Res.ok () s6 :=
    exprLoop_newline sampleEnv 7 s6 true
  refine ⟨s6, by rw [e2, e3, e5a, e6, e7], ?_⟩
  have b5 : s5.erb = s3.erb ++ [32] := erb_of_core hc5
  rw [erb_of_strip hs6, b5, erb_of_core hc3, erb_of_core hc2]
  rfl

/-! ## Numbers on the `#if` line -/

/-- The loop of `fastnum`: the next character goes on the number. -/
theorem fastnumLoop_more (E : Env) (F : Nat) (s : St) (c d : Int) (w : Nat)
    (rest : List Int) (h : Rd E s (d :: rest) 0)
    (h13 : d ≠ 13) (h92 : d ≠ 92) (h63 : d ≠ 63) (h47 : d ≠ 47)
    (hw : spechr d = some w) (he : (w &&& C_EP != 0) = false)
    (hi : d = 46 ∨ (w &&& C_ID != 0) = true) (hF : 3 ≤ F) :
    ∃ s1, s1.strip = ({ s with erb := s.erb ++ [c % 256] } : St).strip ∧ Rd E s1 rest 0 ∧
      fastnumLoop E Ob.erb F c s = fastnumLoop E Ob.erb (F - 1) d s1 := by
  obtain ⟨f, rfl⟩ : ∃ f, F = f + 3 := ⟨F - 3, by omega⟩
  have hd0 := h.byte
  have h0 := h.1.buf
  have hdn : ¬ d < 0 := by omega
  obtain ⟨s1, h1, hs1, hr⟩ :=
    inch_plain E f { s with erb := s.erb ++ [c % 256] } d rest 0 0 h h13 h92 h63 h47
      (by omega) (by show (0 : Int) ≤ s.ifiles.buffer + 1; omega)
  refine ⟨s1, hs1, hr, ?_⟩
  conv_lhs => rw [fastnumLoop]
  rcases hi with hi | hi
  · simp only [M.bind_eq, M.andThen_apply, putob_erb, Res.andThen_ok, h1, M.ite_apply, hdn,
      if_false, spechrHas_of d C_EP w s1 hw, he, Bool.false_eq_true, hi, if_true]
    rfl
  · by_cases h46 : d = 46
    · simp only [M.bind_eq, M.andThen_apply, putob_erb, Res.andThen_ok, h1, M.ite_apply, hdn,
        if_false, spechrHas_of d C_EP w s1 hw, he, Bool.false_eq_true, h46, if_true]
      rfl
    · simp only [M.bind_eq, M.andThen_apply, putob_erb, Res.andThen_ok, h1, M.ite_apply, hdn,
        if_false, spechrHas_of d C_EP w s1 hw, he, Bool.false_eq_true, h46,
        spechrHas_of d C_ID w s1 hw, hi, if_true]
      rfl

/-- The loop of `fastnum`: a character of the class `C_EP` that no sign
follows ends the number; it is returned and not stored, and the character
after it is pushed back. -/
theorem fastnumLoop_exp (E : Env) (F : Nat) (s : St) (c d d2 : Int) (w : Nat)
    (rest : List Int) (h : Rd E s (d :: d2 :: rest) 0)
    (h13 : d ≠ 13) (h92 : d ≠ 92) (h63 : d ≠ 63) (h47 : d ≠ 47)
    (g13 : d2 ≠ 13) (g92 : d2 ≠ 92) (g63 : d2 ≠ 63) (g47 : d2 ≠ 47)
    (g45 : d2 ≠ 45) (g43 : d2 ≠ 43)
    (hw : spechr d = some w) (he : (w &&& C_EP != 0) = true) (hF : 3 ≤ F) :
    ∃ s1, s1.strip = ({ s with erb := s.erb ++ [c % 256] } : St).strip ∧
      Rd E s1 (d2 :: rest) 0 ∧ fastnumLoop E Ob.erb F c s = Res.ok d s1 := by
  obtain ⟨f, rfl⟩ : ∃ f, F = f + 3 := ⟨F - 3, by omega⟩
  have hd0 := h.byte
  have h0 := h.1.buf
  have hdn : ¬ d < 0 := by omega
  obtain ⟨s1, h1, hs1, hr1⟩ :=
    inch_plain E f { s with erb := s.erb ++ [c % 256] } d (d2 :: rest) 0 0 h h13 h92 h63 h47
      (by omega) (by show (0 : Int) ≤ s.ifiles.buffer + 1; omega)
  have hb1 : s1.ifiles.buffer = s.ifiles.buffer := congrArg (fun t => t.ifiles.buffer) hs1
  have hg0 := hr1.byte
  obtain ⟨s2, h2, hs2, hr2⟩ :=
    inch_plain E f s1 d2 rest 0 1 hr1 g13 g92 g63 g47 (by omega) (by omega)
  obtain ⟨s3, h3, hs3, hr3⟩ := unch_ok E s2 d2 rest 1 hr2 (le_refl _) hg0.1 hg0.2
  have hge : d2 ≥ 0 := hg0.1
  refine ⟨s3, (hs3.trans hs2).trans hs1, by simpa using hr3, ?_⟩
  conv_lhs => rw [fastnumLoop]
  simp only [M.bind_eq, M.andThen_apply, putob_erb, Res.andThen_ok, h1, M.ite_apply, hdn,
    if_false, spechrHas_of d C_EP w s1 hw, he, if_true, h2, ne_eq, g45, g43, not_false_eq_true,
    and_self, hge, h3, M.pure_eq, M.ret_apply]

/-- A digit at the label `xloop`: `fastnum` copies the number, and the loop
goes on at the label with the character `fastnum` returns. -/
theorem exprLoop_number (E : Env) (F : Nat) (s : St) (ifdef : Bool) (c : Int) (v : Nat)
    (c10 : c ≠ 10) (c46 : c ≠ 46) (hv : spechr c = some v)
    (hd : (v &&& C_DIGIT != 0) = true) (hF : 1 ≤ F) :
    exprLoop E F (some c) ifdef s =
      (fastnumLoop E Ob.erb (F - 1) c s).andThen
        (fun c1 s1 => exprLoop E (F - 1) (some c1) ifdef s1) := by
  obtain ⟨f, rfl⟩ : ∃ f, F = f + 1 := ⟨F - 1, by omega⟩
  conv_lhs => rw [exprLoop]
  simp only [M.bind_eq, M.andThen_apply, M.ite_apply, c10, c46, if_false, M.pure_eq,
    M.ret_apply, Res.andThen_ok, Bool.false_eq_true, ISDIGIT, spechrHas_of c C_DIGIT v s hv, hd,
    if_true, fastnum, Bool.not_true]
  rfl

/-- The function `exprline`, once its loop has returned: the newline is pushed
back and `yyparse` is run on the expression buffer. -/
theorem exprline_of_loop (E : Env) (F : Nat) (s t : St) (rest : List Int)
    (hL : exprLoop E F none false
      { s with erb := [], nbufused := s.nbufused - 1, Cflag := 0 } = Res.ok () t)
    (hr : Rd E t rest 1) :
    ∃ t1, t1.strip = t.strip ∧ Rd E t1 (10 :: rest) 0 ∧
      exprline E F s =
        (E.yyparse { t1 with yyinp := t1.erb }).andThen
          (fun c s2 => Res.ok c { s2 with nbufused := s2.nbufused + 1, Cflag := s.Cflag }) := by
  obtain ⟨t1, h1, hs1, hr1⟩ := unch_ok E t 10 rest 1 hr (le_refl _) (by decide) (by decide)
  refine ⟨t1, hs1, by simpa using hr1, ?_⟩
  have hreset : obReset Ob.erb s = Res.ok () { s with erb := [] } := rfl
  rw [exprline]
  simp only [M.bind_eq, M.andThen_apply, getState_apply, Res.andThen_ok, hreset, modState_apply,
    hL, h1, M.pure_eq, M.ret_apply]
  rfl

/-- The rest of line ` 0x1E` in the loop of `exprline`: `fastnum` stops at the
`E`, which is then read as an identifier of its own and, being no macro,
written as `0`. -/
theorem exprLoop_hex_exponent (E : Env) (F : Nat) (s : St) (rest : List Int)
    (h : Rd E s (32 :: 48 :: 120 :: 49 :: 69 :: 10 :: rest) 0)
    (hnl : s.symtab.findIdx? (fun e => e.namep == [69] && e.value.isSome) = none)
    (hm : 1 ≤ E.MAXIDSZ) (hF : 9 ≤ F) :
    ∃ s1, exprLoop E F none false s = Res.ok () s1 ∧
      s1.erb = s.erb ++ [32, 48, 120, 49, 48] ∧ Rd E s1 rest 1 := by
  -- the blank
  obtain ⟨s1, hr1, hc1, _, e1⟩ :=
    exprLoop_copy E F s false 32 4 _ h (by decide) (by decide) (by decide) (by decide)
      (by decide) (by decide) (by decide) (by decide) (by decide) (by decide) (by decide)
      (by decide) (by decide) (by decide) (by omega)
  have hr1a : Rd E ({ s1 with erb := s1.erb ++ [32] } : St)
      (48 :: 120 :: 49 :: 69 :: 10 :: rest) 0 := hr1
  -- the digit `0` is read and `fastnum` entered
  obtain ⟨s2, hs2, hr2, e2⟩ :=
    exprLoop_readF E (F - 2) { s1 with erb := s1.erb ++ [32] } false 48 _ 0 hr1a (by decide)
      (by decide) (by decide) (by decide) (by omega) (by omega)
  have e3 := exprLoop_number E (F - 2 - 1) s2 false 48 201 (by decide) (by decide) (by decide)
    (by decide) (by omega)
  obtain ⟨s4, hs4, hr4, e4⟩ :=
    fastnumLoop_more E (F - 2 - 1 - 1) s2 48 120 25 _ hr2 (by decide) (by decide) (by decide)
      (by decide) (by decide) (by decide) (Or.inr (by decide)) (by omega)
  obtain ⟨s5, hs5, hr5, e5⟩ :=
    fastnumLoop_more E (F - 2 - 1 - 1 - 1) s4 120 49 201 _ hr4 (by decide) (by decide)
      (by decide) (by decide) (by decide) (by decide) (Or.inr (by decide)) (by omega)
  obtain ⟨s6, hs6, hr6, e6⟩ :=
    fastnumLoop_exp E (F - 2 - 1 - 1 - 1 - 1) s5 49 69 10 185 rest hr5 (by decide) (by decide)
      (by decide) (by decide) (by decide) (by decide) (by decide) (by decide) (by decide)
      (by decide) (by decide) (by decide) (by omega)
  -- the letter `E` as an identifier
  have hr6a : Rd E s6 ([] ++ 10 :: rest) 0 := hr6
  obtain ⟨s7, hr7, _, hc7, e7⟩ :=
    exprLoop_name E (F - 2 - 1 - 1) s6 false 69 10 [] rest hr6a (by simp) (by decide)
      (by decide) (by decide) (by decide) (by decide) (by decide) (by decide)
      (by simpa using hm) (by simp; omega)
  have b2 : s2.erb = s1.erb ++ [32] := erb_of_strip hs2
  have b4 : s4.erb = s2.erb ++ [48 % 256] := congrArg (fun t => t.erb) hs4
  have b5 : s5.erb = s4.erb ++ [120 % 256] := congrArg (fun t => t.erb) hs5
  have b6 : s6.erb = s5.erb ++ [49 % 256] := congrArg (fun t => t.erb) hs6
  have y2 : s2.symtab = s1.symtab := congrArg (fun t => t.symtab) hs2
  have y4 : s4.symtab = s2.symtab := congrArg (fun t => t.symtab) hs4
  have y5 : s5.symtab = s4.symtab := congrArg (fun t => t.symtab) hs5
  have y6 : s6.symtab = s5.symtab := congrArg (fun t => t.symtab) hs6
  have hsym : s6.symtab = s.symtab := by rw [y6, y5, y4, y2, symtab_of_core hc1]
  rw [hsym, hnl, exprIdent_none, Res.andThen_ok] at e7
  -- the newline
  have hr7a : Rd E ({ s7 with erb := s7.erb ++ [48] } : St) (10 :: rest) 0 := hr7
  obtain ⟨s8, hs8, hr8, e8⟩ :=
    exprLoop_readF E (F - 2 - 1 - 1 - 1) { s7 with erb := s7.erb ++ [48] } false 10 rest 1 hr7a
      (by decide) (by decide) (by decide) (by decide) (by omega) (by omega)
  obtain ⟨f, hf⟩ : ∃ f, F - 2 - 1 - 1 - 1 - 1 = f + 1 := ⟨F - 7, by omega⟩
  have e9 := exprLoop_newline E f s8 false
  rw [← hf] at e9
  refine ⟨s8, ?_, ?_, hr8⟩
  · rw [e1, e2, e3, e4, e5, e6, Res.andThen_ok, e7, e8, e9]
  · have b8 : s8.erb = s7.erb ++ [48] := erb_of_strip hs8
    rw [b8, erb_of_core hc7, b6, b5, b4, b2, erb_of_core hc1]
    simp

/-! ## C24: a hexadecimal constant with the digit `E` -/

/-- C24, failing input `#if 0x1E`.  On the rest of line ` 0x1E`, `exprline`
hands `yyparse` the buffer ` 0x10`: `fastnum` stops at the `E`, which is then
written as the `0` of an identifier that is no macro.  From that buffer `yylex`
produces a `NUMBER` whose value is 16, while the numeral `0x1E` has the value
30; with the stand-in for `yyparse` the line evaluates to 0. -/
theorem hex_constant_with_exponent_letter_loses_value :
    digitsValue 16 [49, 69] = 30 ∧
    (∃ s1, exprline sampleEnv 9 (openState [32, 48, 120, 49, 69, 10]) = Res.ok 0 s1 ∧
      s1.yyinp = [32, 48, 120, 49, 48]) ∧
    yylex 6 ⟨[32, 48, 120, 49, 48], 0, NodeOp.NUMBER, 0⟩ =
      Res.ok Tok.NUMBER ⟨[32, 48, 120, 49, 48], 5, NodeOp.NUMBER, 16⟩ ∧
    Lex.nd_val ⟨[32, 48, 120, 49, 48], 5, NodeOp.NUMBER, 16⟩ = 16 := by
  refine ⟨by decide, ?_, by decide, by decide⟩
  have h0 : Rd sampleEnv
      ({ openState [32, 48, 120, 49, 69, 10] with
          erb := [], nbufused := (openState [32, 48, 120, 49, 69, 10]).nbufused - 1,
          Cflag := 0 } : St) (32 :: 48 :: 120 :: 49 :: 69 :: 10 :: []) 0 :=
    (rd_open _ (by decide)).of_frame rfl rfl rfl rfl rfl rfl
  obtain ⟨t, eL, hb, hr⟩ :=
    exprLoop_hex_exponent sampleEnv 9 _ [] h0 (by decide) (by decide) (by decide)
  obtain ⟨t1, hs1, _, e1⟩ := exprline_of_loop sampleEnv 9 _ t [] eL hr
  have b1 : t1.erb = [32, 48, 120, 49, 48] := by
    rw [erb_of_strip hs1, hb]
    rfl
  have hy : sampleEnv.yyparse { t1 with yyinp := t1.erb } =
      Res.ok 0 { t1 with yyinp := t1.erb } := by
    show Res.ok (if ((t1.erb.filter (fun c => c != 32)).head? = some 48) then (0 : Int) else 1)
      _ = _
    rw [b1]
    rfl
  rw [hy, Res.andThen_ok] at e1
  exact ⟨_, e1, b1⟩

/-! ## C31: a line comment that the end of the input cuts off -/

/-- At the end of the input the loop of `fastcmnt` over a `//` comment does not
return, however much fuel it is given: `inc2` answers -1 every time and leaves
the state as it is. -/
theorem lineCmnt_eof (E : Env) (s : St) (r : Int) (h : Rd E s [] r) :
    ∀ fuel, lineCmnt E fuel s = Res.nofuel := by
  intro fuel
  induction fuel with
  | zero => rfl
  | succ n ih =>
    rw [lineCmnt]
    cases n with
    | zero => rfl
    | succ m =>
      simp only [M.bind_eq, M.andThen_apply, inc2_nil E m s r h, Res.andThen_ok, M.ite_apply,
        ne_eq, show ¬ ((-1 : Int) = 10) by decide, not_false_eq_true, if_true]
      exact ih

/-- The loop of `fastcmnt` over a `//` comment whose text holds no newline up
to the end of the input does not return, however much fuel it is given. -/
theorem lineCmnt_no_newline (E : Env) :
    ∀ (fuel : Nat) (body : List Int) (s : St), (∀ c ∈ body, c ≠ 10) →
      rawUpTo body.length body = true → Rd E s body 0 → s.incmnt ≠ 0 →
      3 ≤ s.ifiles.buffer → lineCmnt E fuel s = Res.nofuel := by
  intro fuel
  induction fuel with
  | zero => intro _ _ _ _ _ _ _; rfl
  | succ n ih =>
    intro body s hnl hraw h hin hm
    cases body with
    | nil => exact lineCmnt_eof E s 0 h (n + 1)
    | cons c tl =>
      rw [lineCmnt]
      cases n with
      | zero => rfl
      | succ m =>
        have hrt : rawUpTo tl.length tl = true := rawUpTo_tail _ c tl hraw
        have hnext : c = 92 → rawAt tl = true := by
          intro _
          cases tl with
          | nil => rfl
          | cons d tl1 => exact rawUpTo_head _ _ hrt
        obtain ⟨s1, h1, hs1, hr1⟩ :=
          inc2_raw E m s c tl 0 h (rawUpTo_head _ _ hraw) hnext hin hm (le_refl _) (by omega)
        have hc : c ≠ 10 := hnl c (List.mem_cons_self _ _)
        simp only [M.bind_eq, M.andThen_apply, h1, Res.andThen_ok, M.ite_apply, ne_eq, hc,
          not_false_eq_true, if_true]
        exact ih tl s1 (fun x hx => hnl x (List.mem_cons_of_mem _ hx)) hrt hr1
          (by rw [incmnt_of_strip hs1]; exact hin) (by rw [buffer_of_strip hs1]; exact hm)

/-- The loop of `fastcmnt` over a `//` comment that a newline ends: it returns
the newline. -/
theorem lineCmnt_run (E : Env) (fuel : Nat) (rest : List Int) :
    ∀ (body : List Int) (s : St), (∀ c ∈ body, c ≠ 10) →
      rawUpTo body.length (body ++ 10 :: rest) = true → Rd E s (body ++ 10 :: rest) 0 →
      s.incmnt ≠ 0 → 3 ≤ s.ifiles.buffer →
      ∃ s1, lineCmnt E (fuel + body.length + 2) s = Res.ok 10 s1 ∧ s1.strip = s.strip ∧
        Rd E s1 rest 1 := by
  intro body
  induction body with
  | nil =>
    intro s _ _ h hin hm
    obtain ⟨s1, h1, hs1, hr1⟩ :=
      inc2_raw E fuel s 10 rest 1 h (rawAt_trivial 10 rest (by decide) (by decide) (by decide))
        (by intro h92; cases h92) hin hm (by omega) (le_refl _)
    refine ⟨s1, ?_, hs1, hr1⟩
    show lineCmnt E (fuel + 1 + 1) s = _
    rw [lineCmnt]
    simp only [M.bind_eq, M.andThen_apply, h1, Res.andThen_ok, M.ite_apply, ne_eq,
      not_true_eq_false, if_false, M.pure_eq, M.ret_apply]
  | cons c tl ih =>
    intro s hnl hraw h hin hm
    have hrt : rawUpTo tl.length (tl ++ 10 :: rest) = true := rawUpTo_tail _ c _ hraw
    have hnext : c = 92 → rawAt (tl ++ 10 :: rest) = true := by
      intro _
      cases tl with
      | nil => exact rawAt_trivial 10 rest (by decide) (by decide) (by decide)
      | cons d tl1 => exact rawUpTo_head _ _ hrt
    obtain ⟨s1, h1, hs1, hr1⟩ :=
      inc2_raw E (fuel + tl.length + 1) s c (tl ++ 10 :: rest) 0 h (rawUpTo_head _ _ hraw) hnext
        hin hm (le_refl _) (by omega)
    have hc : c ≠ 10 := hnl c (List.mem_cons_self _ _)
    obtain ⟨s2, h2, hs2, hr2⟩ :=
      ih s1 (fun x hx => hnl x (List.mem_cons_of_mem _ hx)) hrt hr1
        (by rw [incmnt_of_strip hs1]; exact hin) (by rw [buffer_of_strip hs1]; exact hm)
    refine ⟨s2, ?_, hs2.trans hs1, hr2⟩
    show lineCmnt E (fuel + tl.length + 1 + 1 + 1) s = _
    rw [lineCmnt]
    simp only [M.bind_eq, M.andThen_apply, h1, Res.andThen_ok, M.ite_apply, ne_eq, hc,
      not_false_eq_true, if_true]
    exact h2

/-- Claim C31.  After the first `/` of `// x`, the function `fastcmnt` returns
1 when a newline ends the comment, with the newline pushed back; when the
input ends after the `x`, no amount of fuel lets `fastcmnt` return or raise an
error: the loop `while ((ch = inc2()) != '\n')` reads -1 for ever. -/
theorem line_comment_at_end_of_input_never_ends :
    (∃ s1, fastcmnt sampleEnv 5 0 (openState [47, 32, 120, 10]) = Res.ok 1 s1 ∧
      pending s1.ifiles = [10]) ∧
    ∀ fuel, fastcmnt sampleEnv fuel 0 (openState [47, 32, 120]) = Res.nofuel := by
  constructor
  · have h0 : Rd sampleEnv ({ openState [47, 32, 120, 10] with incmnt := 1 } : St)
        (47 :: ([32, 120] ++ 10 :: [])) 0 :=
      (rd_open _ (by decide)).of_frame rfl rfl rfl rfl rfl rfl
    obtain ⟨s1, h1, hs1, hr1⟩ :=
      inc2_raw sampleEnv 4 _ 47 _ 0 h0 (by decide) (by decide) (by decide) (by decide)
        (le_refl _) (by decide)
    obtain ⟨s2, h2, hs2, hr2⟩ :=
      lineCmnt_run sampleEnv 1 [] [32, 120] s1 (by decide) (by decide) hr1
        (by rw [incmnt_of_strip hs1]; decide) (by rw [buffer_of_strip hs1]; decide)
    obtain ⟨s3, h3, hs3, hr3⟩ := unch_ok sampleEnv s2 10 [] 1 hr2 (le_refl _) (by decide)
      (by decide)
    refine ⟨{ s3 with incmnt := 0 }, ?_, hr3.2.1⟩
    have h2a : lineCmnt sampleEnv 5 s1 = Res.ok 10 s2 := h2
    rw [fastcmnt]
    simp only [M.bind_eq, M.andThen_apply, modState_apply, Res.andThen_ok, h1, M.ite_apply,
      if_true, h2a, h3, M.pure_eq, M.ret_apply, show ¬ ((10 : Int) < 0) by decide, if_false]
  · intro fuel
    cases fuel with
    | zero => rfl
    | succ n =>
      have h0 : Rd sampleEnv ({ openState [47, 32, 120] with incmnt := 1 } : St)
          (47 :: [32, 120]) 0 :=
        (rd_open _ (by decide)).of_frame rfl rfl rfl rfl rfl rfl
      obtain ⟨s1, h1, hs1, hr1⟩ :=
        inc2_raw sampleEnv n _ 47 _ 0 h0 (by decide) (by decide) (by decide) (by decide)
          (le_refl _) (by decide)
      have h2 := lineCmnt_no_newline sampleEnv (n + 1) [32, 120] s1 (by decide) (by decide) hr1
        (by rw [incmnt_of_strip hs1]; decide) (by rw [buffer_of_strip hs1]; decide)
      rw [fastcmnt]
      simp only [M.bind_eq, M.andThen_apply, modState_apply, Res.andThen_ok, h1, M.ite_apply,
        if_true, h2, Res.andThen_nofuel]

/-! ## C33: the directive `#warning` -/

theorem inch_plainF (E : Env) (F : Nat) (s : St) (c : Int) (rest : List Int) (r1 : Int)
    (h : Rd E s (c :: rest) 0) (h13 : c ≠ 13) (h92 : c ≠ 92) (h63 : c ≠ 63) (h47 : c ≠ 47)
    (hr1 : r1 ≤ 1) (hF : 2 ≤ F) :
    ∃ s1, inch E F s = Res.ok c s1 ∧ s1.strip = s.strip ∧ Rd E s1 rest r1 := by
  obtain ⟨f, rfl⟩ : ∃ f, F = f + 2 := ⟨F - 2, by omega⟩
  have h0 := h.1.buf
  exact inch_plain E f s c rest 0 r1 h h13 h92 h63 h47 (by omega) (by omega)

theorem fastspc_plainF (E : Env) (F : Nat) (s : St) (c : Int) (rest : List Int) (r1 : Int)
    (h : Rd E s (c :: rest) 0) (h13 : c ≠ 13) (h92 : c ≠ 92) (h63 : c ≠ 63) (h47 : c ≠ 47)
    (h9 : c ≠ 9) (h32 : c ≠ 32) (hr1 : r1 ≤ 1) (hF : 3 ≤ F) :
    ∃ s1, fastspc E F s = Res.ok c s1 ∧ s1.strip = s.strip ∧ Rd E s1 rest r1 := by
  obtain ⟨f, rfl⟩ : ∃ f, F = f + 3 := ⟨F - 3, by omega⟩
  have h0 := h.1.buf
  exact fastspc_plain E f s c rest 0 r1 h h13 h92 h63 h47 h9 h32 (by omega) (by omega)

theorem readid_shortF (E : Env) (F : Nat) (s : St) (ch stop : Int) (run rest : List Int)
    (h : Rd E s (run ++ stop :: rest) 0) (hrun : ∀ c ∈ run, idClass c = true)
    (hch : id0Class ch = true) (hstop : idClass stop = false)
    (h13 : stop ≠ 13) (h92 : stop ≠ 92) (h63 : stop ≠ 63) (h47 : stop ≠ 47)
    (hshort : run.length + 1 ≤ E.MAXIDSZ) (hF : run.length + 3 ≤ F) :
    ∃ s1, readid E F ch s = Res.ok (ch :: run) s1 ∧
      Rd E s1 (stop :: rest) 0 ∧ s1.diag = s.diag ∧ s1.core = s.core := by
  obtain ⟨f, hf⟩ : ∃ f, F = f + run.length + 3 := ⟨F - run.length - 3, by omega⟩
  obtain ⟨c0, c1, hid, _⟩ := id0Class_props ch hch
  rw [hf]
  exact readid_short_core E f s ch stop run rest h hrun hid c0 c1 hstop h13 h92 h63 h47 hshort

/-- The function `savln` on a line of plain characters: the text up to the
newline is returned, and the newline is pushed back. -/
theorem savln_run (E : Env) (rest : List Int) :
    ∀ (body : List Int) (F : Nat) (ob : List Int) (s : St),
      (∀ c ∈ body, c ≠ 10 ∧ c ≠ 13 ∧ c ≠ 92 ∧ c ≠ 63 ∧ c ≠ 47) →
      Rd E s (body ++ 10 :: rest) 0 → body.length + 3 ≤ F →
      ∃ s1, savln E F ob s = Res.ok (ob ++ body) s1 ∧ s1.strip = s.strip ∧
        Rd E s1 (10 :: rest) 0 := by
  intro body
  induction body with
  | nil =>
    intro F ob s _ h hF
    obtain ⟨f, rfl⟩ : ∃ f, F = f + 1 := ⟨F - 1, by omega⟩
    obtain ⟨s1, h1, hs1, hr1⟩ :=
      inch_plainF E f s 10 rest 1 h (by decide) (by decide) (by decide) (by decide) (le_refl _)
        (by simp at hF; omega)
    obtain ⟨s2, h2, hs2, hr2⟩ := unch_ok E s1 10 rest 1 hr1 (le_refl _) (by decide) (by decide)
    refine ⟨s2, ?_, hs2.trans hs1, by simpa using hr2⟩
    rw [savln]
    simp only [M.bind_eq, M.andThen_apply, h1, Res.andThen_ok, M.ite_apply,
      show ¬ ((10 : Int) = -1) by decide, if_false, if_true, h2, M.pure_eq, M.ret_apply,
      List.append_nil]
  | cons c tl ih =>
    intro F ob s hb h hF
    obtain ⟨f, rfl⟩ : ∃ f, F = f + 1 := ⟨F - 1, by omega⟩
    obtain ⟨c10, c13, c92, c63, c47⟩ := hb c (List.mem_cons_self _ _)
    have hbyte := h.byte
    obtain ⟨s1, h1, hs1, hr1⟩ :=
      inch_plainF E f s c (tl ++ 10 :: rest) 0 h c13 c92 c63 c47 (by omega)
        (by simp at hF; omega)
    obtain ⟨s2, h2, hs2, hr2⟩ :=
      ih f (ob ++ [c % 256]) s1 (fun x hx => hb x (List.mem_cons_of_mem _ hx)) hr1
        (by simp at hF; omega)
    refine ⟨s2, ?_, hs2.trans hs1, hr2⟩
    have hne : c ≠ -1 := by omega
    rw [savln]
    simp only [M.bind_eq, M.andThen_apply, h1, Res.andThen_ok, M.ite_apply, hne, c10, if_false,
      h2]
    rw [Int.emod_eq_of_lt hbyte.1 hbyte.2]
    simp

/-- The function `cppwarning` never returns: it ends in the fatal error, or
runs out of fuel while the line is saved. -/
theorem cppwarning_not_ok (E : Env) (fuel : Nat) (s s1 : St) :
    cppwarning E fuel s ≠ Res.ok () s1 := by
  intro h
  simp only [cppwarning, M.bind_eq, M.andThen_apply] at h
  cases hs : savln E fuel [] s with
  | ok a t => rw [hs] at h; cases h
  | fatal e t => rw [hs] at h; cases h
  | nofuel => rw [hs] at h; cases h

/-- The directive `#warning` in an active region, read by `ppdir` after the
`#`: the line is saved and the run ends in the fatal error, with nothing
logged as a warning. -/
theorem ppdir_warning (E : Env) (F : Nat) (s : St) (stop : Int) (body rest : List Int)
    (h : Rd E s (119 :: ([97, 114, 110, 105, 110, 103] ++ stop :: (body ++ 10 :: rest))) 0)
    (hf : s.cond.flslvl = 0) (hM : 7 ≤ E.MAXIDSZ) (hstop : idClass stop = false)
    (hb : ∀ c ∈ stop :: body, c ≠ 10 ∧ c ≠ 13 ∧ c ≠ 92 ∧ c ≠ 63 ∧ c ≠ 47)
    (hF : body.length + 11 ≤ F) :
    ∃ s1, ppdir E F s = Res.fatal Err.hashWarning s1 ∧ s1.diag = s.diag ∧ s1.pb = s.pb ∧
      Rd E s1 (10 :: rest) 0 := by
  obtain ⟨f, rfl⟩ : ∃ f, F = f + 1 := ⟨F - 1, by omega⟩
  have v119 : spechr 119 = some 25 := by decide
  obtain ⟨_, p13, p92, p63, p47⟩ := hb stop (List.mem_cons_self _ _)
  obtain ⟨sb, h1, hsb, hrb⟩ :=
    fastspc_plainF E f { s with Cflag := 0 } 119 _ 0 h (by decide) (by decide) (by decide)
      (by decide) (by decide) (by decide) (by omega) (by omega)
  have hrb1 : Rd E ({ sb with Cflag := s.Cflag } : St)
      ([97, 114, 110, 105, 110, 103] ++ stop :: (body ++ 10 :: rest)) 0 := hrb
  obtain ⟨sd, h2, hrd, hdd, hcd⟩ :=
    readid_shortF E f { sb with Cflag := s.Cflag } 119 stop [97, 114, 110, 105, 110, 103] _
      hrb1 (by decide) (by decide) hstop p13 p92 p63 p47 (by simpa using hM)
      (by simp; omega)
  have hrd1 : Rd E sd ((stop :: body) ++ 10 :: rest) 0 := hrd
  obtain ⟨se, h3, hse, hre⟩ :=
    savln_run E rest (stop :: body) f [] sd hb hrd1 (by simp; omega)
  have hfind : ppdFind E.GCC_COMPAT [119, 97, 114, 110, 105, 110, 103] =
      some ⟨str "warning", PpFun.cppwarning, 0⟩ := by
    cases E.GCC_COMPAT <;> decide
  have hcond : sd.cond = s.cond := by
    rw [cond_of_core hcd]
    exact congrArg (fun t => t.cond) hsb
  have hfd : sd.cond.flslvl = 0 := by rw [hcond]; exact hf
  refine ⟨se, ?_, ?_, ?_, hre⟩
  · rw [ppdir]
    simp only [M.bind_eq, M.andThen_apply, getState_apply, Res.andThen_ok]
    rw [ppdirRedo]
    simp only [M.bind_eq, M.andThen_apply, modState_apply, Res.andThen_ok, h1, M.ite_apply,
      show ¬ ((119 : Int) = 10) by decide, if_false, spechrAt_of E 119 C_ID0 _ _ v119,
      show ((25 : Nat) &&& C_ID0 != 0) = true by decide, Bool.not_true, Bool.false_eq_true, h2,
      hfind]
    simp [ppdirDispatch, Ops.get, stOps, ppFun, ppFunCall, hfd, cppwarning, h3]
  · rw [diag_of_strip hse, hdd]
    exact congrArg (fun t => t.diag) hsb
  · rw [pb_of_strip hse, pb_of_core hcd]
    exact congrArg (fun t => t.pb) hsb

/-- Claim C33.  The function `cppwarning` reports through `error`: it never
returns; and on the line `#warning x` in an active region `ppdir` ends in the
fatal error of `#warning`, after saving the line, with nothing logged through
the warning channel and the following line never scanned. -/
theorem warning_directive_is_fatal :
    (∀ (E : Env) (fuel : Nat) (s s1 : St), cppwarning E fuel s ≠ Res.ok () s1) ∧
    ∃ s1, ppdir sampleEnv 12
          (openState [119, 97, 114, 110, 105, 110, 103, 32, 120, 10, 121, 10]) =
        Res.fatal Err.hashWarning s1 ∧
      s1.diag = [] ∧ s1.pb = [] ∧ pending s1.ifiles = [10, 121, 10] := by
  refine ⟨cppwarning_not_ok, ?_⟩
  obtain ⟨s1, h1, hd, hp, hr⟩ :=
    ppdir_warning sampleEnv 12
      (openState [119, 97, 114, 110, 105, 110, 103, 32, 120, 10, 121, 10]) 32 [120] [121, 10]
      (rd_open _ (by decide)) (by decide) (by decide) (by decide) (by decide) (by decide)
  exact ⟨s1, h1, by rw [hd]; rfl, by rw [hp]; rfl, hr.2.1⟩

/-! ## C32: a directive that is not in the table -/

/-- Text without newline and `/`: `flscan` reads over it. -/
theorem flscan_text (E : Env) (rest : List Int) :
    ∀ (body : List Int) (F : Nat) (s : St),
      (∀ c ∈ body, c ≠ 10 ∧ c ≠ 13 ∧ c ≠ 92 ∧ c ≠ 63 ∧ c ≠ 47) →
      Rd E s (body ++ rest) 0 → body.length + 2 ≤ F →
      ∃ s1, Rd E s1 rest 0 ∧ s1.strip = s.strip ∧
        flscan E F s = flscan E (F - body.length) s1 := by
  intro body
  induction body with
  | nil =>
    intro F s _ h _
    exact ⟨s, h, rfl, rfl⟩
  | cons c tl ih =>
    intro F s hb h hF
    obtain ⟨f, rfl⟩ : ∃ f, F = f + 3 := ⟨F - 3, by simp at hF; omega⟩
    obtain ⟨c10, c13, c92, c63, c47⟩ := hb c (List.mem_cons_self _ _)
    obtain ⟨s1, hr1, hs1, e1⟩ := flscan_skip E f s c (tl ++ rest) h c13 c92 c63 c47 c10
    obtain ⟨s2, hr2, hs2, e2⟩ :=
      ih (f + 2) s1 (fun x hx => hb x (List.mem_cons_of_mem _ hx)) hr1 (by simp at hF; omega)
    refine ⟨s2, hr2, hs2.trans hs1, ?_⟩
    have hsub : f + 3 - (c :: tl).length = f + 2 - tl.length := by
      simp only [List.length_cons]; omega
    rw [e1, e2, hsub]

/-- A newline before a line of ordinary text: `flscan` counts the line, writes
a newline, and goes on in the text. -/
theorem flscan_line_break (E : Env) (F : Nat) (s : St) (x : Int) (rest : List Int)
    (h : Rd E s (10 :: x :: rest) 0)
    (h13 : x ≠ 13) (h92 : x ≠ 92) (h63 : x ≠ 63) (h47 : x ≠ 47) (h37 : x ≠ 37) (h9 : x ≠ 9)
    (h32 : x ≠ 32) (h35 : x ≠ 35) (hF : 4 ≤ F) :
    ∃ s1, Rd E s1 (x :: rest) 0 ∧ s1.pb = s.pb ++ [10] ∧
      s1.ifiles.buffer = s.ifiles.buffer ∧ s1.ifiles.lineno = s.ifiles.lineno + 1 ∧
      flscan E F s = flscan E (F - 1) s1 := by
  obtain ⟨f, rfl⟩ : ∃ f, F = f + 1 + 3 := ⟨F - 4, by omega⟩
  have h0 := h.1.buf
  obtain ⟨sa, hra, pa, _, ba, la, ea⟩ := flscan_newline E (f + 1) s _ h
  have hxb := hra.byte
  obtain ⟨sc, ec, hsc, hrc⟩ :=
    fastspcg_stop E f sa x rest 0 1 hra h13 h92 h63 h47 h37 h9 h32 (by omega)
      (by rw [ba]; omega)
  obtain ⟨sd, ed, hsd, hrd⟩ := unch_ok E sc x rest 1 hrc (le_refl _) hxb.1 hxb.2
  refine ⟨sd, by simpa using hrd, ?_, ?_, ?_, ?_⟩
  · rw [pb_of_strip hsd, pb_of_strip hsc, pa]
  · rw [buffer_of_strip hsd, buffer_of_strip hsc, ba]
  · rw [lineno_of_strip hsd, lineno_of_strip hsc, la]
  · have ec1 : fastspcg E (f + 1 + 2) sa = Res.ok x sc := ec
    rw [ea, ec1]
    simp only [Res.andThen_ok, h35, if_false, ed]
    rfl

/-- A newline before a line that starts with `#`: `flscan` counts the line,
writes a newline, and returns after the `#`. -/
theorem flscan_directive_line (E : Env) (F : Nat) (s : St) (rest : List Int)
    (h : Rd E s (10 :: 35 :: rest) 0) (hF : 4 ≤ F) :
    ∃ s1, Rd E s1 rest 0 ∧ s1.pb = s.pb ++ [10] ∧
      s1.ifiles.buffer = s.ifiles.buffer ∧ s1.ifiles.lineno = s.ifiles.lineno + 1 ∧
      flscan E F s = Res.ok () s1 := by
  obtain ⟨f, rfl⟩ : ∃ f, F = f + 1 + 3 := ⟨F - 4, by omega⟩
  have h0 := h.1.buf
  obtain ⟨sa, hra, pa, _, ba, la, ea⟩ := flscan_newline E (f + 1) s _ h
  obtain ⟨sc, ec, hsc, hrc⟩ :=
    fastspcg_stop E f sa 35 rest 0 0 hra (by decide) (by decide) (by decide) (by decide)
      (by decide) (by decide) (by decide) (by omega) (by rw [ba]; omega)
  refine ⟨sc, hrc, ?_, ?_, ?_, ?_⟩
  · rw [pb_of_strip hsc, pa]
  · rw [buffer_of_strip hsc, ba]
  · rw [lineno_of_strip hsc, la]
  · have ec1 : fastspcg E (f + 1 + 2) sa = Res.ok 35 sc := ec
    rw [ea, ec1]
    simp only [Res.andThen_ok, if_true]

/-- A line of ordinary text between two newlines, before a line that starts
with `#`: `flscan` reads over the whole line and writes only the two
newlines. -/
theorem flscan_over_line (E : Env) (F : Nat) (s : St) (x : Int) (body rest : List Int)
    (h : Rd E s (10 :: x :: (body ++ 10 :: 35 :: rest)) 0)
    (h37 : x ≠ 37) (h9 : x ≠ 9) (h32 : x ≠ 32) (h35 : x ≠ 35)
    (hb : ∀ c ∈ x :: body, c ≠ 10 ∧ c ≠ 13 ∧ c ≠ 92 ∧ c ≠ 63 ∧ c ≠ 47)
    (hF : body.length + 6 ≤ F) :
    ∃ s1, flscan E F s = Res.ok () s1 ∧ s1.pb = s.pb ++ [10, 10] ∧ Rd E s1 rest 0 ∧
      s1.ifiles.lineno = s.ifiles.lineno + 2 := by
  obtain ⟨_, x13, x92, x63, x47⟩ := hb x (List.mem_cons_self _ _)
  obtain ⟨s1, hr1, p1, b1, l1, e1⟩ :=
    flscan_line_break E F s x _ h x13 x92 x63 x47 h37 h9 h32 h35 (by omega)
  have hr1a : Rd E s1 ((x :: body) ++ 10 :: 35 :: rest) 0 := hr1
  obtain ⟨s2, hr2, hs2, e2⟩ :=
    flscan_text E _ (x :: body) (F - 1) s1 hb hr1a (by simp; omega)
  obtain ⟨s3, hr3, p3, _, l3, e3⟩ :=
    flscan_directive_line E (F - 1 - (x :: body).length) s2 rest hr2 (by simp; omega)
  refine ⟨s3, by rw [e1, e2, e3], ?_, hr3, ?_⟩
  · rw [p3, pb_of_strip hs2, p1]
    simp
  · rw [l3, lineno_of_strip hs2, l1]
    omega

/-- A directive whose name is not in the table, read by `ppdir` after the `#`
and followed by a line of ordinary text and an empty directive: `ppdir` reads
over the ordinary line, writing only newlines, and returns at the empty
directive. -/
theorem ppdir_unknown (E : Env) (F : Nat) (s : St) (n0 x : Int) (nrun body rest : List Int)
    (h : Rd E s (n0 :: (nrun ++ 10 :: x :: (body ++ 10 :: 35 :: 10 :: rest))) 0)
    (hn0 : id0Class n0 = true) (hnrun : ∀ c ∈ nrun, idClass c = true)
    (hlen : nrun.length + 1 ≤ E.MAXIDSZ) (hfind : ppdFind E.GCC_COMPAT (n0 :: nrun) = none)
    (h37 : x ≠ 37) (h9 : x ≠ 9) (h32 : x ≠ 32) (h35 : x ≠ 35)
    (hb : ∀ c ∈ x :: body, c ≠ 10 ∧ c ≠ 13 ∧ c ≠ 92 ∧ c ≠ 63 ∧ c ≠ 47)
    (hF : nrun.length + body.length + 8 ≤ F) :
    ∃ s1, ppdir E F s = Res.ok () s1 ∧ s1.pb = s.pb ++ [10, 10] ∧ Rd E s1 (10 :: rest) 0 ∧
      s1.ifiles.lineno = s.ifiles.lineno + 2 := by
  obtain ⟨f, rfl⟩ : ∃ f, F = f + 1 + 1 := ⟨F - 2, by omega⟩
  obtain ⟨_, _, hid, ⟨v, hv, _, hi0⟩, n10, _, _, _⟩ := id0Class_props n0 hn0
  have hp := idClass_plain n0 hid
  have e9 : idClass 9 = false := by decide
  have e32 : idClass 32 = false := by decide
  have n9 : n0 ≠ 9 := by intro hc; rw [hc, e9] at hid; cases hid
  have n32 : n0 ≠ 32 := by intro hc; rw [hc, e32] at hid; cases hid
  obtain ⟨sb, h1, hsb, hrb⟩ :=
    fastspc_plainF E (f + 1) { s with Cflag := 0 } n0 _ 0 h hp.1 hp.2.1 hp.2.2.1 hp.2.2.2.1
      n9 n32 (by omega) (by omega)
  have hrb1 : Rd E ({ sb with Cflag := s.Cflag } : St)
      (nrun ++ 10 :: x :: (body ++ 10 :: 35 :: 10 :: rest)) 0 := hrb
  obtain ⟨sd, h2, hrd, _, hcd⟩ :=
    readid_shortF E (f + 1) { sb with Cflag := s.Cflag } n0 10 nrun _ hrb1 hnrun hn0
      (by decide) (by decide) (by decide) (by decide) (by decide) hlen (by omega)
  obtain ⟨se, h3, pe, hre, le⟩ :=
    flscan_over_line E (f + 1) sd x body (10 :: rest) hrd h37 h9 h32 h35 hb (by omega)
  have hre1 : Rd E ({ se with Cflag := 0 } : St) (10 :: rest) 0 := hre
  obtain ⟨sf, h4, hsf, hrf⟩ :=
    fastspc_plainF E f { se with Cflag := 0 } 10 rest 1 hre1 (by decide) (by decide)
      (by decide) (by decide) (by decide) (by decide) (le_refl _) (by omega)
  obtain ⟨sg, h5, hsg, hrg⟩ := unch_ok E sf 10 rest 1 hrf (le_refl _) (by decide) (by decide)
  refine ⟨{ sg with Cflag := s.Cflag }, ?_, ?_, by simpa using hrg, ?_⟩
  · rw [ppdir]
    simp only [M.bind_eq, M.andThen_apply, getState_apply, Res.andThen_ok]
    rw [ppdirRedo]
    simp only [M.bind_eq, M.andThen_apply, modState_apply, Res.andThen_ok, h1, M.ite_apply,
      n10, if_false, spechrAt_of E n0 C_ID0 v _ hv, hi0, Bool.not_true, Bool.false_eq_true, h2,
      hfind, h3]
    rw [ppdirRedo]
    simp only [M.bind_eq, M.andThen_apply, modState_apply, Res.andThen_ok, h4, M.ite_apply,
      if_true, h5]
  · show sg.pb = _
    rw [pb_of_strip hsg, pb_of_strip hsf]
    show se.pb = _
    rw [pe, pb_of_core hcd]
    show sb.pb ++ [10, 10] = _
    rw [pb_of_strip hsb]
  · show sg.ifiles.lineno = _
    rw [lineno_of_strip hsg, lineno_of_strip hsf]
    show se.ifiles.lineno = _
    rw [le]
    have l1 : sd.ifiles.lineno = sb.ifiles.lineno := congrArg (fun t => t.ifiles.lineno) hcd
    have l2 : sb.ifiles.lineno = s.ifiles.lineno := congrArg (fun t => t.ifiles.lineno) hsb
    rw [l1, l2]

/-- Claim C32.  The file `#foo`, `int x;`, `#` (three lines) in an active
region: `ppdir`, called after the first `#`, does not stop at the end of the
line of `#foo`; it reads over the line `int x;`, of which only the newlines
reach the output, and returns at the empty directive of the third line. -/
theorem unknown_directive_swallows_next_line :
    ppdFind sampleEnv.GCC_COMPAT [102, 111, 111] = none ∧
    (openState [102, 111, 111, 10, 105, 110, 116, 32, 120, 59, 10, 35, 10]).cond.flslvl = 0 ∧
    ∃ s1, ppdir sampleEnv 15
          (openState [102, 111, 111, 10, 105, 110, 116, 32, 120, 59, 10, 35, 10]) =
        Res.ok () s1 ∧
      s1.pb = [10, 10] ∧ pending s1.ifiles = [10] := by
  refine ⟨by decide, rfl, ?_⟩
  obtain ⟨s1, h1, hp, hr, _⟩ :=
    ppdir_unknown sampleEnv 15
      (openState [102, 111, 111, 10, 105, 110, 116, 32, 120, 59, 10, 35, 10]) 102 105
      [111, 111] [110, 116, 32, 120, 59] [] (rd_open _ (by decide)) (by decide) (by decide)
      (by decide) (by decide) (by decide) (by decide) (by decide) (by decide) (by decide)
      (by decide)
  exact ⟨s1, h1, by rw [hp]; rfl, hr.2.1⟩

/-! ## C6: the end of a file inside a conditional -/

theorem digit_cases (d : Int) (hd : 48 ≤ d ∧ d ≤ 57) :
    d = 48 ∨ d = 49 ∨ d = 50 ∨ d = 51 ∨ d = 52 ∨ d = 53 ∨ d = 54 ∨ d = 55 ∨ d = 56 ∨ d = 57 := by
  omega

theorem digit_spechr (d : Int) (hd : 48 ≤ d ∧ d ≤ 57) : spechr d = some 201 := by
  rcases digit_cases d hd with h | h | h | h | h | h | h | h | h | h <;> subst h <;> decide

/-- The function `exprline` on the rest of line ` d` with a digit `d`: the
expression buffer handed to `yyparse` is the blank and the digit, and the
newline is pushed back. -/
theorem exprline_digit (E : Env) (F : Nat) (s : St) (d v : Int) (rest : List Int)
    (h : Rd E s (32 :: d :: 10 :: rest) 0) (hd : 48 ≤ d ∧ d ≤ 57)
    (hy : ∀ t : St, t.yyinp = [32, d] → E.yyparse t = Res.ok v t) (hF : 7 ≤ F) :
    ∃ s1, exprline E F s = Res.ok v s1 ∧ s1.cond = s.cond ∧
      s1.ifiles.buffer = s.ifiles.buffer ∧ Rd E s1 (10 :: rest) 0 ∧
      s1.symtab = s.symtab := by
  have hb0 := h.1.buf
  have vd := digit_spechr d hd
  have h0 : Rd E ({ s with erb := [], nbufused := s.nbufused - 1, Cflag := 0 } : St)
      (32 :: d :: 10 :: rest) 0 := h
  obtain ⟨s1, hr1, hc1, _, e1⟩ :=
    exprLoop_copy E F _ false 32 4 _ h0 (by decide) (by decide) (by decide) (by decide)
      (by decide) (by decide) (by decide) (by decide) (by decide) (by decide) (by decide)
      (by decide) (by decide) (by decide) (by omega)
  have hr1a : Rd E ({ s1 with erb := s1.erb ++ [32] } : St) (d :: 10 :: rest) 0 := hr1
  obtain ⟨s2, hs2, hr2, e2⟩ :=
    exprLoop_readF E (F - 2) { s1 with erb := s1.erb ++ [32] } false d _ 0 hr1a (by omega)
      (by omega) (by omega) (by omega) (by omega) (by omega)
  obtain ⟨f, hf⟩ : ∃ f, F - 2 - 1 = f + 4 := ⟨F - 7, by omega⟩
  have hb2 : s2.ifiles.buffer = s.ifiles.buffer := by
    have a2 : s2.ifiles.buffer = s1.ifiles.buffer := congrArg (fun t => t.ifiles.buffer) hs2
    have a1 : s1.ifiles.buffer = s.ifiles.buffer := congrArg (fun t => t.ifiles.buffer) hc1
    rw [a2, a1]
  obtain ⟨s3, hs3, hr3, e3⟩ :=
    exprLoop_digit E f s2 false d 10 201 C_NL rest 0 1 hr2 (by decide) (by decide) (by decide)
      (by decide) (by decide) (by omega) (by omega) vd (by decide) (by decide) (by decide)
      (by decide) (by omega) (by rw [hb2]; omega)
  rw [← hf] at e3
  have e4 : exprLoop E (f + 3) (some 10) false s3 = Res.ok () s3 :=
    exprLoop_newline E (f + 2) s3 false
  have eL : exprLoop E F none false
      { s with erb := [], nbufused := s.nbufused - 1, Cflag := 0 } = Res.ok () s3 := by
    rw [e1, e2, e3, e4]
  obtain ⟨t1, ht1, hrt, et⟩ := exprline_of_loop E F s s3 rest eL hr3
  have hdm : d % 256 = d := by omega
  have b3 : s3.erb = [32, d] := by
    have a3 : s3.erb = s2.erb ++ [d % 256] := congrArg (fun t => t.erb) hs3
    have a2 : s2.erb = s1.erb ++ [32] := congrArg (fun t => t.erb) hs2
    have a1 : s1.erb = [] := congrArg (fun t => t.erb) hc1
    rw [a3, a2, a1, hdm]
    rfl
  have hyt : E.yyparse { t1 with yyinp := t1.erb } = Res.ok v { t1 with yyinp := t1.erb } := by
    apply hy
    show t1.erb = [32, d]
    rw [erb_of_strip ht1, b3]
  rw [hyt, Res.andThen_ok] at et
  have c3 : s3.cond = s.cond := by
    have a3 : s3.cond = s2.cond := congrArg (fun t => t.cond) hs3
    have a2 : s2.cond = s1.cond := congrArg (fun t => t.cond) hs2
    have a1 : s1.cond = s.cond := congrArg (fun t => t.cond) hc1
    rw [a3, a2, a1]
  have bb3 : s3.ifiles.buffer = s.ifiles.buffer := by
    have a3 : s3.ifiles.buffer = s2.ifiles.buffer := congrArg (fun t => t.ifiles.buffer) hs3
    rw [a3, hb2]
  have y3 : s3.symtab = s.symtab := by
    have a3 : s3.symtab = s2.symtab := congrArg (fun t => t.symtab) hs3
    have a2 : s2.symtab = s1.symtab := congrArg (fun t => t.symtab) hs2
    have a1 : s1.symtab = s.symtab := congrArg (fun t => t.symtab) hc1
    rw [a3, a2, a1]
  have yt : t1.symtab = s3.symtab := congrArg (fun t => t.symtab) ht1
  refine ⟨_, et, ?_, ?_, hrt, ?_⟩
  · show t1.cond = s.cond
    rw [cond_of_strip ht1, c3]
  · show t1.ifiles.buffer = s.ifiles.buffer
    rw [buffer_of_strip ht1, bb3]
  · show t1.symtab = s.symtab
    rw [yt, y3]

/-! ### The end of the input -/

theorem fastspc_nil (E : Env) (fuel : Nat) (s : St) (r : Int) (h : Rd E s [] r) :
    fastspc E (fuel + 3) s = Res.ok (-1) s := by
  rw [fastspc]
  simp [inch_nil E fuel s r h, ISWS]

theorem fastspcg_nil (E : Env) (fuel : Nat) (s : St) (r : Int) (h : Rd E s [] r) :
    fastspcg E (fuel + 3) s = Res.ok (-1) s := by
  rw [fastspcg]
  simp [inch_nil E fuel s r h, ISWS]

theorem flscan_nil (E : Env) (fuel : Nat) (s : St) (r : Int) (h : Rd E s [] r) :
    flscan E (fuel + 3) s = Res.ok () s := by
  rw [flscan]
  simp [inch_nil E fuel s r h]

theorem skpln_nil (E : Env) (fuel : Nat) (s : St) (r : Int) (h : Rd E s [] r) :
    skpln E (fuel + 3) s = Res.ok () s := by
  rw [skpln]
  simp [inch_nil E fuel s r h]

/-- The function `ppdir` at the label `redo` at the end of the input, in
suppressed text: `fastspc` returns -1, the test `spechr[-1] & C_ID0` reads the
byte before the table, which has no `C_ID0`, and `ppdir` returns through the
label `out` without an error. -/
theorem ppdirRedo_eof (E : Env) (oldC : Int) (F : Nat) (s : St) (b : Nat)
    (h : Rd E s [] 0) (hf : s.cond.flslvl ≠ 0) (hu : E.spechrUnder = some b)
    (hb : b &&& C_ID0 = 0) (hF : 4 ≤ F) :
    ppdirRedo E oldC F s = Res.ok () { s with Cflag := oldC } := by
  obtain ⟨f, rfl⟩ : ∃ f, F = f + 3 + 1 := ⟨F - 4, by omega⟩
  have h1 : Rd E ({ s with Cflag := 0 } : St) [] 0 := h
  have h2 : Rd E ({ s with Cflag := oldC } : St) [] 0 := h
  have e1 := fastspc_nil E f { s with Cflag := 0 } 0 h1
  have e2 := skpln_nil E f { s with Cflag := oldC } 0 h2
  have e3 : ∀ t : St, spechrAt E (-1) C_ID0 t = Res.ok false t := by
    intro t
    simp [spechrAt, hu, hb]
  rw [ppdirRedo]
  simp only [M.bind_eq, M.andThen_apply, modState_apply, Res.andThen_ok, e1, M.ite_apply,
    show ¬ ((-1 : Int) = 10) by decide, if_false, e3, Bool.not_false, if_true, getState_apply,
    hf, false_and, M.pure_eq, M.ret_apply, unch_eof, e2]

/-- The directive `#if` met by `ppdir` in suppressed text: the condition is
not read, `flslvl` goes up by one, and `ppdir` goes on with `flscan` and the
label `redo`. -/
theorem ppdirRedo_if_suppressed (E : Env) (oldC : Int) (F : Nat) (s : St)
    (rest : List Int) (h : Rd E s (105 :: 102 :: 32 :: rest) 0)
    (hf : s.cond.flslvl ≠ 0) (hM : 2 ≤ E.MAXIDSZ) (hF : 5 ≤ F) :
    ∃ s1, Rd E s1 (32 :: rest) 0 ∧ s1.cond = incFls s.cond ∧
      s1.ifiles.buffer = s.ifiles.buffer ∧
      ppdirRedo E oldC F s =
        (flscan E (F - 1) s1).andThen (fun _ s2 => ppdirRedo E oldC (F - 1) s2) := by
  obtain ⟨f, rfl⟩ : ∃ f, F = f + 1 := ⟨F - 1, by omega⟩
  have v105 : spechr 105 = some 25 := by decide
  obtain ⟨sb, h1, hsb, hrb⟩ :=
    fastspc_plainF E f { s with Cflag := 0 } 105 _ 0 h (by decide) (by decide) (by decide)
      (by decide) (by decide) (by decide) (by omega) (by omega)
  have hrb1 : Rd E ({ sb with Cflag := oldC } : St) ([102] ++ 32 :: rest) 0 := hrb
  obtain ⟨sd, h2, hrd, _, hcd⟩ :=
    readid_shortF E f { sb with Cflag := oldC } 105 32 [102] rest hrb1 (by decide) (by decide)
      (by decide) (by decide) (by decide) (by decide) (by decide) (by simpa using hM)
      (by simp; omega)
  have cd : sd.cond = s.cond := by
    have a1 : sd.cond = sb.cond := congrArg (fun t => t.cond) hcd
    have a2 : sb.cond = s.cond := congrArg (fun t => t.cond) hsb
    rw [a1, a2]
  have bd : sd.ifiles.buffer = s.ifiles.buffer := by
    have a1 : sd.ifiles.buffer = sb.ifiles.buffer := congrArg (fun t => t.ifiles.buffer) hcd
    have a2 : sb.ifiles.buffer = s.ifiles.buffer := congrArg (fun t => t.ifiles.buffer) hsb
    rw [a1, a2]
  have hfd : sd.cond.flslvl ≠ 0 := by rw [cd]; exact hf
  refine ⟨{ sd with cond := incFls sd.cond }, hrd, by show incFls sd.cond = _; rw [cd], bd, ?_⟩
  rw [ppdirRedo]
  simp only [M.bind_eq, M.andThen_apply, modState_apply, Res.andThen_ok, h1, M.ite_apply,
    show ¬ ((105 : Int) = 10) by decide, if_false, spechrAt_of E 105 C_ID0 _ _ v105,
    show ((25 : Nat) &&& C_ID0 != 0) = true by decide, Bool.not_true, Bool.false_eq_true, h2,
    ppdFind_if]
  simp [ppdirDispatch, Ops.get, Ops.upd, stOps, hfd, DIR_FLSINC, DIR_FLSLVL]

/-- The directive `#if d` with a digit `d`, met by `ppdir` in an active
region: when `yyparse` gives a value other than 0, `trulvl` goes up by one and
`ppdir` returns; when it gives 0, `flslvl` goes up by one and `ppdir` goes on
with `flscan` and the label `redo`. -/
theorem ppdirRedo_if_active (E : Env) (oldC : Int) (F : Nat) (s : St) (d v : Int)
    (rest : List Int) (h : Rd E s (105 :: 102 :: 32 :: d :: 10 :: rest) 0)
    (hf : s.cond.flslvl = 0) (hd : 48 ≤ d ∧ d ≤ 57)
    (hy : ∀ t : St, t.yyinp = [32, d] → E.yyparse t = Res.ok v t)
    (hM : 2 ≤ E.MAXIDSZ) (hF : 8 ≤ F) :
    ∃ s1, Rd E s1 (10 :: rest) 0 ∧ s1.ifiles.buffer = s.ifiles.buffer ∧
      s1.symtab = s.symtab ∧
      (v ≠ 0 → s1.cond = incTru s.cond ∧ ppdirRedo E oldC F s = Res.ok () s1) ∧
      (v = 0 → s1.cond = incFls s.cond ∧
        ppdirRedo E oldC F s =
          (flscan E (F - 1) s1).andThen (fun _ s2 => ppdirRedo E oldC (F - 1) s2)) := by
  obtain ⟨f, rfl⟩ : ∃ f, F = f + 1 := ⟨F - 1, by omega⟩
  have v105 : spechr 105 = some 25 := by decide
  obtain ⟨sb, h1, hsb, hrb⟩ :=
    fastspc_plainF E f { s with Cflag := 0 } 105 _ 0 h (by decide) (by decide) (by decide)
      (by decide) (by decide) (by decide) (by omega) (by omega)
  have hrb1 : Rd E ({ sb with Cflag := oldC } : St) ([102] ++ 32 :: d :: 10 :: rest) 0 := hrb
  obtain ⟨sd, h2, hrd, _, hcd⟩ :=
    readid_shortF E f { sb with Cflag := oldC } 105 32 [102] _ hrb1 (by decide) (by decide)
      (by decide) (by decide) (by decide) (by decide) (by decide) (by simpa using hM)
      (by simp; omega)
  have cd : sd.cond = s.cond := by
    have a1 : sd.cond = sb.cond := congrArg (fun t => t.cond) hcd
    have a2 : sb.cond = s.cond := congrArg (fun t => t.cond) hsb
    rw [a1, a2]
  have bd : sd.ifiles.buffer = s.ifiles.buffer := by
    have a1 : sd.ifiles.buffer = sb.ifiles.buffer := congrArg (fun t => t.ifiles.buffer) hcd
    have a2 : sb.ifiles.buffer = s.ifiles.buffer := congrArg (fun t => t.ifiles.buffer) hsb
    rw [a1, a2]
  have hfd : sd.cond.flslvl = 0 := by rw [cd]; exact hf
  obtain ⟨se, h3, ce, be, hre, ye⟩ := exprline_digit E f sd d v rest hrd hd hy (by omega)
  have yd : sd.symtab = s.symtab := by
    have a1 : sd.symtab = sb.symtab := congrArg (fun t => t.symtab) hcd
    have a2 : sb.symtab = s.symtab := congrArg (fun t => t.symtab) hsb
    rw [a1, a2]
  have hfe : se.cond.flslvl = 0 := by rw [ce]; exact hfd
  have key : ppdirRedo E oldC (f + 1) s =
      (ppdirDispatch (stOps E f) (ppFun E f PpFun.ifstmt) DIR_FLSINC sd).andThen
        (fun r s2 => if r = true then Res.ok () s2
          else (flscan E f s2).andThen (fun _ s3 => ppdirRedo E oldC f s3)) := by
    rw [ppdirRedo]
    simp only [M.bind_eq, M.andThen_apply, modState_apply, Res.andThen_ok, h1, M.ite_apply,
      show ¬ ((105 : Int) = 10) by decide, if_false, spechrAt_of E 105 C_ID0 _ _ v105,
      show ((25 : Nat) &&& C_ID0 != 0) = true by decide, Bool.not_true, Bool.false_eq_true, h2,
      ppdFind_if]
    congr 1
    funext r s2
    cases r <;> rfl
  by_cases hv : v = 0
  · refine ⟨{ se with cond := incFls se.cond }, hre, be.trans bd, ye.trans yd,
      fun hne => absurd hv hne, fun _ => ⟨by show incFls se.cond = _; rw [ce, cd], ?_⟩⟩
    rw [key]
    simp [ppdirDispatch, Ops.get, Ops.upd, stOps, ppFun, ppFunCall, ifstmt, hfd, h3, hv, incFls]
    intro h0
    rw [hfe] at h0
    exact absurd h0 (by decide)
  · refine ⟨{ se with cond := incTru se.cond }, hre, be.trans bd, ye.trans yd,
      fun _ => ⟨by show incTru se.cond = _; rw [ce, cd], ?_⟩, fun h0 => absurd h0 hv⟩
    rw [key]
    simp [ppdirDispatch, Ops.get, Ops.upd, stOps, ppFun, ppFunCall, ifstmt, hfd, h3, hv, hfe,
      incTru]

/-- In suppressed text `flscan` reads over the rest of a line and returns
after the `#` that starts the next line. -/
theorem flscan_to_directive (E : Env) (F : Nat) (s : St) (txt rest : List Int)
    (h : Rd E s (txt ++ 10 :: 35 :: rest) 0)
    (htxt : ∀ c ∈ txt, c ≠ 10 ∧ c ≠ 13 ∧ c ≠ 92 ∧ c ≠ 63 ∧ c ≠ 47)
    (hF : txt.length + 6 ≤ F) :
    ∃ s1, flscan E F s = Res.ok () s1 ∧ Rd E s1 rest 0 ∧ s1.cond = s.cond ∧
      s1.ifiles.buffer = s.ifiles.buffer := by
  obtain ⟨s1, hr1, hs1, e1⟩ := flscan_text E _ txt F s htxt h (by omega)
  obtain ⟨f, hf⟩ : ∃ f, F - txt.length = f + 1 + 3 := ⟨F - txt.length - 4, by omega⟩
  have h0 := hr1.1.buf
  obtain ⟨sa, hra, _, ca, ba, _, ea⟩ := flscan_newline E (f + 1) s1 _ hr1
  obtain ⟨sc, ec, hsc, hrc⟩ :=
    fastspcg_stop E f sa 35 rest 0 0 hra (by decide) (by decide) (by decide) (by decide)
      (by decide) (by decide) (by decide) (by omega) (by rw [ba]; omega)
  have ec1 : fastspcg E (f + 1 + 2) sa = Res.ok 35 sc := ec
  refine ⟨sc, ?_, hrc, ?_, ?_⟩
  · rw [e1, hf, ea, ec1]
    simp only [Res.andThen_ok, if_true]
  · rw [cond_of_strip hsc, ca, cond_of_strip hs1]
  · rw [buffer_of_strip hsc, ba, buffer_of_strip hs1]

/-- In suppressed text `flscan` reads over the last line of the input and
returns at its end. -/
theorem flscan_to_eof (E : Env) (F : Nat) (s : St) (txt : List Int)
    (h : Rd E s (txt ++ 10 :: []) 0)
    (htxt : ∀ c ∈ txt, c ≠ 10 ∧ c ≠ 13 ∧ c ≠ 92 ∧ c ≠ 63 ∧ c ≠ 47)
    (hF : txt.length + 6 ≤ F) :
    ∃ s1, flscan E F s = Res.ok () s1 ∧ Rd E s1 [] 0 ∧ s1.cond = s.cond ∧
      s1.ifiles.buffer = s.ifiles.buffer := by
  obtain ⟨s1, hr1, hs1, e1⟩ := flscan_text E _ txt F s htxt h (by omega)
  obtain ⟨f, hf⟩ : ∃ f, F - txt.length = f + 1 + 3 := ⟨F - txt.length - 4, by omega⟩
  obtain ⟨sa, hra, _, ca, ba, _, ea⟩ := flscan_newline E (f + 1) s1 _ hr1
  have ec1 : fastspcg E (f + 1 + 2) sa = Res.ok (-1) sa := fastspcg_nil E f sa 0 hra
  have ed1 : flscan E (f + 1 + 2) sa = Res.ok () sa := flscan_nil E f sa 0 hra
  refine ⟨sa, ?_, hra, ?_, ?_⟩
  · rw [e1, hf, ea, ec1]
    simp only [Res.andThen_ok, show ¬ ((-1 : Int) = 35) by decide, if_false, unch_eof, ed1]
  · rw [ca, cond_of_strip hs1]
  · rw [ba, buffer_of_strip hs1]

/-- Lines `#if d` in suppressed text, up to the end of the input: `ppdir`
counts each of them in `flslvl`, reads over their text, and returns at the end
of the input. -/
theorem suppressed_lines (E : Env) (oldC : Int) (b : Nat) (hu : E.spechrUnder = some b)
    (hb : b &&& C_ID0 = 0) (hM : 2 ≤ E.MAXIDSZ) :
    ∀ (ds txt : List Int) (F : Nat) (s : St), (∀ d ∈ ds, 48 ≤ d ∧ d ≤ 57) →
      (∀ c ∈ txt, c ≠ 10 ∧ c ≠ 13 ∧ c ≠ 92 ∧ c ≠ 63 ∧ c ≠ 47) → txt.length ≤ 2 →
      Rd E s (txt ++ 10 :: ifLines ds) 0 → 0 < s.cond.flslvl → ds.length + 10 ≤ F →
      ∃ s1, (flscan E F s).andThen (fun _ s2 => ppdirRedo E oldC F s2) = Res.ok () s1 ∧
        s1.cond.trulvl = s.cond.trulvl ∧ s1.cond.flslvl = s.cond.flslvl + ds.length ∧
        Rd E s1 [] 0 := by
  intro ds
  induction ds with
  | nil =>
    intro txt F s _ htxt hlen h hf hF
    obtain ⟨s1, e1, hr1, c1, _⟩ := flscan_to_eof E F s txt h htxt (by omega)
    have hf1 : s1.cond.flslvl ≠ 0 := by rw [c1]; omega
    have e2 := ppdirRedo_eof E oldC F s1 b hr1 hf1 hu hb (by omega)
    refine ⟨{ s1 with Cflag := oldC }, by rw [e1, Res.andThen_ok, e2], ?_, ?_, hr1⟩
    · show s1.cond.trulvl = _
      rw [c1]
    · show s1.cond.flslvl = _
      rw [c1]
      simp
  | cons d ds ih =>
    intro txt F s hds htxt hlen h hf hF
    have hd := hds d (List.mem_cons_self _ _)
    have h1 : Rd E s (txt ++ 10 :: 35 :: (105 :: 102 :: 32 :: d :: 10 :: ifLines ds)) 0 := h
    obtain ⟨s1, e1, hr1, c1, _⟩ := flscan_to_directive E F s txt _ h1 htxt (by omega)
    have hf1 : s1.cond.flslvl ≠ 0 := by rw [c1]; omega
    obtain ⟨s2, hr2, c2, _, e2⟩ :=
      ppdirRedo_if_suppressed E oldC F s1 (d :: 10 :: ifLines ds) hr1 hf1 hM (by omega)
    have hr2a : Rd E s2 ([32, d] ++ 10 :: ifLines ds) 0 := hr2
    have hf2 : 0 < s2.cond.flslvl := by
      rw [c2]
      show 0 < s1.cond.flslvl + 1
      rw [c1]; omega
    have hplain : ∀ c ∈ [32, d], c ≠ 10 ∧ c ≠ 13 ∧ c ≠ 92 ∧ c ≠ 63 ∧ c ≠ 47 := by
      intro c hc
      simp only [List.mem_cons, List.mem_singleton, List.not_mem_nil, or_false] at hc
      rcases hc with hc | hc <;> subst hc
      · decide
      · omega
    obtain ⟨s3, e3, t3, f3, hr3⟩ :=
      ih [32, d] (F - 1) s2 (fun x hx => hds x (List.mem_cons_of_mem _ hx)) hplain (by simp)
        hr2a hf2 (by simp at hF; omega)
    refine ⟨s3, by rw [e1, Res.andThen_ok, e2]; exact e3, ?_, ?_, hr3⟩
    · rw [t3, c2]
      show s1.cond.trulvl = _
      rw [c1]
    · rw [f3, c2]
      show s1.cond.flslvl + 1 + (ds.length : Int) = _
      rw [c1]
      simp only [List.length_cons]
      push_cast
      omega

/-- The newline case of `fastscan` leaves the conditional levels as they are. -/
theorem fastscan_newline_cond (E : Env) (fuel : Nat) (s : St) (p : List Int) (r : Int)
    (h : Rd E s p r) (hb : 2 ≤ s.ifiles.buffer) (hW : E.WARN ≠ 10) (hC : E.CONC ≠ 10) :
    ∃ s1, s1.ifiles.buffer = s.ifiles.buffer ∧ s1.cond = s.cond ∧ s1.symtab = s.symtab ∧
      Rd E s1 p 0 ∧
      fastscanAt E (fuel + 1) (FsAt.xloop 10) s = fastscanAt E fuel FsAt.run s1 := by
  obtain ⟨s1, h1, hs1, hr, _, _⟩ := REFILL_ok E s p r h hb
  have hbuf : s1.ifiles.buffer = s.ifiles.buffer := buffer_of_strip hs1
  have hcond : s1.cond = s.cond := cond_of_strip hs1
  have hsym : s1.symtab = s.symtab := congrArg (fun t => t.symtab) hs1
  refine ⟨{ s1 with
      ifiles := { s1.ifiles with lineno := s1.ifiles.lineno + (s1.ifiles.escln + 1), escln := 0 }
      pb := s1.pb ++ List.replicate (s1.ifiles.escln + 1).toNat 10 },
    hbuf, hcond, hsym, ?_, ?_⟩
  · exact ⟨{ opened := hr.1.opened, size := hr.1.size, buf := hr.1.buf, cur := hr.1.cur,
             curmax := hr.1.curmax, bufmax := hr.1.bufmax, maxlen := hr.1.maxlen,
             fits := hr.1.fits, bytes := hr.1.bytes }, hr.2.1, hr.2.2⟩
  · rw [fastscan_newline E fuel s hW hC, h1, Res.andThen_ok, fastscanNewline_eq,
      Res.andThen_ok]

/-- At the end of the input the tight loop of `fastscan` returns. -/
theorem fastscan_top_eof (E : Env) (fuel : Nat) (s : St) (r : Int) (h : Rd E s [] r) :
    fastscanAt E (fuel + 2) FsAt.top s = Res.ok () s := by
  rw [fastscanAt]
  simp [inpch_nil E s r h, fastscan_eof]

/-- A file of lines `#if d` read by `fastscan` from active text: it returns at
the end of the input, and every line has been counted, in `trulvl` while the
values are nonzero and in `flslvl` from the first value 0 on. -/
theorem active_lines (E : Env) (val : Int → Int) (hM : 2 ≤ E.MAXIDSZ) (hW : E.WARN ≠ 10)
    (hC : E.CONC ≠ 10) :
    ∀ (ds : List Int) (F : Nat) (s : St), (∀ d ∈ ds, 48 ≤ d ∧ d ≤ 57) →
      (∀ d ∈ ds, ∀ t : St, t.yyinp = [32, d] → E.yyparse t = Res.ok (val d) t) →
      ((∃ d ∈ ds, val d = 0) → ∃ b, E.spechrUnder = some b ∧ b &&& C_ID0 = 0) →
      Rd E s (ifLines ds) 0 → s.cond.flslvl = 0 → 2 ≤ s.ifiles.buffer →
      3 * ds.length + 12 ≤ F →
      ∃ s1 : St, fastscanAt E F FsAt.run s = Res.ok () s1 ∧
        s1.cond.trulvl = s.cond.trulvl + (ds.takeWhile (fun d => decide (val d ≠ 0))).length ∧
        s1.cond.flslvl = (ds.dropWhile (fun d => decide (val d ≠ 0))).length := by
  intro ds
  induction ds with
  | nil =>
    intro F s _ _ _ h hf _ hF
    obtain ⟨f, rfl⟩ : ∃ f, F = f + 3 := ⟨F - 3, by omega⟩
    exact ⟨s, fastscan_run_eof E f s 0 h, by simp, by simpa using hf⟩
  | cons d ds ih =>
    intro F s hds hy hu h hf hb hF
    simp only [List.length_cons] at hF
    obtain ⟨f, rfl⟩ : ∃ f, F = f + 3 := ⟨F - 3, by omega⟩
    have hd := hds d (List.mem_cons_self _ _)
    have h0 : Rd E s (35 :: (105 :: 102 :: 32 :: d :: 10 :: ifLines ds)) 0 := h
    obtain ⟨s1, hs1, hr1, e1⟩ := fastscan_directive E f s _ 0 0 h0 (by omega) (by omega)
    have c1 : s1.cond = s.cond := cond_of_strip hs1
    have b1 : s1.ifiles.buffer = s.ifiles.buffer := buffer_of_strip hs1
    have ep : ppdir E (f + 2) s1 = ppdirRedo E s1.Cflag (f + 2) s1 := rfl
    obtain ⟨s2, hr2, b2, _, ht, hz⟩ :=
      ppdirRedo_if_active E s1.Cflag (f + 2) s1 d (val d) (ifLines ds) hr1
        (by rw [c1]; exact hf) hd (hy d (List.mem_cons_self _ _)) hM (by omega)
    by_cases hv : val d = 0
    · obtain ⟨c2, e2⟩ := hz hv
      obtain ⟨b, hub, hbb⟩ := hu ⟨d, List.mem_cons_self _ _, hv⟩
      have hr2a : Rd E s2 ([] ++ 10 :: ifLines ds) 0 := hr2
      have hf2 : 0 < s2.cond.flslvl := by
        rw [c2]
        show 0 < s1.cond.flslvl + 1
        rw [c1, hf]
        decide
      obtain ⟨s3, e3, t3, f3, hr3⟩ :=
        suppressed_lines E s1.Cflag b hub hbb hM ds [] (f + 2 - 1) s2
          (fun x hx => hds x (List.mem_cons_of_mem _ hx)) (by simp) (by simp) hr2a hf2
          (by omega)
      refine ⟨s3, ?_, ?_, ?_⟩
      · rw [e1, ep, e2, e3, Res.andThen_ok]
        exact fastscan_top_eof E f s3 0 hr3
      · rw [t3, c2]
        show s1.cond.trulvl = _
        rw [c1]
        simp [List.takeWhile, hv]
      · rw [f3, c2]
        show s1.cond.flslvl + 1 + (ds.length : Int) = _
        rw [c1, hf]
        simp [List.dropWhile, hv]
        omega
    · obtain ⟨c2, e2⟩ := ht hv
      obtain ⟨s3, hs3, hr3, e3⟩ :=
        fastscan_top E (f + 1) s2 10 (ifLines ds) 0 0 hr2 (by omega) (by rw [b2, b1]; omega)
      have c3 : s3.cond = s2.cond := cond_of_strip hs3
      have b3 : s3.ifiles.buffer = s2.ifiles.buffer := buffer_of_strip hs3
      obtain ⟨s4, b4, c4, _, hr4, e4⟩ :=
        fastscan_newline_cond E f s3 (ifLines ds) 0 hr3 (by rw [b3, b2, b1]; exact hb) hW hC
      obtain ⟨s5, e5, t5, f5⟩ :=
        ih f s4 (fun x hx => hds x (List.mem_cons_of_mem _ hx))
          (fun x hx => hy x (List.mem_cons_of_mem _ hx))
          (fun ⟨x, hx, hxv⟩ => hu ⟨x, List.mem_cons_of_mem _ hx, hxv⟩) hr4
          (by rw [c4, c3, c2]; show s1.cond.flslvl = 0; rw [c1]; exact hf)
          (by rw [b4, b3, b2, b1]; exact hb) (by omega)
      have e3a : fastscanAt E (f + 2) FsAt.top s2 = fastscanAt E (f + 1) (FsAt.xloop 10) s3 := e3
      refine ⟨s5, ?_, ?_, ?_⟩
      · rw [e1, ep, e2, Res.andThen_ok, e3a, e4]
        exact e5
      · rw [t5, c4, c3, c2]
        show s1.cond.trulvl + 1 + _ = _
        rw [c1]
        simp [List.takeWhile, hv]
        omega
      · rw [f5]
        simp [List.dropWhile, hv]

/-- The function `chknl` at a newline: the newline is pushed back. -/
theorem chknl_newline (E : Env) (F : Nat) (ignore : Int) (s : St) (rest : List Int)
    (h : Rd E s (10 :: rest) 0) (hF : 3 ≤ F) :
    ∃ s1, chknl E F ignore s = Res.ok () s1 ∧ s1.strip = s.strip ∧ Rd E s1 (10 :: rest) 0 := by
  obtain ⟨s1, h1, hs1, hr1⟩ :=
    fastspc_plainF E F s 10 rest 1 h (by decide) (by decide) (by decide) (by decide)
      (by decide) (by decide) (le_refl _) hF
  obtain ⟨s2, h2, hs2, hr2⟩ := unch_ok E s1 10 rest 1 hr1 (le_refl _) (by decide) (by decide)
  refine ⟨s2, ?_, hs2.trans hs1, by simpa using hr2⟩
  unfold chknl
  simp only [M.bind_eq, M.andThen_apply, h1, Res.andThen_ok, M.ite_apply, ne_eq,
    not_true_eq_false, if_false, h2]

theorem ppdFind_else (g : Bool) :
    ppdFind g [101, 108, 115, 101] = some ⟨str "else", PpFun.elsestmt, DIR_FLSLVL⟩ := by
  cases g <;> decide

/-- The directive `#else` met by `ppdir` in an active region inside a
conditional: the region becomes suppressed, one level passes from `trulvl` to
`flslvl`, and `ppdir` goes on with `flscan` and the label `redo`. -/
theorem ppdirRedo_else_active (E : Env) (oldC : Int) (F : Nat) (s : St) (rest : List Int)
    (h : Rd E s (101 :: 108 :: 115 :: 101 :: 10 :: rest) 0)
    (hf : s.cond.flslvl = 0) (ht : s.cond.trulvl ≠ 0) (hels : s.cond.elslvl ≠ s.cond.trulvl)
    (hM : 4 ≤ E.MAXIDSZ) (hF : 7 ≤ F) :
    ∃ s1, Rd E s1 (10 :: rest) 0 ∧ s1.cond.trulvl = s.cond.trulvl - 1 ∧
      s1.cond.flslvl = 1 ∧ s1.ifiles.buffer = s.ifiles.buffer ∧
      ppdirRedo E oldC F s =
        (flscan E (F - 1) s1).andThen (fun _ s2 => ppdirRedo E oldC (F - 1) s2) := by
  obtain ⟨f, rfl⟩ : ∃ f, F = f + 1 := ⟨F - 1, by omega⟩
  obtain ⟨_, _, _, ⟨v, v101, _, hvb⟩, _⟩ := id0Class_props 101 (by decide)
  obtain ⟨sb, h1, hsb, hrb⟩ :=
    fastspc_plainF E f { s with Cflag := 0 } 101 _ 0 h (by decide) (by decide) (by decide)
      (by decide) (by decide) (by decide) (by omega) (by omega)
  have hrb1 : Rd E ({ sb with Cflag := oldC } : St) ([108, 115, 101] ++ 10 :: rest) 0 := hrb
  obtain ⟨sd, h2, hrd, _, hcd⟩ :=
    readid_shortF E f { sb with Cflag := oldC } 101 10 [108, 115, 101] rest hrb1 (by decide)
      (by decide) (by decide) (by decide) (by decide) (by decide) (by decide)
      (by simpa using hM) (by simp; omega)
  have cd : sd.cond = s.cond := by
    have a1 : sd.cond = sb.cond := congrArg (fun t => t.cond) hcd
    have a2 : sb.cond = s.cond := congrArg (fun t => t.cond) hsb
    rw [a1, a2]
  have bd : sd.ifiles.buffer = s.ifiles.buffer := by
    have a1 : sd.ifiles.buffer = sb.ifiles.buffer := congrArg (fun t => t.ifiles.buffer) hcd
    have a2 : sb.ifiles.buffer = s.ifiles.buffer := congrArg (fun t => t.ifiles.buffer) hsb
    rw [a1, a2]
  have hfd : sd.cond.flslvl = 0 := by rw [cd]; exact hf
  have htd : sd.cond.trulvl ≠ 0 := by rw [cd]; exact ht
  have hed : ¬ (sd.cond.elslvl = sd.cond.trulvl - 1 + (sd.cond.flslvl + 1)) := by
    rw [cd, hf]
    intro he
    apply hels
    rw [he]
    omega
  have hrd1 : Rd E ({ sd with cond :=
      { (decTru (incFls sd.cond)) with
        elslvl := (decTru (incFls sd.cond)).trulvl + (decTru (incFls sd.cond)).flslvl } } : St)
      (10 :: rest) 0 := hrd
  obtain ⟨se, h3, hse, hre⟩ := chknl_newline E f 1 _ rest hrd1 (by omega)
  have ce : se.cond = { (decTru (incFls sd.cond)) with
        elslvl := (decTru (incFls sd.cond)).trulvl + (decTru (incFls sd.cond)).flslvl } :=
    congrArg (fun t => t.cond) hse
  have be : se.ifiles.buffer = sd.ifiles.buffer := congrArg (fun t => t.ifiles.buffer) hse
  have hfe : se.cond.flslvl = 1 := by
    rw [ce]
    show sd.cond.flslvl + 1 = 1
    rw [hfd]
    rfl
  have key : ppdirRedo E oldC (f + 1) s =
      (ppdirDispatch (stOps E f) (ppFun E f PpFun.elsestmt) DIR_FLSLVL sd).andThen
        (fun r s2 => if r = true then Res.ok () s2
          else (flscan E f s2).andThen (fun _ s3 => ppdirRedo E oldC f s3)) := by
    rw [ppdirRedo]
    simp only [M.bind_eq, M.andThen_apply, modState_apply, Res.andThen_ok, h1, M.ite_apply,
      show ¬ ((101 : Int) = 10) by decide, if_false, spechrAt_of E 101 C_ID0 _ _ v101,
      hvb, Bool.not_true, Bool.false_eq_true, h2, ppdFind_else]
    congr 1
    funext r s2
    cases r <;> rfl
  have hed1 : ¬ (sd.cond.elslvl = sd.cond.trulvl) := by rw [cd]; exact hels
  have hE : elsestmt (stOps E f) sd = Res.ok () se := by
    rw [← h3]
    simp [elsestmt, Ops.get, Ops.upd, stOps, hfd, htd, hed1, incFls, decTru]
  have hD : ppdirDispatch (stOps E f) (ppFun E f PpFun.elsestmt) DIR_FLSLVL sd =
      Res.ok false se := by
    have hp : ppFun E f PpFun.elsestmt = elsestmt (stOps E f) := rfl
    have hg : ∀ t : St, (stOps E f).get t = Res.ok t.cond t := fun t => rfl
    rw [ppdirDispatch, hp]
    simp only [M.bind_eq, M.andThen_apply, hg, Res.andThen_ok, hfd, M.ite_apply, if_true, hE,
      hfe, M.pure_eq, M.ret_apply]
    simp
  refine ⟨se, hre, ?_, hfe, be.trans bd, ?_⟩
  · rw [ce]
    show sd.cond.trulvl - 1 = _
    rw [cd]
  · rw [key, hD]
    simp

theorem ppdFind_ifdef (g : Bool) :
    ppdFind g [105, 102, 100, 101, 102] = some ⟨str "ifdef", PpFun.ifdefstmt, DIR_FLSINC⟩ := by
  cases g <;> decide

/-- The function `fastspc` on a blank and a plain character: the blank is
skipped. -/
theorem fastspc_blank (E : Env) (F : Nat) (s : St) (c : Int) (rest : List Int)
    (h : Rd E s (32 :: c :: rest) 0) (h13 : c ≠ 13) (h92 : c ≠ 92) (h63 : c ≠ 63)
    (h47 : c ≠ 47) (h9 : c ≠ 9) (h32 : c ≠ 32) (hF : 4 ≤ F) :
    ∃ s1, fastspc E F s = Res.ok c s1 ∧ s1.strip = s.strip ∧ Rd E s1 rest 0 := by
  obtain ⟨f, rfl⟩ : ∃ f, F = f + 1 := ⟨F - 1, by omega⟩
  obtain ⟨s1, h1, hs1, hr1⟩ :=
    inch_plainF E f s 32 _ 0 h (by decide) (by decide) (by decide) (by decide) (by omega)
      (by omega)
  obtain ⟨s2, h2, hs2, hr2⟩ :=
    fastspc_plainF E f s1 c rest 0 hr1 h13 h92 h63 h47 h9 h32 (by omega) (by omega)
  refine ⟨s2, ?_, hs2.trans hs1, hr2⟩
  rw [fastspc]
  simp [h1, ISWS, h2]

/-- The directive `#ifdef x` for a name `x` of one character that is not
defined, met by `ppdir` in an active region: `flslvl` goes up by one and `ppdir`
goes on with `flscan` and the label `redo`. -/
theorem ppdirRedo_ifdef_active (E : Env) (oldC : Int) (F : Nat) (s : St) (x : Int)
    (rest : List Int)
    (h : Rd E s (105 :: 102 :: 100 :: 101 :: 102 :: 32 :: x :: 10 :: rest) 0)
    (hf : s.cond.flslvl = 0) (hx : id0Class x = true)
    (hsym : s.symtab.findIdx? (fun e => e.namep == [x] && e.value.isSome) = none)
    (hM : 5 ≤ E.MAXIDSZ) (hF : 9 ≤ F) :
    ∃ s1, Rd E s1 (10 :: rest) 0 ∧ s1.cond = incFls s.cond ∧
      s1.ifiles.buffer = s.ifiles.buffer ∧
      ppdirRedo E oldC F s =
        (flscan E (F - 1) s1).andThen (fun _ s2 => ppdirRedo E oldC (F - 1) s2) := by
  obtain ⟨f, rfl⟩ : ∃ f, F = f + 1 := ⟨F - 1, by omega⟩
  obtain ⟨_, _, _, ⟨v, v105, _, hvb⟩, _⟩ := id0Class_props 105 (by decide)
  obtain ⟨x0, x1, xid, ⟨w, vx, _, hwb⟩, x10, _⟩ := id0Class_props x hx
  have x32 : x ≠ 32 := by
    intro hc
    rw [hc] at hx
    exact absurd hx (by decide)
  have x9 : x ≠ 9 := by
    intro hc
    rw [hc] at hx
    exact absurd hx (by decide)
  have x13 : x ≠ 13 := by
    intro hc
    rw [hc] at hx
    exact absurd hx (by decide)
  have x92 : x ≠ 92 := by
    intro hc
    rw [hc] at hx
    exact absurd hx (by decide)
  have x63 : x ≠ 63 := by
    intro hc
    rw [hc] at hx
    exact absurd hx (by decide)
  have x47 : x ≠ 47 := by
    intro hc
    rw [hc] at hx
    exact absurd hx (by decide)
  obtain ⟨sb, h1, hsb, hrb⟩ :=
    fastspc_plainF E f { s with Cflag := 0 } 105 _ 0 h (by decide) (by decide) (by decide)
      (by decide) (by decide) (by decide) (by omega) (by omega)
  have hrb1 : Rd E ({ sb with Cflag := oldC } : St)
      ([102, 100, 101, 102] ++ 32 :: x :: 10 :: rest) 0 := hrb
  obtain ⟨sd, h2, hrd, _, hcd⟩ :=
    readid_shortF E f { sb with Cflag := oldC } 105 32 [102, 100, 101, 102] _ hrb1 (by decide)
      (by decide) (by decide) (by decide) (by decide) (by decide) (by decide)
      (by simpa using hM) (by simp; omega)
  have cd : sd.cond = s.cond := by
    have a1 : sd.cond = sb.cond := congrArg (fun t => t.cond) hcd
    have a2 : sb.cond = s.cond := congrArg (fun t => t.cond) hsb
    rw [a1, a2]
  have bd : sd.ifiles.buffer = s.ifiles.buffer := by
    have a1 : sd.ifiles.buffer = sb.ifiles.buffer := congrArg (fun t => t.ifiles.buffer) hcd
    have a2 : sb.ifiles.buffer = s.ifiles.buffer := congrArg (fun t => t.ifiles.buffer) hsb
    rw [a1, a2]
  have yd : sd.symtab = s.symtab := by
    have a1 : sd.symtab = sb.symtab := congrArg (fun t => t.symtab) hcd
    have a2 : sb.symtab = s.symtab := congrArg (fun t => t.symtab) hsb
    rw [a1, a2]
  have hfd : sd.cond.flslvl = 0 := by rw [cd]; exact hf
  obtain ⟨sc, h3, hsc, hrc⟩ := fastspc_blank E f sd x (10 :: rest) hrd x13 x92 x63 x47 x9 x32
    (by omega)
  have hrc1 : Rd E sc ([] ++ 10 :: rest) 0 := hrc
  obtain ⟨sr, h4, hrr, _, hcr⟩ :=
    readid_shortF E f sc x 10 [] rest hrc1 (by simp) hx (by decide) (by decide) (by decide)
      (by decide) (by decide) (by simp; omega) (by simp; omega)
  have cr : sr.cond = sd.cond := by
    have a1 : sr.cond = sc.cond := congrArg (fun t => t.cond) hcr
    have a2 : sc.cond = sd.cond := congrArg (fun t => t.cond) hsc
    rw [a1, a2]
  have br : sr.ifiles.buffer = sd.ifiles.buffer := by
    have a1 : sr.ifiles.buffer = sc.ifiles.buffer := congrArg (fun t => t.ifiles.buffer) hcr
    have a2 : sc.ifiles.buffer = sd.ifiles.buffer := congrArg (fun t => t.ifiles.buffer) hsc
    rw [a1, a2]
  have yr : sr.symtab = s.symtab := by
    have a1 : sr.symtab = sc.symtab := congrArg (fun t => t.symtab) hcr
    have a2 : sc.symtab = sd.symtab := congrArg (fun t => t.symtab) hsc
    rw [a1, a2, yd]
  have hrr1 : Rd E ({ sr with cond := incFls sr.cond } : St) (10 :: rest) 0 := hrr
  obtain ⟨se, h5, hse, hre⟩ := chknl_newline E f 0 _ rest hrr1 (by omega)
  have ce : se.cond = incFls sr.cond := congrArg (fun t => t.cond) hse
  have be : se.ifiles.buffer = sr.ifiles.buffer := congrArg (fun t => t.ifiles.buffer) hse
  have hfe : se.cond.flslvl ≠ 0 := by
    rw [ce]
    show sr.cond.flslvl + 1 ≠ 0
    rw [cr, hfd]
    decide
  have key : ppdirRedo E oldC (f + 1) s =
      (ppdirDispatch (stOps E f) (ppFun E f PpFun.ifdefstmt) DIR_FLSINC sd).andThen
        (fun r s2 => if r = true then Res.ok () s2
          else (flscan E f s2).andThen (fun _ s3 => ppdirRedo E oldC f s3)) := by
    rw [ppdirRedo]
    simp only [M.bind_eq, M.andThen_apply, modState_apply, Res.andThen_ok, h1, M.ite_apply,
      show ¬ ((105 : Int) = 10) by decide, if_false, spechrAt_of E 105 C_ID0 _ _ v105,
      hvb, Bool.not_true, Bool.false_eq_true, h2, ppdFind_ifdef]
    congr 1
    funext r s2
    cases r <;> rfl
  have hl : lookup [x] sr = Res.ok none sr := by
    show Res.ok (sr.symtab.findIdx? (fun e => e.namep == [x] && e.value.isSome)) sr = _
    rw [yr, hsym]
  have hI : ifdefstmt (stOps E f) sd = Res.ok () se := by
    have a1 : (stOps E f).fastspc sd = Res.ok x sc := h3
    have a2 : ISID0 x sc = Res.ok true sc := by
      show spechrHas x C_ID0 sc = _
      rw [spechrHas_of x C_ID0 w sc vx, hwb]
    have a3 : (stOps E f).readid x sc = Res.ok [x] sr := h4
    have a4 : (stOps E f).lookupFind [x] sr = Res.ok false sr := by
      simp only [stOps, M.bind_eq, M.andThen_apply, hl, Res.andThen_ok, M.pure_eq, M.ret_apply,
        Option.isSome_none]
    have a5 : (stOps E f).upd incFls sr = Res.ok () { sr with cond := incFls sr.cond } := rfl
    have a6 : (stOps E f).chknl 0 { sr with cond := incFls sr.cond } = Res.ok () se := h5
    unfold ifdefstmt
    simp only [M.bind_eq, M.andThen_apply, a1, Res.andThen_ok, a2, Bool.not_true,
      Bool.false_eq_true, if_false, M.ite_apply, M.pure_eq, M.ret_apply, a3, a4, Bool.not_false,
      if_true, a5, a6]
  have hD : ppdirDispatch (stOps E f) (ppFun E f PpFun.ifdefstmt) DIR_FLSINC sd =
      Res.ok false se := by
    have hp : ppFun E f PpFun.ifdefstmt = ifdefstmt (stOps E f) := rfl
    have hg : ∀ t : St, (stOps E f).get t = Res.ok t.cond t := fun t => rfl
    rw [ppdirDispatch, hp]
    simp only [M.bind_eq, M.andThen_apply, hg, Res.andThen_ok, hfd, M.ite_apply, if_true, hI,
      M.pure_eq, M.ret_apply]
    simp [hfe]
  refine ⟨se, hre, ?_, be.trans (br.trans bd), ?_⟩
  · rw [ce, cr, cd]
  · rw [key, hD]
    simp

/-- Lines `#if d` with nonzero values read by `fastscan` from active text, with
more input after them: each line is counted in `trulvl`, and `fastscan` goes
on at the label `run` with the rest of the input. -/
theorem active_true_lines (E : Env) (val : Int → Int) (hM : 2 ≤ E.MAXIDSZ)
    (hW : E.WARN ≠ 10) (hC : E.CONC ≠ 10) (tail : List Int) :
    ∀ (ds : List Int) (F : Nat) (s : St), (∀ d ∈ ds, 48 ≤ d ∧ d ≤ 57) →
      (∀ d ∈ ds, ∀ t : St, t.yyinp = [32, d] → E.yyparse t = Res.ok (val d) t) →
      (∀ d ∈ ds, val d ≠ 0) →
      Rd E s (ifLines ds ++ tail) 0 → s.cond.flslvl = 0 → 2 ≤ s.ifiles.buffer →
      3 * ds.length + 9 ≤ F →
      ∃ s1 : St, fastscanAt E F FsAt.run s = fastscanAt E (F - 3 * ds.length) FsAt.run s1 ∧
        Rd E s1 tail 0 ∧ s1.cond.trulvl = s.cond.trulvl + ds.length ∧ s1.cond.flslvl = 0 ∧
        s1.cond.elslvl = s.cond.elslvl ∧ s1.ifiles.buffer = s.ifiles.buffer ∧
        s1.symtab = s.symtab := by
  intro ds
  induction ds with
  | nil =>
    intro F s _ _ _ h hf _ _
    exact ⟨s, rfl, h, by simp, hf, rfl, rfl, rfl⟩
  | cons d ds ih =>
    intro F s hds hy hnz h hf hb hF
    simp only [List.length_cons] at hF
    obtain ⟨f, rfl⟩ : ∃ f, F = f + 3 := ⟨F - 3, by omega⟩
    have hd := hds d (List.mem_cons_self _ _)
    have h0 : Rd E s (35 :: (105 :: 102 :: 32 :: d :: 10 :: (ifLines ds ++ tail))) 0 := h
    obtain ⟨s1, hs1, hr1, e1⟩ := fastscan_directive E f s _ 0 0 h0 (by omega) (by omega)
    have c1 : s1.cond = s.cond := cond_of_strip hs1
    have b1 : s1.ifiles.buffer = s.ifiles.buffer := buffer_of_strip hs1
    have y1 : s1.symtab = s.symtab := congrArg (fun t => t.symtab) hs1
    have ep : ppdir E (f + 2) s1 = ppdirRedo E s1.Cflag (f + 2) s1 := rfl
    obtain ⟨s2, hr2, b2, y2, ht, _⟩ :=
      ppdirRedo_if_active E s1.Cflag (f + 2) s1 d (val d) (ifLines ds ++ tail) hr1
        (by rw [c1]; exact hf) hd (hy d (List.mem_cons_self _ _)) hM (by omega)
    obtain ⟨c2, e2⟩ := ht (hnz d (List.mem_cons_self _ _))
    obtain ⟨s3, hs3, hr3, e3⟩ :=
      fastscan_top E (f + 1) s2 10 (ifLines ds ++ tail) 0 0 hr2 (by omega)
        (by rw [b2, b1]; omega)
    have c3 : s3.cond = s2.cond := cond_of_strip hs3
    have b3 : s3.ifiles.buffer = s2.ifiles.buffer := buffer_of_strip hs3
    have y3 : s3.symtab = s2.symtab := congrArg (fun t => t.symtab) hs3
    obtain ⟨s4, b4, c4, y4, hr4, e4⟩ :=
      fastscan_newline_cond E f s3 (ifLines ds ++ tail) 0 hr3 (by rw [b3, b2, b1]; exact hb)
        hW hC
    obtain ⟨s5, e5, hr5, t5, f5, l5, b5, y5⟩ :=
      ih f s4 (fun x hx => hds x (List.mem_cons_of_mem _ hx))
        (fun x hx => hy x (List.mem_cons_of_mem _ hx))
        (fun x hx => hnz x (List.mem_cons_of_mem _ hx)) hr4
        (by rw [c4, c3, c2]; show s1.cond.flslvl = 0; rw [c1]; exact hf)
        (by rw [b4, b3, b2, b1]; exact hb) (by omega)
    have e3a : fastscanAt E (f + 2) FsAt.top s2 = fastscanAt E (f + 1) (FsAt.xloop 10) s3 := e3
    have hfuel : f + 3 - 3 * (ds.length + 1) = f - 3 * ds.length := by omega
    refine ⟨s5, ?_, hr5, ?_, f5, ?_, ?_, ?_⟩
    · rw [e1, ep, e2, Res.andThen_ok, e3a, e4, List.length_cons, hfuel]
      exact e5
    · rw [t5, c4, c3, c2]
      show s1.cond.trulvl + 1 + _ = _
      rw [c1]
      simp only [List.length_cons]
      push_cast
      omega
    · rw [l5, c4, c3, c2]
      show s1.cond.elslvl = _
      rw [c1]
    · rw [b5, b4, b3, b2, b1]
    · rw [y5, y4, y3, y2, y1]

/-- The line `#else` as the last line of the input, read by `fastscan` in an
active region inside a conditional: one level passes from `trulvl` to `flslvl`,
and `fastscan` returns at the end of the input. -/
theorem else_at_end (E : Env) (F : Nat) (s : St) (b : Nat)
    (h : Rd E s [35, 101, 108, 115, 101, 10] 0)
    (hf : s.cond.flslvl = 0) (ht : s.cond.trulvl ≠ 0) (hels : s.cond.elslvl ≠ s.cond.trulvl)
    (hu : E.spechrUnder = some b) (hb : b &&& C_ID0 = 0) (hM : 4 ≤ E.MAXIDSZ)
    (hF : 9 ≤ F) :
    ∃ s1, fastscanAt E F FsAt.run s = Res.ok () s1 ∧ s1.cond.trulvl = s.cond.trulvl - 1 ∧
      s1.cond.flslvl = 1 := by
  obtain ⟨f, rfl⟩ : ∃ f, F = f + 3 := ⟨F - 3, by omega⟩
  have hb0 := h.1.buf
  obtain ⟨s1, hs1, hr1, e1⟩ := fastscan_directive E f s _ 0 0 h (by omega) (by omega)
  have c1 : s1.cond = s.cond := cond_of_strip hs1
  have ep : ppdir E (f + 2) s1 = ppdirRedo E s1.Cflag (f + 2) s1 := rfl
  obtain ⟨s2, hr2, t2, f2, _, e2⟩ :=
    ppdirRedo_else_active E s1.Cflag (f + 2) s1 [] hr1 (by rw [c1]; exact hf)
      (by rw [c1]; exact ht) (by rw [c1]; exact hels) hM (by omega)
  have hr2a : Rd E s2 ([] ++ 10 :: []) 0 := hr2
  obtain ⟨s3, e3, hr3, c3, _⟩ := flscan_to_eof E (f + 2 - 1) s2 [] hr2a (by simp) (by simp; omega)
  have hf3 : s3.cond.flslvl ≠ 0 := by
    rw [c3, f2]
    decide
  have e4 := ppdirRedo_eof E s1.Cflag (f + 2 - 1) s3 b hr3 hf3 hu hb (by omega)
  have hr4 : Rd E ({ s3 with Cflag := s1.Cflag } : St) [] 0 := hr3
  refine ⟨{ s3 with Cflag := s1.Cflag }, ?_, ?_, ?_⟩
  · rw [e1, ep, e2, e3, Res.andThen_ok, e4, Res.andThen_ok]
    exact fastscan_top_eof E f _ 0 hr4
  · show s3.cond.trulvl = _
    rw [c3, t2, c1]
  · show s3.cond.flslvl = _
    rw [c3, f2]

/-- The line `#ifdef x`, for a name `x` of one character that is not defined,
as the last line of the input, read by `fastscan` in an active region: the
line is counted in `flslvl`, and `fastscan` returns at the end of the input. -/
theorem ifdef_at_end (E : Env) (F : Nat) (s : St) (b : Nat) (x : Int)
    (h : Rd E s [35, 105, 102, 100, 101, 102, 32, x, 10] 0)
    (hf : s.cond.flslvl = 0) (hx : id0Class x = true)
    (hsym : s.symtab.findIdx? (fun e => e.namep == [x] && e.value.isSome) = none)
    (hu : E.spechrUnder = some b) (hb : b &&& C_ID0 = 0) (hM : 5 ≤ E.MAXIDSZ)
    (hF : 10 ≤ F) :
    ∃ s1, fastscanAt E F FsAt.run s = Res.ok () s1 ∧ s1.cond.trulvl = s.cond.trulvl ∧
      s1.cond.flslvl = 1 := by
  obtain ⟨f, rfl⟩ : ∃ f, F = f + 3 := ⟨F - 3, by omega⟩
  have hb0 := h.1.buf
  obtain ⟨s1, hs1, hr1, e1⟩ := fastscan_directive E f s _ 0 0 h (by omega) (by omega)
  have c1 : s1.cond = s.cond := cond_of_strip hs1
  have y1 : s1.symtab = s.symtab := congrArg (fun t => t.symtab) hs1
  have ep : ppdir E (f + 2) s1 = ppdirRedo E s1.Cflag (f + 2) s1 := rfl
  obtain ⟨s2, hr2, c2, _, e2⟩ :=
    ppdirRedo_ifdef_active E s1.Cflag (f + 2) s1 x [] hr1 (by rw [c1]; exact hf) hx
      (by rw [y1]; exact hsym) hM (by omega)
  have hr2a : Rd E s2 ([] ++ 10 :: []) 0 := hr2
  obtain ⟨s3, e3, hr3, c3, _⟩ := flscan_to_eof E (f + 2 - 1) s2 [] hr2a (by simp) (by simp; omega)
  have f3 : s3.cond.flslvl = 1 := by
    rw [c3, c2]
    show s1.cond.flslvl + 1 = 1
    rw [c1, hf]
    rfl
  have hf3 : s3.cond.flslvl ≠ 0 := by
    rw [f3]
    decide
  have e4 := ppdirRedo_eof E s1.Cflag (f + 2 - 1) s3 b hr3 hf3 hu hb (by omega)
  have hr4 : Rd E ({ s3 with Cflag := s1.Cflag } : St) [] 0 := hr3
  refine ⟨{ s3 with Cflag := s1.Cflag }, ?_, ?_, f3⟩
  · rw [e1, ep, e2, e3, Res.andThen_ok, e4, Res.andThen_ok]
    exact fastscan_top_eof E f _ 0 hr4
  · show s3.cond.trulvl = _
    rw [c3, c2]
    show s1.cond.trulvl = _
    rw [c1]

theorem pushfileEnter_machine (b : Nat) (input : List Int) :
    pushfileEnter (machineEnv b) none 0 (startState input) = Res.ok true (openState input) := by
  simp [pushfileEnter, prtline, startState, openState, sampleFrame, machineEnv, sampleEnv]

theorem ifLines_bytes : ∀ ds : List Int, (∀ d ∈ ds, 48 ≤ d ∧ d ≤ 57) →
    ∀ c ∈ ifLines ds, 0 ≤ c ∧ c < 256 := by
  intro ds
  induction ds with
  | nil =>
    intro _ c hc
    simp [ifLines] at hc
  | cons d ds ih =>
    intro hds c hc
    have hd := hds d (List.mem_cons_self _ _)
    simp only [ifLines, List.mem_cons] at hc
    rcases hc with hc | hc | hc | hc | hc | hc | hc
    · subst hc; decide
    · subst hc; decide
    · subst hc; decide
    · subst hc; decide
    · subst hc; omega
    · subst hc; decide
    · exact ih (fun x hx => hds x (List.mem_cons_of_mem _ hx)) c hc

/-- The value that `sampleYyparse` gives to the text of a line `#if d`. -/
theorem sampleYyparse_digit (d : Int) (hd : 48 ≤ d ∧ d ≤ 57) (t : St)
    (ht : t.yyinp = [32, d]) :
    sampleYyparse t = Res.ok (if d = 48 then 0 else 1) t := by
  have h32 : (d != 32) = true := by
    simp only [bne_iff_ne, ne_eq]
    omega
  unfold sampleYyparse
  rw [ht]
  simp [List.filter, h32]

theorem elseLine_bytes : ∀ c ∈ elseLine, 0 ≤ c ∧ c < 256 := by
  decide

theorem ifdefLine_bytes (x : Int) (hx : 0 ≤ x ∧ x < 256) :
    ∀ c ∈ ifdefLine x, 0 ≤ c ∧ c < 256 := by
  intro c hc
  simp only [ifdefLine, List.mem_cons, List.mem_singleton, List.not_mem_nil, or_false] at hc
  rcases hc with hc | hc | hc | hc | hc | hc | hc | hc | hc <;> subst hc <;>
    first | exact hx | decide

/-- A file of lines `#if d` with digits other than 0, followed by more
lines, read by `fastscan` in the configuration `machineEnv b`. -/
theorem machine_true_lines (b : Nat) (tail ds : List Int) (F : Nat)
    (hds : ∀ d ∈ ds, 49 ≤ d ∧ d ≤ 57) (htail : ∀ c ∈ tail, 0 ≤ c ∧ c < 256)
    (hF : 3 * ds.length + 9 ≤ F) :
    ∃ s1 : St, fastscan (machineEnv b) F (openState (ifLines ds ++ tail)) =
        fastscanAt (machineEnv b) (F - 3 * ds.length) FsAt.run s1 ∧
      Rd (machineEnv b) s1 tail 0 ∧ s1.cond.trulvl = ds.length ∧ s1.cond.flslvl = 0 ∧
      s1.cond.elslvl = 0 ∧ s1.symtab = [] := by
  have hds1 : ∀ d ∈ ds, 48 ≤ d ∧ d ≤ 57 := fun d hd => ⟨by have := hds d hd; omega, (hds d hd).2⟩
  have hbytes : ∀ c ∈ ifLines ds ++ tail, 0 ≤ c ∧ c < 256 := by
    intro c hc
    rcases List.mem_append.mp hc with h | h
    · exact ifLines_bytes ds hds1 c h
    · exact htail c h
  have hr : Rd (machineEnv b) (openState (ifLines ds ++ tail)) (ifLines ds ++ tail) 0 :=
    (rd_open _ hbytes).env rfl
  have hM : 2 ≤ (machineEnv b).MAXIDSZ := by
    show 2 ≤ 8
    decide
  have hW : (machineEnv b).WARN ≠ 10 := by
    show (1 : Int) ≠ 10
    decide
  have hC : (machineEnv b).CONC ≠ 10 := by
    show (2 : Int) ≠ 10
    decide
  have hbuf : 2 ≤ (openState (ifLines ds ++ tail)).ifiles.buffer := by
    show (2 : Int) ≤ 4
    decide
  obtain ⟨s1, e1, hr1, t1, f1, l1, _, y1⟩ :=
    active_true_lines (machineEnv b) (fun d => if d = 48 then 0 else 1) hM hW hC tail
      ds F (openState (ifLines ds ++ tail)) hds1
      (fun d hd t ht => sampleYyparse_digit d (hds1 d hd) t ht)
      (fun d hd => by
        have h48 : d ≠ 48 := by have := hds d hd; omega
        simp [h48])
      hr rfl hbuf hF
  refine ⟨s1, e1, hr1, ?_, f1, by rw [l1]; rfl, by rw [y1]; rfl⟩
  rw [t1]
  show (0 : Int) + _ = _
  omega

/-- Claim C6.  An unterminated conditional at the end of a file is fatal.
When the file has been opened and `fastscan` returns with `trulvl` different
from its value at the opening of the frame, or with `flslvl` nonzero, `pushfile`
ends in the fatal error "unterminated conditional"; it does not return.  And
the scan of such a file does return, in active and in suppressed text.  For
every file of one or more lines `#if d` with `d` a digit and no `#endif`,
`pushfile` ends in that fatal error with every line counted, the lines before
the first `#if 0` in `trulvl` and the lines from there on, which are in
suppressed text, in `flslvl`.  The same holds when lines `#if d` with digits
other than 0 are followed by a last line `#ifdef x` with `x` not defined, or by
a last line `#else`.  Where the file ends in suppressed text the scan reaches
the end of the input inside `ppdir`, which then reads `spechr[-1]`; the byte `b`
found there is taken to lack the bit `C_ID0`. -/
theorem unterminated_conditional_fatal :
    (∀ (E : Env) (fuel : Nat) (file : Option (List Int)) (idx : Int) (s s0 s1 : St),
      pushfileEnter E file idx s = Res.ok true s0 → fastscan E fuel s0 = Res.ok () s1 →
      (s0.cond.trulvl ≠ s1.cond.trulvl ∨ s1.cond.flslvl ≠ 0) →
      pushfile E fuel file idx s = Res.fatal Err.unterminatedConditional s1) ∧
    (∀ (b : Nat) (ds : List Int) (F : Nat), ds ≠ [] → (∀ d ∈ ds, 48 ≤ d ∧ d ≤ 57) →
      (48 ∈ ds → b &&& C_ID0 = 0) → 3 * ds.length + 12 ≤ F →
      ∃ s2, pushfile (machineEnv b) F none 0 (startState (ifLines ds)) =
          Res.fatal Err.unterminatedConditional s2 ∧
        s2.cond.trulvl = (ds.takeWhile (fun d => d != 48)).length ∧
        s2.cond.flslvl = (ds.dropWhile (fun d => d != 48)).length) ∧
    (∀ (b : Nat) (ds : List Int) (x : Int) (F : Nat), (∀ d ∈ ds, 49 ≤ d ∧ d ≤ 57) →
      id0Class x = true → b &&& C_ID0 = 0 → 3 * ds.length + 12 ≤ F →
      ∃ s2, pushfile (machineEnv b) F none 0 (startState (ifLines ds ++ ifdefLine x)) =
          Res.fatal Err.unterminatedConditional s2 ∧
        s2.cond.trulvl = ds.length ∧ s2.cond.flslvl = 1) ∧
    (∀ (b : Nat) (ds : List Int) (F : Nat), ds ≠ [] → (∀ d ∈ ds, 49 ≤ d ∧ d ≤ 57) →
      b &&& C_ID0 = 0 → 3 * ds.length + 12 ≤ F →
      ∃ s2, pushfile (machineEnv b) F none 0 (startState (ifLines ds ++ elseLine)) =
          Res.fatal Err.unterminatedConditional s2 ∧
        s2.cond.trulvl = ds.length - 1 ∧ s2.cond.flslvl = 1) := by
  refine ⟨pushfile_unterminated, ?_, ?_, ?_⟩
  · intro b ds F hne hds hb hF
    have hr : Rd (machineEnv b) (openState (ifLines ds)) (ifLines ds) 0 :=
      (rd_open _ (ifLines_bytes ds hds)).env rfl
    have hM : 2 ≤ (machineEnv b).MAXIDSZ := by
      show 2 ≤ 8
      decide
    have hW : (machineEnv b).WARN ≠ 10 := by
      show (1 : Int) ≠ 10
      decide
    have hC : (machineEnv b).CONC ≠ 10 := by
      show (2 : Int) ≠ 10
      decide
    have hbuf : 2 ≤ (openState (ifLines ds)).ifiles.buffer := by
      show (2 : Int) ≤ 4
      decide
    have hfun : (fun d : Int => decide ((if d = 48 then (0 : Int) else 1) ≠ 0)) =
        (fun d => d != 48) := by
      funext d
      by_cases h : d = 48 <;> simp [h]
    obtain ⟨s1, e1, ht, hf⟩ :=
      active_lines (machineEnv b) (fun d => if d = 48 then 0 else 1) hM hW hC
        ds F (openState (ifLines ds)) hds
        (fun d hd t ht => sampleYyparse_digit d (hds d hd) t ht)
        (fun ⟨d, hd, hv⟩ => by
          have h48 : d = 48 := by
            by_contra hn
            simp [hn] at hv
          exact ⟨b, rfl, hb (h48 ▸ hd)⟩)
        hr rfl hbuf hF
    rw [hfun] at ht hf
    have ht0 : s1.cond.trulvl = ((ds.takeWhile (fun d => d != 48)).length : Int) := by
      rw [ht]
      show (0 : Int) + _ = _
      omega
    have hlen : 0 < ds.length := List.length_pos.mpr hne
    have hsum : (ds.takeWhile (fun d => d != 48)).length +
        (ds.dropWhile (fun d => d != 48)).length = ds.length := by
      rw [← List.length_append, List.takeWhile_append_dropWhile]
    refine ⟨s1, pushfile_unterminated (machineEnv b) F none 0 _ _ s1
      (pushfileEnter_machine b _) e1 ?_, ht0, hf⟩
    show (0 : Int) ≠ s1.cond.trulvl ∨ s1.cond.flslvl ≠ 0
    rw [ht0, hf]
    omega
  · intro b ds x F hds hx hb hF
    obtain ⟨x0, x1, _⟩ := id0Class_props x hx
    obtain ⟨s1, e1, hr1, t1, f1, _, y1⟩ :=
      machine_true_lines b (ifdefLine x) ds F hds (ifdefLine_bytes x ⟨x0, x1⟩) (by omega)
    obtain ⟨s2, e2, t2, f2⟩ :=
      ifdef_at_end (machineEnv b) (F - 3 * ds.length) s1 b x hr1 f1 hx (by rw [y1]; rfl) rfl hb
        (by show 5 ≤ 8; decide) (by omega)
    refine ⟨s2, pushfile_unterminated (machineEnv b) F none 0 _ _ s2
      (pushfileEnter_machine b _) (e1.trans e2) (Or.inr ?_), by rw [t2, t1], f2⟩
    rw [f2]
    decide
  · intro b ds F hne hds hb hF
    have hlen : 0 < ds.length := List.length_pos.mpr hne
    obtain ⟨s1, e1, hr1, t1, f1, l1, _⟩ :=
      machine_true_lines b elseLine ds F hds elseLine_bytes (by omega)
    obtain ⟨s2, e2, t2, f2⟩ :=
      else_at_end (machineEnv b) (F - 3 * ds.length) s1 b hr1 f1 (by rw [t1]; omega)
        (by rw [l1, t1]; omega) rfl hb (by show 4 ≤ 8; decide) (by omega)
    refine ⟨s2, pushfile_unterminated (machineEnv b) F none 0 _ _ s2
      (pushfileEnter_machine b _) (e1.trans e2) (Or.inr ?_), by rw [t2, t1], f2⟩
    rw [f2]
    decide

theorem unterminated_conditional_fatal_witness :
    (∃ s1, fastscan sampleEnv 9 (openState [35, 105, 102, 32, 49, 10]) = Res.ok () s1 ∧
      pushfile sampleEnv 9 none 0 (startState [35, 105, 102, 32, 49, 10]) =
        Res.fatal Err.unterminatedConditional s1) ∧
    (0 &&& C_ID0 = 0 ∧
      ∃ s2, pushfile (machineEnv 0) 15 none 0 (startState [35, 105, 102, 32, 48, 10]) =
          Res.fatal Err.unterminatedConditional s2 ∧
        s2.cond.trulvl = 0 ∧ s2.cond.flslvl = 1) ∧
    (∃ s2, pushfile (machineEnv 0) 18 none 0
          (startState [35, 105, 102, 32, 49, 10, 35, 105, 102, 32, 48, 10]) =
          Res.fatal Err.unterminatedConditional s2 ∧
        s2.cond.trulvl = 1 ∧ s2.cond.flslvl = 1) ∧
    (id0Class 88 = true ∧
      ∃ s2, pushfile (machineEnv 0) 12 none 0
          (startState [35, 105, 102, 100, 101, 102, 32, 88, 10]) =
          Res.fatal Err.unterminatedConditional s2 ∧
        s2.cond.trulvl = 0 ∧ s2.cond.flslvl = 1) ∧
    (∃ s2, pushfile (machineEnv 0) 15 none 0
          (startState [35, 105, 102, 32, 49, 10, 35, 101, 108, 115, 101, 10]) =
          Res.fatal Err.unterminatedConditional s2 ∧
        s2.cond.trulvl = 0 ∧ s2.cond.flslvl = 1) := by
  refine ⟨?_, ⟨by decide, ?_⟩, ?_, ⟨by decide, ?_⟩, ?_⟩
  · obtain ⟨s1, h1, hc⟩ :=
      fastscan_if_one sampleEnv 0 (openState [35, 105, 102, 32, 49, 10])
        (rd_open _ (by decide)) rfl (by decide) (by decide) (by decide) (by decide)
        (fun t ht => by
          show sampleYyparse t = Res.ok 1 t
          unfold sampleYyparse
          rw [ht]
          rfl)
    have hne : (openState [35, 105, 102, 32, 49, 10]).cond.trulvl ≠ s1.cond.trulvl := by
      rw [hc]
      decide
    exact ⟨s1, h1, unterminated_conditional_fatal.1 sampleEnv 9 none 0 _ _ s1
      (pushfileEnter_stdin _) h1 (Or.inl hne)⟩
  · obtain ⟨s2, h, ht, hf⟩ :=
      unterminated_conditional_fatal.2.1 0 [48] 15 (by decide) (by decide)
        (fun _ => by decide) (by decide)
    exact ⟨s2, h, by rw [ht]; decide, by rw [hf]; decide⟩
  · obtain ⟨s2, h, ht, hf⟩ :=
      unterminated_conditional_fatal.2.1 0 [49, 48] 18 (by decide) (by decide)
        (fun _ => by decide) (by decide)
    exact ⟨s2, h, by rw [ht]; decide, by rw [hf]; decide⟩
  · obtain ⟨s2, h, ht, hf⟩ :=
      unterminated_conditional_fatal.2.2.1 0 [] 88 12 (by decide) (by decide) (by decide)
        (by decide)
    exact ⟨s2, h, by rw [ht]; decide, hf⟩
  · obtain ⟨s2, h, ht, hf⟩ :=
      unterminated_conditional_fatal.2.2.2 0 [49] 15 (by decide) (by decide) (by decide)
        (by decide)
    exact ⟨s2, h, by rw [ht]; decide, hf⟩

end Cpp
